import Mathlib

/-!
# dataspree/examples: the Item value tree and the framed TCP transport

A shallow embedding of
* `core/Type.hpp` (`ItemType`, `deriveItemType`),
* `core/Exception.hpp` (`InvalidContent`),
* `core/Item.hpp` (`Item`, its constructors, assignment, the `_value` accessor family,
  `at`, `find_at`, `items`, `contains`, `size`, `operator==`),
* `core/Utils.hpp` (`swap`, `toBigEndian`, `readBigEndian`),
* `tcp_cli/TcpConnection.{hpp,cpp}` (`sendData`, `receiveNumberOfBytes`, `receiveMessage`).

Conventions of the embedding.
* `std::any content` is the closed sum `Content`; the dynamic type that `std::any_cast`
  inspects is `Content.cppType`.  The tag `contentType` is stored next to it, as in the
  source, so that "the tag matches the payload" is a statement and not a definition.
* `std::map<std::string, Item>` is a list of key/value pairs kept in increasing key order.
* A C++ call either returns, throws `InvalidContent`, reaches undefined behaviour, or
  calls `std::terminate` (an exception leaving a `noexcept` function): type `Outcome`.
* A pointer or reference result is represented by the value it refers to.
* Bytes are naturals below 256.  Floating-point payloads are kept as IEEE bit patterns.
-/

namespace Dataspree

/-! ## core/Type.hpp -/

/-- The tag enumeration `ItemType` of `Type.hpp`. -/
inductive ItemType
  | OBJECT | ARRAY | F32 | F64 | F128
  | UINT8 | UINT16 | UINT32 | UINT64
  | INT8 | INT16 | INT32 | INT64
  | BOOL | STRING | NULL_TERMINATED_STRING | MAT | BYTE_ARRAY | OTHER
  deriving DecidableEq, Repr

/-- The C++ types that occur as the template argument `T` of the accessors and as the
dynamic type of the `std::any` payload.  `item` is `Item` itself, `other` is any type that
`deriveItemType` does not list (with whether it is default constructible). -/
inductive CppType
  | map | vector | float | double | longDouble
  | uint8 | uint16 | uint32 | uint64
  | int8 | int16 | int32 | int64
  | bool | string | charConstPtr | mat | byteVector
  | item
  | other (name : String) (defaultConstructible : Bool)
  deriving DecidableEq, Repr

/-- The function `deriveItemType<T>()`: the chain of `if constexpr` tests in source order. -/
def deriveItemType : CppType → ItemType
  | .map => .OBJECT
  | .vector => .ARRAY
  | .float => .F32
  | .double => .F64
  | .longDouble => .F128
  | .uint8 => .UINT8
  | .uint16 => .UINT16
  | .uint32 => .UINT32
  | .uint64 => .UINT64
  | .int8 => .INT8
  | .int16 => .INT16
  | .int32 => .INT32
  | .int64 => .INT64
  | .bool => .BOOL
  | .string => .STRING
  | .mat => .MAT
  | .byteVector => .BYTE_ARRAY
  | .charConstPtr => .NULL_TERMINATED_STRING
  | .item => .OTHER
  | .other _ _ => .OTHER

/-! ## The payload and the Item -/

/-- The part of `cv::Mat` the value tree carries: geometry, element depth code, channel
count and the row-major pixel bytes. -/
structure Mat where
  rows : Nat
  cols : Nat
  depth : Nat
  channels : Nat
  data : List Nat
  deriving DecidableEq, Repr

mutual
/-- The payload held by `std::any content`. -/
inductive Content
  | map (m : List (String × Item))
  | vector (v : List Item)
  | float (bits : Nat)
  | double (bits : Nat)
  | longDouble (bits : Nat)
  | uint8 (n : Nat)
  | uint16 (n : Nat)
  | uint32 (n : Nat)
  | uint64 (n : Nat)
  | int8 (n : Int)
  | int16 (n : Int)
  | int32 (n : Int)
  | int64 (n : Int)
  | bool (b : Bool)
  | string (s : String)
  | charConstPtr (address : Nat) (text : String)
  | mat (m : Mat)
  | byteVector (bytes : List Nat)
  | other (name : String) (defaultConstructible : Bool) (representation : List Nat)
/-- The struct `Item`: the members `content` and `contentType`. -/
inductive Item
  | mk (content : Content) (contentType : ItemType)
end

/-- Member `content`. -/
def Item.content : Item → Content
  | .mk c _ => c

/-- Member `contentType`; `getType()` returns it. -/
def Item.contentType : Item → ItemType
  | .mk _ t => t

/-- The dynamic type of the payload, which `std::any_cast` compares with `T`. -/
def Content.cppType : Content → CppType
  | .map _ => .map
  | .vector _ => .vector
  | .float _ => .float
  | .double _ => .double
  | .longDouble _ => .longDouble
  | .uint8 _ => .uint8
  | .uint16 _ => .uint16
  | .uint32 _ => .uint32
  | .uint64 _ => .uint64
  | .int8 _ => .int8
  | .int16 _ => .int16
  | .int32 _ => .int32
  | .int64 _ => .int64
  | .bool _ => .bool
  | .string _ => .string
  | .charConstPtr _ _ => .charConstPtr
  | .mat _ => .mat
  | .byteVector _ => .byteVector
  | .other n d _ => .other n d

/-! ## std::map operations used by Item -/

/-- The lookup `std::map::find`: the value stored under `k`, if any. -/
def mapFind (k : String) : List (String × Item) → Option Item
  | [] => none
  | (k', v) :: rest => if k' = k then some v else mapFind k rest

/-- The test `std::map::contains`. -/
def mapContains (k : String) (m : List (String × Item)) : Bool :=
  (mapFind k m).isSome

/-- Lexicographic order on character codes. -/
def lexLt : List Nat → List Nat → Bool
  | _, [] => false
  | [], _ :: _ => true
  | x :: xs, y :: ys => decide (x < y) || (decide (x = y) && lexLt xs ys)

/-- The order `std::less<std::string>` of the map: lexicographic on the characters. -/
def keyLt (a b : String) : Bool :=
  lexLt (a.data.map Char.toNat) (b.data.map Char.toNat)

/-- Store `v` under `k`: replace the value of an existing key, otherwise insert the pair
at its place in key order. -/
def mapStore (k : String) (v : Item) : List (String × Item) → List (String × Item)
  | [] => [(k, v)]
  | (k', v') :: rest =>
    if k' = k then (k, v) :: rest
    else if keyLt k k' then (k, v) :: (k', v') :: rest
    else (k', v') :: mapStore k v rest

/-- Write `v` through a reference to the element stored under the existing key `k`. -/
def mapReplace (k : String) (v : Item) : List (String × Item) → List (String × Item)
  | [] => []
  | (k', v') :: rest =>
    if k' = k then (k', v) :: rest else (k', v') :: mapReplace k v rest

/-- The access `std::vector::operator[]` on an index known to be in range, as an option. -/
def vecGet (v : List Item) (i : Nat) : Option Item := v.get? i

/-- Overwrite element `i` of a vector (the effect of writing through `v[i]`). -/
def vecStore (v : List Item) (i : Nat) (x : Item) : List Item := v.set i x

/-! ## core/Exception.hpp -/

/-- The arguments given to the `InvalidContent` constructor at the two throw sites of
`Item.hpp`. -/
inductive Reason
  | invalidContent (got : CppType) (queried : CppType)
  | keyNotRegistered (key : String)
  deriving DecidableEq, Repr

/-- The exception `InvalidContent`: the reason and the call stack `names`. -/
structure InvalidContent where
  reason : Reason
  names : List String
  deriving DecidableEq, Repr

/-- A path segment: a key (`std::string`, `char const *`) or an index (`std::size_t`). -/
inductive Seg
  | key (name : String)
  | idx (identifier : Nat)
  deriving DecidableEq, Repr

/-- The text `InvalidContent::add` pushes for a segment: a key is wrapped in double
quotes by `fmt::format("\"{}\"", name)`, an index goes through `std::to_string`. -/
def Seg.format : Seg → String
  | .key name => "\"" ++ name ++ "\""
  | .idx identifier => toString identifier

/-- The method `InvalidContent::add`: `names.push_back(...)`. -/
def InvalidContent.add (e : InvalidContent) (s : Seg) : InvalidContent :=
  { e with names := e.names ++ [s.format] }

/-- How a C++ call ends. -/
inductive Outcome (α : Type)
  | ok (a : α)
  | throw (e : InvalidContent)
  | undefinedBehaviour
  | terminate

/-- Apply a function to the value a call returns. -/
def Outcome.map {α β : Type} (f : α → β) : Outcome α → Outcome β
  | .ok a => .ok (f a)
  | .throw e => .throw e
  | .undefinedBehaviour => .undefinedBehaviour
  | .terminate => .terminate

/-- What a pointer returned by the accessors refers to: a child `Item` (for `T = Item`)
or the payload of type `T` inside an Item. -/
inductive Ref
  | item (i : Item)
  | payload (c : Content)

/-! ## core/Item.hpp: constructors and assignment -/

/-- The constructor `Item()`: an empty map with tag `OBJECT`. -/
def Item.default : Item := .mk (.map []) .OBJECT

/-- The template `operator=(T &&other)` for a native value: `content = other;
contentType = deriveItemType<T>()`, where `T` is the static type of the value. -/
def Item.assignNative (_self : Item) (other : Content) : Item :=
  .mk other (deriveItemType other.cppType)

/-- The copy and move assignment `operator=(Item const &)`, `operator=(Item &&)`: both
members are taken from `other`. -/
def Item.assign (_self : Item) (other : Item) : Item :=
  .mk other.content other.contentType

/-- The value `T{}` for the payload types. -/
def defaultContent : CppType → Option Content
  | .map => some (.map [])
  | .vector => some (.vector [])
  | .float => some (.float 0)
  | .double => some (.double 0)
  | .longDouble => some (.longDouble 0)
  | .uint8 => some (.uint8 0)
  | .uint16 => some (.uint16 0)
  | .uint32 => some (.uint32 0)
  | .uint64 => some (.uint64 0)
  | .int8 => some (.int8 0)
  | .int16 => some (.int16 0)
  | .int32 => some (.int32 0)
  | .int64 => some (.int64 0)
  | .bool => some (.bool false)
  | .string => some (.string "")
  | .charConstPtr => some (.charConstPtr 0 "")
  | .mat => some (.mat ⟨0, 0, 0, 1, []⟩)
  | .byteVector => some (.byteVector [])
  | .item => none
  | .other n true => some (.other n true [])
  | .other _ false => none

/-- The statement `child = T{}` of the mutable key accessor, guarded by
`std::is_default_constructible_v<T>`: for `T = Item` the assignment of `Item{}`, for a
native `T` the template assignment; `none` when `T` is not default constructible. -/
def assignDefault (T : CppType) (child : Item) : Option Item :=
  if T = .item then some (child.assign Item.default)
  else (defaultContent T).map child.assignNative

/-! ## core/Item.hpp: the `_value` accessor family (const overloads) -/

/-- The pointer form `try_any_cast<T, true>`: the payload when its dynamic type is `T`,
otherwise null. -/
def try_any_cast (T : CppType) (c : Content) : Option Content :=
  if c.cppType = T then some c else none

/-- The overload `_value<T, no_except>()` (source name `_value`): the cast payload; on a
failed cast null when `no_except`, otherwise `InvalidContent` with an empty call stack. -/
def Item.value (T : CppType) (no_except : Bool) (it : Item) : Outcome (Option Content) :=
  match try_any_cast T it.content with
  | some result => .ok (some result)
  | none =>
    if no_except then .ok none
    else .throw ⟨.invalidContent it.content.cppType T, []⟩

/-- The handler `catch (InvalidContent &e)` closing every path overload: null when
`no_except`, otherwise `e.add(segment); throw e`. -/
def catchAdd {α : Type} (no_except : Bool) (s : Seg) : Outcome (Option α) → Outcome (Option α)
  | .throw e => if no_except then .ok none else .throw (e.add s)
  | r => r

/-- The tail shared by the single-segment overloads: `&child` for `T = Item`, otherwise
`child._value<T, no_except>()`. -/
def leafOf (T : CppType) (no_except : Bool) (child : Item) : Outcome (Option Ref) :=
  if T = .item then .ok (some (.item child))
  else (child.value T no_except).map (Option.map Ref.payload)

/-- The const overloads of `_value<T, no_except>(args...)`, selected by the first
argument and by whether further arguments follow:
no argument; `(std::string &&)`; `(std::size_t)`; `(std::string &&, Ts...)`;
`(std::size_t, Ts...)`.  An index is used with `operator[]`, which is undefined behaviour
outside the vector; a key is used with `std::map::at`. -/
def Item.valueAt (T : CppType) (no_except : Bool) : Item → List Seg → Outcome (Option Ref)
  | it, [] => (it.value T no_except).map (Option.map Ref.payload)
  | it, [.key name] =>
    catchAdd no_except (.key name) <|
      match it.value .map no_except with
      | .ok (some (.map parent)) =>
        if no_except && !mapContains name parent then .ok none
        else
          match mapFind name parent with
          | some child => leafOf T no_except child
          | none =>
            -- `std::out_of_range`, caught by the inner handler
            if no_except then .ok none else .throw ⟨.keyNotRegistered name, []⟩
      | .ok (some _) => .undefinedBehaviour
      | .ok none => if no_except then .ok none else .undefinedBehaviour
      | .throw e => .throw e
      | .undefinedBehaviour => .undefinedBehaviour
      | .terminate => .terminate
  | it, [.idx identifier] =>
    catchAdd no_except (.idx identifier) <|
      match it.value .vector no_except with
      | .ok (some (.vector parent)) =>
        if no_except && decide (identifier ≥ parent.length) then .ok none
        else
          match vecGet parent identifier with
          | some child => leafOf T no_except child
          | none => .undefinedBehaviour
      | .ok (some _) => .undefinedBehaviour
      | .ok none => if no_except then .ok none else .undefinedBehaviour
      | .throw e => .throw e
      | .undefinedBehaviour => .undefinedBehaviour
      | .terminate => .terminate
  | it, .key first :: second =>
    catchAdd no_except (.key first) <|
      match it.value .map no_except with
      | .ok (some (.map parent)) =>
        if no_except && !mapContains first parent then .ok none
        else
          match mapFind first parent with
          | some child => Item.valueAt T no_except child second
          | none => .throw ⟨.keyNotRegistered first, []⟩
      | .ok (some _) => .undefinedBehaviour
      | .ok none => if no_except then .ok none else .undefinedBehaviour
      | .throw e => .throw e
      | .undefinedBehaviour => .undefinedBehaviour
      | .terminate => .terminate
  | it, .idx first :: second =>
    catchAdd no_except (.idx first) <|
      match it.value .vector no_except with
      | .ok (some (.vector parent)) =>
        if no_except && decide (first ≥ parent.length) then .ok none
        else
          match vecGet parent first with
          | some child => Item.valueAt T no_except child second
          | none => .undefinedBehaviour
      | .ok (some _) => .undefinedBehaviour
      | .ok none => if no_except then .ok none else .undefinedBehaviour
      | .throw e => .throw e
      | .undefinedBehaviour => .undefinedBehaviour
      | .terminate => .terminate

/-- Dereference the pointer an accessor returned: `*(ptr)`; a null pointer is undefined
behaviour. -/
def deref {α : Type} : Outcome (Option α) → Outcome α
  | .ok (some r) => .ok r
  | .ok none => .undefinedBehaviour
  | .throw e => .throw e
  | .undefinedBehaviour => .undefinedBehaviour
  | .terminate => .terminate

/-- The const method `at<T>(args...)`: `*(_value<T, false>(args...))`. -/
def Item.atConst (T : CppType) (it : Item) (path : List Seg) : Outcome Ref :=
  deref (it.valueAt T false path)

/-- The const method `find_at<T>(args...)`, declared `noexcept`:
`_value<T, true>(args...)`.  An exception leaving it would call `std::terminate`. -/
def Item.find_at (T : CppType) (it : Item) (path : List Seg) : Outcome (Option Ref) :=
  match it.valueAt T true path with
  | .throw _ => .terminate
  | r => r

/-- The const method `as<T>()`: `*(_value<T, false>())`. -/
def Item.as (T : CppType) (it : Item) : Outcome Ref :=
  deref (it.valueAt T false [])

/-- The const method `items()`: `at<std::map<std::string, Item>>()`. -/
def Item.items (it : Item) : Outcome (List (String × Item)) :=
  match it.atConst .map [] with
  | .ok (.payload (.map m)) => .ok m
  | .ok _ => .undefinedBehaviour
  | .throw e => .throw e
  | .undefinedBehaviour => .undefinedBehaviour
  | .terminate => .terminate

/-- The method `contains(val) const noexcept`: `items().contains(val)`.  The function is
`noexcept`, so an `InvalidContent` thrown by `items()` ends in `std::terminate`. -/
def Item.contains (it : Item) (val : String) : Outcome Bool :=
  match it.items with
  | .ok m => .ok (mapContains val m)
  | .throw _ => .terminate
  | .undefinedBehaviour => .undefinedBehaviour
  | .terminate => .terminate

/-- The method `size() const`: `_value<std::vector<Item>>()->size()`. -/
def Item.size (it : Item) : Outcome Nat :=
  match it.value .vector false with
  | .ok (some (.vector v)) => .ok v.length
  | .ok _ => .undefinedBehaviour
  | .throw e => .throw e
  | .undefinedBehaviour => .undefinedBehaviour
  | .terminate => .terminate

/-! ## core/Item.hpp: the `_value` accessor family (mutable overloads) -/

/-- The same Item with a changed payload: a write through a reference into `content`
leaves `contentType` as it is. -/
def Item.withContent (it : Item) (c : Content) : Item :=
  .mk c it.contentType

/-- The mutable overloads of `_value<T, no_except>(args...)`, returning the pointer
result together with the Item after the call.  The single-key overload uses
`(*parent)[name]`, which inserts a default `Item` under a missing key and then assigns
`T{}` to it; the overload with further arguments uses `parent->at(first)`, which throws
`std::out_of_range` for a missing key; an index is used with the unchecked `operator[]`. -/
def Item.valueAtMut (T : CppType) (no_except : Bool) :
    Item → List Seg → Outcome (Option Ref) × Item
  | it, [] => ((it.value T no_except).map (Option.map Ref.payload), it)
  | it, [.key name] =>
    match it.value .map no_except with
    | .ok (some (.map parent)) =>
      if no_except && !mapContains name parent then (.ok none, it)
      else
        match mapFind name parent with
        | some child => (catchAdd no_except (.key name) (leafOf T no_except child), it)
        | none =>
          -- newContent: `(*parent)[name]` has inserted `Item()`
          let child := (assignDefault T Item.default).getD Item.default
          (catchAdd no_except (.key name) (leafOf T no_except child),
            it.withContent (.map (mapStore name child parent)))
    | .ok (some _) => (.undefinedBehaviour, it)
    | .ok none => (if no_except then .ok none else .undefinedBehaviour, it)
    | .throw e => (catchAdd no_except (.key name) (.throw e), it)
    | .undefinedBehaviour => (.undefinedBehaviour, it)
    | .terminate => (.terminate, it)
  | it, [.idx identifier] =>
    match it.value .vector no_except with
    | .ok (some (.vector parent)) =>
      if no_except && decide (identifier ≥ parent.length) then (.ok none, it)
      else
        match vecGet parent identifier with
        | some child => (catchAdd no_except (.idx identifier) (leafOf T no_except child), it)
        | none => (.undefinedBehaviour, it)
    | .ok (some _) => (.undefinedBehaviour, it)
    | .ok none => (if no_except then .ok none else .undefinedBehaviour, it)
    | .throw e => (catchAdd no_except (.idx identifier) (.throw e), it)
    | .undefinedBehaviour => (.undefinedBehaviour, it)
    | .terminate => (.terminate, it)
  | it, .key first :: second =>
    match it.value .map no_except with
    | .ok (some (.map parent)) =>
      if no_except && !mapContains first parent then (.ok none, it)
      else
        match mapFind first parent with
        | some child =>
          let r := Item.valueAtMut T no_except child second
          (catchAdd no_except (.key first) r.1,
            it.withContent (.map (mapReplace first r.2 parent)))
        | none =>
          -- `std::out_of_range` from `parent->at(first)`, rethrown as `InvalidContent`
          (catchAdd no_except (.key first) (.throw ⟨.keyNotRegistered first, []⟩), it)
    | .ok (some _) => (.undefinedBehaviour, it)
    | .ok none => (if no_except then .ok none else .undefinedBehaviour, it)
    | .throw e => (catchAdd no_except (.key first) (.throw e), it)
    | .undefinedBehaviour => (.undefinedBehaviour, it)
    | .terminate => (.terminate, it)
  | it, .idx first :: second =>
    match it.value .vector no_except with
    | .ok (some (.vector parent)) =>
      if no_except && decide (first ≥ parent.length) then (.ok none, it)
      else
        match vecGet parent first with
        | some child =>
          let r := Item.valueAtMut T no_except child second
          (catchAdd no_except (.idx first) r.1,
            it.withContent (.vector (vecStore parent first r.2)))
        | none => (.undefinedBehaviour, it)
    | .ok (some _) => (.undefinedBehaviour, it)
    | .ok none => (if no_except then .ok none else .undefinedBehaviour, it)
    | .throw e => (catchAdd no_except (.idx first) (.throw e), it)
    | .undefinedBehaviour => (.undefinedBehaviour, it)
    | .terminate => (.terminate, it)

/-- The mutable method `at<T>(args...)`: `*(_value<T, false>(args...))`, with the Item
after the call. -/
def Item.atMut (T : CppType) (it : Item) (path : List Seg) : Outcome Ref × Item :=
  let r := it.valueAtMut T false path
  (deref r.1, r.2)

/-- The mutable method `find_at<T>(args...)`, declared `noexcept`. -/
def Item.find_atMut (T : CppType) (it : Item) (path : List Seg) :
    Outcome (Option Ref) × Item :=
  let r := it.valueAtMut T true path
  (match r.1 with
   | .throw _ => .terminate
   | o => o, r.2)

/-- The method `operator[](std::string)`: `this->at(value)`, that is `at<Item>(value)`. -/
def Item.index (it : Item) (value : String) : Outcome Ref × Item :=
  it.atMut .item [.key value]

/-! ## core/Item.hpp: the converting constructors -/

/-- The native arguments of the `Item` constructors. -/
inductive Native
  /-- The constructor `Item(T content)`: the value is stored as it is. -/
  | value (c : Content)
  /-- The constructor `Item(std::map<std::string, Item> &&)`. -/
  | itemMap (m : List (String × Item))
  /-- The constructor `Item(std::map<std::string, T>)`. -/
  | mapOf (m : List (String × Native))
  /-- The constructor `Item(std::vector<Item>)`. -/
  | itemVector (v : List Item)
  /-- The constructor `Item(std::vector<unsigned char>)`. -/
  | byteVector (b : List Nat)
  /-- The constructor `Item(std::vector<T>)` for any other element type. -/
  | vectorOf (v : List Native)

mutual
/-- The constructors of `Item` from a native value. -/
def Item.ofNative : Native → Item
  | .value c => .mk c (deriveItemType c.cppType)
  | .itemMap m => .mk (.map m) .OBJECT
  | .mapOf m => .mk (.map (Item.ofNativeMap [] m)) .OBJECT
  | .itemVector v => .mk (.vector v) .ARRAY
  | .byteVector b => .mk (.byteVector b) .BYTE_ARRAY
  | .vectorOf v => .mk (.vector (Item.ofNativeVector [] v)) .ARRAY
/-- The loop `for (auto &&[key, value] : map) item_map[key] = Item(value);`. -/
def Item.ofNativeMap (item_map : List (String × Item)) :
    List (String × Native) → List (String × Item)
  | [] => item_map
  | (key, value) :: rest => Item.ofNativeMap (mapStore key (Item.ofNative value) item_map) rest
/-- The loop `for (auto &&val : vec) out_vec.emplace_back(val);`. -/
def Item.ofNativeVector (out_vec : List Item) : List Native → List Item
  | [] => out_vec
  | val :: rest => Item.ofNativeVector (out_vec ++ [Item.ofNative val]) rest
end

/-! ## core/Item.hpp: `operator==` for `T = Item` -/

/-- The predicate "is a NaN" on an IEEE bit pattern with `e` exponent and `f` fraction
bits. -/
def ieeeIsNaN (e f x : Nat) : Bool :=
  decide ((x / 2 ^ f) % 2 ^ e = 2 ^ e - 1) && decide (x % 2 ^ f ≠ 0)

/-- The predicate "is plus or minus zero" on an IEEE bit pattern. -/
def ieeeIsZero (e f x : Nat) : Bool :=
  decide (x % 2 ^ (e + f) = 0)

/-- The built-in `==` of a floating-point type on bit patterns: false with a NaN on
either side, true for two zeros of either sign, otherwise identity of the patterns. -/
def ieeeEq (e f a b : Nat) : Bool :=
  !ieeeIsNaN e f a && !ieeeIsNaN e f b && (decide (a = b) || (ieeeIsZero e f a && ieeeIsZero e f b))

/-- The built-in `==` of the leaf payload types, as used in `at<T>() == *otherVal`:
numbers, booleans and strings by value, `char const *` by address.  `long double` is
taken as the 128-bit format its tag `F128` names. -/
def Content.sameValue : Content → Content → Bool
  | .float a, .float b => ieeeEq 8 23 a b
  | .double a, .double b => ieeeEq 11 52 a b
  | .longDouble a, .longDouble b => ieeeEq 15 112 a b
  | .uint8 a, .uint8 b => decide (a = b)
  | .uint16 a, .uint16 b => decide (a = b)
  | .uint32 a, .uint32 b => decide (a = b)
  | .uint64 a, .uint64 b => decide (a = b)
  | .int8 a, .int8 b => decide (a = b)
  | .int16 a, .int16 b => decide (a = b)
  | .int32 a, .int32 b => decide (a = b)
  | .int64 a, .int64 b => decide (a = b)
  | .bool a, .bool b => decide (a = b)
  | .string a, .string b => decide (a = b)
  | .charConstPtr a _, .charConstPtr b _ => decide (a = b)
  | _, _ => false

/-- The helper `uni_at<T>(value)` for `J = Item`, declared `noexcept`:
`&(value.template at<T>())`. -/
def uni_at (T : CppType) (value : Item) : Outcome Content :=
  match value.atConst T [] with
  | .ok (.payload c) => .ok c
  | .ok (.item _) => .undefinedBehaviour
  | .throw _ => .terminate
  | .undefinedBehaviour => .undefinedBehaviour
  | .terminate => .terminate

/-- One leaf case of the switch in `operator==`:
`auto const otherVal = uni_at<T>(other); return otherVal != nullptr && at<T>() == *otherVal;`. -/
def leafEq (T : CppType) (self other : Item) : Outcome Bool :=
  match uni_at T other with
  | .ok otherVal =>
    match self.atConst T [] with
    | .ok (.payload mine) => .ok (mine.sameValue otherVal)
    | .ok (.item _) => .undefinedBehaviour
    | .throw e => .throw e
    | .undefinedBehaviour => .undefinedBehaviour
    | .terminate => .terminate
  | .throw e => .throw e
  | .undefinedBehaviour => .undefinedBehaviour
  | .terminate => .terminate

/-- The instantiation `Item::operator==<Item>(Item const &other)`.  With `T = Item` the
tests `is_map_v<T>` and `is_vector_v<T>` are false, so the `OBJECT` and `ARRAY` cases
compile to `return false`; `MAT`, `BYTE_ARRAY` and `OTHER` reach `default`. -/
def Item.eq (self other : Item) : Outcome Bool :=
  if self.contentType ≠ other.contentType then .ok false
  else
    match self.contentType with
    | .OBJECT => .ok false
    | .ARRAY => .ok false
    | .F32 => leafEq .float self other
    | .F64 => leafEq .double self other
    | .F128 => leafEq .longDouble self other
    | .UINT8 => leafEq .uint8 self other
    | .UINT16 => leafEq .uint16 self other
    | .UINT32 => leafEq .uint32 self other
    | .UINT64 => leafEq .uint64 self other
    | .INT8 => leafEq .int8 self other
    | .INT16 => leafEq .int16 self other
    | .INT32 => leafEq .int32 self other
    | .INT64 => leafEq .int64 self other
    | .BOOL => leafEq .bool self other
    | .STRING => leafEq .string self other
    | .NULL_TERMINATED_STRING => leafEq .charConstPtr self other
    | .MAT => .ok false
    | .BYTE_ARRAY => .ok false
    | .OTHER => .ok false

/-! ## core/Utils.hpp: byte order -/

/-- The host byte order `std::endian::native`. -/
inductive Endian
  | little
  | big
  deriving DecidableEq, Repr

/-- The constant `isLittleEndian`. -/
def isLittleEndian (host : Endian) : Bool :=
  decide (host = .little)

/-- The constant `isBigEndian`. -/
def isBigEndian (host : Endian) : Bool :=
  decide (host = .big)

/-- The value of a byte sequence read least significant byte first. -/
def fromLittleEndian : List Nat → Nat
  | [] => 0
  | b :: rest => b + 256 * fromLittleEndian rest

/-- The object representation of an unsigned integer of `size` bytes on the host, which
is what `std::bit_cast<std::array<ByteType, sizeof(PodType)>>(value)` yields. -/
def objectBytes (host : Endian) (size value : Nat) : List Nat :=
  match host with
  | .little => (List.range size).map (fun i => value / 256 ^ i % 256)
  | .big => ((List.range size).map (fun i => value / 256 ^ i % 256)).reverse

/-- The value overload `toBigEndian(PodType value)`: the object representation, reversed
on a little-endian host. -/
def toBigEndian (host : Endian) (size value : Nat) : List Nat :=
  if isLittleEndian host then (objectBytes host size value).reverse
  else objectBytes host size value

/-- One step `std::ranges::reverse(std::span(&(buffer[pos]), sizeType))`. -/
def reverseSpan (buffer : List Nat) (pos sizeType : Nat) : List Nat :=
  buffer.take pos ++ ((buffer.drop pos).take sizeType).reverse ++ buffer.drop (pos + sizeType)

/-- The loop of `swap`: `for (pos = 0; pos < bufferSize; pos += sizeType)`.  The stride is
at least 2, so `bufferSize` steps of fuel are never used up. -/
def swapFrom (sizeType bufferSize : Nat) : Nat → Nat → List Nat → List Nat
  | 0, _, buffer => buffer
  | fuel + 1, pos, buffer =>
    if pos < bufferSize then
      swapFrom sizeType bufferSize fuel (pos + sizeType) (reverseSpan buffer pos sizeType)
    else buffer

/-- The function `swap(buffer, bufferSize, sizeType)`: byte-swap with stride `sizeType`. -/
def swap (buffer : List Nat) (bufferSize sizeType : Nat) : List Nat :=
  if sizeType > 1 then swapFrom sizeType bufferSize bufferSize 0 buffer else buffer

/-- The buffer overload `toBigEndian(buffer, bufferSize, sizeType)`: `swap` on a
little-endian host. -/
def toBigEndianBuffer (host : Endian) (buffer : List Nat) (bufferSize sizeType : Nat) :
    List Nat :=
  if isLittleEndian host then swap buffer bufferSize sizeType else buffer

/-- The function `as<PodType>(value)`: `memcpy` of `sizeof(PodType)` bytes into an
unsigned integer, read in host order. -/
def asPod (host : Endian) (size : Nat) (value : List Nat) : Nat :=
  match host with
  | .little => fromLittleEndian (value.take size)
  | .big => fromLittleEndian (value.take size).reverse

/-- The function `readBigEndian<PodType>(value)`:
`as<PodType>(toBigEndian(value, sizeof(PodType), sizeof(PodType)))`. -/
def readBigEndian (host : Endian) (size : Nat) (value : List Nat) : Nat :=
  asPod host size (toBigEndianBuffer host value size size)

/-! ## tcp_cli: Conversion.hpp declarations used by the transport -/

/-- The enumeration `EncodingMode : uint8_t`; a `static_cast` can give it any byte. -/
structure EncodingMode where
  value : Nat
  deriving DecidableEq, Repr

/-- The enumerator `EncodingMode::JSON = 0`. -/
def EncodingMode.JSON : EncodingMode := ⟨0⟩

/-- The enumerator `EncodingMode::MSGPACK = 1`. -/
def EncodingMode.MSGPACK : EncodingMode := ⟨1⟩

/-- The function `getUnderlyingValue`. -/
def getUnderlyingValue (m : EncodingMode) : Nat := m.value

/-- The data members of `ReceiveProperties`. -/
structure ReceiveProperties where
  producerName : String
  maxSendIntervalMs : Nat
  encodingMode : EncodingMode
  includedPaths : List (List String)
  excludedPaths : List (List String)
  encodingMap : List (String × String)
  deriving DecidableEq, Repr

/-- The method `getEncodingMode()`. -/
def ReceiveProperties.getEncodingMode (r : ReceiveProperties) : EncodingMode :=
  r.encodingMode

/-! ## tcp_cli: the socket and the clock as seen by TcpConnection -/

/-- What one call of `socket_read` finds: bytes that have arrived (none for a call that
returns 0) or an error (a negative result). -/
inductive ReadEvent
  | data (bytes : List Nat)
  | error
  deriving DecidableEq, Repr

/-- The world outside the connection object: the peer that accepts writes, the bytes on
their way in, and `std::chrono::steady_clock`. -/
structure Network where
  /-- Host byte order. -/
  host : Endian
  /-- The result of the `k`-th call of `socket_send` when asked to send `count` bytes. -/
  sendResult : Nat → Nat → Int
  /-- Number of calls of `socket_send` so far. -/
  sendCalls : Nat
  /-- All bytes the peer has accepted, in order. -/
  wire : List Nat
  /-- What the coming calls of `socket_read` find. -/
  incoming : List ReadEvent
  /-- The byte counts asked for by the calls of `socket_read` so far. -/
  readLog : List Nat
  /-- The reading of the steady clock, in nanoseconds, at its `k`-th use. -/
  clock : Nat → Nat
  /-- Number of clock readings so far. -/
  clockReads : Nat
  /-- The result of the next call of `socket(AF_INET, SOCK_STREAM, 0)`. -/
  socketResult : Int := 3
  /-- The result of `inet_pton` on the remote address. -/
  inetPtonResult : Int := 1
  /-- The result of the next call of `connect`. -/
  connectResult : Int := 0
  /-- The descriptors given to `socketClose` so far. -/
  closed : List Int := []

/-- The call `std::chrono::steady_clock::now()`. -/
def Network.now (net : Network) : Nat × Network :=
  (net.clock net.clockReads, { net with clockReads := net.clockReads + 1 })

/-- The call `socket_send(fd, buf, count)`: the peer decides the result; a positive
result means that many leading bytes of `buf` were accepted. -/
def socket_send (net : Network) (buf : List Nat) (count : Nat) : Int × Network :=
  (net.sendResult net.sendCalls count,
    { net with
      sendCalls := net.sendCalls + 1
      wire := net.wire ++ (buf.take count).take (net.sendResult net.sendCalls count).toNat })

/-- The result of `socket_read`: the return value, the bytes stored at the buffer
position, and the network afterwards. -/
structure ReadResult where
  numberNewBytes : Int
  bytes : List Nat
  net : Network

/-- The call `socket_read(fd, buf, count)`: at most `count` bytes of the next chunk are
handed over and the rest of the chunk stays queued; an error gives -1; with nothing
queued the result is 0. -/
def socket_read (net : Network) (count : Nat) : ReadResult :=
  match net.incoming with
  | [] => ⟨0, [], { net with readLog := net.readLog ++ [count] }⟩
  | .error :: rest => ⟨-1, [], { net with incoming := rest, readLog := net.readLog ++ [count] }⟩
  | .data chunk :: rest =>
    if chunk.length ≤ count then
      ⟨chunk.length, chunk, { net with incoming := rest, readLog := net.readLog ++ [count] }⟩
    else
      ⟨count, chunk.take count,
        { net with incoming := .data (chunk.drop count) :: rest, readLog := net.readLog ++ [count] }⟩

/-! ## tcp_cli: TcpConnection -/

/-- The data members of `TcpConnection`. -/
structure TcpConnection where
  remoteIp : String
  remotePort : Nat
  receiveProperties : ReceiveProperties
  timeoutMs : Nat
  fdSocket : Int
  fdClient : Int
  numberOfMessagesReceived : Nat
  numberOfMessagesSent : Nat
  numberOfMessagesReceivedSinceStart : Nat
  numberOfMessagesSentSinceStart : Nat
  timeSent : Nat
  timeReceived : Nat
  deriving DecidableEq, Repr

/-- The method `socketConnected()` (POSIX branch): `fdSocket >= 0`. -/
def TcpConnection.socketConnected (c : TcpConnection) : Bool :=
  decide (c.fdSocket ≥ 0)

/-- The method `connected()`: `fdClient >= 0 && socketConnected()`. -/
def TcpConnection.connected (c : TcpConnection) : Bool :=
  decide (c.fdClient ≥ 0) && c.socketConnected

/-- The conversion `static_cast<std::size_t>(total)` of an `int64_t`. -/
def toSizeT (total : Int) : Nat :=
  (total % 2 ^ 64).toNat

/-- How one of the three `for` loops of `sendData` ends. -/
inductive SendLoopExit
  /-- The body ran `return false`. -/
  | returnedFalse
  /-- The loop condition became false. -/
  | finished
  deriving DecidableEq, Repr

/-- One send loop of `sendData`:
`for (int64_t total = 0; static_cast<std::size_t>(total) < count;
      total += (bytesJustSent = socket_send(fdSocket, buf, count)))
   { if (bytesJustSent < 0) return false; }`.
The body tests the result of the previous call, and every call is given the start of
`buf` and the full `count`.  The result carries `bytesJustSent` on to the next loop. -/
def sendLoop (buf : List Nat) (count : Nat) :
    Nat → Int → Int → Network → Option (SendLoopExit × Int × Network)
  | 0, _, _, _ => none
  | fuel + 1, total, bytesJustSent, net =>
    if toSizeT total < count then
      if bytesJustSent < 0 then some (.returnedFalse, bytesJustSent, net)
      else
        sendLoop buf count fuel (total + (socket_send net buf count).1)
          (socket_send net buf count).1 (socket_send net buf count).2
    else some (.finished, bytesJustSent, net)

/-- The accounting at the end of `sendData`: both counters go up by one and every 100th
message resets the window and takes a time stamp. -/
def TcpConnection.countSent (c : TcpConnection) (net : Network) : TcpConnection × Network :=
  if (c.numberOfMessagesSent + 1) % 100 = 0 then
    ({ c with
        numberOfMessagesSentSinceStart := c.numberOfMessagesSentSinceStart + 1
        numberOfMessagesSent := 0
        timeSent := net.now.1 }, net.now.2)
  else
    ({ c with
        numberOfMessagesSentSinceStart := c.numberOfMessagesSentSinceStart + 1
        numberOfMessagesSent := c.numberOfMessagesSent + 1 }, net)

/-- The method `TcpConnection::sendData(data, size)`.  `fuel` bounds the iterations of
each loop; `none` means the bound was reached.  The `assert(size < UINT32_MAX)` is not
executed here: it is a hypothesis of the theorems about this function. -/
def TcpConnection.sendData (fuel : Nat) (c : TcpConnection) (data : List Nat) (size : Nat)
    (net : Network) : Option (Bool × TcpConnection × Network) :=
  let messageSize := size % 2 ^ 32
  let messageSizeChunk := toBigEndian net.host 4 messageSize
  match sendLoop messageSizeChunk 4 fuel 0 0 net with
  | none => none
  | some (.returnedFalse, _, net1) => some (false, c, net1)
  | some (.finished, bytesJustSent1, net1) =>
    let encodingChunk :=
      toBigEndian net.host 1 (getUnderlyingValue c.receiveProperties.getEncodingMode)
    match sendLoop encodingChunk 1 fuel 0 bytesJustSent1 net1 with
    | none => none
    | some (.returnedFalse, _, net2) => some (false, c, net2)
    | some (.finished, bytesJustSent2, net2) =>
      match sendLoop data size fuel 0 bytesJustSent2 net2 with
      | none => none
      | some (.returnedFalse, _, net3) => some (false, c, net3)
      | some (.finished, _, net3) => some (true, (c.countSent net3).1, (c.countSent net3).2)

/-- The store of a read into `&buffer[numberReceivedBytes]`. -/
def writeAt (buffer : List Nat) (pos : Nat) (bytes : List Nat) : List Nat :=
  buffer.take pos ++ bytes ++ buffer.drop (pos + bytes.length)

/-! ## The `double` arithmetic of the timeout test -/

/-- The integer nearest to `num / den`, a tie going to the even one. -/
def roundHalfEven (num den : Nat) : Nat :=
  if 2 * (num % den) < den then num / den
  else if den < 2 * (num % den) then num / den + 1
  else if num / den % 2 = 0 then num / den
  else num / den + 1

/-- The loop that counts the halvings of `n` down to 1, at most `fuel` of them. -/
def log2Loop : Nat → Nat → Nat
  | 0, _ => 0
  | fuel + 1, n => if n < 2 then 0 else log2Loop fuel (n / 2) + 1

/-- The position of the leading bit of `n`: the greatest `e` with `2 ^ e ≤ n`, and 0
for 0. -/
def log2Floor (n : Nat) : Nat :=
  log2Loop n n

/-- The exponent of a positive fraction below 1: the least `k` with
`den ≤ num * 2 ^ k`. -/
def scaleUp (num den : Nat) : Nat :=
  if num * 2 ^ log2Floor (den / num) = den then log2Floor (den / num)
  else log2Floor (den / num) + 1

/-- The `double` nearest to the fraction `num / den`, as a fraction: the value is
rounded to 53 significant bits, a tie going to the even significand (the default
rounding of IEEE 754 arithmetic). Exact for the normal range, in which every value of
`receiveNumberOfBytes` lies. -/
def roundDouble (num den : Nat) : Nat × Nat :=
  if num = 0 ∨ den = 0 then (0, 1)
  else if den ≤ num then
    if log2Floor (num / den) ≤ 52 then
      (roundHalfEven (num * 2 ^ (52 - log2Floor (num / den))) den,
        2 ^ (52 - log2Floor (num / den)))
    else
      (roundHalfEven num (den * 2 ^ (log2Floor (num / den) - 52))
        * 2 ^ (log2Floor (num / den) - 52), 1)
  else
    (roundHalfEven (num * 2 ^ (52 + scaleUp num den)) den, 2 ^ (52 + scaleUp num den))

/-- The test `elapsedSeconds * 1000 > static_cast<double>(timeoutMs)` for a difference
of `elapsedNs` nanoseconds between the two readings of the steady clock:
`elapsedSeconds` is the `double` quotient of the count by 10^9 (`duration_cast` to
`duration<double>`), the product with 1000 is rounded again. -/
def elapsedExceeds (elapsedNs timeoutMs : Nat) : Bool :=
  let count := roundDouble elapsedNs 1
  let elapsedSeconds := roundDouble count.1 (count.2 * 10 ^ 9)
  let elapsedMs := roundDouble (elapsedSeconds.1 * 1000) elapsedSeconds.2
  let timeout := roundDouble timeoutMs 1
  decide (timeout.1 * elapsedMs.2 < elapsedMs.1 * timeout.2)

/-- The `while` loop of `receiveNumberOfBytes`; `start` is the reading of the steady clock
taken when the call began, in nanoseconds. A reading below `start`, which a steady clock
does not give, counts as no time elapsed: the test fails for it as it does for a negative
duration. -/
def receiveLoop (timeoutMs start numberRequiredBytes : Nat) :
    Nat → List Nat → Nat → Network → Option (Option (List Nat) × Network)
  | 0, _, _, _ => none
  | fuel + 1, buffer, numberReceivedBytes, net =>
    if numberReceivedBytes < numberRequiredBytes then
      if (socket_read net (numberRequiredBytes - numberReceivedBytes)).numberNewBytes < 0 then
        some (none, (socket_read net (numberRequiredBytes - numberReceivedBytes)).net)
      else if (socket_read net (numberRequiredBytes - numberReceivedBytes)).numberNewBytes = 0
          ∧ timeoutMs > 0 then
        if elapsedExceeds
            ((socket_read net (numberRequiredBytes - numberReceivedBytes)).net.now.1 - start)
            timeoutMs = true then
          some (none, (socket_read net (numberRequiredBytes - numberReceivedBytes)).net.now.2)
        else
          receiveLoop timeoutMs start numberRequiredBytes fuel buffer numberReceivedBytes
            (socket_read net (numberRequiredBytes - numberReceivedBytes)).net.now.2
      else
        receiveLoop timeoutMs start numberRequiredBytes fuel
          (writeAt buffer numberReceivedBytes
            (socket_read net (numberRequiredBytes - numberReceivedBytes)).bytes)
          (numberReceivedBytes
            + (socket_read net (numberRequiredBytes - numberReceivedBytes)).numberNewBytes.toNat)
          (socket_read net (numberRequiredBytes - numberReceivedBytes)).net
    else some (some buffer, net)

/-- The method `TcpConnection::receiveNumberOfBytes(numberRequiredBytes)`.  `fuel` bounds
the iterations of the loop; the outer `none` means the bound was reached, the inner
`none` is `std::nullopt`. -/
def TcpConnection.receiveNumberOfBytes (fuel : Nat) (c : TcpConnection)
    (numberRequiredBytes : Nat) (net : Network) : Option (Option (List Nat) × Network) :=
  if !c.connected then some (none, net.now.2)
  else
    receiveLoop c.timeoutMs net.now.1 numberRequiredBytes fuel
      (List.replicate numberRequiredBytes 0) 0 net.now.2

/-- The accounting at the end of `receiveMessage`. -/
def TcpConnection.countReceived (c : TcpConnection) (net : Network) :
    TcpConnection × Network :=
  if (c.numberOfMessagesReceived + 1) % 100 = 0 then
    ({ c with
        numberOfMessagesReceivedSinceStart := c.numberOfMessagesReceivedSinceStart + 1
        numberOfMessagesReceived := 0
        timeReceived := net.now.1 }, net.now.2)
  else
    ({ c with
        numberOfMessagesReceivedSinceStart := c.numberOfMessagesReceivedSinceStart + 1
        numberOfMessagesReceived := c.numberOfMessagesReceived + 1 }, net)

/-- The result of `receiveMessage`: the pair of optionals, and the connection and the
network afterwards. -/
structure ReceivedMessage where
  encodingMode : Option EncodingMode
  message : Option (List Nat)
  connection : TcpConnection
  net : Network

/-- The method `TcpConnection::receiveMessage()`: four bytes of size read big-endian, one
byte of encoding mode, then `messageSize` bytes.  `none` means `fuel` was used up. -/
def TcpConnection.receiveMessage (fuel : Nat) (c : TcpConnection) (net : Network) :
    Option ReceivedMessage :=
  match c.receiveNumberOfBytes fuel 4 net with
  | none => none
  | some (none, net1) => some ⟨none, none, c, net1⟩
  | some (some sizeBuffer, net1) =>
    let messageSize := readBigEndian net.host 4 sizeBuffer
    match c.receiveNumberOfBytes fuel 1 net1 with
    | none => none
    | some (none, net2) => some ⟨none, none, c, net2⟩
    | some (some encodingModeBuffer, net2) =>
      let encodingMode := readBigEndian net.host 1 encodingModeBuffer
      match c.receiveNumberOfBytes fuel messageSize net2 with
      | none => none
      | some (none, net3) => some ⟨none, none, c, net3⟩
      | some (some message, net3) =>
        some ⟨some ⟨encodingMode⟩, some message, (c.countReceived net3).1,
          (c.countReceived net3).2⟩

/-! ## Definitions that state the properties -/

/-- Navigation by keys in the words of the specification: each key descends through an
Object layer; a key does not resolve when the node reached is not an Object or lacks it. -/
def resolveKeys : Item → List String → Option Item
  | it, [] => some it
  | it, k :: ks =>
    match it.content with
    | .map m =>
      match mapFind k m with
      | some child => resolveKeys child ks
      | none => none
    | _ => none

/-- The terminal value has the queried type; `T = Item` asks for the Item itself. -/
def Item.holds (T : CppType) (leaf : Item) : Prop :=
  T = .item ∨ leaf.content.cppType = T

instance (T : CppType) (leaf : Item) : Decidable (leaf.holds T) := by
  unfold Item.holds
  infer_instance

/-- What a successful access of type `T` refers to at the terminal Item. -/
def refOf (T : CppType) (leaf : Item) : Ref :=
  if T = .item then .item leaf else .payload leaf.content

/-- The call stack an error records for the keys consumed, listed outermost first: the
formatted keys in reversed order. -/
def recordedNames (consumed : List String) : List String :=
  (consumed.map (fun k => (Seg.key k).format)).reverse

/-- Every index segment that the traversal applies to an Array lies inside that Array. -/
def indicesInRange : Item → List Seg → Bool
  | _, [] => true
  | it, .key k :: rest =>
    match it.content with
    | .map m =>
      match mapFind k m with
      | some child => indicesInRange child rest
      | none => true
    | _ => true
  | it, .idx i :: rest =>
    match it.content with
    | .vector v =>
      match vecGet v i with
      | some child => indicesInRange child rest
      | none => false
    | _ => true

/-- The four bytes of `n` in big-endian order, most significant first. -/
def be32 (n : Nat) : List Nat :=
  [n / 2 ^ 24 % 256, n / 2 ^ 16 % 256, n / 2 ^ 8 % 256, n % 256]

/-- The incoming events hand over exactly the byte stream `stream`, split in some way
into non-empty chunks, with no error and no empty read in between. -/
def Delivers (events : List ReadEvent) (stream : List Nat) : Prop :=
  ∃ chunks : List (List Nat),
    events = chunks.map ReadEvent.data ∧ (∀ c ∈ chunks, c ≠ []) ∧ chunks.flatten = stream

/-- The tag of an Item is the one `deriveItemType` gives for the payload it stores. -/
def Item.tagMatchesPayload (it : Item) : Prop :=
  it.contentType = deriveItemType it.content.cppType

instance (it : Item) : Decidable it.tagMatchesPayload := by
  unfold Item.tagMatchesPayload
  infer_instance

/-! ## Example data -/

/-- A connected connection in JSON mode with the default timeout. -/
def exampleConnection : TcpConnection where
  remoteIp := "127.0.0.1"
  remotePort := 6714
  receiveProperties :=
    { producerName := ""
      maxSendIntervalMs := 0
      encodingMode := EncodingMode.JSON
      includedPaths := []
      excludedPaths := []
      encodingMap := [] }
  timeoutMs := 10500
  fdSocket := 3
  fdClient := 0
  numberOfMessagesReceived := 0
  numberOfMessagesSent := 0
  numberOfMessagesReceivedSinceStart := 0
  numberOfMessagesSentSinceStart := 0
  timeSent := 0
  timeReceived := 0

/-- A little-endian host whose peer accepts every write in full, with the given events
on their way in and a clock that advances by one nanosecond per reading. -/
def exampleNetwork (incoming : List ReadEvent) : Network where
  host := .little
  sendResult := fun _ count => count
  sendCalls := 0
  wire := []
  incoming := incoming
  readLog := []
  clock := fun k => k
  clockReads := 0

/-- The number of bytes still missing before each read, for a stream that arrives in
chunks of the given sizes: it starts at the number asked for and drops by what each read
hands over (the chunk, or the missing part of it); no read is made once it is 0. -/
def missingBefore : Nat → List Nat → List Nat
  | _, [] => []
  | missing, size :: rest =>
    if missing = 0 then [] else missing :: missingBefore (missing - min size missing) rest

/-! ## Calls that may throw other exceptions than `InvalidContent` -/

/-- What a call may throw: `InvalidContent`, `std::runtime_error`, `cv::Exception`, an
exception of the binary format library, or one of the text format library. -/
inductive Thrown
  | invalidContent (e : InvalidContent)
  | runtimeError (what : String)
  | cvException
  | msgpackError
  | jsonError
  deriving DecidableEq, Repr

/-- How a call of the codec or of the transport ends. -/
inductive Result (α : Type)
  | ok (a : α)
  | throw (t : Thrown)
  | undefinedBehaviour
  | terminate

/-- Sequencing of calls: the second runs only when the first returned. -/
def Result.bind {α β : Type} (r : Result α) (f : α → Result β) : Result β :=
  match r with
  | .ok a => f a
  | .throw t => .throw t
  | .undefinedBehaviour => .undefinedBehaviour
  | .terminate => .terminate

instance : Monad Result where
  pure := Result.ok
  bind := Result.bind

/-- A call of the `Item` interface seen from the codec. -/
def Outcome.toResult {α : Type} : Outcome α → Result α
  | .ok a => .ok a
  | .throw e => .throw (.invalidContent e)
  | .undefinedBehaviour => .undefinedBehaviour
  | .terminate => .terminate

/-! ## core/Item.hpp: `operator==` against `std::string` and `std::vector<std::string>` -/

/-- The instantiation `Item::operator==<std::string>`: only the `STRING` case can answer
`true`; in the numeric cases `uni_at<T>(other)` is null because `std::string` is not `T`,
and `OBJECT` and `ARRAY` return `false` because `std::string` is neither a map nor a
vector. -/
def Item.eqString (self : Item) (other : String) : Outcome Bool :=
  match self.contentType with
  | .STRING =>
    match self.atConst .string [] with
    | .ok (.payload (.string mine)) => .ok (decide (mine = other))
    | .ok _ => .undefinedBehaviour
    | .throw e => .throw e
    | .undefinedBehaviour => .undefinedBehaviour
    | .terminate => .terminate
  | _ => .ok false

/-- The loop `for (i = 0; i < vectorSize; ++i) if (this->at(i) != other.at(i)) return false;`
followed by `return true`, over two sequences of the same length. -/
def eqStringLoop : List Item → List String → Outcome Bool
  | [], _ => .ok true
  | _ :: _, [] => .undefinedBehaviour
  | mine :: restMine, theirs :: restTheirs =>
    match mine.eqString theirs with
    | .ok true => eqStringLoop restMine restTheirs
    | .ok false => .ok false
    | .throw e => .throw e
    | .undefinedBehaviour => .undefinedBehaviour
    | .terminate => .terminate

/-- The instantiation `Item::operator==<std::vector<std::string>>`: the `ARRAY` case
compares the sizes and then the elements in order; every other case returns `false`. -/
def Item.eqStringVector (self : Item) (other : List String) : Outcome Bool :=
  match self.contentType with
  | .ARRAY =>
    match self.value .vector false with
    | .ok (some (.vector mine)) =>
      if mine.length ≠ other.length then .ok false else eqStringLoop mine other
    | .ok _ => .undefinedBehaviour
    | .throw e => .throw e
    | .undefinedBehaviour => .undefinedBehaviour
    | .terminate => .terminate
  | _ => .ok false

/-! ## tcp_cli/Conversion.cpp: the registry `encoded_elements` -/

/-- The entry appended to the registry:
`std::vector<Item>{ Item{ *path.data }, Item{ encoding } }`, an Array holding the Array of
the path's keys and the encoding name. -/
def registryEntry (path : List String) (encoding : String) : Item :=
  Item.ofNative (.itemVector
    [Item.ofNative (.vectorOf (path.map fun key => .value (.string key))),
     Item.ofNative (.value (.string encoding))])

/-- The search loop of the `MAT` case:
`for (auto &&encodedElement : encodedElements) { auto const &encodedPath =
 encodedElement.at(0U); if (encodedPath == *(path.data)) { encoding =
 encodedElement.at<std::string>(1U); found = true; break; } }`.
The result is the encoding of the first entry whose path equals `path`, if any. -/
def registrySearch (path : List String) : List Item → Result (Option String)
  | [] => .ok none
  | encodedElement :: rest =>
    match (encodedElement.atMut .item [.idx 0]).1 with
    | .ok (.item encodedPath) =>
      match encodedPath.eqStringVector path with
      | .ok true =>
        match (encodedElement.atMut .string [.idx 1]).1 with
        | .ok (.payload (.string encoding)) => .ok (some encoding)
        | .ok _ => .undefinedBehaviour
        | .throw e => .throw (.invalidContent e)
        | .undefinedBehaviour => .undefinedBehaviour
        | .terminate => .terminate
      | .ok false => registrySearch path rest
      | .throw e => .throw (.invalidContent e)
      | .undefinedBehaviour => .undefinedBehaviour
      | .terminate => .terminate
    | .ok _ => .undefinedBehaviour
    | .throw e => .throw (.invalidContent e)
    | .undefinedBehaviour => .undefinedBehaviour
    | .terminate => .terminate

/-- The call `encodedElements.emplace_back(...)` through the reference obtained from
`rootItem.at<std::vector<Item>>("encoded_elements")`: the entry is appended to the vector
stored under that key. -/
def pushRegistry (rootItem : Item) (entry : Item) : Item :=
  match rootItem with
  | .mk (.map m) t =>
    match mapFind "encoded_elements" m with
    | some (.mk (.vector v) vt) =>
      .mk (.map (mapReplace "encoded_elements" (.mk (.vector (v ++ [entry])) vt) m)) t
    | _ => rootItem
  | _ => rootItem

/-- Where the Item being encoded stands with respect to `rootItem`: it is `rootItem`
itself (`std::addressof(item) == std::addressof(rootItem)`), it lies below it, or it lies
in the registry vector of `rootItem`, which the `MAT` case may append to. -/
inductive Place
  | root
  | below
  | registry
  deriving DecidableEq, Repr

/-- The registry part of the `MAT` case, the same in `item_to_json` and
`item_to_msgpack`: the registry is fetched with the mutable
`rootItem.at<std::vector<Item>>("encoded_elements")`, which creates it when missing; the
default encoding is `preferredImageEncoding`, or "MAT_RAW" when that is empty; the
registry is searched by path; when nothing is found an entry is appended. Appending
while the registry itself is being iterated is undefined behaviour. The result is the
encoding to use and `rootItem` afterwards. -/
def selectEncoding (place : Place) (rootItem : Item) (path : List String)
    (preferredImageEncoding : String) : Result (String × Item) :=
  match rootItem.atMut .vector [.key "encoded_elements"] with
  | (.ok (.payload (.vector encodedElements)), rootItem1) =>
    match registrySearch path encodedElements with
    | .ok (some encoding) => .ok (encoding, rootItem1)
    | .ok none =>
      if place = .registry then .undefinedBehaviour
      else
        .ok (if preferredImageEncoding.isEmpty then "MAT_RAW" else preferredImageEncoding,
          pushRegistry rootItem1
            (registryEntry path
              (if preferredImageEncoding.isEmpty then "MAT_RAW" else preferredImageEncoding)))
    | .throw t => .throw t
    | .undefinedBehaviour => .undefinedBehaviour
    | .terminate => .terminate
  | (.ok _, _) => .undefinedBehaviour
  | (.throw e, _) => .throw (.invalidContent e)
  | (.undefinedBehaviour, _) => .undefinedBehaviour
  | (.terminate, _) => .terminate

/-! ## The values of the text format and the elements of the binary format -/

/-- A floating-point number handed to a serialization library as a `double`, kept as the
bit pattern and the type it was converted from. -/
inductive FloatValue
  | ofFloat (bits : Nat)
  | ofDouble (bits : Nat)
  | ofLongDouble (bits : Nat)
  deriving DecidableEq, Repr

/-- The value type `nlohmann::json`. An object is kept in key order. -/
inductive Json
  | null
  | boolean (b : Bool)
  | numberInteger (i : Int)
  | numberUnsigned (n : Nat)
  | numberFloat (f : FloatValue)
  | string (s : String)
  | array (elements : List Json)
  | object (members : List (String × Json))
  | binary (bytes : List Nat)
  | discarded

/-- The assignment `json_object[key] = value` on the members of a json object, which is a
sorted map: an existing key is overwritten, a new key is put at its place in key order. -/
def jsonStore (k : String) (v : Json) : List (String × Json) → List (String × Json)
  | [] => [(k, v)]
  | (k', v') :: rest =>
    if k' = k then (k, v) :: rest
    else if keyLt k k' then (k, v) :: (k', v') :: rest
    else (k', v') :: jsonStore k v rest

/-- What one call of a `msgpack::packer` method puts into the buffer. `uint` and `int`
stand for the `pack_uintN` and `pack_intN` methods; `bin` is a bin header with its body;
`rawBytes` is a body written by `pack_bin_body` with no header before it. -/
inductive MsgElement
  | mapHeader (n : Nat)
  | arrayHeader (n : Nat)
  | str (s : String)
  | float32 (bits : Nat)
  | float64 (f : FloatValue)
  | uint (n : Nat)
  | int (i : Int)
  | boolTrue
  | boolFalse
  | nil
  | bin (bytes : List Nat)
  | rawBytes (bytes : List Nat)
  deriving DecidableEq, Repr

/-- Modelled from the spec: the external collaborators of section 6, which the codec
consumes at their interface. `jsonDump` and `jsonParse` are `json::dump` and
`json::parse` (`none` when they throw); `msgpackWrite` gives the bytes a packer holds
after the calls listed; `msgpackRead` gives the elements a reader finds in a byte buffer;
`imencode` and `imdecode` are the image compression capability (`imdecode` gives `none`
when `cv::imdecode` throws); `host` is the byte order of the machine; `toDouble` is the
bit pattern of the `double` that a value kept in another floating-point format converts
to. -/
structure External where
  host : Endian
  jsonDump : Json → Option (List Nat)
  jsonParse : List Nat → Option Json
  msgpackWrite : List MsgElement → List Nat
  msgpackRead : List Nat → List MsgElement
  imencode : String → Mat → List Nat
  imdecode : List Nat → Option Mat
  toDouble : FloatValue → Nat

/-! ## `std::string` as bytes, base64 -/

/-- The `std::string` made of the given bytes. -/
def bytesToString (bytes : List Nat) : String :=
  String.mk (bytes.map Char.ofNat)

/-- The bytes of a `std::string`. -/
def stringToBytes (s : String) : List Nat :=
  s.data.map Char.toNat

/-- The base64 alphabet: the character for a 6-bit value. -/
def base64Char (v : Nat) : Nat :=
  if v < 26 then 65 + v
  else if v < 52 then 97 + (v - 26)
  else if v < 62 then 48 + (v - 52)
  else if v = 62 then 43
  else 47

/-- Modelled from the spec: binary leaves are "represented as a base64 string" in the
text format; `boost::beast::detail::base64::encode` is the standard encoding with `=`
padding. -/
def base64_encode : List Nat → List Nat
  | a :: b :: c :: rest =>
    [base64Char (a / 4), base64Char (a % 4 * 16 + b / 16),
     base64Char (b % 16 * 4 + c / 64), base64Char (c % 64)] ++ base64_encode rest
  | [a, b] =>
    [base64Char (a / 4), base64Char (a % 4 * 16 + b / 16), base64Char (b % 16 * 4), 61]
  | [a] => [base64Char (a / 4), base64Char (a % 4 * 16), 61, 61]
  | [] => []

/-! ## The parts of OpenCV the codec uses -/

/-- The method `cv::Mat::elemSize1()`: the bytes of one channel element for a depth code
(`CV_8U` 0, `CV_8S` 1, `CV_16U` 2, `CV_16S` 3, `CV_32S` 4, `CV_32F` 5, `CV_64F` 6,
`CV_16F` 7). -/
def Mat.elemSize1 (image : Mat) : Nat :=
  match image.depth with
  | 0 => 1
  | 1 => 1
  | 2 => 2
  | 3 => 2
  | 4 => 4
  | 5 => 4
  | 6 => 8
  | _ => 2

/-- The pixels of a 3- or 4-channel image with the first and third channel exchanged and
a fourth channel dropped, `pixels` pixels of `channels` elements of `esz` bytes. -/
def swapChannels (esz channels : Nat) : Nat → List Nat → List Nat
  | 0, _ => []
  | pixels + 1, data =>
    ((data.take (channels * esz)).drop (2 * esz)).take esz
      ++ ((data.take (channels * esz)).drop esz).take esz
      ++ (data.take (channels * esz)).take esz
      ++ swapChannels esz channels pixels (data.drop (channels * esz))

/-- Modelled from the spec: the channel order conversion is "a fixed permutation swap for
3-channel color". `cv::cvtColor(src, dst, cv::COLOR_RGB2BGR)` (the same code as
`COLOR_BGR2RGB`) accepts a non-empty image of 3 or 4 channels and depth `CV_8U`,
`CV_16U` or `CV_32F`, gives a 3-channel image with the first and third channel exchanged,
and throws `cv::Exception` for any other input. -/
def cvtColor (src : Mat) : Result Mat :=
  if (src.channels = 3 ∨ src.channels = 4) ∧ (src.depth = 0 ∨ src.depth = 2 ∨ src.depth = 5)
      ∧ 0 < src.rows * src.cols then
    .ok { rows := src.rows, cols := src.cols, depth := src.depth, channels := 3,
          data := swapChannels src.elemSize1 src.channels (src.rows * src.cols) src.data }
  else .throw .cvException

/-- The function `opencvToNumpy(depth)`: the kind character 'u' (117), 'i' (105) or
'f' (102), or 0. -/
def opencvToNumpy (depth : Nat) : Nat :=
  match depth with
  | 0 => 117
  | 2 => 117
  | 1 => 105
  | 3 => 105
  | 4 => 105
  | 5 => 102
  | 6 => 102
  | _ => 0

/-- The macro `CV_MAKETYPE(depth, cn)` evaluated on `uint64_t` channels:
`(depth & 7) + ((cn - 1) << 3)`. -/
def CV_MAKETYPE (depth cn : Nat) : Nat :=
  (depth % 8 + ((cn + 2 ^ 64 - 1) % 2 ^ 64) * 8) % 2 ^ 64

/-- The function `numpyToOpencv(kind, size, channels)`: the matrix type and the element
size, or `{0, 0}`. The kinds are 'b' (98), 'i' (105), 'u' (117) and 'f' (102). -/
def numpyToOpencv (kind size channels : Nat) : Nat × Nat :=
  if kind = 98 then (CV_MAKETYPE 0 channels, 1)
  else if kind = 105 then
    if size = 1 then (CV_MAKETYPE 1 channels, 1)
    else if size = 2 then (CV_MAKETYPE 3 channels, 2)
    else if size = 4 then (CV_MAKETYPE 4 channels, 4)
    else (0, 0)
  else if kind = 117 then
    if size = 1 then (CV_MAKETYPE 0 channels, 1)
    else if size = 2 then (CV_MAKETYPE 2 channels, 2)
    else (0, 0)
  else if kind = 102 then
    if size = 4 then (CV_MAKETYPE 5 channels, 4)
    else if size = 8 then (CV_MAKETYPE 6 channels, 8)
    else (0, 0)
  else (0, 0)

/-! ## core/Utils.hpp: little-endian conversion; `std::memcpy` -/

/-- The value overload `toLittleEndian(PodType value)`: the object representation,
reversed on a big-endian host. -/
def toLittleEndian (host : Endian) (size value : Nat) : List Nat :=
  if isBigEndian host then (objectBytes host size value).reverse
  else objectBytes host size value

/-- The buffer overload `toLittleEndian(buffer, bufferSize, sizeType)`: `swap` on a
big-endian host. -/
def toLittleEndianBuffer (host : Endian) (buffer : List Nat) (bufferSize sizeType : Nat) :
    List Nat :=
  if isBigEndian host then swap buffer bufferSize sizeType else buffer

/-- The bytes `std::memcpy(dest, &source, count)` reads from an object of
`source.length` bytes: reading past the object is undefined behaviour. -/
def memcpyFrom (source : List Nat) (count : Nat) : Result (List Nat) :=
  if count ≤ source.length then .ok (source.take count) else .undefinedBehaviour

/-! ## tcp_cli/Conversion.cpp: `encodeImage` -/

/-- The function `encodeImage(image, encoding, encodingMode)`.
In the "MAT_RAW" branch `width`, `height` and `channels` are `int`, so the arrays
returned by `toLittleEndian(3)`, `toLittleEndian(width)`, ... have `sizeof(int) = 4`
bytes, and each `std::memcpy(..., &lenShape, 8)` reads 8 bytes from them. The test
`width < 0 || height < 0 || channels < 0 || dataTypeSize > 255` before the colour
conversion is never true for a two-dimensional image, which a `Mat` here is. -/
def encodeImage (ext : External) (image : Mat) (encoding : String)
    (encodingMode : EncodingMode) : Result Item :=
  let finish (image_bytes : List Nat) : Result Item :=
    if encodingMode = EncodingMode.JSON then
      .ok (Item.default.assignNative (.string (bytesToString (base64_encode image_bytes))))
    else .ok (Item.default.assignNative (.byteVector image_bytes))
  if encoding = "IMAGE_PNG" ∨ encoding = "IMAGE_JSON" then do
    let _dest ← cvtColor image
    finish (ext.imencode (if encoding = "IMAGE_PNG" then ".png" else ".jpg") image)
  else if encoding = "MAT_RAW" then do
    let width := image.rows
    let height := image.cols
    let channels := image.channels
    let dataTypeSize := image.elemSize1
    let transformedImage ← cvtColor image
    let imageDataSize := width * height * channels * dataTypeSize
    let image_bytes := List.replicate (2 + 8 * 4 + imageDataSize) 0
    if opencvToNumpy image.depth ≠ 0 then do
      let image_bytes := writeAt image_bytes 0 [opencvToNumpy image.depth]
      let image_bytes := writeAt image_bytes 1 [dataTypeSize % 256]
      let lenShape ← memcpyFrom (toLittleEndian ext.host 4 3) 8
      let image_bytes := writeAt image_bytes 2 lenShape
      let convWidth ← memcpyFrom (toLittleEndian ext.host 4 width) 8
      let image_bytes := writeAt image_bytes (2 + 8) convWidth
      let convHeight ← memcpyFrom (toLittleEndian ext.host 4 height) 8
      let image_bytes := writeAt image_bytes (2 + 8 * 2) convHeight
      let convChannels ← memcpyFrom (toLittleEndian ext.host 4 channels) 8
      let image_bytes := writeAt image_bytes (2 + 8 * 3) convChannels
      let pixels ← memcpyFrom transformedImage.data imageDataSize
      finish (writeAt image_bytes (2 + 8 * 4)
        (toLittleEndianBuffer ext.host pixels imageDataSize dataTypeSize))
    else .ok Item.default
  else .ok Item.default

/-! ## tcp_cli/Conversion.cpp: `item_to_json` -/

/-- The place of a child with respect to `rootItem`. -/
def Place.child : Place → Place
  | .root => .below
  | .below => .below
  | .registry => .registry

/-- The failure of `item.items()`, `item.begin()` or `item.at<T>()` on a payload that is
not of the type the tag promises. -/
def wrongPayload {α : Type} (content : Content) (queried : CppType) : Result α :=
  .throw (.invalidContent ⟨.invalidContent content.cppType queried, []⟩)

/-- The leaf cases of the switch in `item_to_json`: `json_object = item.at<T>()` for the
numeric, boolean, string and byte-vector tags, and "[n/a]" for `OTHER` and `default`.
The tags `OBJECT`, `ARRAY` and `MAT` are handled by `item_to_json`. -/
def item_to_json_leaf (content : Content) (contentType : ItemType) : Result Json :=
  match contentType with
  | .F32 =>
    match content with
    | .float bits => .ok (.numberFloat (.ofFloat bits))
    | _ => wrongPayload content .float
  | .F64 =>
    match content with
    | .double bits => .ok (.numberFloat (.ofDouble bits))
    | _ => wrongPayload content .double
  | .F128 =>
    match content with
    | .longDouble bits => .ok (.numberFloat (.ofLongDouble bits))
    | _ => wrongPayload content .longDouble
  | .UINT8 =>
    match content with
    | .uint8 n => .ok (.numberUnsigned n)
    | _ => wrongPayload content .uint8
  | .UINT16 =>
    match content with
    | .uint16 n => .ok (.numberUnsigned n)
    | _ => wrongPayload content .uint16
  | .UINT32 =>
    match content with
    | .uint32 n => .ok (.numberUnsigned n)
    | _ => wrongPayload content .uint32
  | .UINT64 =>
    match content with
    | .uint64 n => .ok (.numberUnsigned n)
    | _ => wrongPayload content .uint64
  | .INT8 =>
    match content with
    | .int8 i => .ok (.numberInteger i)
    | _ => wrongPayload content .int8
  | .INT16 =>
    match content with
    | .int16 i => .ok (.numberInteger i)
    | _ => wrongPayload content .int16
  | .INT32 =>
    match content with
    | .int32 i => .ok (.numberInteger i)
    | _ => wrongPayload content .int32
  | .INT64 =>
    match content with
    | .int64 i => .ok (.numberInteger i)
    | _ => wrongPayload content .int64
  | .BOOL =>
    match content with
    | .bool b => .ok (.boolean b)
    | _ => wrongPayload content .bool
  | .STRING =>
    match content with
    | .string s => .ok (.string s)
    | _ => wrongPayload content .string
  | .NULL_TERMINATED_STRING =>
    match content with
    | .charConstPtr address text => if address = 0 then .undefinedBehaviour else .ok (.string text)
    | _ => wrongPayload content .charConstPtr
  | .BYTE_ARRAY =>
    match content with
    | .byteVector bytes => .ok (.array (bytes.map Json.numberUnsigned))
    | _ => wrongPayload content .byteVector
  | _ => .ok (.string "[n/a]")

/-- The nested call `item_to_json(encoded_item, json_object, path, encoded_item, ...)` of
the `MAT` case. `encodeImage` returns a String Item, a byte-vector Item or `Item{}`, none
of which has children, so the call is one leaf case or the empty `OBJECT` case. -/
def encoded_item_to_json (encoded_item : Item) : Result Json :=
  match encoded_item with
  | .mk (.map []) .OBJECT => .ok (.object [])
  | .mk (.string s) .STRING => item_to_json_leaf (.string s) .STRING
  | .mk (.byteVector b) .BYTE_ARRAY => item_to_json_leaf (.byteVector b) .BYTE_ARRAY
  | _ => .undefinedBehaviour

/-- The key a `char const *` hands to `json::operator[]`: the characters of `key.c_str()`
up to the first NUL. -/
def cStr (key : String) : String :=
  String.mk (key.data.takeWhile fun c => !decide (c.toNat = 0))

mutual
/-- The recursive function `item_to_json(item, json_object, path, rootItem,
preferredImageEncoding)`. The result is the value assigned to `json_object` and
`rootItem` after the call; `place` tells where `item` stands with respect to `rootItem`
(at `Place.root` the caller passes the same Item for both). -/
def item_to_json (ext : External) (preferredImageEncoding : String) (place : Place) :
    Item → List String → Item → Result (Json × Item)
  | .mk content contentType, path, rootItem =>
    match contentType with
    | .OBJECT =>
      match content with
      | .map members =>
        (item_to_json_members ext preferredImageEncoding place members [] path rootItem).bind
          fun r => .ok (.object r.1, r.2)
      | _ => wrongPayload content .map
    | .ARRAY =>
      match content with
      | .vector elements =>
        (item_to_json_elements ext preferredImageEncoding place elements [] path rootItem).bind
          fun r => .ok (.array r.1, r.2)
      | _ => wrongPayload content .vector
    | .MAT =>
      match content with
      | .mat mat =>
        (selectEncoding place rootItem path preferredImageEncoding).bind fun sel =>
          (encodeImage ext mat sel.1 EncodingMode.JSON).bind fun encoded_item =>
            (encoded_item_to_json encoded_item).bind fun json_object =>
              .ok (json_object, sel.2)
      | _ => wrongPayload content .mat
    | _ => (item_to_json_leaf content contentType).bind fun json_object =>
        .ok (json_object, rootItem)
/-- The loop `for (auto &[key, value] : item.items())` of the `OBJECT` case: the key
"encoded_elements" of `rootItem` itself is left out; every other value is encoded with
its key appended to the path and assigned to `json_object[key.c_str()]`, the member named
by the key up to its first NUL. -/
def item_to_json_members (ext : External) (preferredImageEncoding : String) (place : Place) :
    List (String × Item) → List (String × Json) → List String → Item →
      Result (List (String × Json) × Item)
  | [], json_object, _, rootItem => .ok (json_object, rootItem)
  | (key, value) :: rest, json_object, path, rootItem =>
    if place ≠ .root ∨ key ≠ "encoded_elements" then
      (item_to_json ext preferredImageEncoding place.child value (path ++ [key]) rootItem).bind
        fun r =>
          item_to_json_members ext preferredImageEncoding place rest
            (jsonStore (cStr key) r.1 json_object) path r.2
    else item_to_json_members ext preferredImageEncoding place rest json_object path rootItem
/-- The loop `for (auto &value : item)` of the `ARRAY` case: every element is encoded
with the path unchanged and pushed to the json array. -/
def item_to_json_elements (ext : External) (preferredImageEncoding : String) (place : Place) :
    List Item → List Json → List String → Item → Result (List Json × Item)
  | [], json_object, _, rootItem => .ok (json_object, rootItem)
  | value :: rest, json_object, path, rootItem =>
    (item_to_json ext preferredImageEncoding place.child value path rootItem).bind fun r =>
      item_to_json_elements ext preferredImageEncoding place rest (json_object ++ [r.1]) path r.2
end

/-! ## tcp_cli/Conversion.cpp: `item_to_msgpack` -/

/-- The bound `std::numeric_limits<uint32_t>::max()` of the size tests. -/
def uint32Max : Nat := 2 ^ 32 - 1

/-- The leaf cases of the switch in `item_to_msgpack`: the elements written by the
`pack_*` calls for the numeric, boolean, string and byte-vector tags, and the string
"[n/a]" for `OTHER` and `default`. A byte vector is written with `pack_bin_body` alone.
The tags `OBJECT`, `ARRAY` and `MAT` are handled by `item_to_msgpack`. -/
def item_to_msgpack_leaf (content : Content) (contentType : ItemType) :
    Result (List MsgElement) :=
  match contentType with
  | .F32 =>
    match content with
    | .float bits => .ok [.float32 bits]
    | _ => wrongPayload content .float
  | .F64 =>
    match content with
    | .double bits => .ok [.float64 (.ofDouble bits)]
    | _ => wrongPayload content .double
  | .F128 =>
    match content with
    | .longDouble bits => .ok [.float64 (.ofLongDouble bits)]
    | _ => wrongPayload content .longDouble
  | .UINT8 =>
    match content with
    | .uint8 n => .ok [.uint n]
    | _ => wrongPayload content .uint8
  | .UINT16 =>
    match content with
    | .uint16 n => .ok [.uint n]
    | _ => wrongPayload content .uint16
  | .UINT32 =>
    match content with
    | .uint32 n => .ok [.uint n]
    | _ => wrongPayload content .uint32
  | .UINT64 =>
    match content with
    | .uint64 n => .ok [.uint n]
    | _ => wrongPayload content .uint64
  | .INT8 =>
    match content with
    | .int8 i => .ok [.int i]
    | _ => wrongPayload content .int8
  | .INT16 =>
    match content with
    | .int16 i => .ok [.int i]
    | _ => wrongPayload content .int16
  | .INT32 =>
    match content with
    | .int32 i => .ok [.int i]
    | _ => wrongPayload content .int32
  | .INT64 =>
    match content with
    | .int64 i => .ok [.int i]
    | _ => wrongPayload content .int64
  | .BOOL =>
    match content with
    | .bool b => .ok [if b then .boolTrue else .boolFalse]
    | _ => wrongPayload content .bool
  | .STRING =>
    match content with
    | .string s =>
      .ok [.str (if s.length < uint32Max then s else "[n/a] (Too large string)")]
    | _ => wrongPayload content .string
  | .NULL_TERMINATED_STRING =>
    match content with
    | .charConstPtr address text =>
      if address = 0 then .undefinedBehaviour
      else if text.length < uint32Max then .ok [.str text]
      else .ok [.str "[n/a] (Too large string)"]
    | _ => wrongPayload content .charConstPtr
  | .BYTE_ARRAY =>
    match content with
    | .byteVector bytes =>
      if bytes.length < uint32Max then .ok [.rawBytes bytes]
      else .ok [.str "[n/a] (Too large byte array)"]
    | _ => wrongPayload content .byteVector
  | _ => .ok [.str "[n/a]"]

/-- The nested call `item_to_msgpack(encoded_item, packer, path, encoded_item, ...)` of
the `MAT` case, on the childless Item `encodeImage` returned. -/
def encoded_item_to_msgpack (encoded_item : Item) : Result (List MsgElement) :=
  match encoded_item with
  | .mk (.map []) .OBJECT => .ok [.mapHeader 0]
  | .mk (.string s) .STRING => item_to_msgpack_leaf (.string s) .STRING
  | .mk (.byteVector b) .BYTE_ARRAY => item_to_msgpack_leaf (.byteVector b) .BYTE_ARRAY
  | _ => .undefinedBehaviour

mutual
/-- The recursive function `item_to_msgpack(item, packer, path, rootItem,
preferredImageEncoding)`. The result is the elements the call appends to the packer and
`rootItem` after the call. The `MAT` case calls `encodeImage` with `EncodingMode::JSON`,
as the source does. -/
def item_to_msgpack (ext : External) (preferredImageEncoding : String) (place : Place) :
    Item → List String → Item → Result (List MsgElement × Item)
  | .mk content contentType, path, rootItem =>
    match contentType with
    | .OBJECT =>
      match content with
      | .map members =>
        if members.length < uint32Max then
          (item_to_msgpack_members ext preferredImageEncoding place members path rootItem).bind
            fun r => .ok (.mapHeader members.length :: r.1, r.2)
        else .ok ([.str "[n/a] (Too large map)"], rootItem)
      | _ => wrongPayload content .map
    | .ARRAY =>
      match content with
      | .vector elements =>
        if elements.length < uint32Max then
          (item_to_msgpack_elements ext preferredImageEncoding place elements path rootItem).bind
            fun r => .ok (.arrayHeader elements.length :: r.1, r.2)
        else .ok ([.str "[n/a] (Too large vector)"], rootItem)
      | _ => wrongPayload content .vector
    | .MAT =>
      match content with
      | .mat mat =>
        (selectEncoding place rootItem path preferredImageEncoding).bind fun sel =>
          (encodeImage ext mat sel.1 EncodingMode.JSON).bind fun encoded_item =>
            (encoded_item_to_msgpack encoded_item).bind fun packed =>
              .ok (packed, sel.2)
      | _ => wrongPayload content .mat
    | _ => (item_to_msgpack_leaf content contentType).bind fun packed =>
        .ok (packed, rootItem)
/-- The loop `for (auto &[key, value] : item.items())` of the `OBJECT` case: the key
"encoded_elements" of `rootItem` itself is left out; for every other member the key is
packed and the value encoded with the key appended to the path. -/
def item_to_msgpack_members (ext : External) (preferredImageEncoding : String)
    (place : Place) :
    List (String × Item) → List String → Item → Result (List MsgElement × Item)
  | [], _, rootItem => .ok ([], rootItem)
  | (key, value) :: rest, path, rootItem =>
    if place ≠ .root ∨ key ≠ "encoded_elements" then
      (item_to_msgpack ext preferredImageEncoding place.child value (path ++ [key])
          rootItem).bind fun r =>
        (item_to_msgpack_members ext preferredImageEncoding place rest path r.2).bind fun rs =>
          .ok (.str key :: r.1 ++ rs.1, rs.2)
    else item_to_msgpack_members ext preferredImageEncoding place rest path rootItem
/-- The loop `for (auto &value : item)` of the `ARRAY` case. -/
def item_to_msgpack_elements (ext : External) (preferredImageEncoding : String)
    (place : Place) :
    List Item → List String → Item → Result (List MsgElement × Item)
  | [], _, rootItem => .ok ([], rootItem)
  | value :: rest, path, rootItem =>
    (item_to_msgpack ext preferredImageEncoding place.child value path rootItem).bind fun r =>
      (item_to_msgpack_elements ext preferredImageEncoding place rest path r.2).bind fun rs =>
        .ok (r.1 ++ rs.1, rs.2)
end

/-! ## tcp_cli/Conversion.cpp: the message-level overloads and `encodeItem` -/

/-- The members of a mutable Item, `item.items()`. -/
def Item.itemsMut (item : Item) : Result (List (String × Item)) :=
  match item with
  | .mk (.map members) _ => .ok members
  | .mk content _ => wrongPayload content .map

/-- The expression `item[key]` read after the key is known to exist or has been created:
the child and the Item afterwards. -/
def Item.child (item : Item) (key : String) : Result (Item × Item) :=
  match item.index key with
  | (.ok (.item child), item1) => .ok (child, item1)
  | (.ok _, _) => .undefinedBehaviour
  | (.throw e, _) => .throw (.invalidContent e)
  | (.undefinedBehaviour, _) => .undefinedBehaviour
  | (.terminate, _) => .terminate

/-- The write through the reference `item[key]` of a new value for an existing child. -/
def Item.setChild (item : Item) (key : String) (child : Item) : Item :=
  match item with
  | .mk (.map members) t => .mk (.map (mapReplace key child members)) t
  | _ => item

/-- The loop of the message-level `item_to_msgpack`:
`for (auto &[key, value] : item.items()) if (key != "item") { packer.pack(key);
 item_to_msgpack(value, packer, TempAppend(&path), value, ...); }`. Every value is its
own `rootItem`. The result is the elements written and the members afterwards. -/
def item_to_msgpack_message_loop (ext : External) (preferredImageEncoding : String) :
    List (String × Item) → Result (List MsgElement × List (String × Item))
  | [] => .ok ([], [])
  | (key, value) :: rest =>
    if key ≠ "item" then
      (item_to_msgpack ext preferredImageEncoding .root value [] value).bind fun r =>
        (item_to_msgpack_message_loop ext preferredImageEncoding rest).bind fun rs =>
          .ok (.str key :: r.1 ++ rs.1, (key, r.2) :: rs.2)
    else
      (item_to_msgpack_message_loop ext preferredImageEncoding rest).bind fun rs =>
        .ok (rs.1, (key, value) :: rs.2)

/-- The message-level overload `item_to_msgpack(item, preferredImageEncoding)`: a map
header with the number of top-level keys, every member but "item", and, when "item"
exists, the key "item", the item subtree (encoded as its own `rootItem`, so without its
registry), the key "encoded_elements" and the registry. -/
def item_to_msgpack_message (ext : External) (item : Item) (preferredImageEncoding : String) :
    Result (List MsgElement × Item) :=
  match item with
  | .mk (.map members) t =>
    (item_to_msgpack_message_loop ext preferredImageEncoding members).bind fun r =>
      match (Item.mk (.map r.2) t).contains "item" with
      | .ok true =>
        match (Item.mk (.map r.2) t).atMut .vector [.key "item", .key "encoded_elements"] with
        | (.ok _, item2) =>
          (item2.child "item").bind fun c =>
            (item_to_msgpack ext preferredImageEncoding .root c.1 [] c.1).bind fun packedItem =>
              (packedItem.2.child "encoded_elements").bind fun reg =>
                (item_to_msgpack ext preferredImageEncoding .registry reg.1 [] reg.2).bind
                  fun packedRegistry =>
                    .ok (.mapHeader (members.length % 2 ^ 32) :: r.1 ++ [.str "item"]
                          ++ packedItem.1 ++ [.str "encoded_elements"] ++ packedRegistry.1,
                      c.2.setChild "item" packedRegistry.2)
        | (.throw e, _) => .throw (.invalidContent e)
        | (.undefinedBehaviour, _) => .undefinedBehaviour
        | (.terminate, _) => .terminate
      | .ok false => .ok (.mapHeader (members.length % 2 ^ 32) :: r.1, Item.mk (.map r.2) t)
      | .throw e => .throw (.invalidContent e)
      | .undefinedBehaviour => .undefinedBehaviour
      | .terminate => .terminate
  | .mk content _ => wrongPayload content .map

/-- The loop of the message-level `item_to_json`:
`for (auto &[key, value] : item.items()) item_to_json(value, json_root[key.c_str()], tap,
 value, ...)`. Every value, "item" included, is its own `rootItem`; it is assigned to the
member named by its key up to the first NUL. -/
def item_to_json_message_loop (ext : External) (preferredImageEncoding : String) :
    List (String × Item) → List (String × Json) →
      Result (List (String × Json) × List (String × Item))
  | [], json_root => .ok (json_root, [])
  | (key, value) :: rest, json_root =>
    (item_to_json ext preferredImageEncoding .root value [] value).bind fun r =>
      (item_to_json_message_loop ext preferredImageEncoding rest
          (jsonStore (cStr key) r.1 json_root)).bind fun rs =>
        .ok (rs.1, (key, r.2) :: rs.2)

/-- The assignment `json_root["item"]["encoded_elements"] = registry` on the members of
`json_root`; `operator[]` with a key on a value that is neither an object nor null throws
a json exception. -/
def jsonStoreRegistry (json_root : List (String × Json)) (registry : Json) :
    Result (List (String × Json)) :=
  match json_root.lookup "item" with
  | some (.object members) =>
    .ok (jsonStore "item" (.object (jsonStore "encoded_elements" registry members)) json_root)
  | some .null | none =>
    .ok (jsonStore "item" (.object [("encoded_elements", registry)]) json_root)
  | some _ => .throw .jsonError

/-- The message-level overload `item_to_json(item, preferredImageEncoding)`: every
member is encoded; then `item.at<std::vector<Item>>("item", "encoded_elements")`, not
guarded by a test for "item", fetches the registry, which is encoded with the whole
message as `rootItem` and stored at `json_root["item"]["encoded_elements"]`. An empty
message leaves `json_root` null. -/
def item_to_json_message (ext : External) (item : Item) (preferredImageEncoding : String) :
    Result (Json × Item) :=
  match item with
  | .mk (.map members) t =>
    (item_to_json_message_loop ext preferredImageEncoding members []).bind fun r =>
      match (Item.mk (.map r.2) t).atMut .vector [.key "item", .key "encoded_elements"] with
      | (.ok _, item2) =>
        (item2.child "item").bind fun c =>
          (c.1.child "encoded_elements").bind fun reg =>
            (item_to_json ext preferredImageEncoding .below reg.1 []
                (c.2.setChild "item" reg.2)).bind fun encodedRegistry =>
              (jsonStoreRegistry r.1 encodedRegistry.1).bind fun json_root =>
                .ok (.object json_root, encodedRegistry.2)
      | (.throw e, _) => .throw (.invalidContent e)
      | (.undefinedBehaviour, _) => .undefinedBehaviour
      | (.terminate, _) => .terminate
  | .mk content _ => wrongPayload content .map

/-- The function `encodeItem(item, encodingMode, preferredImageEncoding)`: the bytes of
the Buffer and the caller's Item afterwards. -/
def encodeItem (ext : External) (item : Item) (encodingMode : EncodingMode)
    (preferredImageEncoding : String) : Result (List Nat × Item) :=
  if encodingMode = EncodingMode.MSGPACK then
    (item_to_msgpack_message ext item preferredImageEncoding).bind fun msg =>
      .ok (ext.msgpackWrite msg.1, msg.2)
  else if encodingMode = EncodingMode.JSON then
    (item_to_json_message ext item preferredImageEncoding).bind fun json_root =>
      match ext.jsonDump json_root.1 with
      | some msg => .ok (msg, json_root.2)
      | none => .throw .jsonError
  else .throw (.runtimeError "Encoding mode \x7b\x7d not implemented.")

/-! ## tcp_cli/Conversion.hpp: `ReceiveProperties` -/

/-- The constructor of `ReceiveProperties`: the three lists are built from the flags.
`encodingMap` is a `std::map`, so "image" stands before "point_cloud". -/
def ReceiveProperties.new (producerName : String) (encodingMode : EncodingMode)
    (maxSendIntervalMs : Nat) (sendImage sendPointCloud sendInference : Bool) :
    ReceiveProperties where
  producerName := producerName
  maxSendIntervalMs := maxSendIntervalMs
  encodingMode := encodingMode
  includedPaths :=
    (if sendPointCloud then [["point_cloud"]] else [])
      ++ (if sendInference then [["inference"], ["rois"]] else [])
      ++ (if sendImage then [["image"]] else [])
  excludedPaths :=
    if sendInference then [["inference", "detection", "*", "localization"]] else []
  encodingMap :=
    (if sendImage then [("image", "MAT_RAW")] else [])
      ++ (if sendPointCloud then [("point_cloud", "EncodingType.PointCloud")] else [])

/-- The method `isReceiveConfigured()`: `!producerName.empty()`. -/
def ReceiveProperties.isReceiveConfigured (r : ReceiveProperties) : Bool :=
  !r.producerName.isEmpty

/-- The statement `item[key] = value` on an Item that is an Object. -/
def Item.setKey (item : Item) (key : String) (value : Item) : Item :=
  match item with
  | .mk (.map members) t => .mk (.map (mapStore key value members)) t
  | _ => item

/-- The method `ReceiveProperties::toItem()`. -/
def ReceiveProperties.toItem (r : ReceiveProperties) : Item :=
  let stream_options :=
    ((((Item.default.setKey "included_paths"
          (Item.ofNative (.vectorOf (r.includedPaths.map fun p =>
            .vectorOf (p.map fun s => .value (.string s)))))).setKey "excluded_paths"
          (Item.ofNative (.vectorOf (r.excludedPaths.map fun p =>
            .vectorOf (p.map fun s => .value (.string s)))))).setKey "encoding_tree"
          (Item.ofNative (.mapOf (r.encodingMap.map fun kv =>
            (kv.1, .value (.string kv.2)))))).setKey "max_send_interval_ms"
          (Item.ofNative (.value (.uint32 r.maxSendIntervalMs)))).setKey "encoding_mode"
          (Item.default.assignNative (.uint8 (getUnderlyingValue r.encodingMode)))
  (Item.default.setKey "producer_name"
      (Item.default.assignNative (.string r.producerName))).setKey "stream_options"
    stream_options

/-! ## tcp_cli/TcpConnection: sending Items, connecting -/

/-- The result of a member function of `TcpConnection`: how the call ended, and the
connection and the network afterwards, which persist also when the call throws. -/
structure Ended (α : Type) where
  result : Result α
  connection : TcpConnection
  net : Network

/-- The method `sendMessageItem(messageItem)`: `false` when not connected; otherwise the
Item is encoded with the connection's encoding mode and written with `sendData`.
`none` means `fuel` was used up. -/
def TcpConnection.sendMessageItem (ext : External) (fuel : Nat) (c : TcpConnection)
    (messageItem : Item) (net : Network) : Option (Ended Bool) :=
  if !c.connected then some ⟨.ok false, c, net⟩
  else
    match encodeItem ext messageItem c.receiveProperties.getEncodingMode "" with
    | .ok buffer =>
      match c.sendData fuel buffer.1 buffer.1.length net with
      | some (sent, c1, net1) => some ⟨.ok sent, c1, net1⟩
      | none => none
    | .throw t => some ⟨.throw t, c, net⟩
    | .undefinedBehaviour => some ⟨.undefinedBehaviour, c, net⟩
    | .terminate => some ⟨.terminate, c, net⟩

/-- The method `sendUpdateReceiveProperties()`: `true` at once when no producer name is
set; otherwise the handshake Item is sent. -/
def TcpConnection.sendUpdateReceiveProperties (ext : External) (fuel : Nat)
    (c : TcpConnection) (net : Network) : Option (Ended Bool) :=
  if !c.receiveProperties.isReceiveConfigured then some ⟨.ok true, c, net⟩
  else c.sendMessageItem ext fuel c.receiveProperties.toItem net

/-- The method `sendItem(item, consumer_name)`: the message holds "consumer_name" and
"item". -/
def TcpConnection.sendItem (ext : External) (fuel : Nat) (c : TcpConnection) (item : Item)
    (consumer_name : String) (net : Network) : Option (Ended Bool) :=
  c.sendMessageItem ext fuel
    ((Item.default.setKey "consumer_name"
        (Item.default.assignNative (.string consumer_name))).setKey "item" item) net

/-- The method `_disconnect()` (POSIX branch): the client handle becomes -1, an open
socket is closed, and the socket handle becomes `invalidSocket`. -/
def TcpConnection.disconnect (c : TcpConnection) (net : Network) : TcpConnection × Network :=
  if c.socketConnected then
    ({ c with fdClient := -1, fdSocket := -1 }, { net with closed := net.closed ++ [c.fdSocket] })
  else ({ c with fdClient := -1, fdSocket := -1 }, net)

/-- The method `_connect()` (POSIX branch). The result of
`sendUpdateReceiveProperties()` is not looked at; an exception it throws leaves
`_connect`. -/
def TcpConnection.connect (ext : External) (fuel : Nat) (c : TcpConnection) (net : Network) :
    Option (Ended Unit) :=
  if !c.connected then
    if !({ c with fdSocket := net.socketResult } : TcpConnection).socketConnected then
      some ⟨.ok (), { c with fdSocket := net.socketResult }, net⟩
    else if net.inetPtonResult ≤ 0 then
      some ⟨.throw (.runtimeError "Invalid address!"), { c with fdSocket := net.socketResult },
        net⟩
    else if !({ c with fdSocket := net.socketResult, fdClient := net.connectResult }
        : TcpConnection).connected then
      some ⟨.ok (),
        (TcpConnection.disconnect
          { c with fdSocket := net.socketResult, fdClient := net.connectResult } net).1,
        (TcpConnection.disconnect
          { c with fdSocket := net.socketResult, fdClient := net.connectResult } net).2⟩
    else
      match TcpConnection.sendUpdateReceiveProperties ext fuel
          { c with fdSocket := net.socketResult, fdClient := net.connectResult } net with
      | none => none
      | some ⟨.ok _, c1, net1⟩ =>
        some ⟨.ok (),
          { c1 with
            numberOfMessagesReceivedSinceStart := 0
            numberOfMessagesSentSinceStart := 0
            numberOfMessagesReceived := 0
            numberOfMessagesSent := 0
            timeSent := net1.now.1
            timeReceived := net1.now.2.now.1 },
          net1.now.2.now.2⟩
      | some ⟨.throw t, c1, net1⟩ => some ⟨.throw t, c1, net1⟩
      | some ⟨.undefinedBehaviour, c1, net1⟩ => some ⟨.undefinedBehaviour, c1, net1⟩
      | some ⟨.terminate, c1, net1⟩ => some ⟨.terminate, c1, net1⟩
  else some ⟨.ok (), c, net⟩

/-- The method `establishConnection()`: `_disconnect(); _connect();`. -/
def TcpConnection.establishConnection (ext : External) (fuel : Nat) (c : TcpConnection)
    (net : Network) : Option (Ended Unit) :=
  TcpConnection.connect ext fuel (c.disconnect net).1 (c.disconnect net).2

/-- The constructor of `TcpConnection`: the members are set, the handles are
`invalidSocket` and -1, the counters 0, and `establishConnection()` is called. -/
def TcpConnection.new (ext : External) (fuel : Nat) (remoteIp : String) (remotePort : Nat)
    (receiveProperties : ReceiveProperties) (timeoutMs : Nat) (net : Network) :
    Option (Ended Unit) :=
  TcpConnection.establishConnection ext fuel
    { remoteIp := remoteIp
      remotePort := remotePort
      receiveProperties := receiveProperties
      timeoutMs := timeoutMs
      fdSocket := -1
      fdClient := -1
      numberOfMessagesReceived := 0
      numberOfMessagesSent := 0
      numberOfMessagesReceivedSinceStart := 0
      numberOfMessagesSentSinceStart := 0
      timeSent := 0
      timeReceived := 0 } net

/-! ## Definitions that state the codec properties -/

/-- The registry Items for a list of (path, encoding name) pairs, as `registryEntry`
builds them. -/
def registryOf (entries : List (List String × String)) : List Item :=
  entries.map fun e => registryEntry e.1 e.2

/-- The encoding recorded for a path: that of the first pair with this path. -/
def recordedEncoding (entries : List (List String × String)) (path : List String) :
    Option String :=
  (entries.find? fun e => decide (e.1 = path)).map fun e => e.2

/-- Whether a call returned. -/
def Result.isOk {α : Type} : Result α → Bool
  | .ok _ => true
  | _ => false

mutual
/-- An Item without image leaves whose leaves both encoders can write: every tag
`OBJECT` stands on a map and every tag `ARRAY` on a vector, no tag is `MAT`, and the leaf
cases of both encoders return on every other Item. -/
def Item.imageFree : Item → Bool
  | .mk content contentType =>
    match contentType with
    | .OBJECT =>
      match content with
      | .map members => imageFreeMembers members
      | _ => false
    | .ARRAY =>
      match content with
      | .vector elements => imageFreeElements elements
      | _ => false
    | .MAT => false
    | _ => (item_to_json_leaf content contentType).isOk
        && (item_to_msgpack_leaf content contentType).isOk
/-- Every value of a map is `imageFree`. -/
def imageFreeMembers : List (String × Item) → Bool
  | [] => true
  | (_, value) :: rest => value.imageFree && imageFreeMembers rest
/-- Every element of a vector is `imageFree`. -/
def imageFreeElements : List Item → Bool
  | [] => true
  | value :: rest => value.imageFree && imageFreeElements rest
end


/-- A 1 x 1 image of three 8-bit channels. -/
def examplePixel : Mat := { rows := 1, cols := 1, depth := 0, channels := 3, data := [1, 2, 3] }

/-- The message whose "item" is an Object holding `examplePixel` under "image". -/
def exampleImageMessage : Item :=
  Item.ofNative (.itemMap
    [("item", Item.ofNative (.itemMap [("image", Item.ofNative (.value (.mat examplePixel)))]))])

/-! ## An example of the external collaborators -/

/-- The `count` bytes of `value`, most significant first. -/
def beBytes : Nat → Nat → List Nat
  | 0, _ => []
  | count + 1, value => value / 256 ^ count % 256 :: beBytes count value

/-- The value of a byte sequence read most significant byte first. -/
def beValue (bytes : List Nat) : Nat :=
  bytes.foldl (fun acc b => acc * 256 + b) 0

/-- The msgpack bytes of an unsigned integer in its shortest form. -/
def packUnsigned (n : Nat) : List Nat :=
  if n < 128 then [n]
  else if n < 256 then [204, n]
  else if n < 65536 then 205 :: beBytes 2 n
  else if n < 2 ^ 32 then 206 :: beBytes 4 n
  else 207 :: beBytes 8 n

/-- The msgpack bytes of a length header: the short form `fix + n` below `limit`,
otherwise the 16-bit or the 32-bit form. -/
def packLength (fix limit wide : Nat) (n : Nat) : List Nat :=
  if n < limit then [fix + n]
  else if n < 65536 then wide :: beBytes 2 n
  else (wide + 1) :: beBytes 4 n

/-- The msgpack bytes one packer call writes. -/
def packElement : MsgElement → List Nat
  | .mapHeader n => packLength 128 16 222 n
  | .arrayHeader n => packLength 144 16 220 n
  | .str s =>
    (if s.length < 32 then [160 + s.length]
     else if s.length < 256 then [217, s.length]
     else if s.length < 65536 then 218 :: beBytes 2 s.length
     else 219 :: beBytes 4 s.length) ++ stringToBytes s
  | .float32 bits => 202 :: beBytes 4 bits
  | .float64 (.ofFloat bits) => 203 :: beBytes 8 bits
  | .float64 (.ofDouble bits) => 203 :: beBytes 8 bits
  | .float64 (.ofLongDouble bits) => 203 :: beBytes 8 bits
  | .uint n => packUnsigned n
  | .int i =>
    if 0 ≤ i then packUnsigned i.toNat
    else if -32 ≤ i then [(256 + i).toNat]
    else if -128 ≤ i then [208, (256 + i).toNat]
    else if -32768 ≤ i then 209 :: beBytes 2 (65536 + i).toNat
    else if -(2 : Int) ^ 31 ≤ i then 210 :: beBytes 4 (2 ^ 32 + i).toNat
    else 211 :: beBytes 8 (2 ^ 64 + i).toNat
  | .boolTrue => [195]
  | .boolFalse => [194]
  | .nil => [192]
  | .bin bytes =>
    (if bytes.length < 256 then [196, bytes.length]
     else if bytes.length < 65536 then 197 :: beBytes 2 bytes.length
     else 198 :: beBytes 4 bytes.length) ++ bytes
  | .rawBytes bytes => bytes

/-- A signed integer read from `width` bytes in two's complement, as the reader reports
it: unsigned when it is not negative. -/
def readSigned (width : Nat) (bytes : List Nat) : MsgElement :=
  if beValue (bytes.take width) < 2 ^ (8 * width - 1) then .uint (beValue (bytes.take width))
  else .int ((beValue (bytes.take width) : Int) - 2 ^ (8 * width))

/-- The elements a reader finds in msgpack bytes, one per header or scalar; reading
stops at a byte that starts none of the forms `packElement` writes. -/
def readElements : Nat → List Nat → List MsgElement
  | 0, _ => []
  | _ + 1, [] => []
  | fuel + 1, b :: rest =>
    if b < 128 then .uint b :: readElements fuel rest
    else if b < 144 then .mapHeader (b - 128) :: readElements fuel rest
    else if b < 160 then .arrayHeader (b - 144) :: readElements fuel rest
    else if b < 192 then
      .str (bytesToString (rest.take (b - 160))) :: readElements fuel (rest.drop (b - 160))
    else if b = 192 then .nil :: readElements fuel rest
    else if b = 194 then .boolFalse :: readElements fuel rest
    else if b = 195 then .boolTrue :: readElements fuel rest
    else if b = 196 ∨ b = 197 ∨ b = 198 then
      .bin (((rest.drop (2 ^ (b - 196))).take (beValue (rest.take (2 ^ (b - 196))))))
        :: readElements fuel
            ((rest.drop (2 ^ (b - 196))).drop (beValue (rest.take (2 ^ (b - 196)))))
    else if b = 202 then .float32 (beValue (rest.take 4)) :: readElements fuel (rest.drop 4)
    else if b = 203 then
      .float64 (.ofDouble (beValue (rest.take 8))) :: readElements fuel (rest.drop 8)
    else if b = 204 ∨ b = 205 ∨ b = 206 ∨ b = 207 then
      .uint (beValue (rest.take (2 ^ (b - 204)))) :: readElements fuel (rest.drop (2 ^ (b - 204)))
    else if b = 208 ∨ b = 209 ∨ b = 210 ∨ b = 211 then
      readSigned (2 ^ (b - 208)) rest :: readElements fuel (rest.drop (2 ^ (b - 208)))
    else if b = 217 ∨ b = 218 ∨ b = 219 then
      .str (bytesToString
          ((rest.drop (2 ^ (b - 217))).take (beValue (rest.take (2 ^ (b - 217))))))
        :: readElements fuel
            ((rest.drop (2 ^ (b - 217))).drop (beValue (rest.take (2 ^ (b - 217)))))
    else if b = 220 ∨ b = 221 then
      .arrayHeader (beValue (rest.take (2 ^ (b - 219))))
        :: readElements fuel (rest.drop (2 ^ (b - 219)))
    else if b = 222 ∨ b = 223 then
      .mapHeader (beValue (rest.take (2 ^ (b - 221))))
        :: readElements fuel (rest.drop (2 ^ (b - 221)))
    else if 224 ≤ b then .int ((b : Int) - 256) :: readElements fuel rest
    else []

/-- An example of the external collaborators on a little-endian host: a msgpack writer
and reader for the forms above; an image "compression" that hands the pixel bytes on as
they are and refuses an empty buffer; the text format functions are absent (`dump` gives no bytes, `parse` fails),
and so are the conversions between floating-point formats. -/
def exampleExternal : External where
  host := .little
  jsonDump := fun _ => some []
  jsonParse := fun _ => none
  msgpackWrite := fun elements => (elements.map packElement).flatten
  msgpackRead := fun bytes => readElements bytes.length bytes
  imencode := fun _ image => image.data
  imdecode := fun bytes =>
    if bytes = [] then none
    else some { rows := 1, cols := bytes.length, depth := 0, channels := 1, data := bytes }
  toDouble := fun _ => 0

/-- A connection object before `establishConnection()`: both handles unset, the producer
"cam" with the encoding mode `JSON`, which the constructor of `ReceiveProperties` takes by
default, and the image stream. -/
def exampleUnconnected : TcpConnection :=
  { exampleConnection with
    fdSocket := -1
    fdClient := -1
    receiveProperties := ReceiveProperties.new "cam" EncodingMode.JSON 0 true false false }

/-! ## Definitions that state the stability of the registry -/

/-- The registry of a root: the vector stored under "encoded_elements" of an Object. -/
def regOf (r : Item) : Option (List Item) :=
  match r with
  | .mk (.map m) _ =>
    match mapFind "encoded_elements" m with
    | some (.mk (.vector reg) _) => some reg
    | _ => none
  | _ => none

/-- The registry of the root records the encoding `e` for the path `q`. -/
def Found (r : Item) (q : List String) (e : String) : Prop :=
  ∃ reg, regOf r = some reg ∧ registrySearch q reg = .ok (some e)

/-- The root `r1` records every encoding that `r` records. -/
def Ext (r r1 : Item) : Prop :=
  ∀ q e, Found r q e → Found r1 q e

/-- An Object without its member "encoded_elements"; any other Item as it is. -/
def stripRegistry (r : Item) : Item :=
  match r with
  | .mk (.map m) t => .mk (.map (m.filter fun kv => !decide (kv.1 = "encoded_elements"))) t
  | _ => r

/-- The registry of the root, if it has one, holds no image. -/
def regImageFree (r : Item) : Prop :=
  ∀ reg, regOf r = some reg → imageFreeElements reg = true

/-- A run of an encoder from the root `r` that returned `a` and the root `r1` is stable:
`r1` records what `r` recorded and differs from it at most in the registry, a registry
without images stayed so, a registry that existed still exists, and the same run from any root that records what `r1` records
returns `a` again and leaves that root as it is. -/
def StableRun {α : Type} (run : Item → Result (α × Item)) (r : Item) (a : α) (r1 : Item) :
    Prop :=
  Ext r r1 ∧ stripRegistry r1 = stripRegistry r ∧ (regImageFree r → regImageFree r1) ∧
    ((regOf r).isSome → (regOf r1).isSome) ∧
    ∀ r2, Ext r1 r2 → run r2 = .ok (a, r2)

/-- The registry of the member "item" of a message, if there is one, holds no image. -/
def itemRegistryImageFree (msg : Item) : Prop :=
  match msg with
  | .mk (.map ms) _ =>
    match mapFind "item" ms with
    | some item => regImageFree item
    | none => True
  | _ => True

/-- Two members with the same key whose values differ at most in the registry, the
second recording what the first records. -/
def SameButRegistry (a b : String × Item) : Prop :=
  a.1 = b.1 ∧ stripRegistry b.2 = stripRegistry a.2 ∧ Ext a.2 b.2

/-- The value type `msgpack::object` after `msgpack::unpack`. -/
inductive MsgObject
  | nil
  | boolean (b : Bool)
  | positiveInteger (n : Nat)
  | negativeInteger (i : Int)
  | float32 (bits : Nat)
  | float64 (f : FloatValue)
  | str (s : String)
  | bin (bytes : List Nat)
  | ext (bytes : List Nat)
  | array (elements : List MsgObject)
  | map (pairs : List (MsgObject × MsgObject))

mutual
/-- The object that starts a sequence of elements, and the elements after it: a header
is followed by that many objects or pairs; an integer that is not negative is a
`POSITIVE_INTEGER` whichever `pack_*` call wrote it; a body without header is no object.
`none` when the elements end too early or `fuel` is used up. -/
def unpackObject : Nat → List MsgElement → Option (MsgObject × List MsgElement)
  | 0, _ => none
  | _ + 1, [] => none
  | fuel + 1, e :: rest =>
    match e with
    | .mapHeader n => (unpackPairs fuel n rest).map fun r => (.map r.1, r.2)
    | .arrayHeader n => (unpackElements fuel n rest).map fun r => (.array r.1, r.2)
    | .str s => some (.str s, rest)
    | .float32 bits => some (.float32 bits, rest)
    | .float64 f => some (.float64 f, rest)
    | .uint n => some (.positiveInteger n, rest)
    | .int i => some (if 0 ≤ i then .positiveInteger i.toNat else .negativeInteger i, rest)
    | .boolTrue => some (.boolean true, rest)
    | .boolFalse => some (.boolean false, rest)
    | .nil => some (.nil, rest)
    | .bin bytes => some (.bin bytes, rest)
    | .rawBytes _ => none
/-- The next `n` objects of a sequence of elements. -/
def unpackElements : Nat → Nat → List MsgElement → Option (List MsgObject × List MsgElement)
  | _, 0, rest => some ([], rest)
  | 0, _ + 1, _ => none
  | fuel + 1, n + 1, rest =>
    match unpackObject fuel rest with
    | some (value, rest1) =>
      (unpackElements fuel n rest1).map fun r => (value :: r.1, r.2)
    | none => none
/-- The next `n` pairs of a key and a value of a sequence of elements. -/
def unpackPairs : Nat → Nat → List MsgElement →
    Option (List (MsgObject × MsgObject) × List MsgElement)
  | _, 0, rest => some ([], rest)
  | 0, _ + 1, _ => none
  | fuel + 1, n + 1, rest =>
    match unpackObject fuel rest with
    | some (key, rest1) =>
      match unpackObject fuel rest1 with
      | some (value, rest2) =>
        (unpackPairs fuel n rest2).map fun r => ((key, value) :: r.1, r.2)
      | none => none
    | none => none
end

/-! ## tcp_cli/Conversion.cpp: `msgpack_to_item` and `json_to_item` -/

/-- The payload `nullptr` of type `std::nullptr_t`, for which `deriveItemType` gives
`OTHER`. -/
def nullptrContent : Content := .other "std::nullptr_t" true []

/-- The statement `msgpack_to_item(rootItem[keyString], value)` or
`json_to_item(rootItem[key], value)` once the callee is given as `fill`: the child is
fetched with `operator[]`, which creates it when missing, filled, and written back. -/
def fillChild (rootItem : Item) (key : String) (fill : Item → Result Item) : Result Item :=
  match rootItem.index key with
  | (.ok (.item child), rootItem1) =>
    (fill child).bind fun child1 => .ok (rootItem1.setChild key child1)
  | (.ok _, _) => .undefinedBehaviour
  | (.throw e, _) => .throw (.invalidContent e)
  | (.undefinedBehaviour, _) => .undefinedBehaviour
  | (.terminate, _) => .terminate

mutual
/-- The function `msgpack_to_item(rootItem, root_result)`: the Item `rootItem` after the
call. A key is read through `key.via.str`, which is defined only for a `STR` object. -/
def msgpack_to_item (ext : External) : Item → MsgObject → Result Item
  | rootItem, .map pairs => msgpack_to_item_pairs ext rootItem pairs
  | rootItem, .array elements =>
    (msgpack_to_item_elements ext [] elements).bind fun vec_item =>
      .ok (rootItem.assignNative (.vector vec_item))
  | rootItem, .bin bytes => .ok (rootItem.assignNative (.string (bytesToString bytes)))
  | rootItem, .boolean b => .ok (rootItem.assignNative (.bool b))
  | rootItem, .ext bytes => .ok (rootItem.assignNative (.string (bytesToString bytes)))
  | rootItem, .float32 bits => .ok (rootItem.assignNative (.float bits))
  | rootItem, .float64 (.ofDouble bits) => .ok (rootItem.assignNative (.double bits))
  | rootItem, .float64 f => .ok (rootItem.assignNative (.double (ext.toDouble f)))
  | rootItem, .negativeInteger i => .ok (rootItem.assignNative (.int64 i))
  | rootItem, .nil => .ok (rootItem.assignNative nullptrContent)
  | rootItem, .positiveInteger n => .ok (rootItem.assignNative (.uint64 n))
  | rootItem, .str s => .ok (rootItem.assignNative (.string s))
/-- The loop `for (auto const &[key, value] : root_result.via.map)` of the `MAP` case. -/
def msgpack_to_item_pairs (ext : External) : Item → List (MsgObject × MsgObject) → Result Item
  | rootItem, [] => .ok rootItem
  | rootItem, (key, value) :: rest =>
    match key with
    | .str keyString =>
      (fillChild rootItem keyString fun child => msgpack_to_item ext child value).bind
        fun rootItem1 => msgpack_to_item_pairs ext rootItem1 rest
    | _ => .undefinedBehaviour
/-- The loop `for (const auto &value : root_result.via.array)` of the `ARRAY` case:
`vec_item.emplace_back(); msgpack_to_item(vec_item[vec_item.size() - 1], value);`. -/
def msgpack_to_item_elements (ext : External) : List Item → List MsgObject → Result (List Item)
  | vec_item, [] => .ok vec_item
  | vec_item, value :: rest =>
    (msgpack_to_item ext Item.default value).bind fun element =>
      msgpack_to_item_elements ext (vec_item ++ [element]) rest
end

mutual
/-- The function `json_to_item(rootItem, root_result)`. `is_number_integer()` holds for
signed and for unsigned integers, so the `is_number_unsigned()` branch is never taken
and every integer is read with `get<int64_t>()`, which wraps modulo 2^64. A `binary` or
`discarded` value is stored as a `json` payload. -/
def json_to_item (ext : External) : Item → Json → Result Item
  | rootItem, .object members => json_to_item_members ext rootItem members
  | rootItem, .array elements =>
    (json_to_item_elements ext [] elements).bind fun vec_item =>
      .ok (rootItem.assignNative (.vector vec_item))
  | rootItem, .numberFloat (.ofDouble bits) => .ok (rootItem.assignNative (.double bits))
  | rootItem, .numberFloat f => .ok (rootItem.assignNative (.double (ext.toDouble f)))
  | rootItem, .numberInteger i => .ok (rootItem.assignNative (.int64 i))
  | rootItem, .numberUnsigned n =>
    .ok (rootItem.assignNative (.int64 (if n < 2 ^ 63 then (n : Int) else (n : Int) - 2 ^ 64)))
  | rootItem, .null => .ok (rootItem.assignNative nullptrContent)
  | rootItem, .string s => .ok (rootItem.assignNative (.string s))
  | rootItem, .boolean b => .ok (rootItem.assignNative (.bool b))
  | rootItem, .binary bytes => .ok (rootItem.assignNative (.other "nlohmann::json" true bytes))
  | rootItem, .discarded => .ok (rootItem.assignNative (.other "nlohmann::json" true []))
/-- The loop `for (auto const &[key, value] : root_result.items())`. -/
def json_to_item_members (ext : External) : Item → List (String × Json) → Result Item
  | rootItem, [] => .ok rootItem
  | rootItem, (key, value) :: rest =>
    (fillChild rootItem key fun child => json_to_item ext child value).bind fun rootItem1 =>
      json_to_item_members ext rootItem1 rest
/-- The loop `for (auto const &value : root_result)` of the array case. -/
def json_to_item_elements (ext : External) : List Item → List Json → Result (List Item)
  | vec_item, [] => .ok vec_item
  | vec_item, value :: rest =>
    (json_to_item ext Item.default value).bind fun element =>
      json_to_item_elements ext (vec_item ++ [element]) rest
end

/-! ## tcp_cli/Conversion.cpp: `base64_decode` and `decodeItem` -/

/-- The 6-bit value of a character of the base64 alphabet. -/
def base64Value (c : Nat) : Option Nat :=
  if 65 ≤ c ∧ c ≤ 90 then some (c - 65)
  else if 97 ≤ c ∧ c ≤ 122 then some (c - 97 + 26)
  else if 48 ≤ c ∧ c ≤ 57 then some (c - 48 + 52)
  else if c = 43 then some 62
  else if c = 47 then some 63
  else none

/-- The loop of `boost::beast::detail::base64::decode`: the 6-bit values of the characters
up to the first one outside the alphabet, which the padding character is. -/
def base64Sextets : List Nat → List Nat
  | [] => []
  | c :: rest =>
    match base64Value c with
    | some v => v :: base64Sextets rest
    | none => []

/-- The bytes `boost::beast::detail::base64::decode` writes for a sequence of 6-bit
values: three for every four values, and one less than their number for the two or
three values that remain. -/
def base64Bytes : List Nat → List Nat
  | a :: b :: c :: d :: rest =>
    [a * 4 + b / 16, b % 16 * 16 + c / 4, c % 4 * 64 + d] ++ base64Bytes rest
  | [a, b, c] => [a * 4 + b / 16, b % 16 * 16 + c / 4]
  | [a, b] => [a * 4 + b / 16]
  | _ => []

/-- The function `base64_decode(src)`: a vector of `decoded_size(src.size())`, that is
`src.size() / 4 * 3`, zero bytes is made, and `boost::beast::detail::base64::decode`
writes the decoded bytes to its start without looking at its size; the bytes after them
keep the value 0. When the decoded bytes are more than the vector holds, which occurs
only for a size that is no multiple of 4 (two bytes for the three characters "abc", for
which the vector is empty), the write goes past the end of the vector. -/
def base64_decode (src : String) : Result (List Nat) :=
  if (base64Bytes (base64Sextets (stringToBytes src))).length ≤ src.length / 4 * 3 then
    .ok (base64Bytes (base64Sextets (stringToBytes src))
      ++ List.replicate
        (src.length / 4 * 3 - (base64Bytes (base64Sextets (stringToBytes src))).length) 0)
  else .undefinedBehaviour

/-- The call `as<PodType>(data, offset)` on a buffer of known size: `memcpy` of `size`
bytes from `data[offset]`, read in host order; past the buffer it is undefined
behaviour. -/
def readPod (host : Endian) (size : Nat) (data : List Nat) (offset : Nat) : Result Nat :=
  if offset + size ≤ data.length then .ok (asPod host size (data.drop offset))
  else .undefinedBehaviour

/-- The test `size == type_size and size != 0 and cvType > 0 and
cvType <= std::numeric_limits<int>::max()` that `decodeItem` applies to the pair
`[cvType, size]` returned by `numpyToOpencv`. -/
def rawMatAccepted (type_size : Nat) (r : Nat × Nat) : Bool :=
  decide (r.2 = type_size ∧ r.2 ≠ 0 ∧ r.1 > 0 ∧ r.1 ≤ 2 ^ 31 - 1)

/-- The "MAT_RAW" branch of `decodeItem` on the bytes that may be read at `data.get()`:
the image, or `none` where the code only logs a warning. No read is preceded by a test of
the size. `cv::Mat(width, height, cvType)` has `width` rows and `height` columns and takes
its depth and channel count from the low 12 bits of `cvType`; the `memcpy` into it reads
`uint32_t(width * height * channels * type_size)` bytes from offset 34; bytes of the
matrix it does not reach are taken as 0. -/
def decodeRawMat (ext : External) (data : List Nat) : Result (Option Mat) :=
  (readPod ext.host 1 data 0).bind fun type =>
  (readPod ext.host 1 data 1).bind fun type_size =>
  (readPod ext.host 8 data 2).bind fun dimensions =>
    if dimensions = 3 then
      (readPod ext.host 8 data 10).bind fun width =>
      (readPod ext.host 8 data 18).bind fun height =>
      (readPod ext.host 8 data 26).bind fun channels =>
        if rawMatAccepted type_size (numpyToOpencv type type_size channels) = true then
          if width < 2 ^ 31 - 1 ∧ height < 2 ^ 31 - 1 then
            let cvType := (numpyToOpencv type type_size channels).1
            let empty : Mat :=
              { rows := width, cols := height, depth := cvType % 8,
                channels := cvType % 4096 / 8 + 1, data := [] }
            let total := width * height * empty.channels * empty.elemSize1
            let count := width * height * channels * type_size % 2 ^ 64 % 2 ^ 32
            if 34 + count ≤ data.length ∧ count ≤ total then
              (cvtColor { empty with
                  data := (data.drop 34).take count ++ List.replicate (total - count) 0 }).bind
                fun mat => .ok (some mat)
            else .undefinedBehaviour
          else .ok none
        else .ok none
    else .ok none

/-- The Item with the Item found along the keys replaced by `f` of it. -/
def Item.updateAt (f : Item → Item) : List String → Item → Item
  | [], it => f it
  | key :: rest, .mk (.map m) t =>
    match mapFind key m with
    | some child => .mk (.map (mapReplace key (Item.updateAt f rest child) m)) t
    | none => .mk (.map m) t
  | _ :: _, it => it

/-- The loop `for (auto &&p : encodedPath) { if (content == nullptr) { break; }
content = content->find_at(p.at<std::string>()); }`: `content` is the Item reached and
the keys that lead to it from `item["item"]`, or null. -/
def followPath : Option (List String × Item) → List Item → Result (Option (List String × Item))
  | content, [] => .ok content
  | none, _ :: _ => .ok none
  | some (keys, current), p :: rest =>
    match p.atConst .string [] with
    | .ok (.payload (.string key)) =>
      match (current.find_atMut .item [.key key]).1 with
      | .ok (some (.item child)) => followPath (some (keys ++ [key], child)) rest
      | .ok none => followPath none rest
      | .ok (some _) => .undefinedBehaviour
      | .throw e => .throw (.invalidContent e)
      | .undefinedBehaviour => .undefinedBehaviour
      | .terminate => .terminate
    | .ok _ => .undefinedBehaviour
    | .throw e => .throw (.invalidContent e)
    | .undefinedBehaviour => .undefinedBehaviour
    | .terminate => .terminate

/-- The loop `for (auto &&p : encodedPath) { path.push_back(p.at<std::string>()); }` of
the warning branch. -/
def pathForWarning : List Item → Result (List String)
  | [] => .ok []
  | p :: rest =>
    match p.atConst .string [] with
    | .ok (.payload (.string key)) => (pathForWarning rest).bind fun keys => .ok (key :: keys)
    | .ok _ => .undefinedBehaviour
    | .throw e => .throw (.invalidContent e)
    | .undefinedBehaviour => .undefinedBehaviour
    | .terminate => .terminate

/-- The body of the `try` block for the Item `image` found at the path: the image to
assign, or `none` when nothing is assigned (a payload that is no string, whose
`InvalidContent` is caught, or one of the warnings of the "MAT_RAW" branch). In the text
mode `data` is the vector `base64_decode(payload)`; otherwise it refers to the
`std::string` itself, whose bytes are followed by the terminating 0, which may be read.
Every encoding name other than "MAT_RAW" leads to `cv::imdecode`, whose exception is not
caught. -/
def decodeImage (ext : External) (encodingMode : EncodingMode) (image : Item)
    (encoding : String) : Result (Option Mat) :=
  match image.as .string with
  | .ok (.payload (.string payload)) =>
    (if encodingMode = EncodingMode.JSON then base64_decode payload
      else .ok (stringToBytes payload)).bind fun data =>
      if encoding = "MAT_RAW" then
        decodeRawMat ext (if encodingMode = EncodingMode.JSON then data else data ++ [0])
      else
        match ext.imdecode data with
        | some matImg => .ok (some matImg)
        | none => .throw .cvException
  | .ok _ => .undefinedBehaviour
  | .throw _ => .ok none
  | .undefinedBehaviour => .undefinedBehaviour
  | .terminate => .terminate

/-- The body of the loop `for (auto &&encodedElement : encodedElements)` of `decodeItem`:
the message after the turn. -/
def decodeEncodedElement (ext : External) (encodingMode : EncodingMode) (item : Item)
    (encodedElement : Item) : Result Item :=
  match (encodedElement.atMut .item [.idx 0]).1 with
  | .ok (.item encodedPath) =>
    match (encodedElement.atMut .string [.idx 1]).1 with
    | .ok (.payload (.string encoding)) =>
      (item.child "item").bind fun c =>
        match encodedPath.value .vector false with
        | .ok (some (.vector pathItems)) =>
          (followPath (some ([], c.1)) pathItems).bind fun content =>
            match content with
            | some (keys, image) =>
              (decodeImage ext encodingMode image encoding).bind fun decoded =>
                match decoded with
                | some mat =>
                  .ok (c.2.updateAt (fun target => target.assignNative (.mat mat))
                    ("item" :: keys))
                | none => .ok c.2
            | none => (pathForWarning pathItems).bind fun _ => .ok c.2
        | .ok _ => .undefinedBehaviour
        | .throw e => .throw (.invalidContent e)
        | .undefinedBehaviour => .undefinedBehaviour
        | .terminate => .terminate
    | .ok _ => .undefinedBehaviour
    | .throw e => .throw (.invalidContent e)
    | .undefinedBehaviour => .undefinedBehaviour
    | .terminate => .terminate
  | .ok _ => .undefinedBehaviour
  | .throw e => .throw (.invalidContent e)
  | .undefinedBehaviour => .undefinedBehaviour
  | .terminate => .terminate

/-- The loop over the registry in `decodeItem`. -/
def decodeEncodedElements (ext : External) (encodingMode : EncodingMode) :
    Item → List Item → Result Item
  | item, [] => .ok item
  | item, encodedElement :: rest =>
    (decodeEncodedElement ext encodingMode item encodedElement).bind fun item1 =>
      decodeEncodedElements ext encodingMode item1 rest

/-- The first block of `decodeItem`: the buffer is parsed and turned into an Item.
`msgpack::unpack` reads the first object of the buffer and throws when there is none
(twice the number of elements is fuel enough for every buffer); `json::parse` throws on
text that is no JSON value. -/
def decodeWire (ext : External) (buffer : List Nat) (encodingMode : EncodingMode) :
    Result Item :=
  if encodingMode = EncodingMode.MSGPACK then
    match unpackObject (2 * (ext.msgpackRead buffer).length) (ext.msgpackRead buffer) with
    | some (upd, _) => msgpack_to_item ext Item.default upd
    | none => .throw .msgpackError
  else if encodingMode = EncodingMode.JSON then
    match ext.jsonParse buffer with
    | some parsed_result => json_to_item ext Item.default parsed_result
    | none => .throw .jsonError
  else .throw (.runtimeError "Encoding mode \x7b\x7d not implemented.")

/-- The function `decodeItem(buffer, bufferSize, encodingMode)`: the first block
(`decodeWire`), then, `if (item.contains("item"))`, the registry
`item.at<std::vector<Item>>("item", "encoded_elements")` is fetched and the loop over its
entries is run. -/
def decodeItem (ext : External) (buffer : List Nat) (encodingMode : EncodingMode) :
    Result Item :=
  (decodeWire ext buffer encodingMode).bind fun item =>
    match item.contains "item" with
    | .ok true =>
      match item.atMut .vector [.key "item", .key "encoded_elements"] with
      | (.ok (.payload (.vector encodedElements)), item1) =>
        decodeEncodedElements ext encodingMode item1 encodedElements
      | (.ok _, _) => .undefinedBehaviour
      | (.throw e, _) => .throw (.invalidContent e)
      | (.undefinedBehaviour, _) => .undefinedBehaviour
      | (.terminate, _) => .terminate
    | .ok false => .ok item
    | .throw e => .throw (.invalidContent e)
    | .undefinedBehaviour => .undefinedBehaviour
    | .terminate => .terminate

/-! ## Definitions that state the round trip -/

/-- The elements a reader reports for the elements written: an integer that is not
negative is reported unsigned, whichever call wrote it. -/
def MsgElement.canonical : MsgElement → MsgElement
  | .int i => if 0 ≤ i then .uint i.toNat else .int i
  | e => e

/-- The keys of a map stand in strictly increasing order, as the keys of a `std::map`
do. -/
def keysSorted : List (String × Item) → Bool
  | [] => true
  | (k, _) :: rest => rest.all (fun kv => keyLt k kv.1) && keysSorted rest

/-- No member is named "encoded_elements". -/
def noRegistryKey (members : List (String × Item)) : Bool :=
  members.all fun kv => !decide (kv.1 = "encoded_elements")

mutual
/-- A tree built only from Object, Array, Bool, String, signed or unsigned 64-bit integer
and float64 leaves, each tag standing on its payload, with every map, vector and string
below the size limit of the binary encoder. -/
def Item.plain : Item → Bool
  | .mk content contentType =>
    match contentType with
    | .OBJECT =>
      match content with
      | .map members =>
        decide (members.length < uint32Max) && plainMembers members
      | _ => false
    | .ARRAY =>
      match content with
      | .vector elements => decide (elements.length < uint32Max) && plainElements elements
      | _ => false
    | .BOOL =>
      match content with
      | .bool _ => true
      | _ => false
    | .STRING =>
      match content with
      | .string s => decide (s.length < uint32Max)
      | _ => false
    | .INT64 =>
      match content with
      | .int64 _ => true
      | _ => false
    | .UINT64 =>
      match content with
      | .uint64 _ => true
      | _ => false
    | .F64 =>
      match content with
      | .double _ => true
      | _ => false
    | _ => false
/-- Every value of a map is `plain`. -/
def plainMembers : List (String × Item) → Bool
  | [] => true
  | (_, value) :: rest => value.plain && plainMembers rest
/-- Every element of a vector is `plain`. -/
def plainElements : List Item → Bool
  | [] => true
  | value :: rest => value.plain && plainElements rest
end

mutual
/-- Every map of the tree holds its keys in strictly increasing order. -/
def Item.keyOrdered : Item → Bool
  | .mk content _ =>
    match content with
    | .map members => keysSorted members && keyOrderedMembers members
    | .vector elements => keyOrderedElements elements
    | _ => true
/-- Every value of a map is `keyOrdered`. -/
def keyOrderedMembers : List (String × Item) → Bool
  | [] => true
  | (_, value) :: rest => value.keyOrdered && keyOrderedMembers rest
/-- Every element of a vector is `keyOrdered`. -/
def keyOrderedElements : List Item → Bool
  | [] => true
  | value :: rest => value.keyOrdered && keyOrderedElements rest
end

mutual
/-- The tree with every signed 64-bit leaf that is not negative turned into the unsigned
64-bit leaf of the same value. -/
def retag : Item → Item
  | .mk content contentType =>
    match content with
    | .map members => .mk (.map (retagMembers members)) contentType
    | .vector elements => .mk (.vector (retagElements elements)) contentType
    | .int64 i =>
      if contentType = .INT64 ∧ 0 ≤ i then .mk (.uint64 i.toNat) .UINT64
      else .mk (.int64 i) contentType
    | other => .mk other contentType
/-- The values of a map retagged. -/
def retagMembers : List (String × Item) → List (String × Item)
  | [] => []
  | (key, value) :: rest => (key, retag value) :: retagMembers rest
/-- The elements of a vector retagged. -/
def retagElements : List Item → List Item
  | [] => []
  | value :: rest => retag value :: retagElements rest
end

mutual
/-- The elements the binary encoder writes for a `plain` tree. -/
def tokensOf : Item → List MsgElement
  | .mk content _ =>
    match content with
    | .map members => .mapHeader members.length :: membersTokens members
    | .vector elements => .arrayHeader elements.length :: elementsTokens elements
    | .bool b => [if b then .boolTrue else .boolFalse]
    | .string s => [.str s]
    | .int64 i => [.int i]
    | .uint64 n => [.uint n]
    | .double bits => [.float64 (.ofDouble bits)]
    | _ => [.nil]
/-- The elements written for the members of a map: each key and its value. -/
def membersTokens : List (String × Item) → List MsgElement
  | [] => []
  | (key, value) :: rest => .str key :: (tokensOf value ++ membersTokens rest)
/-- The elements written for the elements of a vector. -/
def elementsTokens : List Item → List MsgElement
  | [] => []
  | value :: rest => tokensOf value ++ elementsTokens rest
end

mutual
/-- The msgpack object a reader finds for a `plain` tree. -/
def objectOf : Item → MsgObject
  | .mk content _ =>
    match content with
    | .map members => .map (pairsOf members)
    | .vector elements => .array (objectsOf elements)
    | .bool b => .boolean b
    | .string s => .str s
    | .int64 i => if 0 ≤ i then .positiveInteger i.toNat else .negativeInteger i
    | .uint64 n => .positiveInteger n
    | .double bits => .float64 (.ofDouble bits)
    | _ => .nil
/-- The pairs of a map object. -/
def pairsOf : List (String × Item) → List (MsgObject × MsgObject)
  | [] => []
  | (key, value) :: rest => (.str key, objectOf value) :: pairsOf rest
/-- The elements of an array object. -/
def objectsOf : List Item → List MsgObject
  | [] => []
  | value :: rest => objectOf value :: objectsOf rest
end

/-- A top-level value of a message the round trip is stated for: `plain` and
`keyOrdered`, without a member "encoded_elements" when it is an Object, and, under the key
"item", an Object with room for the registry. -/
def topValueOk (kv : String × Item) : Bool :=
  kv.2.plain && kv.2.keyOrdered &&
    match kv.2 with
    | .mk (.map m) _ =>
      noRegistryKey m && (decide (kv.1 ≠ "item") || decide (m.length + 1 < uint32Max))
    | _ => decide (kv.1 ≠ "item")

/-- A message the round trip is stated for: an Object in key order, below the size limit,
whose values are `topValueOk`. -/
def roundTripMessage (msg : Item) : Bool :=
  match msg with
  | .mk (.map members) .OBJECT =>
    decide (members.length < uint32Max) && (keysSorted members && members.all topValueOk)
  | _ => false

/-- The message as `encodeItem` leaves it: the Object under "item", if there is one, has
gained the empty registry "encoded_elements". -/
def withRegistry (msg : Item) : Item :=
  match msg with
  | .mk (.map members) t =>
    match mapFind "item" members with
    | some (.mk (.map im) it) =>
      .mk (.map (mapReplace "item"
        (.mk (.map (mapStore "encoded_elements" (.mk (.vector []) .ARRAY) im)) it) members)) t
    | _ => msg
  | _ => msg

/-- The message in the order in which the binary encoder writes it: the member "item",
if it is an Object, comes last, and its registry is the last of its members. -/
def wireTree (msg : Item) : Item :=
  match msg with
  | .mk (.map members) t =>
    match mapFind "item" members with
    | some (.mk (.map im) it) =>
      .mk (.map ((members.filter fun kv => !decide (kv.1 = "item")) ++
        [("item", .mk (.map (im ++ [("encoded_elements", .mk (.vector []) .ARRAY)])) it)])) t
    | _ => msg
  | _ => msg

/-- The message whose only member "a" is the signed 64-bit integer 5. -/
def exampleSignedMessage : Item :=
  Item.ofNative (.itemMap [("a", Item.ofNative (.value (.int64 5)))])

/-- A message as `sendItem` builds it: a consumer name and an item holding the signed
64-bit integer 5 under "n". -/
def exampleItemMessage : Item :=
  Item.ofNative (.itemMap
    [("consumer_name", Item.ofNative (.value (.string "c"))),
     ("item", Item.ofNative (.itemMap [("n", Item.ofNative (.value (.int64 5)))]))])

/-! ## Example data for binary leaves and numbers -/

/-- The message whose only member "a" is the ByteArray 01 02 03. -/
def exampleBytesMessage : Item :=
  Item.ofNative (.itemMap [("a", Item.ofNative (.byteVector [1, 2, 3]))])

/-- The example collaborators with a text parser that knows the one text `{"a":5}`, for
which `json::parse` gives an object whose member "a" is the unsigned number 5. -/
def exampleTextExternal : External :=
  { exampleExternal with
    jsonParse := fun bytes =>
      if bytes = [123, 34, 97, 34, 58, 53, 125] then
        some (.object [("a", .numberUnsigned 5)])
      else none }

/-- A connection object before `establishConnection()`, as `exampleUnconnected`, with the
binary encoding mode. -/
def exampleBinaryUnconnected : TcpConnection :=
  { exampleUnconnected with
    receiveProperties := ReceiveProperties.new "cam" EncodingMode.MSGPACK 0 true false false }

/-- A network whose peer accepts the connection and answers -1 to every write. -/
def exampleRefusingNetwork : Network :=
  { exampleNetwork [] with sendResult := fun _ _ => -1 }

/-! ## Example data for the registry pass of `decodeItem` -/

/-- The bytes the example writer gives for a message whose member "item" holds a registry
with the one entry (`[path]`, `encoding`) and the member `leafKey` written as `leaf`. -/
def exampleRegistryBuffer (path encoding leafKey : String) (leaf : MsgElement) : List Nat :=
  exampleExternal.msgpackWrite
    [.mapHeader 1, .str "item", .mapHeader 2, .str "encoded_elements", .arrayHeader 1,
     .arrayHeader 2, .arrayHeader 1, .str path, .str encoding, .str leafKey, leaf]

/-- The message whose member "item" holds a registry with the one entry (`[path]`,
`encoding`) and the member `leafKey` with the value `leaf`. -/
def exampleRegistryMessage (path encoding leafKey : String) (leaf : Item) : Item :=
  Item.ofNative (.itemMap
    [("item", Item.ofNative (.itemMap
      [("encoded_elements", Item.mk (.vector (registryOf [([path], encoding)])) .ARRAY),
       (leafKey, leaf)]))])

/-- A raw image header that announces the kind 'u', the element width 1, three
dimensions, width 1, height 1 and 3 channels, with no pixel byte after it. -/
def exampleHeaderOnly : List Nat :=
  [117, 1] ++ [3, 0, 0, 0, 0, 0, 0, 0] ++ [1, 0, 0, 0, 0, 0, 0, 0] ++ [1, 0, 0, 0, 0, 0, 0, 0]
    ++ [3, 0, 0, 0, 0, 0, 0, 0]

/-! ## tcp_cli/TcpConnection: `receiveItem` -/

/-- The method `receiveItem()`, declared `noexcept`: the frame is received with
`receiveMessage()`; when both optionals hold a value the payload is handed to
`decodeItem`, otherwise `std::nullopt` is returned. No handler stands between
`decodeItem` and the `noexcept` boundary, so an exception leaving `decodeItem` calls
`std::terminate`. `none` means `fuel` was used up. -/
def TcpConnection.receiveItem (ext : External) (fuel : Nat) (c : TcpConnection)
    (net : Network) : Option (Ended (Option Item)) :=
  match c.receiveMessage fuel net with
  | none => none
  | some ⟨some encodingMode, some buffer, c1, net1⟩ =>
    match decodeItem ext buffer encodingMode with
    | .ok item => some ⟨.ok (some item), c1, net1⟩
    | .throw _ => some ⟨.terminate, c1, net1⟩
    | .undefinedBehaviour => some ⟨.undefinedBehaviour, c1, net1⟩
    | .terminate => some ⟨.terminate, c1, net1⟩
  | some ⟨_, _, c1, net1⟩ => some ⟨.ok none, c1, net1⟩

/-! ## Example data for the receive path -/

/-- A connected connection as `exampleConnection`, with the timeout 0. -/
def exampleZeroTimeout : TcpConnection :=
  { exampleConnection with timeoutMs := 0 }

/-! ## Example data for images outside "item" -/

/-- The message with an empty "item" and, under "other", an Object holding `examplePixel`
under "img". -/
def exampleSideImageMessage : Item :=
  Item.ofNative (.itemMap
    [("item", Item.default),
     ("other", Item.ofNative (.itemMap [("img", Item.ofNative (.value (.mat examplePixel)))]))])

/-- The message `exampleSideImageMessage` after an encode that prefers "IMAGE_PNG": "item"
has an empty registry and "other" a registry that records the path "img". -/
def exampleSideImageEncoded : Item :=
  Item.ofNative (.itemMap
    [("item", Item.ofNative (.itemMap
        [("encoded_elements", Item.mk (.vector []) .ARRAY)])),
     ("other", Item.ofNative (.itemMap
        [("encoded_elements", Item.mk (.vector (registryOf [(["img"], "IMAGE_PNG")])) .ARRAY),
         ("img", Item.ofNative (.value (.mat examplePixel)))]))])

/-! ## Definitions that state how a registry grows -/

/-- The entries of the registry of a root; none when it has no registry. -/
def regList (r : Item) : List Item :=
  (regOf r).getD []

/-- The test of the search loop of the `MAT` case on one entry: its first element
compares equal to `path`. -/
def entryHasPath (path : List String) (encodedElement : Item) : Bool :=
  match (encodedElement.atMut .item [.idx 0]).1 with
  | .ok (.item encodedPath) =>
    match encodedPath.eqStringVector path with
    | .ok true => true
    | _ => false
  | _ => false

/-- At most one entry per distinct path: for every path at most one entry of the registry
is an entry of that path. -/
def OnePerPath (reg : List Item) : Prop :=
  ∀ path, (reg.filter (entryHasPath path)).length ≤ 1

/-- The registry `item.encoded_elements` of a message; no entries when the message has no
member "item" or "item" has no registry. -/
def itemRegistry (msg : Item) : List Item :=
  match msg with
  | .mk (.map ms) _ =>
    match mapFind "item" ms with
    | some item => regList item
    | none => []
  | _ => []

/-- The root `r1` has grown out of the root `r`: it differs from `r` at most in its
registry, it records every encoding `r` records, its registry holds the entries of `r`
followed by further entries, it has at most one entry per path if `r` had, and it has a
registry if `r` had one. -/
def Grows (r r1 : Item) : Prop :=
  stripRegistry r1 = stripRegistry r ∧ Ext r r1 ∧ (∃ added, regList r1 = regList r ++ added) ∧
    (OnePerPath (regList r) → OnePerPath (regList r1)) ∧
    ((regOf r).isSome → (regOf r1).isSome)

/-- Two members with the same key, the value of the second grown out of the value of the
first. -/
def MemberGrows (a b : String × Item) : Prop :=
  a.1 = b.1 ∧ Grows a.2 b.2

/-! ## Example data for images that share a path -/

/-- The message whose "item" holds, under "imgs", an Array of two images; both leaves
have the path "imgs". -/
def exampleImagePairMessage : Item :=
  Item.ofNative (.itemMap
    [("item", Item.ofNative (.itemMap
      [("imgs", Item.mk (.vector [Item.ofNative (.value (.mat examplePixel)),
          Item.ofNative (.value (.mat examplePixel))]) .ARRAY)]))])

/-- The message `exampleImagePairMessage` after an encode that prefers "IMAGE_PNG": the
registry of its item holds one entry, for the path "imgs". -/
def exampleImagePairEncoded : Item :=
  Item.ofNative (.itemMap
    [("item", Item.ofNative (.itemMap
      [("encoded_elements", Item.mk (.vector (registryOf [(["imgs"], "IMAGE_PNG")])) .ARRAY),
       ("imgs", Item.mk (.vector [Item.ofNative (.value (.mat examplePixel)),
          Item.ofNative (.value (.mat examplePixel))]) .ARRAY)]))])

/-- The bytes of `exampleImagePairMessage` in the binary mode: a map of one pair, "item",
whose value is a map of two pairs, "imgs" with an array of two strings, and
"encoded_elements" with an array of one entry. -/
def exampleImagePairBytes : List Nat :=
  [129, 164, 105, 116, 101, 109, 130, 164, 105, 109, 103, 115, 146, 164, 65, 81, 73, 68, 164,
    65, 81, 73, 68, 176, 101, 110, 99, 111, 100, 101, 100, 95, 101, 108, 101, 109, 101, 110, 116,
    115, 145, 146, 145, 164, 105, 109, 103, 115, 169, 73, 77, 65, 71, 69, 95, 80, 78, 71]

/-! ## Definitions that state the round trip through the text encoding -/

/-- The key holds no NUL character, so that `key.c_str()` names the whole key. -/
def nulFree (key : String) : Bool :=
  key.data.all fun c => !decide (c.toNat = 0)

mutual
/-- A tree built only from Object, Array, Bool, String, integer and float leaves, each
tag standing on its payload, every integer below 2^63, no key holding a NUL character. -/
def Item.textPlain : Item → Bool
  | .mk content contentType =>
    decide (contentType = deriveItemType content.cppType) &&
      match content with
      | .map members => textPlainMembers members
      | .vector elements => textPlainElements elements
      | .float _ => true
      | .double _ => true
      | .longDouble _ => true
      | .uint8 n => decide (n < 2 ^ 63)
      | .uint16 n => decide (n < 2 ^ 63)
      | .uint32 n => decide (n < 2 ^ 63)
      | .uint64 n => decide (n < 2 ^ 63)
      | .int8 i => decide (i < 2 ^ 63)
      | .int16 i => decide (i < 2 ^ 63)
      | .int32 i => decide (i < 2 ^ 63)
      | .int64 i => decide (i < 2 ^ 63)
      | .bool _ => true
      | .string _ => true
      | _ => false
/-- Every key of a map is `nulFree` and every value `textPlain`. -/
def textPlainMembers : List (String × Item) → Bool
  | [] => true
  | (key, value) :: rest => nulFree key && value.textPlain && textPlainMembers rest
/-- Every element of a vector is `textPlain`. -/
def textPlainElements : List Item → Bool
  | [] => true
  | value :: rest => value.textPlain && textPlainElements rest
end

mutual
/-- The tree with every integer leaf retagged as the signed 64-bit leaf of the same value
and every float leaf as the 64-bit float leaf of the value it converts to. -/
def Item.textNormal (ext : External) : Item → Item
  | .mk content contentType =>
    match content with
    | .map members => .mk (.map (textNormalMembers ext members)) contentType
    | .vector elements => .mk (.vector (textNormalElements ext elements)) contentType
    | .float bits => .mk (.double (ext.toDouble (.ofFloat bits))) .F64
    | .double bits => .mk (.double bits) .F64
    | .longDouble bits => .mk (.double (ext.toDouble (.ofLongDouble bits))) .F64
    | .uint8 n => .mk (.int64 n) .INT64
    | .uint16 n => .mk (.int64 n) .INT64
    | .uint32 n => .mk (.int64 n) .INT64
    | .uint64 n => .mk (.int64 n) .INT64
    | .int8 i => .mk (.int64 i) .INT64
    | .int16 i => .mk (.int64 i) .INT64
    | .int32 i => .mk (.int64 i) .INT64
    | .int64 i => .mk (.int64 i) .INT64
    | other => .mk other contentType
/-- The values of a map normalised. -/
def textNormalMembers (ext : External) : List (String × Item) → List (String × Item)
  | [] => []
  | (key, value) :: rest => (key, value.textNormal ext) :: textNormalMembers ext rest
/-- The elements of a vector normalised. -/
def textNormalElements (ext : External) : List Item → List Item
  | [] => []
  | value :: rest => value.textNormal ext :: textNormalElements ext rest
end

mutual
/-- The json value the text encoder assigns for a `textPlain` tree. -/
def jsonOf : Item → Json
  | .mk content _ =>
    match content with
    | .map members => .object (jsonMembersOf members)
    | .vector elements => .array (jsonElementsOf elements)
    | .float bits => .numberFloat (.ofFloat bits)
    | .double bits => .numberFloat (.ofDouble bits)
    | .longDouble bits => .numberFloat (.ofLongDouble bits)
    | .uint8 n => .numberUnsigned n
    | .uint16 n => .numberUnsigned n
    | .uint32 n => .numberUnsigned n
    | .uint64 n => .numberUnsigned n
    | .int8 i => .numberInteger i
    | .int16 i => .numberInteger i
    | .int32 i => .numberInteger i
    | .int64 i => .numberInteger i
    | .bool b => .boolean b
    | .string s => .string s
    | _ => .null
/-- The members of the json object of a map. -/
def jsonMembersOf : List (String × Item) → List (String × Json)
  | [] => []
  | (key, value) :: rest => (key, jsonOf value) :: jsonMembersOf rest
/-- The elements of the json array of a vector. -/
def jsonElementsOf : List Item → List Json
  | [] => []
  | value :: rest => jsonOf value :: jsonElementsOf rest
end

mutual
/-- The value `json::parse` gives for the text `dump` wrote for a value: an integer that
is not negative is parsed as an unsigned number, whichever kind of number was dumped. -/
def Json.canonical : Json → Json
  | .numberInteger i => if 0 ≤ i then .numberUnsigned i.toNat else .numberInteger i
  | .array elements => .array (canonicalElements elements)
  | .object members => .object (canonicalMembers members)
  | .null => .null
  | .boolean b => .boolean b
  | .numberUnsigned n => .numberUnsigned n
  | .numberFloat f => .numberFloat f
  | .string s => .string s
  | .binary bytes => .binary bytes
  | .discarded => .discarded
/-- The members of an object as parsed. -/
def canonicalMembers : List (String × Json) → List (String × Json)
  | [] => []
  | (key, value) :: rest => (key, value.canonical) :: canonicalMembers rest
/-- The elements of an array as parsed. -/
def canonicalElements : List Json → List Json
  | [] => []
  | value :: rest => value.canonical :: canonicalElements rest
end

/-- A top-level member of a message the text round trip is stated for: the key is
`nulFree`, the value `textPlain` and `keyOrdered`, and without a member
"encoded_elements" when it is an Object. -/
def textTopOk (kv : String × Item) : Bool :=
  nulFree kv.1 && kv.2.textPlain && kv.2.keyOrdered &&
    match kv.2 with
    | .mk (.map m) _ => noRegistryKey m
    | _ => true

/-- A message the text round trip is stated for: an Object in key order whose members are
`textTopOk` and whose member "item" is an Object. -/
def textMessage (msg : Item) : Bool :=
  match msg with
  | .mk (.map members) .OBJECT =>
    keysSorted members && members.all textTopOk &&
      match mapFind "item" members with
      | some (.mk (.map _) _) => true
      | _ => false
  | _ => false

/-- The example collaborators with a text library that knows one text: `json::dump`
gives `text`, and `json::parse` gives `value` for `text`. -/
def tableTextExternal (text : List Nat) (value : Json) : External :=
  { exampleExternal with
    jsonDump := fun _ => some text
    jsonParse := fun bytes => if bytes = text then some value else none }

/-- The message whose item holds the 8-bit unsigned integer 5 under "n" and the 32-bit
signed integer -2 under "z". -/
def exampleNumbersMessage : Item :=
  Item.ofNative (.itemMap
    [("item", Item.ofNative (.itemMap
      [("n", Item.ofNative (.value (.uint8 5))), ("z", Item.ofNative (.value (.int32 (-2))))]))])

/-- The bytes of the text `{"item":{"encoded_elements":[],"n":5,"z":-2}}`. -/
def exampleNumbersText : List Nat :=
  [123, 34, 105, 116, 101, 109, 34, 58, 123, 34, 101, 110, 99, 111, 100, 101, 100, 95, 101, 108,
    101, 109, 101, 110, 116, 115, 34, 58, 91, 93, 44, 34, 110, 34, 58, 53, 44, 34, 122, 34, 58,
    45, 50, 125, 125]

/-- The value of the text `exampleNumbersText`. -/
def exampleNumbersJson : Json :=
  .object [("item", .object [("encoded_elements", .array []), ("n", .numberUnsigned 5),
    ("z", .numberInteger (-2))])]

/-- The message whose item holds the ByteArray 01 02 03 under "b". -/
def exampleItemBytesMessage : Item :=
  Item.ofNative (.itemMap
    [("item", Item.ofNative (.itemMap [("b", Item.ofNative (.byteVector [1, 2, 3]))]))])

/-- The bytes of the text `{"item":{"b":[1,2,3],"encoded_elements":[]}}`. -/
def exampleItemBytesText : List Nat :=
  [123, 34, 105, 116, 101, 109, 34, 58, 123, 34, 98, 34, 58, 91, 49, 44, 50, 44, 51, 93, 44, 34,
    101, 110, 99, 111, 100, 101, 100, 95, 101, 108, 101, 109, 101, 110, 116, 115, 34, 58, 91, 93,
    125, 125]

/-- The value of the text `exampleItemBytesText`. -/
def exampleItemBytesJson : Json :=
  .object [("item", .object [("b", .array [.numberUnsigned 1, .numberUnsigned 2,
    .numberUnsigned 3]), ("encoded_elements", .array [])])]

/-! ## Definitions that state which paths an encode records -/

mutual
/-- The paths of the image leaves of `item`, in the order of its members and elements:
the keys from the root down to the leaf, the elements of an Array having the path of the
Array. The member "encoded_elements" of the root itself, its registry, is not looked
at. -/
def imagePaths : Place → List String → Item → List (List String)
  | place, path, .mk content contentType =>
    match contentType with
    | .OBJECT =>
      match content with
      | .map members => imagePathsMembers place path members
      | _ => []
    | .ARRAY =>
      match content with
      | .vector elements => imagePathsElements place path elements
      | _ => []
    | .MAT =>
      match content with
      | .mat _ => [path]
      | _ => []
    | _ => []
/-- The image paths below the members of an Object. -/
def imagePathsMembers : Place → List String → List (String × Item) → List (List String)
  | _, _, [] => []
  | place, path, (key, value) :: rest =>
    if place ≠ .root ∨ key ≠ "encoded_elements" then
      imagePaths place.child (path ++ [key]) value ++ imagePathsMembers place path rest
    else imagePathsMembers place path rest
/-- The image paths below the elements of an Array. -/
def imagePathsElements : Place → List String → List Item → List (List String)
  | _, _, [] => []
  | place, path, value :: rest =>
    imagePaths place.child path value ++ imagePathsElements place path rest
end

mutual
/-- Every Object and Array of the tree has fewer than 2^32 - 1 entries, the limit up to
which the binary encoder writes a container entry by entry. -/
def Item.packable : Item → Bool
  | .mk content _ =>
    match content with
    | .map members => decide (members.length < uint32Max) && packableMembers members
    | .vector elements => decide (elements.length < uint32Max) && packableElements elements
    | _ => true
/-- Every value of a map is `packable`. -/
def packableMembers : List (String × Item) → Bool
  | [] => true
  | (_, value) :: rest => value.packable && packableMembers rest
/-- Every element of a vector is `packable`. -/
def packableElements : List Item → Bool
  | [] => true
  | value :: rest => value.packable && packableElements rest
end

/-- A run from the root `r` to the root `r1` has recorded the paths `paths`: `r1` records
what `r` recorded and an encoding for every path of `paths`, and its registry holds the
entries of `r` followed by entries that are each the entry of a path of `paths` with the
default encoding. -/
def Records (preferred : String) (paths : List (List String)) (r r1 : Item) : Prop :=
  Ext r r1 ∧ (∀ q ∈ paths, ∃ e, Found r1 q e) ∧
    ∃ added, regList r1 = regList r ++ added ∧
      ∀ x ∈ added, ∃ q ∈ paths,
        x = registryEntry q (if preferred.isEmpty then "MAT_RAW" else preferred)


/-! ## Theorems: Item equality, constructors, crash freedom -/

/-- C1 (the code at the failing inputs): `operator==` between two Items answers `false`
for two empty Objects, and for every Array Item compared with a copy of itself. -/
theorem Item.eq_object_array_false :
    Item.eq Item.default Item.default = Outcome.ok false ∧
    ∀ v : List Item,
      Item.eq (Item.ofNative (.itemVector v)) (Item.ofNative (.itemVector v))
        = Outcome.ok false := by
  refine ⟨rfl, fun v => rfl⟩

/-- C7: every constructor from a native value, the assignment of a native value and the
copy/move assignment from an Item whose tag matches its payload give an Item whose tag is
`deriveItemType` of the stored payload; `Item()` is the empty Object with tag `OBJECT`. -/
theorem Item.tag_matches_payload (n : Native) (self other : Item) (c : Content)
    (h : other.tagMatchesPayload) :
    (Item.ofNative n).tagMatchesPayload ∧
    (self.assignNative c).tagMatchesPayload ∧
    (self.assign other).tagMatchesPayload ∧
    Item.default.tagMatchesPayload ∧
    Item.default = Item.mk (Content.map []) ItemType.OBJECT := by
  refine ⟨?_, rfl, ?_, rfl, rfl⟩
  · cases n <;> simp [Item.ofNative, Item.tagMatchesPayload, Item.contentType, Item.content,
      Content.cppType, deriveItemType]
  · simpa [Item.assign, Item.tagMatchesPayload, Item.contentType, Item.content] using h

/-- C7 at a concrete input: a vector of two doubles, the assignment of a string, and the
copy of a byte array Item. -/
theorem Item.tag_matches_payload_witness :
    (Item.ofNative (.vectorOf [.value (.double 0), .value (.double 1)])).tagMatchesPayload ∧
    (Item.default.assignNative (.string "a")).tagMatchesPayload ∧
    (Item.default.assign (Item.ofNative (.byteVector [1, 2]))).tagMatchesPayload ∧
    Item.default.tagMatchesPayload ∧
    Item.default = Item.mk (Content.map []) ItemType.OBJECT :=
  Item.tag_matches_payload (.vectorOf [.value (.double 0), .value (.double 1)])
    Item.default (Item.ofNative (.byteVector [1, 2])) (.string "a") rfl

/-- C6 (the code at the failing input): `at(0)` on an empty Array, const and mutable, and
`at(0, "k")` as the first segment of a longer path, reach the unchecked
`(*parent)[identifier]` outside the vector instead of throwing `InvalidContent`. -/
theorem Item.at_index_out_of_range :
    Item.atConst .item (Item.ofNative (.itemVector [])) [.idx 0] = Outcome.undefinedBehaviour ∧
    (Item.atMut .item (Item.ofNative (.itemVector [])) [.idx 0]).1 = Outcome.undefinedBehaviour ∧
    Item.atConst .item (Item.ofNative (.itemVector [])) [.idx 0, .key "k"]
      = Outcome.undefinedBehaviour := by
  refine ⟨rfl, rfl, rfl⟩

/-- C8 (the code at the failing input): `contains("k")` on an Item holding a double lets
`InvalidContent` leave a `noexcept` function, which ends in `std::terminate`. -/
theorem Item.contains_non_object_terminates :
    Item.contains (Item.ofNative (.value (.double 0))) "k" = Outcome.terminate := by
  rfl

/-! ## Theorems: required access by keys -/

theorem value_of_map (ne : Bool) (m : List (String × Item)) (t : ItemType) :
    (Item.mk (.map m) t).value .map ne = .ok (some (.map m)) := by
  simp [Item.value, try_any_cast, Item.content, Content.cppType]

theorem value_not_map (it : Item) (h : ∀ m, it.content ≠ .map m) :
    it.value .map false = .throw ⟨.invalidContent it.content.cppType .map, []⟩ := by
  cases it with
  | mk c t =>
    cases c <;> simp_all [Item.value, try_any_cast, Item.content, Content.cppType]

theorem leafOf_false (T : CppType) (child : Item) :
    (child.holds T ∧ leafOf T false child = .ok (some (refOf T child))) ∨
    (¬ child.holds T ∧
      leafOf T false child = .throw ⟨.invalidContent child.content.cppType T, []⟩) := by
  by_cases hT : T = .item
  · left; simp [Item.holds, leafOf, refOf, hT]
  · by_cases hc : child.content.cppType = T
    · left
      simp [Item.holds, leafOf, refOf, hT, hc, Item.value, try_any_cast, Outcome.map]
    · right
      simp [Item.holds, leafOf, hT, hc, Item.value, try_any_cast, Outcome.map]


theorem resolveKeys_not_map (it : Item) (h : ∀ m, it.content ≠ .map m) (k : String)
    (ks : List String) : resolveKeys it (k :: ks) = none := by
  cases it with
  | mk c t =>
    cases c <;> first | rfl | exact absurd rfl (h _)

theorem resolveKeys_map (m : List (String × Item)) (t : ItemType) (k : String)
    (ks : List String) :
    resolveKeys (Item.mk (.map m) t) (k :: ks) =
      match mapFind k m with
      | some child => resolveKeys child ks
      | none => none := rfl

theorem resolveKeys_nil (it : Item) : resolveKeys it [] = some it := by
  cases it; rfl

theorem recordedNames_cons (k : String) (ks : List String) :
    recordedNames (k :: ks) = recordedNames ks ++ [(Seg.key k).format] := by
  simp [recordedNames]

theorem valueAt_keys_spec (T : CppType) : ∀ (ks : List String) (k : String) (it : Item),
    (∃ leaf, resolveKeys it (k :: ks) = some leaf ∧ leaf.holds T ∧
      it.valueAt T false ((k :: ks).map Seg.key) = .ok (some (refOf T leaf))) ∨
    (∃ e n, it.valueAt T false ((k :: ks).map Seg.key) = .throw e ∧
      n < (k :: ks).length ∧
      (resolveKeys it ((k :: ks).take n)).isSome ∧
      e.names = recordedNames ((k :: ks).take (n + 1)) ∧
      ((resolveKeys it ((k :: ks).take (n + 1)) = none ∧ resolveKeys it (k :: ks) = none) ∨
       (n + 1 = (k :: ks).length ∧
         ∃ leaf, resolveKeys it (k :: ks) = some leaf ∧ ¬ leaf.holds T))) := by
  intro ks
  induction ks with
  | nil =>
    intro k it
    cases it with
    | mk c t =>
      by_cases hm : ∃ m, c = .map m
      · obtain ⟨m, rfl⟩ := hm
        simp only [List.map, Item.valueAt, value_of_map]
        cases hf : mapFind k m with
        | none =>
          right
          refine ⟨InvalidContent.add ⟨.keyNotRegistered k, []⟩ (.key k), 0, ?_⟩
          simp [catchAdd, InvalidContent.add, resolveKeys, Item.content, hf, recordedNames]
        | some child =>
          rcases leafOf_false T child with ⟨h1, h2⟩ | ⟨h1, h2⟩
          · left
            refine ⟨child, ?_⟩
            simp [resolveKeys, Item.content, hf, h1, h2, catchAdd]
          · right
            refine ⟨InvalidContent.add ⟨.invalidContent child.content.cppType T, []⟩ (.key k), 0, ?_⟩
            simp [resolveKeys, Item.content, hf, h1, h2, catchAdd, InvalidContent.add,
              recordedNames]
      · right
        have hnm : ∀ m, (Item.mk c t).content ≠ .map m := by
          intro m hc; exact hm ⟨m, by simpa [Item.content] using hc⟩
        refine ⟨InvalidContent.add ⟨.invalidContent c.cppType .map, []⟩ (.key k), 0, ?_⟩
        simp only [List.map, Item.valueAt, value_not_map _ hnm]
        simp [catchAdd, InvalidContent.add, recordedNames, resolveKeys_not_map _ hnm,
          resolveKeys_nil, Item.content]
  | cons k2 ks ih =>
    intro k it
    have hne : (List.map Seg.key (k2 :: ks) = [] → False) := by simp
    cases it with
    | mk c t =>
      by_cases hm : ∃ m, c = .map m
      · obtain ⟨m, rfl⟩ := hm
        simp only [List.map] at hne ⊢
        rw [Item.valueAt.eq_4 _ _ _ _ _ hne]
        simp only [value_of_map]
        cases hf : mapFind k m with
        | none =>
          right
          refine ⟨InvalidContent.add ⟨.keyNotRegistered k, []⟩ (.key k), 0, ?_⟩
          simp [catchAdd, InvalidContent.add, resolveKeys_map, hf, recordedNames, resolveKeys_nil]
        | some child =>
          rcases ih k2 child with ⟨leaf, h1, h2, h3⟩ | ⟨e, n, h1, h2, h3, h4, h5⟩
          · left
            refine ⟨leaf, ?_⟩
            simp only [List.map] at h3
            simp [resolveKeys_map, hf, h1, h2, h3, catchAdd]
          · right
            refine ⟨e.add (.key k), n + 1, ?_⟩
            simp only [List.map] at h1
            refine ⟨by simp [h1, catchAdd], by simpa using h2, ?_, ?_, ?_⟩
            · simpa [List.take, resolveKeys_map, hf] using h3
            · simp only [List.take, recordedNames_cons, InvalidContent.add, h4]
            · rcases h5 with ⟨h5, h6⟩ | ⟨h5, leaf, h6, h7⟩
              · left
                exact ⟨by simpa [List.take, resolveKeys_map, hf] using h5,
                  by simpa [resolveKeys_map, hf] using h6⟩
              · right
                exact ⟨by simpa using h5, leaf, by simpa [resolveKeys_map, hf] using h6, h7⟩
      · right
        have hnm : ∀ m, (Item.mk c t).content ≠ .map m := by
          intro m hc; exact hm ⟨m, by simpa [Item.content] using hc⟩
        refine ⟨InvalidContent.add ⟨.invalidContent c.cppType .map, []⟩ (.key k), 0, ?_⟩
        simp only [List.map] at hne ⊢
        rw [Item.valueAt.eq_4 _ _ _ _ _ hne]
        simp only [value_not_map _ hnm]
        simp [catchAdd, InvalidContent.add, recordedNames, resolveKeys_not_map _ hnm,
          resolveKeys_nil, Item.content]

/-- C2: for a const Item and a non-empty path of keys, `at<T>` throws `InvalidContent`
exactly when a segment does not resolve or the terminal value is not of type `T`;
otherwise it returns the terminal value.  The recorded call stack is the path up to and
including the failing segment (position `n`), innermost segment first. -/
theorem Item.atConst_keys (T : CppType) (it : Item) (k : String) (ks : List String) :
    ((∃ e, it.atConst T ((k :: ks).map Seg.key) = Outcome.throw e) ↔
      (resolveKeys it (k :: ks) = none ∨
        ∃ leaf, resolveKeys it (k :: ks) = some leaf ∧ ¬ leaf.holds T)) ∧
    (∀ e, it.atConst T ((k :: ks).map Seg.key) = Outcome.throw e →
      ∃ n, n < (k :: ks).length ∧
        (resolveKeys it ((k :: ks).take n)).isSome ∧
        (resolveKeys it ((k :: ks).take (n + 1)) = none ∨
          (n + 1 = (k :: ks).length ∧
            ∃ leaf, resolveKeys it (k :: ks) = some leaf ∧ ¬ leaf.holds T)) ∧
        e.names = recordedNames ((k :: ks).take (n + 1))) ∧
    (∀ leaf, resolveKeys it (k :: ks) = some leaf → leaf.holds T →
      it.atConst T ((k :: ks).map Seg.key) = Outcome.ok (refOf T leaf)) := by
  rcases valueAt_keys_spec T ks k it with ⟨leaf, h1, h2, h3⟩ | ⟨e, n, h1, h2, h3, h4, h5⟩
  · have hat : it.atConst T ((k :: ks).map Seg.key) = Outcome.ok (refOf T leaf) := by
      unfold Item.atConst; rw [h3]; rfl
    refine ⟨?_, ?_, ?_⟩
    · constructor
      · rintro ⟨e, he⟩
        rw [hat] at he
        cases he
      · rintro (h | ⟨leaf', h, h'⟩)
        · rw [h1] at h
          cases h
        · rw [h1] at h
          cases h
          exact absurd h2 h'
    · intro e he
      rw [hat] at he
      cases he
    · intro leaf' hl _
      rw [h1] at hl
      cases hl
      exact hat
  · have hat : it.atConst T ((k :: ks).map Seg.key) = Outcome.throw e := by
      unfold Item.atConst; rw [h1]; rfl
    refine ⟨?_, ?_, ?_⟩
    · constructor
      · intro _
        rcases h5 with ⟨_, h6⟩ | ⟨_, leaf, h6, h7⟩
        · exact Or.inl h6
        · exact Or.inr ⟨leaf, h6, h7⟩
      · intro _
        exact ⟨e, hat⟩
    · intro e' he
      rw [hat] at he
      cases he
      refine ⟨n, h2, h3, ?_, h4⟩
      rcases h5 with ⟨h5, _⟩ | ⟨h5, leaf, h6, h7⟩
      · exact Or.inl h5
      · exact Or.inr ⟨h5, leaf, h6, h7⟩
    · intro leaf hl hh
      rcases h5 with ⟨_, h6⟩ | ⟨_, leaf', h6, h7⟩
      · rw [h6] at hl
        cases hl
      · rw [h6] at hl
        cases hl
        exact absurd hh h7

/-! ## Theorems: optional access against required access -/

theorem value_of_vector (ne : Bool) (v : List Item) (t : ItemType) :
    (Item.mk (.vector v) t).value .vector ne = .ok (some (.vector v)) := by
  simp [Item.value, try_any_cast, Item.content, Content.cppType]

theorem value_not_vector (it : Item) (h : ∀ v, it.content ≠ .vector v) :
    it.value .vector false = .throw ⟨.invalidContent it.content.cppType .vector, []⟩ := by
  cases it with
  | mk c t =>
    cases c <;> simp_all [Item.value, try_any_cast, Item.content, Content.cppType]

theorem value_not_map_true (it : Item) (h : ∀ m, it.content ≠ .map m) :
    it.value .map true = .ok none := by
  cases it with
  | mk c t =>
    cases c <;> simp_all [Item.value, try_any_cast, Item.content, Content.cppType]

theorem value_not_vector_true (it : Item) (h : ∀ v, it.content ≠ .vector v) :
    it.value .vector true = .ok none := by
  cases it with
  | mk c t =>
    cases c <;> simp_all [Item.value, try_any_cast, Item.content, Content.cppType]

theorem leafOf_true (T : CppType) (child : Item) :
    (child.holds T ∧ leafOf T true child = .ok (some (refOf T child))) ∨
    (¬ child.holds T ∧ leafOf T true child = .ok none) := by
  by_cases hT : T = .item
  · left; simp [Item.holds, leafOf, refOf, hT]
  · by_cases hc : child.content.cppType = T
    · left
      simp [Item.holds, leafOf, refOf, hT, hc, Item.value, try_any_cast, Outcome.map]
    · right
      simp [Item.holds, leafOf, hT, hc, Item.value, try_any_cast, Outcome.map]

/-- The two instantiations of a leaf access agree. -/
theorem leafOf_agree (T : CppType) (child : Item) :
    (∃ r, leafOf T true child = .ok (some r) ∧ leafOf T false child = .ok (some r)) ∨
    (leafOf T true child = .ok none ∧ ∃ e, leafOf T false child = .throw e) := by
  rcases leafOf_true T child with ⟨h1, h2⟩ | ⟨h1, h2⟩
  · rcases leafOf_false T child with ⟨_, h4⟩ | ⟨h3, _⟩
    · exact Or.inl ⟨_, h2, h4⟩
    · exact absurd h1 h3
  · rcases leafOf_false T child with ⟨h3, _⟩ | ⟨_, h4⟩
    · exact absurd h3 h1
    · exact Or.inr ⟨h2, _, h4⟩

theorem vecGet_lt {v : List Item} {i : Nat} {child : Item} (h : vecGet v i = some child) :
    i < v.length := by
  unfold vecGet at h
  exact (List.get?_eq_some.mp h).1

/-- One step of the traversal, both instantiations side by side (key segment). -/
theorem catchAdd_agree {α : Type} (s : Seg) (a b : Outcome (Option α))
    (h : (∃ r, a = .ok (some r) ∧ b = .ok (some r)) ∨ (a = .ok none ∧ ∃ e, b = .throw e)) :
    (∃ r, catchAdd true s a = .ok (some r) ∧ catchAdd false s b = .ok (some r)) ∨
    (catchAdd true s a = .ok none ∧ ∃ e, catchAdd false s b = .throw e) := by
  rcases h with ⟨r, h1, h2⟩ | ⟨h1, e, h2⟩
  · left; exact ⟨r, by simp [h1, catchAdd], by simp [h2, catchAdd]⟩
  · right; exact ⟨by simp [h1, catchAdd], e.add s, by simp [h2, catchAdd]⟩

theorem valueAt_agree (T : CppType) : ∀ (path : List Seg) (it : Item),
    indicesInRange it path = true →
    (∃ r, it.valueAt T true path = .ok (some r) ∧ it.valueAt T false path = .ok (some r)) ∨
    (it.valueAt T true path = .ok none ∧ ∃ e, it.valueAt T false path = .throw e) := by
  intro path
  induction path with
  | nil =>
    intro it _
    by_cases hc : it.content.cppType = T
    · left
      exact ⟨.payload it.content, by simp [Item.valueAt, Item.value, try_any_cast, hc, Outcome.map],
        by simp [Item.valueAt, Item.value, try_any_cast, hc, Outcome.map]⟩
    · right
      exact ⟨by simp [Item.valueAt, Item.value, try_any_cast, hc, Outcome.map],
        _, by simp [Item.valueAt, Item.value, try_any_cast, hc, Outcome.map]; rfl⟩
  | cons s rest ih =>
    intro it hr
    cases it with
    | mk c t =>
    cases s with
    | key k =>
      by_cases hm : ∃ m, c = .map m
      · obtain ⟨m, rfl⟩ := hm
        cases rest with
        | nil =>
          simp only [Item.valueAt, value_of_map]
          apply catchAdd_agree
          cases hf : mapFind k m with
          | none => right; simp [mapContains, hf]
          | some child => simpa [mapContains, hf] using leafOf_agree T child
        | cons s2 rest2 =>
          have hne : (s2 :: rest2 = [] → False) := by simp
          rw [Item.valueAt.eq_4 _ _ _ _ _ hne, Item.valueAt.eq_4 _ _ _ _ _ hne]
          simp only [value_of_map]
          apply catchAdd_agree
          cases hf : mapFind k m with
          | none => right; simp [mapContains, hf]
          | some child =>
            have hr' : indicesInRange child (s2 :: rest2) = true := by
              simpa [indicesInRange, Item.content, hf] using hr
            simpa [mapContains, hf] using ih child hr'
      · have hnm : ∀ m, (Item.mk c t).content ≠ .map m := by
          intro m hc; exact hm ⟨m, by simpa [Item.content] using hc⟩
        cases rest with
        | nil =>
          simp only [Item.valueAt, value_not_map _ hnm, value_not_map_true _ hnm]
          right; simp [catchAdd]
        | cons s2 rest2 =>
          have hne : (s2 :: rest2 = [] → False) := by simp
          rw [Item.valueAt.eq_4 _ _ _ _ _ hne, Item.valueAt.eq_4 _ _ _ _ _ hne]
          simp only [value_not_map _ hnm, value_not_map_true _ hnm]
          right; simp [catchAdd]
    | idx i =>
      by_cases hm : ∃ v, c = .vector v
      · obtain ⟨v, rfl⟩ := hm
        cases hf : vecGet v i with
        | none => simp [indicesInRange, Item.content, hf] at hr
        | some child =>
          have hlt : ¬ (i ≥ v.length) := by have := vecGet_lt hf; omega
          cases rest with
          | nil =>
            simp only [Item.valueAt, value_of_vector]
            apply catchAdd_agree
            simpa [hf, hlt] using leafOf_agree T child
          | cons s2 rest2 =>
            have hne : (s2 :: rest2 = [] → False) := by simp
            rw [Item.valueAt.eq_5 _ _ _ _ _ hne, Item.valueAt.eq_5 _ _ _ _ _ hne]
            simp only [value_of_vector]
            apply catchAdd_agree
            have hr' : indicesInRange child (s2 :: rest2) = true := by
              simpa [indicesInRange, Item.content, hf] using hr
            simpa [hf, hlt] using ih child hr'
      · have hnm : ∀ v, (Item.mk c t).content ≠ .vector v := by
          intro m hc; exact hm ⟨m, by simpa [Item.content] using hc⟩
        cases rest with
        | nil =>
          simp only [Item.valueAt, value_not_vector _ hnm, value_not_vector_true _ hnm]
          right; simp [catchAdd]
        | cons s2 rest2 =>
          have hne : (s2 :: rest2 = [] → False) := by simp
          rw [Item.valueAt.eq_5 _ _ _ _ _ hne, Item.valueAt.eq_5 _ _ _ _ _ hne]
          simp only [value_not_vector _ hnm, value_not_vector_true _ hnm]
          right; simp [catchAdd]

/-- C3: for a const Item and a path whose index segments are all in range, `find_at<T>`
returns a non-null pointer exactly when `at<T>` succeeds, to the same value; it returns
null exactly when `at<T>` throws; and it always returns. -/
theorem Item.find_at_iff_at (T : CppType) (it : Item) (path : List Seg)
    (h : indicesInRange it path = true) :
    (∀ r, it.find_at T path = Outcome.ok (some r) ↔ it.atConst T path = Outcome.ok r) ∧
    (it.find_at T path = Outcome.ok none ↔ ∃ e, it.atConst T path = Outcome.throw e) ∧
    ((∃ r, it.find_at T path = Outcome.ok (some r)) ∨ it.find_at T path = Outcome.ok none) := by
  rcases valueAt_agree T path it h with ⟨r, h1, h2⟩ | ⟨h1, e, h2⟩
  · have hf : it.find_at T path = Outcome.ok (some r) := by
      unfold Item.find_at; rw [h1]
    have ha : it.atConst T path = Outcome.ok r := by
      unfold Item.atConst; rw [h2]; rfl
    refine ⟨?_, ?_, Or.inl ⟨r, hf⟩⟩
    · intro r'
      rw [hf, ha]
      constructor
      · intro hh; cases hh; rfl
      · intro hh; cases hh; rfl
    · rw [hf, ha]
      constructor
      · intro hh; cases hh
      · rintro ⟨e, hh⟩; cases hh
  · have hf : it.find_at T path = Outcome.ok none := by
      unfold Item.find_at; rw [h1]
    have ha : it.atConst T path = Outcome.throw e := by
      unfold Item.atConst; rw [h2]; rfl
    refine ⟨?_, ?_, Or.inr hf⟩
    · intro r'
      rw [hf, ha]
      constructor
      · intro hh; cases hh
      · intro hh; cases hh
    · rw [hf, ha]
      exact ⟨fun _ => ⟨e, rfl⟩, fun _ => rfl⟩

/-- C3 at a concrete input: the Object with key "a" holding an Array of one double,
queried for a double at path "a", 0. -/
theorem Item.find_at_iff_at_witness :
    indicesInRange
      (Item.ofNative (.itemMap [("a", Item.ofNative (.vectorOf [.value (.double 7)]))]))
      [.key "a", .idx 0] = true ∧
    ((∀ r, (Item.ofNative (.itemMap [("a", Item.ofNative (.vectorOf [.value (.double 7)]))])).find_at
          .double [.key "a", .idx 0] = Outcome.ok (some r) ↔
        (Item.ofNative (.itemMap [("a", Item.ofNative (.vectorOf [.value (.double 7)]))])).atConst
          .double [.key "a", .idx 0] = Outcome.ok r) ∧
     ((Item.ofNative (.itemMap [("a", Item.ofNative (.vectorOf [.value (.double 7)]))])).find_at
          .double [.key "a", .idx 0] = Outcome.ok none ↔
        ∃ e, (Item.ofNative (.itemMap [("a", Item.ofNative (.vectorOf [.value (.double 7)]))])).atConst
          .double [.key "a", .idx 0] = Outcome.throw e) ∧
     ((∃ r, (Item.ofNative (.itemMap [("a", Item.ofNative (.vectorOf [.value (.double 7)]))])).find_at
          .double [.key "a", .idx 0] = Outcome.ok (some r)) ∨
       (Item.ofNative (.itemMap [("a", Item.ofNative (.vectorOf [.value (.double 7)]))])).find_at
          .double [.key "a", .idx 0] = Outcome.ok none)) :=
  ⟨rfl,
    Item.find_at_iff_at .double
      (Item.ofNative (.itemMap [("a", Item.ofNative (.vectorOf [.value (.double 7)]))]))
      [.key "a", .idx 0] rfl⟩


/-! ## Theorems: mutating access -/

theorem mapFind_mapStore (k k' : String) (v : Item) (m : List (String × Item)) :
    mapFind k' (mapStore k v m) = if k' = k then some v else mapFind k' m := by
  induction m with
  | nil =>
    by_cases h : k' = k
    · simp [mapStore, mapFind, h]
    · have h' : ¬ k = k' := fun e => h e.symm
      simp [mapStore, mapFind, h, h']
  | cons p rest ih =>
    obtain ⟨k0, v0⟩ := p
    by_cases h0 : k0 = k
    · subst h0
      by_cases h : k' = k0
      · simp [mapStore, mapFind, h]
      · have h' : ¬ k0 = k' := fun e => h e.symm
        simp [mapStore, mapFind, h, h']
    · by_cases hlt : keyLt k k0 = true
      · by_cases h : k' = k
        · simp [mapStore, mapFind, h, h0, hlt]
        · have h' : ¬ k = k' := fun e => h e.symm
          simp [mapStore, mapFind, h, h', h0, hlt]
      · by_cases h : k' = k
        · subst h
          simp [mapStore, mapFind, h0, hlt, ih]
        · simp [mapStore, mapFind, h, h0, hlt, ih]

theorem defaultContent_cppType {T : CppType} {c : Content} (h : defaultContent T = some c) :
    c.cppType = T := by
  cases T with
  | other n d =>
    cases d
    · simp [defaultContent] at h
    · simp [defaultContent] at h
      subst h
      rfl
  | item => simp [defaultContent] at h
  | _ =>
    simp [defaultContent] at h
    subst h
    rfl

/-- C4: on a mutable Object that lacks key `k`, `o[k]` (that is `at(k)`) succeeds and
returns a new empty Object stored under `k`; `at<T>(k)` for a default-constructible
payload type `T` succeeds and returns `T{}`, stored under `k` with the tag of `T`; in
both cases every other key keeps its value. -/
theorem Item.atMut_creates_key (T : CppType) (c : Content) (m : List (String × Item))
    (k : String) (hk : mapFind k m = none) (hc : defaultContent T = some c) :
    (Item.index (Item.mk (.map m) .OBJECT) k).1 = Outcome.ok (Ref.item Item.default) ∧
    (Item.index (Item.mk (.map m) .OBJECT) k).2
      = Item.mk (.map (mapStore k Item.default m)) .OBJECT ∧
    (∀ k', mapFind k' (mapStore k Item.default m)
      = if k' = k then some Item.default else mapFind k' m) ∧
    (Item.atMut T (Item.mk (.map m) .OBJECT) [.key k]).1 = Outcome.ok (Ref.payload c) ∧
    (Item.atMut T (Item.mk (.map m) .OBJECT) [.key k]).2
      = Item.mk (.map (mapStore k (Item.mk c (deriveItemType T)) m)) .OBJECT ∧
    (∀ k', mapFind k' (mapStore k (Item.mk c (deriveItemType T)) m)
      = if k' = k then some (Item.mk c (deriveItemType T)) else mapFind k' m) := by
  have hT : T ≠ .item := by
    rintro rfl
    simp [defaultContent] at hc
  have hct := defaultContent_cppType hc
  refine ⟨?_, ?_, fun k' => mapFind_mapStore k k' _ m, ?_, ?_,
    fun k' => mapFind_mapStore k k' _ m⟩
  · simp [Item.index, Item.atMut, Item.valueAtMut, value_of_map, hk, assignDefault, leafOf,
      catchAdd, deref, Item.assign, Item.default, Item.content, Item.contentType]
  · simp [Item.index, Item.atMut, Item.valueAtMut, value_of_map, hk, assignDefault,
      Item.assign, Item.default, Item.content, Item.contentType, Item.withContent]
  · simp only [Item.atMut, Item.valueAtMut, value_of_map, hk]
    simp [assignDefault, hT, hc, leafOf,
      catchAdd, deref, Item.assignNative, Item.value, try_any_cast, Item.content, hct,
      Outcome.map]
  · simp only [Item.atMut, Item.valueAtMut, value_of_map, hk]
    simp [assignDefault, hT, hc,
      Item.assignNative, Item.content, Item.contentType, Item.withContent, hct]

/-- C4 at a concrete input: the Object with the single key "a", accessed at the missing
key "b", untyped and as a `uint32_t`. -/
theorem Item.atMut_creates_key_witness :
    mapFind "b" [("a", Item.default)] = none ∧
    defaultContent .uint32 = some (.uint32 0) ∧
    (Item.index (Item.mk (.map [("a", Item.default)]) .OBJECT) "b").2
      = Item.mk (.map (mapStore "b" Item.default [("a", Item.default)])) .OBJECT ∧
    (Item.atMut .uint32 (Item.mk (.map [("a", Item.default)]) .OBJECT) [.key "b"]).2
      = Item.mk (.map (mapStore "b" (Item.mk (.uint32 0) (deriveItemType .uint32))
          [("a", Item.default)])) .OBJECT :=
  ⟨rfl, rfl,
    (Item.atMut_creates_key .uint32 (.uint32 0) [("a", Item.default)] "b" rfl rfl).2.1,
    (Item.atMut_creates_key .uint32 (.uint32 0) [("a", Item.default)] "b" rfl rfl).2.2.2.2.1⟩

/-- C5 (the code at the claim's input): on an empty Object the mutating access
`at("a", "b")` throws `InvalidContent` for the missing first key and creates nothing. -/
theorem Item.atMut_missing_first_key_counterexample :
    (Item.atMut .item Item.default [.key "a", .key "b"]).1
      = Outcome.throw ⟨.keyNotRegistered "a", ["\"a\""]⟩ ∧
    (Item.atMut .item Item.default [.key "a", .key "b"]).2 = Item.default := by
  exact ⟨rfl, rfl⟩

/-- C5 as amended: on a mutable Object that lacks key `k1`, the mutating access
`at<T>(k1, s, ...)` with at least one further segment throws `InvalidContent` "key not
registered" with the call stack holding `k1` alone, and leaves the Object as it was. -/
theorem Item.atMut_missing_first_key (T : CppType) (m : List (String × Item)) (t : ItemType)
    (k1 : String) (s : Seg) (rest : List Seg) (hk : mapFind k1 m = none) :
    (Item.atMut T (Item.mk (.map m) t) (.key k1 :: s :: rest)).1
      = Outcome.throw ⟨.keyNotRegistered k1, [(Seg.key k1).format]⟩ ∧
    (Item.atMut T (Item.mk (.map m) t) (.key k1 :: s :: rest)).2 = Item.mk (.map m) t := by
  have hne : (s :: rest = [] → False) := by simp
  unfold Item.atMut
  rw [Item.valueAtMut.eq_4 _ _ _ _ _ hne]
  simp [value_of_map, hk, catchAdd, InvalidContent.add, deref]

/-- C5 as amended, at a concrete input: the Object with key "a" accessed at "x", "y". -/
theorem Item.atMut_missing_first_key_witness :
    mapFind "x" [("a", Item.default)] = none ∧
    (Item.atMut .item (Item.mk (.map [("a", Item.default)]) .OBJECT) [.key "x", .key "y"]).1
      = Outcome.throw ⟨.keyNotRegistered "x", ["\"x\""]⟩ ∧
    (Item.atMut .item (Item.mk (.map [("a", Item.default)]) .OBJECT) [.key "x", .key "y"]).2
      = Item.mk (.map [("a", Item.default)]) .OBJECT :=
  ⟨rfl, Item.atMut_missing_first_key .item [("a", Item.default)] .OBJECT "x" (.key "y") [] rfl⟩



/-! ## Theorems: the frame written by `sendData` -/

theorem toBigEndian_four (host : Endian) (n : Nat) : toBigEndian host 4 n = be32 n := by
  cases host <;>
    simp [toBigEndian, isLittleEndian, objectBytes, be32, List.range, List.range.loop]

theorem toBigEndian_one (host : Endian) (n : Nat) : toBigEndian host 1 n = [n % 256] := by
  cases host <;>
    simp [toBigEndian, isLittleEndian, objectBytes, List.range, List.range.loop]

theorem toSizeT_ofNat (n : Nat) (h : n < 2 ^ 64) : toSizeT (n : Int) = n := by
  unfold toSizeT
  have h1 : ((n : Int) % 2 ^ 64) = n := by
    apply Int.emod_eq_of_lt
    · omega
    · exact_mod_cast h
  rw [h1]
  simp

/-- A send loop whose count is zero ends at once. -/
theorem sendLoop_zero (buf : List Nat) (fuel : Nat) (bytesJustSent : Int) (net : Network)
    (hfuel : 1 ≤ fuel) :
    sendLoop buf 0 fuel 0 bytesJustSent net = some (.finished, bytesJustSent, net) := by
  obtain ⟨f, rfl⟩ : ∃ f, fuel = f + 1 := ⟨fuel - 1, by omega⟩
  simp [sendLoop]

/-- A send loop against a peer that accepts every write in full makes one call. -/
theorem sendLoop_full (buf : List Nat) (count fuel : Nat) (bytesJustSent : Int)
    (net : Network) (hacc : ∀ k n, net.sendResult k n = n) (hfuel : 2 ≤ fuel)
    (hb : 0 ≤ bytesJustSent) (hpos : 0 < count) (hc : count < 2 ^ 64) :
    sendLoop buf count fuel 0 bytesJustSent net
      = some (.finished, (count : Int),
          { net with sendCalls := net.sendCalls + 1, wire := net.wire ++ buf.take count }) := by
  obtain ⟨f, rfl⟩ : ∃ f, fuel = f + 2 := ⟨fuel - 2, by omega⟩
  have h0 : toSizeT 0 = 0 := by simp [toSizeT]
  have hb' : ¬ bytesJustSent < 0 := by omega
  simp [sendLoop, h0, hpos, hb', socket_send, hacc, toSizeT_ofNat count hc]

/-- The form of `sendLoop_full` used to chain the three loops. -/
theorem sendLoop_full_spec (buf : List Nat) (count fuel : Nat) (bytesJustSent : Int)
    (net : Network) (hacc : ∀ k n, net.sendResult k n = n) (hfuel : 2 ≤ fuel)
    (hb : 0 ≤ bytesJustSent) (hc : count < 2 ^ 64) :
    ∃ (b : Int) (net' : Network),
      sendLoop buf count fuel 0 bytesJustSent net = some (.finished, b, net') ∧
      0 ≤ b ∧ net'.wire = net.wire ++ buf.take count ∧
      net'.sendResult = net.sendResult ∧ net'.host = net.host := by
  by_cases hz : count = 0
  · subst hz
    exact ⟨bytesJustSent, net, sendLoop_zero buf fuel bytesJustSent net (by omega), hb,
      by simp, rfl, rfl⟩
  · exact ⟨count, _, sendLoop_full buf count fuel bytesJustSent net hacc hfuel hb (by omega) hc,
      by omega, rfl, rfl, rfl⟩

theorem countSent_wire (c : TcpConnection) (net : Network) :
    (c.countSent net).2.wire = net.wire := by
  unfold TcpConnection.countSent
  split <;> rfl

/-- C9: for a payload of `N < 2^32 - 1` bytes and a peer that accepts every write in
full, `sendData` returns `true` and appends to the wire exactly the four bytes of `N` in
big-endian order, the byte of the encoding-mode code (0 for JSON, 1 for MSGPACK), and the
payload. -/
theorem TcpConnection.sendData_frame (fuel : Nat) (c : TcpConnection) (data : List Nat)
    (net : Network) (hN : data.length < 2 ^ 32 - 1)
    (hacc : ∀ k count, net.sendResult k count = count) (hfuel : 2 ≤ fuel) :
    (∃ c' net', c.sendData fuel data data.length net = some (true, c', net') ∧
      net'.wire = net.wire ++ be32 data.length
        ++ [getUnderlyingValue c.receiveProperties.getEncodingMode % 256] ++ data) ∧
    getUnderlyingValue EncodingMode.JSON % 256 = 0 ∧
    getUnderlyingValue EncodingMode.MSGPACK % 256 = 1 := by
  refine ⟨?_, rfl, rfl⟩
  have hmod : data.length % 2 ^ 32 = data.length := Nat.mod_eq_of_lt (by omega)
  obtain ⟨b1, n1, h1, hb1, hw1, hs1, hh1⟩ :=
    sendLoop_full_spec (toBigEndian net.host 4 (data.length % 2 ^ 32)) 4 fuel 0 net hacc
      hfuel (le_refl _) (by norm_num)
  obtain ⟨b2, n2, h2, hb2, hw2, hs2, hh2⟩ :=
    sendLoop_full_spec
      (toBigEndian net.host 1 (getUnderlyingValue c.receiveProperties.getEncodingMode)) 1
      fuel b1 n1 (by rw [hs1]; exact hacc) hfuel hb1 (by norm_num)
  obtain ⟨b3, n3, h3, _, hw3, _, _⟩ :=
    sendLoop_full_spec data data.length fuel b2 n2 (by rw [hs2, hs1]; exact hacc) hfuel hb2
      (by omega)
  refine ⟨(c.countSent n3).1, (c.countSent n3).2, ?_, ?_⟩
  · simp only [TcpConnection.sendData]
    rw [h1]
    simp only []
    rw [h2]
    simp only []
    rw [h3]
  · rw [countSent_wire, hw3, hw2, hw1, hmod, toBigEndian_four, toBigEndian_one]
    simp [be32]


/-- C9 at a concrete input: the payload "hello" sent in JSON mode puts
00 00 00 05, 00, "hello" on the wire. -/
theorem TcpConnection.sendData_frame_witness :
    ([104, 101, 108, 108, 111] : List Nat).length < 2 ^ 32 - 1 ∧
    (∃ c' net', exampleConnection.sendData 2 [104, 101, 108, 108, 111]
          ([104, 101, 108, 108, 111] : List Nat).length (exampleNetwork [])
        = some (true, c', net') ∧
      net'.wire = (exampleNetwork []).wire
        ++ be32 ([104, 101, 108, 108, 111] : List Nat).length
        ++ [getUnderlyingValue exampleConnection.receiveProperties.getEncodingMode % 256]
        ++ [104, 101, 108, 108, 111]) :=
  ⟨by decide,
    (TcpConnection.sendData_frame 2 exampleConnection [104, 101, 108, 108, 111]
      (exampleNetwork []) (by decide) (fun _ _ => rfl) (le_refl 2)).1⟩

/-! ## Theorems: the frame read by `receiveMessage` -/

theorem readBigEndian_be32 (host : Endian) (n : Nat) (h : n < 2 ^ 32) :
    readBigEndian host 4 (be32 n) = n := by
  cases host
  · simp [readBigEndian, toBigEndianBuffer, isLittleEndian, swap, swapFrom, reverseSpan,
      asPod, be32, fromLittleEndian]
    omega
  · simp [readBigEndian, toBigEndianBuffer, isLittleEndian, asPod, be32, fromLittleEndian]
    omega

theorem readBigEndian_byte (host : Endian) (m : Nat) : readBigEndian host 1 [m] = m := by
  cases host <;>
    simp [readBigEndian, toBigEndianBuffer, isLittleEndian, swap, asPod, fromLittleEndian]

theorem writeAt_fresh (got bytes : List Nat) (k : Nat) :
    writeAt (got ++ List.replicate k 0) got.length bytes
      = (got ++ bytes) ++ List.replicate (k - bytes.length) 0 := by
  unfold writeAt
  simp [List.take_append_eq_append_take, List.drop_append_eq_append_drop, List.drop_replicate]

/-- The receive loop over a stream that arrives in non-empty chunks: with the buffer
holding `got` and `need` bytes still missing, it returns `got ++ need` and leaves the rest
of the stream queued. -/
theorem receiveLoop_delivers (timeoutMs start : Nat) :
    ∀ (chunks : List (List Nat)) (got need after : List Nat) (net : Network) (fuel : Nat),
      (∀ c ∈ chunks, c ≠ []) →
      net.incoming = chunks.map ReadEvent.data →
      chunks.flatten = need ++ after →
      need.length < fuel →
      ∃ net', receiveLoop timeoutMs start (got.length + need.length) fuel
            (got ++ List.replicate need.length 0) got.length net
          = some (some (got ++ need), net') ∧
        Delivers net'.incoming after ∧ net'.host = net.host := by
  intro chunks
  induction chunks with
  | nil =>
    intro got need after net fuel _ hin hfl hfuel
    have hn : need = [] := by
      have : need ++ after = [] := by simpa using hfl.symm
      exact (List.append_eq_nil.mp this).1
    have ha : after = [] := by
      have : need ++ after = [] := by simpa using hfl.symm
      exact (List.append_eq_nil.mp this).2
    subst hn ha
    obtain ⟨f, rfl⟩ : ∃ f, fuel = f + 1 := ⟨fuel - 1, by omega⟩
    refine ⟨net, by simp [receiveLoop], ⟨[], by simpa using hin, by simp, rfl⟩, rfl⟩
  | cons c cs ih =>
    intro got need after net fuel hne hin hfl hfuel
    obtain ⟨f, rfl⟩ : ∃ f, fuel = f + 1 := ⟨fuel - 1, by omega⟩
    by_cases hn : need = []
    · subst hn
      refine ⟨net, by simp [receiveLoop], ⟨c :: cs, hin, hne, by simpa using hfl⟩, rfl⟩
    · have hpos : 0 < need.length := List.length_pos.mpr hn
      have hc : c ≠ [] := hne c (List.mem_cons_self _ _)
      have hcpos : 0 < c.length := List.length_pos.mpr hc
      have hfl' : c ++ cs.flatten = need ++ after := by simpa using hfl
      have hlt : got.length < got.length + need.length := by omega
      have hsub : got.length + need.length - got.length = need.length := by omega
      by_cases hle : c.length ≤ need.length
      · -- the whole chunk is taken
        obtain ⟨need', hneed⟩ : ∃ need', need = c ++ need' := by
          refine ⟨need.drop c.length, ?_⟩
          have h1 : (c ++ cs.flatten).take c.length = (need ++ after).take c.length := by
            rw [hfl']
          rw [List.take_left', List.take_append_of_le_length hle] at h1
          · conv_lhs => rw [← List.take_append_drop c.length need]
            rw [← h1]
          · rfl
        subst hneed
        have hcs : cs.flatten = need' ++ after := by
          have := hfl'
          rw [List.append_assoc] at this
          exact List.append_cancel_left this
        have hne' : ∀ x ∈ cs, x ≠ [] := fun x hx => hne x (List.mem_cons_of_mem _ hx)
        have hfuel' : need'.length < f := by
          simp at hfuel; omega
        obtain ⟨net', h1, h2, h3⟩ := ih (got ++ c) need' after
          { net with incoming := cs.map ReadEvent.data,
                     readLog := net.readLog ++ [(c ++ need').length] }
          f hne' rfl hcs hfuel'
        refine ⟨net', ?_, h2, h3⟩
        rw [show got ++ (c ++ need') = got ++ c ++ need' from (List.append_assoc _ _ _).symm,
          ← h1]
        have hin' : net.incoming = ReadEvent.data c :: cs.map ReadEvent.data := by
          simpa using hin
        have hcn : ¬ ((c.length : Int) < 0) := by omega
        have hc0 : ¬ ((c.length : Int) = 0) := by omega
        have hw := writeAt_fresh got c (c ++ need').length
        simp only [receiveLoop, hlt, hsub, if_true, socket_read, hin', hle]
        simp only [hcn, hc0, if_false, false_and, hw]
        simp [Nat.add_assoc, List.append_assoc]
      · -- only the missing part of the chunk is taken
        have hgt : need.length < c.length := by omega
        have hneed : c.take need.length = need := by
          have h1 : (c ++ cs.flatten).take need.length = (need ++ after).take need.length := by
            rw [hfl']
          rw [List.take_append_of_le_length (by omega), List.take_left' rfl] at h1
          exact h1
        have hafter : c.drop need.length ++ cs.flatten = after := by
          have h1 : (c ++ cs.flatten).drop need.length = (need ++ after).drop need.length := by
            rw [hfl']
          rw [List.drop_append_of_le_length (by omega), List.drop_left' rfl] at h1
          exact h1
        have hin' : net.incoming = ReadEvent.data c :: cs.map ReadEvent.data := by
          simpa using hin
        obtain ⟨g, rfl⟩ : ∃ g, f = g + 1 := ⟨f - 1, by omega⟩
        have hcn : ¬ ((need.length : Int) < 0) := by omega
        have hc0 : ¬ ((need.length : Int) = 0) := by omega
        have hw := writeAt_fresh got (c.take need.length) need.length
        refine ⟨{ net with incoming := ReadEvent.data (c.drop need.length) :: cs.map ReadEvent.data,
                           readLog := net.readLog ++ [need.length] }, ?_, ?_, rfl⟩
        · simp only [receiveLoop, hlt, hsub, if_true, socket_read, hin', hle, if_false]
          simp only [hcn, hc0, if_false, false_and, hw]
          simp [hneed]
        · refine ⟨c.drop need.length :: cs, by simp, ?_, by simpa using hafter⟩
          intro x hx
          rcases List.mem_cons.mp hx with rfl | hx
          · intro h0
            have := congrArg List.length h0
            simp at this
            omega
          · exact hne x (List.mem_cons_of_mem _ hx)

/-- The method `receiveNumberOfBytes` on a connected socket whose stream starts with the
bytes `need`: it returns them and leaves the rest queued. -/
theorem receiveNumberOfBytes_delivers (fuel : Nat) (c : TcpConnection) (need after : List Nat)
    (net : Network) (hconn : c.connected = true)
    (hdel : Delivers net.incoming (need ++ after)) (hfuel : need.length < fuel) :
    ∃ net', c.receiveNumberOfBytes fuel need.length net = some (some need, net') ∧
      Delivers net'.incoming after ∧ net'.host = net.host := by
  obtain ⟨chunks, hin, hne, hfl⟩ := hdel
  obtain ⟨net', h1, h2, h3⟩ := receiveLoop_delivers c.timeoutMs net.now.1 chunks [] need after
    net.now.2 fuel hne (by simpa [Network.now] using hin) hfl hfuel
  refine ⟨net', ?_, h2, by simpa [Network.now] using h3⟩
  simp only [TcpConnection.receiveNumberOfBytes, hconn]
  simpa using h1

/-- C10: when the connected socket delivers the byte stream `BE32(N) ++ [m] ++ p`, split
in any way into non-empty chunks and followed by any further bytes, `receiveMessage`
returns mode `m` and the payload `p`, and leaves the further bytes queued. -/
theorem TcpConnection.receiveMessage_frame (fuel : Nat) (c : TcpConnection) (net : Network)
    (m : Nat) (p more : List Nat) (hconn : c.connected = true) (hN : p.length < 2 ^ 32)
    (hdel : Delivers net.incoming (be32 p.length ++ [m] ++ p ++ more))
    (hfuel : p.length + 4 < fuel) :
    ∃ r, c.receiveMessage fuel net = some r ∧
      r.encodingMode = some ⟨m⟩ ∧ r.message = some p ∧ Delivers r.net.incoming more := by
  have hdel1 : Delivers net.incoming (be32 p.length ++ ([m] ++ (p ++ more))) := by
    simpa [List.append_assoc] using hdel
  obtain ⟨n1, h1, d1, e1⟩ := receiveNumberOfBytes_delivers fuel c (be32 p.length)
    ([m] ++ (p ++ more)) net hconn hdel1 (by simp [be32]; omega)
  obtain ⟨n2, h2, d2, e2⟩ := receiveNumberOfBytes_delivers fuel c [m] (p ++ more) n1 hconn d1
    (by simp; omega)
  obtain ⟨n3, h3, d3, e3⟩ := receiveNumberOfBytes_delivers fuel c p more n2 hconn d2
    (by omega)
  have hl4 : (be32 p.length).length = 4 := rfl
  rw [hl4] at h1
  have hl1 : [m].length = 1 := rfl
  rw [hl1] at h2
  refine ⟨⟨some ⟨m⟩, some p, (c.countReceived n3).1, (c.countReceived n3).2⟩, ?_, rfl, rfl, ?_⟩
  · simp only [TcpConnection.receiveMessage, h1, h2, readBigEndian_be32 net.host p.length hN,
      readBigEndian_byte, h3]
  · have : (c.countReceived n3).2.incoming = n3.incoming := by
      unfold TcpConnection.countReceived
      split <;> rfl
    simpa [this] using d3

/-- C10 at the specification's example: the stream 00 00 00 05, 00, "hello", arriving in
three chunks that do not follow the frame's parts, yields the payload "hello" and the
mode JSON. -/
theorem TcpConnection.receiveMessage_frame_witness :
    exampleConnection.connected = true ∧
    ∃ r, exampleConnection.receiveMessage 10
          (exampleNetwork [.data [0, 0, 0], .data [5, 0, 104], .data [101, 108, 108, 111]])
        = some r ∧
      r.encodingMode = some EncodingMode.JSON ∧
      r.message = some [104, 101, 108, 108, 111] ∧
      Delivers r.net.incoming [] :=
  ⟨rfl,
    TcpConnection.receiveMessage_frame 10 exampleConnection
      (exampleNetwork [.data [0, 0, 0], .data [5, 0, 104], .data [101, 108, 108, 111]])
      0 [104, 101, 108, 108, 111] [] rfl (by decide)
      ⟨[[0, 0, 0], [5, 0, 104], [101, 108, 108, 111]], rfl, by decide, rfl⟩ (by decide)⟩

/-! ## Theorems: failed and partial writes in `sendData` -/

/-- C17 (the code at the failing input): the payload "hello" on a socket that accepts the
length prefix and the mode byte and answers -1 to the payload write. `sendData` returns
`true` with only the five header bytes on the wire: the loop adds -1 to `total`, the
unsigned comparison ends the loop, and the test of `bytesJustSent` is never reached. -/
theorem TcpConnection.sendData_negative_payload_write :
    (exampleConnection.sendData 3 [104, 101, 108, 108, 111] 5
        { exampleNetwork [] with sendResult := fun k count => if k = 2 then -1 else count }).map
      (fun r => (r.1, r.2.2.wire)) = some (true, [0, 0, 0, 5, 0]) := by
  rfl

/-- C18 (the code at the failing input): the payload "hello" on a socket that accepts at
most two bytes of every write. Every retry is given the start of the buffer and the full
count again, so the wire holds 00 00 00 00, 00, "hehehe" and not the frame
00 00 00 05, 00, "hello"; `sendData` still returns `true`. -/
theorem TcpConnection.sendData_partial_writes :
    (exampleConnection.sendData 4 [104, 101, 108, 108, 111] 5
        { exampleNetwork [] with sendResult := fun _ count => ((min count 2 : Nat) : Int) }).map
      (fun r => (r.1, r.2.2.wire))
      = some (true, [0, 0, 0, 0, 0, 104, 101, 104, 101, 104, 101]) := by
  rfl

/-! ## Theorems: short reads and timeouts in `receiveNumberOfBytes` -/

/-- The receive loop over a stream that arrives in non-empty chunks asks each read for
exactly the bytes still missing. -/
theorem receiveLoop_requests (timeoutMs start : Nat) :
    ∀ (chunks : List (List Nat)) (got need after : List Nat) (net : Network) (fuel : Nat),
      (∀ c ∈ chunks, c ≠ []) →
      net.incoming = chunks.map ReadEvent.data →
      chunks.flatten = need ++ after →
      need.length < fuel →
      ∃ net', receiveLoop timeoutMs start (got.length + need.length) fuel
            (got ++ List.replicate need.length 0) got.length net
          = some (some (got ++ need), net') ∧
        net'.readLog = net.readLog ++ missingBefore need.length (chunks.map List.length) := by
  intro chunks
  induction chunks with
  | nil =>
    intro got need after net fuel _ hin hfl hfuel
    have hn : need = [] := by
      have : need ++ after = [] := by simpa using hfl.symm
      exact (List.append_eq_nil.mp this).1
    subst hn
    obtain ⟨f, rfl⟩ : ∃ f, fuel = f + 1 := ⟨fuel - 1, by omega⟩
    exact ⟨net, by simp [receiveLoop], by simp [missingBefore]⟩
  | cons c cs ih =>
    intro got need after net fuel hne hin hfl hfuel
    obtain ⟨f, rfl⟩ : ∃ f, fuel = f + 1 := ⟨fuel - 1, by omega⟩
    by_cases hn : need = []
    · subst hn
      exact ⟨net, by simp [receiveLoop], by simp [missingBefore]⟩
    · have hpos : 0 < need.length := List.length_pos.mpr hn
      have hc : c ≠ [] := hne c (List.mem_cons_self _ _)
      have hcpos : 0 < c.length := List.length_pos.mpr hc
      have hfl' : c ++ cs.flatten = need ++ after := by simpa using hfl
      have hlt : got.length < got.length + need.length := by omega
      have hsub : got.length + need.length - got.length = need.length := by omega
      by_cases hle : c.length ≤ need.length
      · obtain ⟨need', hneed⟩ : ∃ need', need = c ++ need' := by
          refine ⟨need.drop c.length, ?_⟩
          have h1 : (c ++ cs.flatten).take c.length = (need ++ after).take c.length := by
            rw [hfl']
          rw [List.take_left', List.take_append_of_le_length hle] at h1
          · conv_lhs => rw [← List.take_append_drop c.length need]
            rw [← h1]
          · rfl
        subst hneed
        have hcs : cs.flatten = need' ++ after := by
          have := hfl'
          rw [List.append_assoc] at this
          exact List.append_cancel_left this
        have hne' : ∀ x ∈ cs, x ≠ [] := fun x hx => hne x (List.mem_cons_of_mem _ hx)
        have hfuel' : need'.length < f := by
          simp at hfuel; omega
        obtain ⟨net', h1, h2⟩ := ih (got ++ c) need' after
          { net with incoming := cs.map ReadEvent.data,
                     readLog := net.readLog ++ [(c ++ need').length] }
          f hne' rfl hcs hfuel'
        refine ⟨net', ?_, ?_⟩
        · rw [show got ++ (c ++ need') = got ++ c ++ need' from (List.append_assoc _ _ _).symm,
            ← h1]
          have hin' : net.incoming = ReadEvent.data c :: cs.map ReadEvent.data := by
            simpa using hin
          have hcn : ¬ ((c.length : Int) < 0) := by omega
          have hc0 : ¬ ((c.length : Int) = 0) := by omega
          have hw := writeAt_fresh got c (c ++ need').length
          simp only [receiveLoop, hlt, hsub, if_true, socket_read, hin', hle]
          simp only [hcn, hc0, if_false, false_and, hw]
          simp [Nat.add_assoc, List.append_assoc]
        · rw [h2]
          have hm : min c.length (c.length + need'.length) = c.length := by omega
          have hz : ¬ (c.length + need'.length = 0) := by omega
          simp [missingBefore, hm, hz]
      · have hgt : need.length < c.length := by omega
        have hneed : c.take need.length = need := by
          have h1 : (c ++ cs.flatten).take need.length = (need ++ after).take need.length := by
            rw [hfl']
          rw [List.take_append_of_le_length (by omega), List.take_left' rfl] at h1
          exact h1
        have hin' : net.incoming = ReadEvent.data c :: cs.map ReadEvent.data := by
          simpa using hin
        obtain ⟨g, rfl⟩ : ∃ g, f = g + 1 := ⟨f - 1, by omega⟩
        have hcn : ¬ ((need.length : Int) < 0) := by omega
        have hc0 : ¬ ((need.length : Int) = 0) := by omega
        have hw := writeAt_fresh got (c.take need.length) need.length
        refine ⟨{ net with incoming := ReadEvent.data (c.drop need.length) :: cs.map ReadEvent.data,
                           readLog := net.readLog ++ [need.length] }, ?_, ?_⟩
        · simp only [receiveLoop, hlt, hsub, if_true, socket_read, hin', hle, if_false]
          simp only [hcn, hc0, if_false, false_and, hw]
          simp [hneed]
        · have hm : min c.length need.length = need.length := by omega
          have hz : ¬ (need.length = 0) := by omega
          cases cs <;> simp [missingBefore, hm, hz]

/-- C19: on a connected socket whose stream arrives split in any way into non-empty
chunks, `receiveNumberOfBytes(N)` returns exactly the first `N` bytes of the stream in
order, and each read asks for exactly the bytes still missing, never for more. -/
theorem TcpConnection.receiveNumberOfBytes_chunks (fuel : Nat) (c : TcpConnection)
    (net : Network) (chunks : List (List Nat)) (need after : List Nat)
    (hconn : c.connected = true) (hin : net.incoming = chunks.map ReadEvent.data)
    (hne : ∀ x ∈ chunks, x ≠ []) (hfl : chunks.flatten = need ++ after)
    (hfuel : need.length < fuel) :
    ∃ net', c.receiveNumberOfBytes fuel need.length net = some (some need, net') ∧
      net'.readLog = net.readLog ++ missingBefore need.length (chunks.map List.length) ∧
      ∀ r ∈ missingBefore need.length (chunks.map List.length), r ≤ need.length := by
  obtain ⟨net', h1, h2⟩ := receiveLoop_requests c.timeoutMs net.now.1 chunks [] need after
    net.now.2 fuel hne (by simpa [Network.now] using hin) hfl hfuel
  refine ⟨net', ?_, by simpa [Network.now] using h2, ?_⟩
  · simp only [TcpConnection.receiveNumberOfBytes, hconn]
    simpa using h1
  · have key : ∀ (sizes : List Nat) (n : Nat), ∀ r ∈ missingBefore n sizes, r ≤ n := by
      intro sizes
      induction sizes with
      | nil => intro n r hr; simp [missingBefore] at hr
      | cons s rest ih =>
        intro n r hr
        by_cases hz : n = 0
        · simp [missingBefore, hz] at hr
        · simp only [missingBefore, hz, if_false, List.mem_cons] at hr
          rcases hr with rfl | hr
          · exact le_refl _
          · have := ih _ r hr
            omega
    exact key _ _

/-- C19 at a concrete input: five bytes asked for from a stream that arrives one byte per
call; the reads ask for 5, 4, 3, 2 and 1 bytes. -/
theorem TcpConnection.receiveNumberOfBytes_chunks_witness :
    ∃ net', exampleConnection.receiveNumberOfBytes 6 ([104, 101, 108, 108, 111] : List Nat).length
        (exampleNetwork [.data [104], .data [101], .data [108], .data [108], .data [111],
          .data [33]])
        = some (some [104, 101, 108, 108, 111], net') ∧
      net'.readLog = [5, 4, 3, 2, 1] :=
  (TcpConnection.receiveNumberOfBytes_chunks 6 exampleConnection
    (exampleNetwork [.data [104], .data [101], .data [108], .data [108], .data [111],
      .data [33]])
    [[104], [101], [108], [108], [111], [33]] [104, 101, 108, 108, 111] [33] rfl rfl
    (by decide) rfl (by decide)).imp fun _ h => ⟨h.1, h.2.1⟩

theorem ofNativeVector_strings (acc : List Item) (keys : List String) :
    Item.ofNativeVector acc (keys.map fun key => Native.value (.string key))
      = acc ++ keys.map fun key => Item.mk (.string key) .STRING := by
  induction keys generalizing acc with
  | nil => simp [Item.ofNativeVector]
  | cons k ks ih =>
    simp only [List.map, Item.ofNativeVector, ih]
    simp [Item.ofNative, Content.cppType, deriveItemType]

theorem eqString_string (s other : String) :
    (Item.mk (.string s) .STRING).eqString other = .ok (decide (s = other)) := by
  simp [Item.eqString, Item.contentType, Item.atConst, Item.valueAt, Item.value, try_any_cast,
    Item.content, Content.cppType, Outcome.map, deref]

theorem eqStringLoop_strings (mine other : List String) (h : mine.length = other.length) :
    eqStringLoop (mine.map fun key => Item.mk (.string key) .STRING) other
      = .ok (decide (mine = other)) := by
  induction mine generalizing other with
  | nil =>
    cases other with
    | nil => simp [eqStringLoop]
    | cons o os => simp at h
  | cons m ms ih =>
    cases other with
    | nil => simp at h
    | cons o os =>
      have hl : ms.length = os.length := by simpa using h
      simp only [List.map, eqStringLoop, eqString_string]
      by_cases hm : m = o
      · subst hm
        simp [ih os hl]
      · simp [hm]

theorem eqStringVector_path (q p : List String) :
    (Item.ofNative (.vectorOf (q.map fun key => Native.value (.string key)))).eqStringVector p
      = .ok (decide (q = p)) := by
  simp only [Item.ofNative, ofNativeVector_strings, List.nil_append, Item.eqStringVector,
    Item.contentType, value_of_vector, List.length_map]
  by_cases hl : q.length = p.length
  · simp [hl, eqStringLoop_strings q p hl]
  · have : q ≠ p := fun h => hl (by rw [h])
    simp [hl, this]

theorem registrySearch_registryOf (path : List String) (entries : List (List String × String)) :
    registrySearch path (registryOf entries) = .ok (recordedEncoding entries path) := by
  induction entries with
  | nil => simp [registryOf, registrySearch, recordedEncoding]
  | cons e rest ih =>
    obtain ⟨q, enc⟩ := e
    have h0 : ((registryEntry q enc).atMut .item [.idx 0]).1
        = .ok (.item (Item.ofNative (.vectorOf (q.map fun key => Native.value (.string key))))) := by
      simp [registryEntry, Item.ofNative, Item.atMut, Item.valueAtMut, value_of_vector, vecGet,
        leafOf, catchAdd, deref]
    have h1 : ((registryEntry q enc).atMut .string [.idx 1]).1
        = .ok (.payload (.string enc)) := by
      simp [registryEntry, Item.ofNative, Item.atMut, Item.valueAtMut, value_of_vector, vecGet,
        leafOf, catchAdd, deref, Item.value, try_any_cast, Item.content, Content.cppType,
        Outcome.map]
    simp only [registryOf, List.map, registrySearch, h0, eqStringVector_path]
    by_cases hq : q = path
    · subst hq
      simp only [decide_True, if_true, h1]
      simp [recordedEncoding, List.find?]
    · simp only [hq, decide_False]
      have := ih
      simp only [registryOf] at this
      rw [this]
      simp [recordedEncoding, List.find?, hq]


theorem mapReplace_mapStore (k : String) (v w : Item) (m : List (String × Item)) :
    mapReplace k w (mapStore k v m) = mapStore k w m := by
  induction m with
  | nil => simp [mapStore, mapReplace]
  | cons p rest ih =>
    obtain ⟨k0, v0⟩ := p
    by_cases h0 : k0 = k
    · simp [mapStore, mapReplace, h0]
    · by_cases hlt : keyLt k k0 = true
      · simp [mapStore, mapReplace, h0, hlt]
      · simp [mapStore, mapReplace, h0, hlt, ih]

theorem atMut_registry_present (m : List (String × Item)) (t rt : ItemType) (reg : List Item)
    (h : mapFind "encoded_elements" m = some (.mk (.vector reg) rt)) :
    (Item.mk (.map m) t).atMut .vector [.key "encoded_elements"]
      = (.ok (.payload (.vector reg)), .mk (.map m) t) := by
  simp [Item.atMut, Item.valueAtMut, value_of_map, h, leafOf, value_of_vector, catchAdd, deref,
    Outcome.map]

theorem atMut_registry_absent (m : List (String × Item)) (t : ItemType)
    (h : mapFind "encoded_elements" m = none) :
    (Item.mk (.map m) t).atMut .vector [.key "encoded_elements"]
      = (.ok (.payload (.vector [])),
          .mk (.map (mapStore "encoded_elements" (.mk (.vector []) .ARRAY) m)) t) := by
  simp [Item.atMut, Item.valueAtMut, value_of_map, h, leafOf, catchAdd, deref,
    Outcome.map, assignDefault, defaultContent, Item.default, Item.withContent, Item.value,
    try_any_cast, Item.content, Content.cppType, Item.contentType, deriveItemType,
    Item.assignNative]

/-- C14: the choice of the encoding of an image leaf at `path`, for a root Object whose
registry "encoded_elements" holds the entries `entries` (pairs of a path and an encoding
name) and for an Item that is not itself inside the registry. If an entry has the path
`path`, the encoding recorded by the first such entry is chosen and the root is left as it
was. Otherwise the preferred encoding is chosen, or "MAT_RAW" when that is empty, and
the root afterwards differs only in its registry, which holds the former entries followed
by the one entry for `path` and the chosen name. When the root has no registry yet, the
registry afterwards holds that one entry. Both encoders hand the chosen name to
`encodeImage`. -/
theorem Conversion.selectEncoding_registry (ext : External) (place : Place)
    (m : List (String × Item)) (t rt : ItemType) (entries : List (List String × String))
    (path : List String) (preferred : String) (mat : Mat)
    (hplace : place ≠ .registry) :
    (mapFind "encoded_elements" m = some (.mk (.vector (registryOf entries)) rt) →
      selectEncoding place (.mk (.map m) t) path preferred
        = match recordedEncoding entries path with
          | some encoding => .ok (encoding, .mk (.map m) t)
          | none =>
            .ok (if preferred.isEmpty then "MAT_RAW" else preferred,
              .mk (.map (mapReplace "encoded_elements"
                (.mk (.vector (registryOf (entries ++
                  [(path, if preferred.isEmpty then "MAT_RAW" else preferred)]))) rt) m)) t)) ∧
    (mapFind "encoded_elements" m = none →
      selectEncoding place (.mk (.map m) t) path preferred
        = .ok (if preferred.isEmpty then "MAT_RAW" else preferred,
            .mk (.map (mapStore "encoded_elements"
              (.mk (.vector (registryOf
                [(path, if preferred.isEmpty then "MAT_RAW" else preferred)])) .ARRAY) m)) t)) ∧
    item_to_json ext preferred place (.mk (.mat mat) .MAT) path (.mk (.map m) t)
      = (selectEncoding place (.mk (.map m) t) path preferred).bind (fun sel =>
          (encodeImage ext mat sel.1 EncodingMode.JSON).bind fun encoded_item =>
            (encoded_item_to_json encoded_item).bind fun json_object =>
              .ok (json_object, sel.2)) ∧
    item_to_msgpack ext preferred place (.mk (.mat mat) .MAT) path (.mk (.map m) t)
      = (selectEncoding place (.mk (.map m) t) path preferred).bind (fun sel =>
          (encodeImage ext mat sel.1 EncodingMode.JSON).bind fun encoded_item =>
            (encoded_item_to_msgpack encoded_item).bind fun elements =>
              .ok (elements, sel.2)) := by
  refine ⟨?_, ?_, ?_, ?_⟩
  · intro h
    simp only [selectEncoding, atMut_registry_present m t rt _ h, registrySearch_registryOf]
    cases hrec : recordedEncoding entries path with
    | some encoding => rfl
    | none =>
      simp only [hplace, if_false]
      simp [pushRegistry, h, registryOf]
  · intro h
    simp only [selectEncoding, atMut_registry_absent m t h]
    have : registrySearch path [] = .ok none := rfl
    simp only [this, hplace, if_false]
    simp [pushRegistry, mapFind_mapStore, mapReplace_mapStore, registryOf]
  · simp [item_to_json]
  · simp [item_to_msgpack]

/-- C14 at a concrete input: a root whose registry records "IMAGE_PNG" for the path
"image"; with no preferred encoding the recorded name is chosen, not "MAT_RAW", and the
root is left as it was. -/
theorem Conversion.selectEncoding_registry_witness :
    selectEncoding .below
        (.mk (.map [("encoded_elements",
          .mk (.vector (registryOf [(["image"], "IMAGE_PNG")])) .ARRAY)]) .OBJECT)
        ["image"] ""
      = .ok ("IMAGE_PNG",
          .mk (.map [("encoded_elements",
            .mk (.vector (registryOf [(["image"], "IMAGE_PNG")])) .ARRAY)]) .OBJECT) :=
  (Conversion.selectEncoding_registry exampleExternal .below
    [("encoded_elements", .mk (.vector (registryOf [(["image"], "IMAGE_PNG")])) .ARRAY)]
    .OBJECT .ARRAY [(["image"], "IMAGE_PNG")] ["image"] "" examplePixel (by decide)).1 rfl


/-! ## Theorems: the encoders on Items without images -/

theorem item_to_json_leaf_case (ext : External) (preferred : String) (place : Place)
    (content : Content) (contentType : ItemType) (path : List String) (rootItem : Item)
    (h1 : contentType ≠ .OBJECT) (h2 : contentType ≠ .ARRAY) (h3 : contentType ≠ .MAT) :
    item_to_json ext preferred place (.mk content contentType) path rootItem
      = (item_to_json_leaf content contentType).bind fun json_object =>
          .ok (json_object, rootItem) := by
  cases contentType <;> first | (exact absurd rfl h1) | (exact absurd rfl h2) | (exact absurd rfl h3) | (simp only [item_to_json])

theorem item_to_msgpack_leaf_case (ext : External) (preferred : String) (place : Place)
    (content : Content) (contentType : ItemType) (path : List String) (rootItem : Item)
    (h1 : contentType ≠ .OBJECT) (h2 : contentType ≠ .ARRAY) (h3 : contentType ≠ .MAT) :
    item_to_msgpack ext preferred place (.mk content contentType) path rootItem
      = (item_to_msgpack_leaf content contentType).bind fun packed =>
          .ok (packed, rootItem) := by
  cases contentType <;> first | (exact absurd rfl h1) | (exact absurd rfl h2) | (exact absurd rfl h3) | (simp only [item_to_msgpack])

theorem imageFree_leaf_case (content : Content) (contentType : ItemType)
    (h1 : contentType ≠ .OBJECT) (h2 : contentType ≠ .ARRAY) (h3 : contentType ≠ .MAT) :
    (Item.mk content contentType).imageFree
      = ((item_to_json_leaf content contentType).isOk
        && (item_to_msgpack_leaf content contentType).isOk) := by
  cases contentType <;> first | (exact absurd rfl h1) | (exact absurd rfl h2) | (exact absurd rfl h3) | (simp only [Item.imageFree])

theorem Result.isOk_iff {α : Type} (r : Result α) : r.isOk = true ↔ ∃ a, r = .ok a := by
  cases r <;> simp [Result.isOk]

mutual
theorem item_to_json_imageFree (ext : External) (preferred : String) :
    ∀ (item : Item) (place : Place) (path : List String) (rootItem : Item),
      item.imageFree = true →
      ∃ json_object, item_to_json ext preferred place item path rootItem
        = .ok (json_object, rootItem)
  | .mk content contentType, place, path, rootItem, h => by
    by_cases h1 : contentType = .OBJECT
    · subst h1
      cases content with
      | map members =>
        simp only [Item.imageFree] at h
        obtain ⟨j, hj⟩ := item_to_json_members_imageFree ext preferred members place [] path
          rootItem h
        exact ⟨.object j, by simp [item_to_json, hj, Result.bind]⟩
      | _ => simp [Item.imageFree] at h
    · by_cases h2 : contentType = .ARRAY
      · subst h2
        cases content with
        | vector elements =>
          simp only [Item.imageFree] at h
          obtain ⟨j, hj⟩ := item_to_json_elements_imageFree ext preferred elements place []
            path rootItem h
          exact ⟨.array j, by simp [item_to_json, hj, Result.bind]⟩
        | _ => simp [Item.imageFree] at h
      · by_cases h3 : contentType = .MAT
        · subst h3
          simp [Item.imageFree] at h
        · rw [imageFree_leaf_case content contentType h1 h2 h3, Bool.and_eq_true] at h
          obtain ⟨j, hj⟩ := (Result.isOk_iff _).1 h.1
          exact ⟨j, by rw [item_to_json_leaf_case ext preferred place content contentType path
            rootItem h1 h2 h3, hj]; rfl⟩
theorem item_to_json_members_imageFree (ext : External) (preferred : String) :
    ∀ (members : List (String × Item)) (place : Place) (json_object : List (String × Json))
      (path : List String) (rootItem : Item),
      imageFreeMembers members = true →
      ∃ result, item_to_json_members ext preferred place members json_object path rootItem
        = .ok (result, rootItem)
  | [], place, json_object, path, rootItem, _ => ⟨json_object, by simp [item_to_json_members]⟩
  | (key, value) :: rest, place, json_object, path, rootItem, h => by
    simp only [imageFreeMembers, Bool.and_eq_true] at h
    obtain ⟨j, hj⟩ := item_to_json_imageFree ext preferred value place.child (path ++ [key])
      rootItem h.1
    by_cases hk : place ≠ .root ∨ key ≠ "encoded_elements"
    · obtain ⟨js, hjs⟩ := item_to_json_members_imageFree ext preferred rest place
        (jsonStore (cStr key) j json_object) path rootItem h.2
      exact ⟨js, by simp only [item_to_json_members, hk, if_true, hj, Result.bind, hjs]⟩
    · obtain ⟨js, hjs⟩ := item_to_json_members_imageFree ext preferred rest place
        json_object path rootItem h.2
      exact ⟨js, by simp only [item_to_json_members, hk, if_false, hjs]⟩
theorem item_to_json_elements_imageFree (ext : External) (preferred : String) :
    ∀ (elements : List Item) (place : Place) (json_object : List Json)
      (path : List String) (rootItem : Item),
      imageFreeElements elements = true →
      ∃ result, item_to_json_elements ext preferred place elements json_object path rootItem
        = .ok (result, rootItem)
  | [], place, json_object, path, rootItem, _ => ⟨json_object, by simp [item_to_json_elements]⟩
  | value :: rest, place, json_object, path, rootItem, h => by
    simp only [imageFreeElements, Bool.and_eq_true] at h
    obtain ⟨j, hj⟩ := item_to_json_imageFree ext preferred value place.child path rootItem h.1
    obtain ⟨js, hjs⟩ := item_to_json_elements_imageFree ext preferred rest place
      (json_object ++ [j]) path rootItem h.2
    exact ⟨js, by simp only [item_to_json_elements, hj, Result.bind, hjs]⟩
end

mutual
theorem item_to_msgpack_imageFree (ext : External) (preferred : String) :
    ∀ (item : Item) (place : Place) (path : List String) (rootItem : Item),
      item.imageFree = true →
      ∃ packed, item_to_msgpack ext preferred place item path rootItem = .ok (packed, rootItem)
  | .mk content contentType, place, path, rootItem, h => by
    by_cases h1 : contentType = .OBJECT
    · subst h1
      cases content with
      | map members =>
        simp only [Item.imageFree] at h
        obtain ⟨j, hj⟩ := item_to_msgpack_members_imageFree ext preferred members place path
          rootItem h
        by_cases hs : members.length < uint32Max
        · exact ⟨_, by simp only [item_to_msgpack, hs, if_true, hj, Result.bind]; rfl⟩
        · exact ⟨_, by simp only [item_to_msgpack, hs, if_false]; rfl⟩
      | _ => simp [Item.imageFree] at h
    · by_cases h2 : contentType = .ARRAY
      · subst h2
        cases content with
        | vector elements =>
          simp only [Item.imageFree] at h
          obtain ⟨j, hj⟩ := item_to_msgpack_elements_imageFree ext preferred elements place
            path rootItem h
          by_cases hs : elements.length < uint32Max
          · exact ⟨_, by simp only [item_to_msgpack, hs, if_true, hj, Result.bind]; rfl⟩
          · exact ⟨_, by simp only [item_to_msgpack, hs, if_false]; rfl⟩
        | _ => simp [Item.imageFree] at h
      · by_cases h3 : contentType = .MAT
        · subst h3
          simp [Item.imageFree] at h
        · rw [imageFree_leaf_case content contentType h1 h2 h3, Bool.and_eq_true] at h
          obtain ⟨j, hj⟩ := (Result.isOk_iff _).1 h.2
          exact ⟨j, by rw [item_to_msgpack_leaf_case ext preferred place content contentType path
            rootItem h1 h2 h3, hj]; rfl⟩
theorem item_to_msgpack_members_imageFree (ext : External) (preferred : String) :
    ∀ (members : List (String × Item)) (place : Place) (path : List String) (rootItem : Item),
      imageFreeMembers members = true →
      ∃ packed, item_to_msgpack_members ext preferred place members path rootItem
        = .ok (packed, rootItem)
  | [], place, path, rootItem, _ => ⟨[], by simp [item_to_msgpack_members]⟩
  | (key, value) :: rest, place, path, rootItem, h => by
    simp only [imageFreeMembers, Bool.and_eq_true] at h
    obtain ⟨j, hj⟩ := item_to_msgpack_imageFree ext preferred value place.child (path ++ [key])
      rootItem h.1
    obtain ⟨js, hjs⟩ := item_to_msgpack_members_imageFree ext preferred rest place path
      rootItem h.2
    by_cases hk : place ≠ .root ∨ key ≠ "encoded_elements"
    · exact ⟨_, by simp only [item_to_msgpack_members, hk, if_true, hj, Result.bind, hjs]; rfl⟩
    · exact ⟨_, by simp only [item_to_msgpack_members, hk, if_false, hjs]; rfl⟩
theorem item_to_msgpack_elements_imageFree (ext : External) (preferred : String) :
    ∀ (elements : List Item) (place : Place) (path : List String) (rootItem : Item),
      imageFreeElements elements = true →
      ∃ packed, item_to_msgpack_elements ext preferred place elements path rootItem
        = .ok (packed, rootItem)
  | [], place, path, rootItem, _ => ⟨[], by simp [item_to_msgpack_elements]⟩
  | value :: rest, place, path, rootItem, h => by
    simp only [imageFreeElements, Bool.and_eq_true] at h
    obtain ⟨j, hj⟩ := item_to_msgpack_imageFree ext preferred value place.child path rootItem h.1
    obtain ⟨js, hjs⟩ := item_to_msgpack_elements_imageFree ext preferred rest place path
      rootItem h.2
    exact ⟨_, by simp only [item_to_msgpack_elements, hj, Result.bind, hjs]; rfl⟩
end

theorem item_to_json_message_loop_imageFree (ext : External) (preferred : String) :
    ∀ (members : List (String × Item)) (json_root : List (String × Json)),
      imageFreeMembers members = true →
      ∃ result, item_to_json_message_loop ext preferred members json_root
        = .ok (result, members)
  | [], json_root, _ => ⟨json_root, by simp [item_to_json_message_loop]⟩
  | (key, value) :: rest, json_root, h => by
    simp only [imageFreeMembers, Bool.and_eq_true] at h
    obtain ⟨j, hj⟩ := item_to_json_imageFree ext preferred value .root [] value h.1
    obtain ⟨js, hjs⟩ := item_to_json_message_loop_imageFree ext preferred rest
      (jsonStore (cStr key) j json_root) h.2
    exact ⟨js, by simp only [item_to_json_message_loop, hj, Result.bind, hjs]⟩

theorem item_to_msgpack_message_loop_imageFree (ext : External) (preferred : String) :
    ∀ (members : List (String × Item)),
      imageFreeMembers members = true →
      ∃ packed, item_to_msgpack_message_loop ext preferred members = .ok (packed, members)
  | [], _ => ⟨[], by simp [item_to_msgpack_message_loop]⟩
  | (key, value) :: rest, h => by
    simp only [imageFreeMembers, Bool.and_eq_true] at h
    obtain ⟨j, hj⟩ := item_to_msgpack_imageFree ext preferred value .root [] value h.1
    obtain ⟨js, hjs⟩ := item_to_msgpack_message_loop_imageFree ext preferred rest h.2
    by_cases hk : key = "item"
    · exact ⟨_, by simp only [item_to_msgpack_message_loop, hk, ne_eq, not_true_eq_false,
        if_false, Result.bind, hjs]; rfl⟩
    · exact ⟨_, by simp only [item_to_msgpack_message_loop, hk, ne_eq, not_false_eq_true,
        if_true, hj, Result.bind, hjs]; rfl⟩

/-- The text encoder on a message without the key "item" whose values hold no image. -/
theorem item_to_json_message_without_item (ext : External) (preferred : String)
    (members : List (String × Item)) (t : ItemType)
    (hfree : imageFreeMembers members = true) (hitem : mapFind "item" members = none) :
    item_to_json_message ext (.mk (.map members) t) preferred
      = .throw (.invalidContent ⟨.keyNotRegistered "item", ["\"item\""]⟩) := by
  obtain ⟨j, hj⟩ := item_to_json_message_loop_imageFree ext preferred members [] hfree
  simp only [item_to_json_message, hj, Result.bind]
  simp [Item.atMut, Item.valueAtMut, value_of_map, hitem, catchAdd, deref, InvalidContent.add,
    Seg.format]

/-- The binary encoder on a message without the key "item" whose values hold no image. -/
theorem item_to_msgpack_message_without_item (ext : External) (preferred : String)
    (members : List (String × Item)) (t : ItemType)
    (hfree : imageFreeMembers members = true) (hitem : mapFind "item" members = none) :
    ∃ packed, item_to_msgpack_message ext (.mk (.map members) t) preferred
      = .ok (packed, .mk (.map members) t) := by
  obtain ⟨j, hj⟩ := item_to_msgpack_message_loop_imageFree ext preferred members hfree
  refine ⟨.mapHeader (members.length % 2 ^ 32) :: j, ?_⟩
  simp only [item_to_msgpack_message, hj, Result.bind]
  simp [Item.contains, Item.items, Item.atConst, Item.valueAt, Item.value, try_any_cast,
    Item.content, Content.cppType, Outcome.map, deref, mapContains, hitem]

theorem imageFreeElements_append (xs ys : List Item) :
    imageFreeElements (xs ++ ys) = (imageFreeElements xs && imageFreeElements ys) := by
  induction xs with
  | nil => simp [imageFreeElements]
  | cons x xs ih => simp [imageFreeElements, ih, Bool.and_assoc]

theorem imageFreeElements_ofNativeVector (natives : List Native) :
    ∀ (acc : List Item), imageFreeElements acc = true →
      (∀ n ∈ natives, (Item.ofNative n).imageFree = true) →
      imageFreeElements (Item.ofNativeVector acc natives) = true := by
  induction natives with
  | nil => intro acc h _; simpa [Item.ofNativeVector] using h
  | cons n rest ih =>
    intro acc h hall
    simp only [Item.ofNativeVector]
    apply ih
    · simp [imageFreeElements_append, h, imageFreeElements, hall n (List.mem_cons_self _ _)]
    · intro x hx
      exact hall x (List.mem_cons_of_mem _ hx)

theorem imageFreeMembers_mapStore (k : String) (v : Item) (m : List (String × Item))
    (hv : v.imageFree = true) (hm : imageFreeMembers m = true) :
    imageFreeMembers (mapStore k v m) = true := by
  induction m with
  | nil => simp [mapStore, imageFreeMembers, hv]
  | cons p rest ih =>
    obtain ⟨k0, v0⟩ := p
    simp only [imageFreeMembers, Bool.and_eq_true] at hm
    by_cases h0 : k0 = k
    · simp [mapStore, h0, imageFreeMembers, hv, hm.2]
    · by_cases hlt : keyLt k k0 = true
      · simp [mapStore, h0, hlt, imageFreeMembers, hv, hm.1, hm.2]
      · simp [mapStore, h0, hlt, imageFreeMembers, hm.1, ih hm.2]

theorem imageFreeMembers_ofNativeMap (natives : List (String × Native)) :
    ∀ (acc : List (String × Item)), imageFreeMembers acc = true →
      (∀ n ∈ natives, (Item.ofNative n.2).imageFree = true) →
      imageFreeMembers (Item.ofNativeMap acc natives) = true := by
  induction natives with
  | nil => intro acc h _; simpa [Item.ofNativeMap] using h
  | cons n rest ih =>
    intro acc h hall
    obtain ⟨key, value⟩ := n
    simp only [Item.ofNativeMap]
    apply ih
    · exact imageFreeMembers_mapStore _ _ _ (hall (key, value) (List.mem_cons_self _ _)) h
    · intro x hx
      exact hall x (List.mem_cons_of_mem _ hx)

theorem imageFree_string (s : String) : (Item.ofNative (.value (.string s))).imageFree = true := by
  rfl

theorem imageFree_stringVector (p : List String) :
    (Item.ofNative (.vectorOf (p.map fun s => .value (.string s)))).imageFree = true := by
  simp only [Item.ofNative, Item.imageFree]
  refine imageFreeElements_ofNativeVector _ _ ?_ ?_
  · rfl
  intro n hn
  obtain ⟨s, _, rfl⟩ := List.mem_map.1 hn
  exact imageFree_string s

/-- The handshake Item of `toItem()`: an Object with exactly the keys "producer_name" and
"stream_options", holding no image. -/
theorem handshake_shape (r : ReceiveProperties) :
    ∃ members, r.toItem = .mk (.map members) .OBJECT ∧ imageFreeMembers members = true ∧
      mapFind "item" members = none := by
  have hP : ∀ paths : List (List String),
      (Item.ofNative (.vectorOf (paths.map fun p =>
        .vectorOf (p.map fun s => .value (.string s))))).imageFree = true := by
    intro paths
    simp only [Item.ofNative, Item.imageFree]
    refine imageFreeElements_ofNativeVector _ _ ?_ ?_
    · rfl
    intro n hn
    obtain ⟨p, _, rfl⟩ := List.mem_map.1 hn
    exact imageFree_stringVector p
  have hT : (Item.ofNative (.mapOf (r.encodingMap.map fun kv =>
      (kv.1, .value (.string kv.2))))).imageFree = true := by
    simp only [Item.ofNative, Item.imageFree]
    refine imageFreeMembers_ofNativeMap _ _ ?_ ?_
    · rfl
    intro n hn
    obtain ⟨kv, _, rfl⟩ := List.mem_map.1 hn
    exact imageFree_string kv.2
  refine ⟨_, rfl, ?_, rfl⟩
  apply imageFreeMembers_mapStore
  · show Item.imageFree (Item.mk (.map _) .OBJECT) = true
    simp only [Item.imageFree]
    refine imageFreeMembers_mapStore _ _ _ ?_ ?_
    · rfl
    refine imageFreeMembers_mapStore _ _ _ ?_ ?_
    · rfl
    refine imageFreeMembers_mapStore _ _ _ hT ?_
    refine imageFreeMembers_mapStore _ _ _ (hP _) ?_
    refine imageFreeMembers_mapStore _ _ _ (hP _) ?_
    rfl
  · refine imageFreeMembers_mapStore _ _ _ ?_ ?_
    · rfl
    · rfl

/-! ## Theorems: the handshake message -/

/-- The text mode `encodeItem` throws on every handshake Item. -/
theorem encodeItem_handshake_json (ext : External) (r : ReceiveProperties)
    (preferred : String) :
    encodeItem ext r.toItem EncodingMode.JSON preferred
      = .throw (.invalidContent ⟨.keyNotRegistered "item", ["\"item\""]⟩) := by
  obtain ⟨members, hshape, hfree, hitem⟩ := handshake_shape r
  have hne : ¬ (EncodingMode.JSON = EncodingMode.MSGPACK) := by decide
  simp only [encodeItem, hne, if_false, if_true, hshape,
    item_to_json_message_without_item ext preferred members .OBJECT hfree hitem, Result.bind]

/-- The binary mode `encodeItem` returns on every handshake Item. -/
theorem encodeItem_handshake_msgpack (ext : External) (r : ReceiveProperties)
    (preferred : String) :
    ∃ bytes, encodeItem ext r.toItem EncodingMode.MSGPACK preferred = .ok (bytes, r.toItem) := by
  obtain ⟨members, hshape, hfree, hitem⟩ := handshake_shape r
  obtain ⟨packed, hp⟩ :=
    item_to_msgpack_message_without_item ext preferred members .OBJECT hfree hitem
  exact ⟨ext.msgpackWrite packed, by simp only [encodeItem, if_true, hshape, hp, Result.bind]⟩

/-- C16 (the code on the handshake Item): for every `ReceiveProperties`, whatever its
producer name, the text mode `encodeItem` applied to `toItem()` throws `InvalidContent`
("Key item not registered"): the message-level `item_to_json` fetches
`item.at("item", "encoded_elements")` without a test for "item". The binary mode, which
has that test, returns and leaves the Item as it was. -/
theorem Conversion.encodeItem_handshake_json_throws (ext : External) (r : ReceiveProperties)
    (preferred : String) :
    encodeItem ext r.toItem EncodingMode.JSON preferred
      = .throw (.invalidContent ⟨.keyNotRegistered "item", ["\"item\""]⟩) ∧
    ∃ bytes, encodeItem ext r.toItem EncodingMode.MSGPACK preferred = .ok (bytes, r.toItem) :=
  ⟨encodeItem_handshake_json ext r preferred, encodeItem_handshake_msgpack ext r preferred⟩

/-- C15 (the code at the failing inputs): `_connect` on a connection that is not yet
connected, where `socket`, `inet_pton` and `connect` succeed, so that the connected state
is reached. With an empty producer name `_connect` returns and nothing is written. With a
non-empty producer name and the text encoding mode, `_connect` ends with the
`InvalidContent` thrown while the handshake is encoded: the connection is in the
connected state and the network is as before, so no configuration frame has been
written. -/
theorem TcpConnection.connect_json_handshake_throws (ext : External) (fuel : Nat)
    (c : TcpConnection) (net : Network)
    (hc : c.connected = false) (hs : 0 ≤ net.socketResult) (hp : 0 < net.inetPtonResult)
    (hcr : 0 ≤ net.connectResult) :
    (c.receiveProperties.producerName = "" →
      ∃ c1, TcpConnection.connect ext fuel c net = some ⟨.ok (), c1, net.now.2.now.2⟩ ∧
        c1.connected = true ∧ net.now.2.now.2.wire = net.wire ∧
        net.now.2.now.2.sendCalls = net.sendCalls) ∧
    (c.receiveProperties.producerName ≠ "" →
      c.receiveProperties.encodingMode = EncodingMode.JSON →
      TcpConnection.connect ext fuel c net
        = some ⟨.throw (.invalidContent ⟨.keyNotRegistered "item", ["\"item\""]⟩),
            { c with fdSocket := net.socketResult, fdClient := net.connectResult }, net⟩ ∧
      ({ c with fdSocket := net.socketResult, fdClient := net.connectResult }
        : TcpConnection).connected = true) := by
  have hsock : ({ c with fdSocket := net.socketResult } : TcpConnection).socketConnected
      = true := by
    simp [TcpConnection.socketConnected, hs]
  have hconn : ({ c with fdSocket := net.socketResult, fdClient := net.connectResult }
      : TcpConnection).connected = true := by
    simp [TcpConnection.connected, TcpConnection.socketConnected, hs, hcr]
  have hpn : ¬ net.inetPtonResult ≤ 0 := by omega
  constructor
  · intro hname
    refine ⟨{ c with
        fdSocket := net.socketResult
        fdClient := net.connectResult
        numberOfMessagesReceivedSinceStart := 0
        numberOfMessagesSentSinceStart := 0
        numberOfMessagesReceived := 0
        numberOfMessagesSent := 0
        timeSent := net.now.1
        timeReceived := net.now.2.now.1 }, ?_, ?_, rfl, rfl⟩
    · simp only [TcpConnection.connect, hc, hsock, hconn, hpn, Bool.not_false, Bool.not_true,
        if_true, if_false, TcpConnection.sendUpdateReceiveProperties,
        ReceiveProperties.isReceiveConfigured, hname]
      rfl
    · simpa [TcpConnection.connected, TcpConnection.socketConnected] using hconn
  · intro hname hmode
    refine ⟨?_, hconn⟩
    have hcfg : c.receiveProperties.isReceiveConfigured = true := by
      simp only [ReceiveProperties.isReceiveConfigured, Bool.not_eq_true']
      cases hE : c.receiveProperties.producerName.isEmpty with
      | false => rfl
      | true => exact absurd ((String.isEmpty_iff _).1 hE) hname
    have henc := encodeItem_handshake_json ext c.receiveProperties ""
    simp only [TcpConnection.connect, hc, hsock, hconn, hpn, Bool.not_false, Bool.not_true,
      if_true, if_false, TcpConnection.sendUpdateReceiveProperties, hcfg,
      TcpConnection.sendMessageItem, ReceiveProperties.getEncodingMode, hmode, henc]
    rfl

/-- C15 at a concrete input: the producer "cam" in the text mode on a network whose peer
accepts the connection. -/
theorem TcpConnection.connect_json_handshake_throws_witness :
    TcpConnection.connect exampleExternal 0 exampleUnconnected (exampleNetwork [])
      = some ⟨.throw (.invalidContent ⟨.keyNotRegistered "item", ["\"item\""]⟩),
          { exampleUnconnected with fdSocket := 3, fdClient := 0 }, exampleNetwork []⟩ :=
  ((TcpConnection.connect_json_handshake_throws exampleExternal 0 exampleUnconnected
    (exampleNetwork []) rfl (by decide) (by decide) (by decide)).2 (by decide) rfl).1

/-! ## Theorems: raw images -/

/-- C12 (the code at the failing input): `encodeImage` with "MAT_RAW" never returns the
encoded image. Where the colour conversion accepts the image, the header is filled by
`std::memcpy(..., &lenShape, 8)` from the 4-byte array `toLittleEndian(3)`, which reads
past the array: undefined behaviour, on either host byte order and in both encoding
modes; otherwise `cv::cvtColor` throws. The message whose item holds a 1 x 1 image of
three 8-bit channels under "image", encoded with no preferred encoding (hence "MAT_RAW"),
ends in that undefined behaviour in the text mode and in the binary mode. -/
theorem Conversion.encodeImage_mat_raw_out_of_bounds (ext : External) (image : Mat)
    (mode : EncodingMode) :
    (encodeImage ext image "MAT_RAW" mode = .undefinedBehaviour ∨
      encodeImage ext image "MAT_RAW" mode = .throw .cvException) ∧
    encodeItem ext exampleImageMessage EncodingMode.JSON "" = .undefinedBehaviour ∧
    encodeItem ext exampleImageMessage EncodingMode.MSGPACK "" = .undefinedBehaviour := by
  refine ⟨?_, ?_, ?_⟩
  · have hmem : ∀ v, memcpyFrom (toLittleEndian ext.host 4 v) 8 = .undefinedBehaviour := by
      intro v
      have hl : (toLittleEndian ext.host 4 v).length = 4 := by
        cases h : ext.host <;> simp [toLittleEndian, isBigEndian, objectBytes]
      simp [memcpyFrom, hl]
    have hcvt : (∃ m, cvtColor image = .ok m ∧
          (image.depth = 0 ∨ image.depth = 2 ∨ image.depth = 5)) ∨
        cvtColor image = .throw .cvException := by
      unfold cvtColor
      split
      · rename_i h
        exact Or.inl ⟨_, rfl, h.2.1⟩
      · exact Or.inr rfl
    rcases hcvt with ⟨m, hm, hd⟩ | hthrow
    · left
      have hn : opencvToNumpy image.depth ≠ 0 := by
        rcases hd with h | h | h <;> simp [h, opencvToNumpy]
      simp only [encodeImage]
      simp [hm, hn, hmem, bind, Result.bind]
    · right
      simp only [encodeImage]
      simp [hthrow, bind, Result.bind]
  · cases ext with
    | mk host d p w r e i f => cases host <;> rfl
  · cases ext with
    | mk host d p w r e i f => cases host <;> rfl

/-! ## Theorems: encoding twice -/

theorem Result.bind_eq_ok {α β : Type} (r : Result α) (f : α → Result β) (b : β)
    (h : r.bind f = .ok b) : ∃ a, r = .ok a ∧ f a = .ok b := by
  cases r with
  | ok a => exact ⟨a, rfl, h⟩
  | throw t => simp [Result.bind] at h
  | undefinedBehaviour => simp [Result.bind] at h
  | terminate => simp [Result.bind] at h

theorem atMut_registry_of_regOf (r : Item) (reg : List Item) (h : regOf r = some reg) :
    r.atMut .vector [.key "encoded_elements"] = (.ok (.payload (.vector reg)), r) := by
  cases r with
  | mk c t =>
    cases c with
    | map m =>
      simp only [regOf] at h
      cases hf : mapFind "encoded_elements" m with
      | none => simp [hf] at h
      | some child =>
        cases child with
        | mk cc ct =>
          cases cc with
          | vector v =>
            simp only [hf, Option.some.injEq] at h
            subst h
            exact atMut_registry_present m t ct v hf
          | _ => simp [hf] at h
    | _ => simp [regOf] at h

theorem atMut_registry_cases (r r1 : Item) (x : Ref)
    (h : r.atMut .vector [.key "encoded_elements"] = (.ok x, r1)) :
    (∃ reg, regOf r = some reg ∧ x = .payload (.vector reg) ∧ r1 = r) ∨
    (∃ m t, r = .mk (.map m) t ∧ mapFind "encoded_elements" m = none ∧
      x = .payload (.vector []) ∧
      r1 = .mk (.map (mapStore "encoded_elements" (.mk (.vector []) .ARRAY) m)) t) := by
  cases r with
  | mk c t =>
    cases c with
    | map m =>
      cases hf : mapFind "encoded_elements" m with
      | none =>
        right
        rw [atMut_registry_absent m t hf] at h
        simp only [Prod.mk.injEq, Outcome.ok.injEq] at h
        exact ⟨m, t, rfl, hf, h.1.symm, h.2.symm⟩
      | some child =>
        left
        cases child with
        | mk cc ct =>
          cases cc with
          | vector v =>
            rw [atMut_registry_present m t ct v hf] at h
            simp only [Prod.mk.injEq, Outcome.ok.injEq] at h
            exact ⟨v, by simp [regOf, hf], h.1.symm, h.2.symm⟩
          | _ =>
            simp [Item.atMut, Item.valueAtMut, value_of_map, hf, leafOf, catchAdd, deref,
              Outcome.map, Item.value, try_any_cast, Item.content, Content.cppType] at h
    | _ =>
      simp [Item.atMut, Item.valueAtMut, catchAdd, deref,
        Outcome.map, Item.value, try_any_cast, Item.content, Content.cppType] at h

theorem registrySearch_append_some (q : List String) (e : String) (b : List Item) :
    ∀ a : List Item, registrySearch q a = .ok (some e) →
      registrySearch q (a ++ b) = .ok (some e) := by
  intro a
  induction a with
  | nil => intro h; simp [registrySearch] at h
  | cons x rest ih =>
    intro h
    simp only [List.cons_append, registrySearch] at h ⊢
    generalize (Item.atMut CppType.item x [Seg.idx 0]).1 = o0 at h ⊢
    generalize (Item.atMut CppType.string x [Seg.idx 1]).1 = o1 at h ⊢
    cases o0 with
    | ok ref =>
      cases ref with
      | item encodedPath =>
        simp only at h ⊢
        generalize encodedPath.eqStringVector q = o2 at h ⊢
        cases o2 with
        | ok bb =>
          cases bb with
          | true => exact h
          | false => exact ih h
        | _ => simp at h
      | payload c => simp at h
    | _ => simp at h

theorem registrySearch_append_none (q : List String) (b : List Item) :
    ∀ a : List Item, registrySearch q a = .ok none →
      registrySearch q (a ++ b) = registrySearch q b := by
  intro a
  induction a with
  | nil => intro _; rfl
  | cons x rest ih =>
    intro h
    simp only [List.cons_append, registrySearch] at h ⊢
    generalize (Item.atMut CppType.item x [Seg.idx 0]).1 = o0 at h ⊢
    generalize (Item.atMut CppType.string x [Seg.idx 1]).1 = o1 at h ⊢
    cases o0 with
    | ok ref =>
      cases ref with
      | item encodedPath =>
        simp only at h ⊢
        generalize encodedPath.eqStringVector q = o2 at h ⊢
        cases o2 with
        | ok bb =>
          cases bb with
          | true =>
            simp only at h
            split at h <;> simp at h
          | false => exact ih h
        | _ => simp at h
      | payload c => simp at h
    | _ => simp at h

theorem registrySearch_entry (q : List String) (e : String) :
    registrySearch q [registryEntry q e] = .ok (some e) := by
  have := registrySearch_registryOf q [(q, e)]
  simpa [registryOf, recordedEncoding] using this

theorem mapFind_mapReplace_same (k : String) (v : Item) (m : List (String × Item))
    (h : (mapFind k m).isSome) : mapFind k (mapReplace k v m) = some v := by
  induction m with
  | nil => simp [mapFind] at h
  | cons p rest ih =>
    obtain ⟨k0, v0⟩ := p
    by_cases h0 : k0 = k
    · simp [mapReplace, mapFind, h0]
    · simp only [mapFind, h0, if_false] at h
      simp [mapReplace, mapFind, h0, ih h]

theorem filter_mapReplace (k : String) (v : Item) (m : List (String × Item)) :
    (mapReplace k v m).filter (fun kv => !decide (kv.1 = k))
      = m.filter (fun kv => !decide (kv.1 = k)) := by
  induction m with
  | nil => simp [mapReplace]
  | cons p rest ih =>
    obtain ⟨k0, v0⟩ := p
    by_cases h0 : k0 = k
    · simp [mapReplace, h0]
    · simp [mapReplace, h0, ih]

theorem filter_mapStore (k : String) (v : Item) (m : List (String × Item)) :
    (mapStore k v m).filter (fun kv => !decide (kv.1 = k))
      = m.filter (fun kv => !decide (kv.1 = k)) := by
  induction m with
  | nil => simp [mapStore]
  | cons p rest ih =>
    obtain ⟨k0, v0⟩ := p
    by_cases h0 : k0 = k
    · simp [mapStore, h0]
    · by_cases hlt : keyLt k k0 = true
      · simp [mapStore, h0, hlt]
      · simp [mapStore, h0, hlt, ih]

theorem regOf_cases (r : Item) (reg : List Item) (h : regOf r = some reg) :
    ∃ m t vt, r = .mk (.map m) t ∧ mapFind "encoded_elements" m = some (.mk (.vector reg) vt) := by
  cases r with
  | mk c t =>
    cases c with
    | map m =>
      simp only [regOf] at h
      cases hf : mapFind "encoded_elements" m with
      | none => simp [hf] at h
      | some child =>
        cases child with
        | mk cc ct =>
          cases cc with
          | vector v =>
            simp only [hf, Option.some.injEq] at h
            subst h
            exact ⟨m, t, ct, rfl, hf⟩
          | _ => simp [hf] at h
    | _ => simp [regOf] at h

theorem regOf_pushRegistry (r : Item) (reg : List Item) (entry : Item)
    (h : regOf r = some reg) : regOf (pushRegistry r entry) = some (reg ++ [entry]) := by
  obtain ⟨m, t, vt, rfl, hf⟩ := regOf_cases r reg h
  have hm := mapFind_mapReplace_same "encoded_elements"
    (Item.mk (.vector (reg ++ [entry])) vt) m (by simp [hf])
  simp [pushRegistry, hf, regOf, hm]

theorem stripRegistry_pushRegistry (r : Item) (entry : Item) :
    stripRegistry (pushRegistry r entry) = stripRegistry r := by
  cases r with
  | mk c t =>
    cases c with
    | map m =>
      simp only [pushRegistry]
      split
      · simp [stripRegistry, filter_mapReplace]
      · rfl
    | _ => rfl

theorem imageFree_registryEntry (q : List String) (e : String) :
    (registryEntry q e).imageFree = true := by
  simp only [registryEntry, Item.ofNative, Item.imageFree, imageFreeElements, Bool.and_true,
    Bool.and_eq_true]
  exact ⟨imageFree_stringVector q, rfl⟩

theorem selectEncoding_of_found (place : Place) (r : Item) (q : List String) (e pref : String)
    (h : Found r q e) : selectEncoding place r q pref = .ok (e, r) := by
  obtain ⟨reg, hreg, hs⟩ := h
  simp only [selectEncoding, atMut_registry_of_regOf r reg hreg, hs]

/-- What `selectEncoding` leaves behind when it returns: the root records the chosen
encoding for the path and everything it recorded before; it differs from the former root
at most in its registry; a registry without images stays without images. -/
theorem selectEncoding_result (place : Place) (r r1 : Item) (q : List String) (e pref : String)
    (h : selectEncoding place r q pref = .ok (e, r1)) :
    Found r1 q e ∧ Ext r r1 ∧ stripRegistry r1 = stripRegistry r ∧
      (regImageFree r → regImageFree r1) := by
  have push : ∀ (r0 : Item) (reg : List Item), regOf r0 = some reg →
      registrySearch q reg = .ok none → ∀ e0,
      Found (pushRegistry r0 (registryEntry q e0)) q e0 ∧
      Ext r0 (pushRegistry r0 (registryEntry q e0)) ∧
      (regImageFree r0 → regImageFree (pushRegistry r0 (registryEntry q e0))) := by
    intro r0 reg hreg hnone e0
    have hp := regOf_pushRegistry r0 reg (registryEntry q e0) hreg
    refine ⟨⟨_, hp, ?_⟩, ?_, ?_⟩
    · rw [registrySearch_append_none q _ reg hnone]
      exact registrySearch_entry q e0
    · intro q' e' hf
      obtain ⟨reg', hreg', hs'⟩ := hf
      rw [hreg] at hreg'
      cases hreg'
      exact ⟨_, hp, registrySearch_append_some q' e' _ reg hs'⟩
    · intro hfree reg' hreg'
      rw [hp] at hreg'
      cases hreg'
      simp [imageFreeElements_append, hfree reg hreg, imageFreeElements,
        imageFree_registryEntry]
  simp only [selectEncoding] at h
  cases hat : r.atMut .vector [.key "encoded_elements"] with
  | mk o r' =>
    rw [hat] at h
    cases o with
    | ok x =>
      rcases atMut_registry_cases r r' x hat with ⟨reg, hreg, rfl, rfl⟩ | ⟨m, t, rfl, hf, rfl, rfl⟩
      · simp only at h
        cases hs : registrySearch q reg with
        | ok found =>
          rw [hs] at h
          cases found with
          | some e' =>
            simp only [Result.ok.injEq, Prod.mk.injEq] at h
            obtain ⟨rfl, rfl⟩ := h
            exact ⟨⟨reg, hreg, hs⟩, fun _ _ hf => hf, rfl, fun hfree => hfree⟩
          | none =>
            simp only at h
            split at h
            · simp at h
            · simp only [Result.ok.injEq, Prod.mk.injEq] at h
              obtain ⟨rfl, rfl⟩ := h
              obtain ⟨h1, h2, h3⟩ := push _ reg hreg hs
                (if pref.isEmpty = true then "MAT_RAW" else pref)
              exact ⟨h1, h2, stripRegistry_pushRegistry _ _, h3⟩
        | throw t => rw [hs] at h; simp at h
        | undefinedBehaviour => rw [hs] at h; simp at h
        | terminate => rw [hs] at h; simp at h
      · simp only at h
        have hs : registrySearch q [] = .ok none := rfl
        rw [hs] at h
        simp only at h
        split at h
        · simp at h
        · simp only [Result.ok.injEq, Prod.mk.injEq] at h
          obtain ⟨rfl, rfl⟩ := h
          have hreg' : regOf (Item.mk (.map (mapStore "encoded_elements"
              (.mk (.vector []) .ARRAY) m)) t) = some [] := by
            simp [regOf, mapFind_mapStore]
          have hnone : regOf (Item.mk (.map m) t) = none := by simp [regOf, hf]
          obtain ⟨h1, h2, h3⟩ := push _ [] hreg' hs
            (if pref.isEmpty = true then "MAT_RAW" else pref)
          refine ⟨h1, ?_, ?_, ?_⟩
          · intro q' e' hfd
            obtain ⟨reg', hr', _⟩ := hfd
            rw [hnone] at hr'
            cases hr'
          · rw [stripRegistry_pushRegistry]
            simp [stripRegistry, filter_mapStore]
          · intro _
            apply h3
            intro reg' hr'
            rw [hreg'] at hr'
            cases hr'
            rfl
    | throw t => simp at h
    | undefinedBehaviour => simp at h
    | terminate => simp at h

theorem Ext.refl (r : Item) : Ext r r := fun _ _ h => h

theorem Ext.trans {a b c : Item} (h1 : Ext a b) (h2 : Ext b c) : Ext a c :=
  fun q e h => h2 q e (h1 q e h)

theorem StableRun.of_unchanged {α : Type} (run : Item → Result (α × Item)) (r : Item) (a : α)
    (h : ∀ r2, run r2 = .ok (a, r2)) : StableRun run r a r :=
  ⟨Ext.refl r, rfl, fun hf => hf, fun hf => hf, fun r2 _ => h r2⟩

mutual
theorem item_to_json_stable (ext : External) (preferred : String) :
    ∀ (item : Item) (place : Place) (path : List String) (r : Item) (j : Json) (r1 : Item),
      item_to_json ext preferred place item path r = .ok (j, r1) →
      StableRun (fun root => item_to_json ext preferred place item path root) r j r1
  | .mk content contentType, place, path, r, j, r1, h => by
    by_cases h1 : contentType = .OBJECT
    · subst h1
      cases content with
      | map members =>
        simp only [item_to_json] at h
        obtain ⟨a, ha, hja⟩ := Result.bind_eq_ok _ _ _ h
        simp only [Result.ok.injEq, Prod.mk.injEq] at hja
        obtain ⟨rfl, rfl⟩ := hja
        obtain ⟨e1, e2, e3, e5, e4⟩ := item_to_json_members_stable ext preferred members place []
          path r a.1 a.2 ha
        exact ⟨e1, e2, e3, e5, fun r2 hr2 => by simp only [item_to_json, e4 r2 hr2, Result.bind]⟩
      | _ => simp [item_to_json, wrongPayload] at h
    · by_cases h2 : contentType = .ARRAY
      · subst h2
        cases content with
        | vector elements =>
          simp only [item_to_json] at h
          obtain ⟨a, ha, hja⟩ := Result.bind_eq_ok _ _ _ h
          simp only [Result.ok.injEq, Prod.mk.injEq] at hja
          obtain ⟨rfl, rfl⟩ := hja
          obtain ⟨e1, e2, e3, e5, e4⟩ := item_to_json_elements_stable ext preferred elements place
            [] path r a.1 a.2 ha
          exact ⟨e1, e2, e3, e5, fun r2 hr2 => by simp only [item_to_json, e4 r2 hr2, Result.bind]⟩
        | _ => simp [item_to_json, wrongPayload] at h
      · by_cases h3 : contentType = .MAT
        · subst h3
          cases content with
          | mat image =>
            simp only [item_to_json] at h
            obtain ⟨sel, hsel, h⟩ := Result.bind_eq_ok _ _ _ h
            obtain ⟨enc, henc, h⟩ := Result.bind_eq_ok _ _ _ h
            obtain ⟨js, hjs, h⟩ := Result.bind_eq_ok _ _ _ h
            simp only [Result.ok.injEq, Prod.mk.injEq] at h
            obtain ⟨rfl, rfl⟩ := h
            obtain ⟨f1, f2, f3, f4⟩ := selectEncoding_result place r sel.2 path sel.1 preferred
              hsel
            have f5 : (regOf sel.2).isSome = true := by
              obtain ⟨reg, hreg, _⟩ := f1
              simp [hreg]
            refine ⟨f2, f3, f4, fun _ => f5, fun r2 hr2 => ?_⟩
            have hf := selectEncoding_of_found place r2 path sel.1 preferred (hr2 _ _ f1)
            simp only [item_to_json, hf, Result.bind, henc, hjs]
          | _ => simp [item_to_json, wrongPayload] at h
        · rw [item_to_json_leaf_case ext preferred place content contentType path r h1 h2 h3] at h
          obtain ⟨a, ha, hja⟩ := Result.bind_eq_ok _ _ _ h
          simp only [Result.ok.injEq, Prod.mk.injEq] at hja
          obtain ⟨rfl, rfl⟩ := hja
          exact StableRun.of_unchanged _ r a fun r2 => by
            rw [item_to_json_leaf_case ext preferred place content contentType path r2 h1 h2 h3,
              ha]
            rfl
theorem item_to_json_members_stable (ext : External) (preferred : String) :
    ∀ (members : List (String × Item)) (place : Place) (json_object : List (String × Json))
      (path : List String) (r : Item) (js : List (String × Json)) (r1 : Item),
      item_to_json_members ext preferred place members json_object path r = .ok (js, r1) →
      StableRun (fun root => item_to_json_members ext preferred place members json_object path
        root) r js r1
  | [], place, json_object, path, r, js, r1, h => by
    simp only [item_to_json_members, Result.ok.injEq, Prod.mk.injEq] at h
    obtain ⟨rfl, rfl⟩ := h
    exact StableRun.of_unchanged _ r json_object fun r2 => by simp [item_to_json_members]
  | (key, value) :: rest, place, json_object, path, r, js, r1, h => by
    by_cases hk : place ≠ .root ∨ key ≠ "encoded_elements"
    · simp only [item_to_json_members, hk, if_true] at h
      obtain ⟨a, ha, h⟩ := Result.bind_eq_ok _ _ _ h
      obtain ⟨e1, e2, e3, e5, e4⟩ := item_to_json_stable ext preferred value place.child
        (path ++ [key]) r a.1 a.2 ha
      obtain ⟨g1, g2, g3, g5, g4⟩ := item_to_json_members_stable ext preferred rest place
        (jsonStore (cStr key) a.1 json_object) path a.2 js r1 h
      refine ⟨Ext.trans e1 g1, g2.trans e2, fun hf => g3 (e3 hf), fun hf => g5 (e5 hf),
        fun r2 hr2 => ?_⟩
      simp only [item_to_json_members, hk, if_true, e4 r2 (Ext.trans g1 hr2), Result.bind,
        g4 r2 hr2]
    · simp only [item_to_json_members, hk, if_false] at h
      obtain ⟨g1, g2, g3, g5, g4⟩ := item_to_json_members_stable ext preferred rest place
        json_object path r js r1 h
      exact ⟨g1, g2, g3, g5, fun r2 hr2 => by simp only [item_to_json_members, hk, if_false,
        g4 r2 hr2]⟩
theorem item_to_json_elements_stable (ext : External) (preferred : String) :
    ∀ (elements : List Item) (place : Place) (json_object : List Json)
      (path : List String) (r : Item) (js : List Json) (r1 : Item),
      item_to_json_elements ext preferred place elements json_object path r = .ok (js, r1) →
      StableRun (fun root => item_to_json_elements ext preferred place elements json_object path
        root) r js r1
  | [], place, json_object, path, r, js, r1, h => by
    simp only [item_to_json_elements, Result.ok.injEq, Prod.mk.injEq] at h
    obtain ⟨rfl, rfl⟩ := h
    exact StableRun.of_unchanged _ r json_object fun r2 => by simp [item_to_json_elements]
  | value :: rest, place, json_object, path, r, js, r1, h => by
    simp only [item_to_json_elements] at h
    obtain ⟨a, ha, h⟩ := Result.bind_eq_ok _ _ _ h
    obtain ⟨e1, e2, e3, e5, e4⟩ := item_to_json_stable ext preferred value place.child path r
      a.1 a.2 ha
    obtain ⟨g1, g2, g3, g5, g4⟩ := item_to_json_elements_stable ext preferred rest place
      (json_object ++ [a.1]) path a.2 js r1 h
    refine ⟨Ext.trans e1 g1, g2.trans e2, fun hf => g3 (e3 hf), fun hf => g5 (e5 hf),
        fun r2 hr2 => ?_⟩
    simp only [item_to_json_elements, e4 r2 (Ext.trans g1 hr2), Result.bind, g4 r2 hr2]
end

mutual
theorem item_to_msgpack_stable (ext : External) (preferred : String) :
    ∀ (item : Item) (place : Place) (path : List String) (r : Item) (j : List MsgElement)
      (r1 : Item),
      item_to_msgpack ext preferred place item path r = .ok (j, r1) →
      StableRun (fun root => item_to_msgpack ext preferred place item path root) r j r1
  | .mk content contentType, place, path, r, j, r1, h => by
    by_cases h1 : contentType = .OBJECT
    · subst h1
      cases content with
      | map members =>
        by_cases hs : members.length < uint32Max
        · simp only [item_to_msgpack, hs, if_true] at h
          obtain ⟨a, ha, hja⟩ := Result.bind_eq_ok _ _ _ h
          simp only [Result.ok.injEq, Prod.mk.injEq] at hja
          obtain ⟨rfl, rfl⟩ := hja
          obtain ⟨e1, e2, e3, e5, e4⟩ := item_to_msgpack_members_stable ext preferred members place
            path r a.1 a.2 ha
          exact ⟨e1, e2, e3, e5, fun r2 hr2 => by
            simp only [item_to_msgpack, hs, if_true, e4 r2 hr2, Result.bind]⟩
        · simp only [item_to_msgpack, hs, if_false, Result.ok.injEq, Prod.mk.injEq] at h
          obtain ⟨rfl, rfl⟩ := h
          exact StableRun.of_unchanged _ r _ fun r2 => by
            simp only [item_to_msgpack, hs, if_false]
      | _ => simp [item_to_msgpack, wrongPayload] at h
    · by_cases h2 : contentType = .ARRAY
      · subst h2
        cases content with
        | vector elements =>
          by_cases hs : elements.length < uint32Max
          · simp only [item_to_msgpack, hs, if_true] at h
            obtain ⟨a, ha, hja⟩ := Result.bind_eq_ok _ _ _ h
            simp only [Result.ok.injEq, Prod.mk.injEq] at hja
            obtain ⟨rfl, rfl⟩ := hja
            obtain ⟨e1, e2, e3, e5, e4⟩ := item_to_msgpack_elements_stable ext preferred elements
              place path r a.1 a.2 ha
            exact ⟨e1, e2, e3, e5, fun r2 hr2 => by
              simp only [item_to_msgpack, hs, if_true, e4 r2 hr2, Result.bind]⟩
          · simp only [item_to_msgpack, hs, if_false, Result.ok.injEq, Prod.mk.injEq] at h
            obtain ⟨rfl, rfl⟩ := h
            exact StableRun.of_unchanged _ r _ fun r2 => by
              simp only [item_to_msgpack, hs, if_false]
        | _ => simp [item_to_msgpack, wrongPayload] at h
      · by_cases h3 : contentType = .MAT
        · subst h3
          cases content with
          | mat image =>
            simp only [item_to_msgpack] at h
            obtain ⟨sel, hsel, h⟩ := Result.bind_eq_ok _ _ _ h
            obtain ⟨enc, henc, h⟩ := Result.bind_eq_ok _ _ _ h
            obtain ⟨js, hjs, h⟩ := Result.bind_eq_ok _ _ _ h
            simp only [Result.ok.injEq, Prod.mk.injEq] at h
            obtain ⟨rfl, rfl⟩ := h
            obtain ⟨f1, f2, f3, f4⟩ := selectEncoding_result place r sel.2 path sel.1 preferred
              hsel
            have f5 : (regOf sel.2).isSome = true := by
              obtain ⟨reg, hreg, _⟩ := f1
              simp [hreg]
            refine ⟨f2, f3, f4, fun _ => f5, fun r2 hr2 => ?_⟩
            have hf := selectEncoding_of_found place r2 path sel.1 preferred (hr2 _ _ f1)
            simp only [item_to_msgpack, hf, Result.bind, henc, hjs]
          | _ => simp [item_to_msgpack, wrongPayload] at h
        · rw [item_to_msgpack_leaf_case ext preferred place content contentType path r h1 h2 h3]
            at h
          obtain ⟨a, ha, hja⟩ := Result.bind_eq_ok _ _ _ h
          simp only [Result.ok.injEq, Prod.mk.injEq] at hja
          obtain ⟨rfl, rfl⟩ := hja
          exact StableRun.of_unchanged _ r a fun r2 => by
            rw [item_to_msgpack_leaf_case ext preferred place content contentType path r2 h1 h2
              h3, ha]
            rfl
theorem item_to_msgpack_members_stable (ext : External) (preferred : String) :
    ∀ (members : List (String × Item)) (place : Place)
      (path : List String) (r : Item) (js : List MsgElement) (r1 : Item),
      item_to_msgpack_members ext preferred place members path r = .ok (js, r1) →
      StableRun (fun root => item_to_msgpack_members ext preferred place members path root)
        r js r1
  | [], place, path, r, js, r1, h => by
    simp only [item_to_msgpack_members, Result.ok.injEq, Prod.mk.injEq] at h
    obtain ⟨rfl, rfl⟩ := h
    exact StableRun.of_unchanged _ r [] fun r2 => by simp [item_to_msgpack_members]
  | (key, value) :: rest, place, path, r, js, r1, h => by
    by_cases hk : place ≠ .root ∨ key ≠ "encoded_elements"
    · simp only [item_to_msgpack_members, hk, if_true] at h
      obtain ⟨a, ha, h⟩ := Result.bind_eq_ok _ _ _ h
      obtain ⟨b, hb, h⟩ := Result.bind_eq_ok _ _ _ h
      simp only [Result.ok.injEq, Prod.mk.injEq] at h
      obtain ⟨rfl, rfl⟩ := h
      obtain ⟨e1, e2, e3, e5, e4⟩ := item_to_msgpack_stable ext preferred value place.child
        (path ++ [key]) r a.1 a.2 ha
      obtain ⟨g1, g2, g3, g5, g4⟩ := item_to_msgpack_members_stable ext preferred rest place
        path a.2 b.1 b.2 hb
      refine ⟨Ext.trans e1 g1, g2.trans e2, fun hf => g3 (e3 hf), fun hf => g5 (e5 hf),
        fun r2 hr2 => ?_⟩
      simp only [item_to_msgpack_members, hk, if_true, e4 r2 (Ext.trans g1 hr2), Result.bind,
        g4 r2 hr2]
    · simp only [item_to_msgpack_members, hk, if_false] at h
      obtain ⟨g1, g2, g3, g5, g4⟩ := item_to_msgpack_members_stable ext preferred rest place
        path r js r1 h
      exact ⟨g1, g2, g3, g5, fun r2 hr2 => by simp only [item_to_msgpack_members, hk, if_false,
        g4 r2 hr2]⟩
theorem item_to_msgpack_elements_stable (ext : External) (preferred : String) :
    ∀ (elements : List Item) (place : Place)
      (path : List String) (r : Item) (js : List MsgElement) (r1 : Item),
      item_to_msgpack_elements ext preferred place elements path r = .ok (js, r1) →
      StableRun (fun root => item_to_msgpack_elements ext preferred place elements path root)
        r js r1
  | [], place, path, r, js, r1, h => by
    simp only [item_to_msgpack_elements, Result.ok.injEq, Prod.mk.injEq] at h
    obtain ⟨rfl, rfl⟩ := h
    exact StableRun.of_unchanged _ r [] fun r2 => by simp [item_to_msgpack_elements]
  | value :: rest, place, path, r, js, r1, h => by
    simp only [item_to_msgpack_elements] at h
    obtain ⟨a, ha, h⟩ := Result.bind_eq_ok _ _ _ h
    obtain ⟨b, hb, h⟩ := Result.bind_eq_ok _ _ _ h
    simp only [Result.ok.injEq, Prod.mk.injEq] at h
    obtain ⟨rfl, rfl⟩ := h
    obtain ⟨e1, e2, e3, e5, e4⟩ := item_to_msgpack_stable ext preferred value place.child path r
      a.1 a.2 ha
    obtain ⟨g1, g2, g3, g5, g4⟩ := item_to_msgpack_elements_stable ext preferred rest place
      path a.2 b.1 b.2 hb
    refine ⟨Ext.trans e1 g1, g2.trans e2, fun hf => g3 (e3 hf), fun hf => g5 (e5 hf),
        fun r2 hr2 => ?_⟩
    simp only [item_to_msgpack_elements, e4 r2 (Ext.trans g1 hr2), Result.bind, g4 r2 hr2]
end

theorem item_to_json_members_filter (ext : External) (preferred : String) :
    ∀ (m : List (String × Item)) (json_object : List (String × Json)) (path : List String)
      (r : Item),
      item_to_json_members ext preferred .root
          (m.filter fun kv => !decide (kv.1 = "encoded_elements")) json_object path r
        = item_to_json_members ext preferred .root m json_object path r := by
  intro m
  induction m with
  | nil => intro _ _ _; rfl
  | cons p rest ih =>
    intro json_object path r
    obtain ⟨k, v⟩ := p
    by_cases hk : k = "encoded_elements"
    · subst hk
      simp [item_to_json_members, ih]
    · simp only [List.filter, hk, decide_False, Bool.not_false, item_to_json_members, ne_eq,
        not_false_eq_true, or_true, if_true]
      congr 1
      funext a
      exact ih _ _ _

theorem item_to_msgpack_members_filter (ext : External) (preferred : String) :
    ∀ (m : List (String × Item)) (path : List String) (r : Item),
      item_to_msgpack_members ext preferred .root
          (m.filter fun kv => !decide (kv.1 = "encoded_elements")) path r
        = item_to_msgpack_members ext preferred .root m path r := by
  intro m
  induction m with
  | nil => intro _ _; rfl
  | cons p rest ih =>
    intro path r
    obtain ⟨k, v⟩ := p
    by_cases hk : k = "encoded_elements"
    · subst hk
      simp [item_to_msgpack_members, ih]
    · simp only [List.filter, hk, decide_False, Bool.not_false, item_to_msgpack_members, ne_eq,
        not_false_eq_true, or_true, if_true]
      congr 1
      funext a
      rw [ih]

/-- Two Items that differ at most in the member "encoded_elements" are either the same
Item or two Objects (in payload) with the same tag and the same other members. -/
theorem stripRegistry_eq_cases (v v2 : Item) (h : stripRegistry v2 = stripRegistry v) :
    v2 = v ∨ ∃ m m2 t, v = .mk (.map m) t ∧ v2 = .mk (.map m2) t ∧
      m2.filter (fun kv => !decide (kv.1 = "encoded_elements"))
        = m.filter (fun kv => !decide (kv.1 = "encoded_elements")) := by
  cases v with
  | mk c t =>
    cases v2 with
    | mk c2 t2 =>
      cases c <;> cases c2 <;> simp only [stripRegistry, Item.mk.injEq, Content.map.injEq] at h
        <;> first
          | (exact Content.noConfusion h.1)
          | (right; exact ⟨_, _, _, rfl, by rw [h.2], h.1⟩)
          | (left; rw [h.1, h.2])

theorem item_to_json_alias (ext : External) (preferred : String) (v v2 : Item)
    (path : List String) (r : Item) (h : stripRegistry v2 = stripRegistry v) :
    item_to_json ext preferred .root v2 path r = item_to_json ext preferred .root v path r := by
  rcases stripRegistry_eq_cases v v2 h with rfl | ⟨m, m2, t, rfl, rfl, hf⟩
  · rfl
  · cases t <;>
      simp [item_to_json, item_to_json_leaf, wrongPayload, Content.cppType]
    rw [← item_to_json_members_filter ext preferred m2, hf,
      item_to_json_members_filter ext preferred m]

/-- The text encoder run on the Item it left behind, as its own root, returns the same
value and leaves that Item as it is; likewise on any Item that differs from it at most
in the registry and records what it records. -/
theorem item_to_json_again (ext : External) (preferred : String) (v v1 v2 : Item)
    (path : List String) (j : Json)
    (h : item_to_json ext preferred .root v path v = .ok (j, v1))
    (hs : stripRegistry v2 = stripRegistry v1) (he : Ext v1 v2) :
    item_to_json ext preferred .root v2 path v2 = .ok (j, v2) := by
  obtain ⟨_, e2, _, _, e4⟩ := item_to_json_stable ext preferred v .root path v j v1 h
  rw [item_to_json_alias ext preferred v v2 path v2 (hs.trans e2)]
  exact e4 v2 he

theorem mapReplace_self (k : String) (v : Item) (m : List (String × Item))
    (h : mapFind k m = some v) : mapReplace k v m = m := by
  induction m with
  | nil => rfl
  | cons p rest ih =>
    obtain ⟨k0, v0⟩ := p
    by_cases h0 : k0 = k
    · simp only [mapFind, h0, if_true, Option.some.injEq] at h
      simp [mapReplace, h0, h]
    · simp only [mapFind, h0, if_false] at h
      simp [mapReplace, h0, ih h]

theorem mapReplace_mapReplace (k : String) (v w : Item) (m : List (String × Item)) :
    mapReplace k w (mapReplace k v m) = mapReplace k w m := by
  induction m with
  | nil => rfl
  | cons p rest ih =>
    obtain ⟨k0, v0⟩ := p
    by_cases h0 : k0 = k
    · simp [mapReplace, h0]
    · simp [mapReplace, h0, ih]

theorem valueAtMut_two_keys (T : CppType) (m : List (String × Item)) (t : ItemType)
    (first : String) (s : Seg) (rest : List Seg) :
    Item.valueAtMut T false (.mk (.map m) t) (.key first :: s :: rest)
      = match mapFind first m with
        | some child =>
          (catchAdd false (.key first) (Item.valueAtMut T false child (s :: rest)).1,
            .mk (.map (mapReplace first (Item.valueAtMut T false child (s :: rest)).2 m)) t)
        | none =>
          (catchAdd false (.key first) (.throw ⟨.keyNotRegistered first, []⟩),
            .mk (.map m) t) := by
  rw [Item.valueAtMut]
  · simp only [value_of_map, Bool.false_and, Bool.false_eq_true, if_false]
    cases mapFind first m <;> rfl
  · intro hnil
    exact List.cons_ne_nil _ _ hnil

theorem deref_catchAdd_ok {α : Type} (s : Seg) (o : Outcome (Option α)) (x : α) :
    deref (catchAdd false s o) = .ok x ↔ deref o = .ok x := by
  cases o with
  | ok a => simp [catchAdd]
  | throw e => simp [catchAdd, deref]
  | undefinedBehaviour => simp [catchAdd]
  | terminate => simp [catchAdd]

/-- The access `item.at<std::vector<Item>>("item", "encoded_elements")` that returns: the
member "item" exists, the access to its registry returns, and the message afterwards
holds the member "item" as that access left it. -/
theorem atMut_item_registry_cases (ms : List (String × Item)) (t : ItemType) (x : Ref)
    (M2 : Item)
    (h : (Item.mk (.map ms) t).atMut .vector [.key "item", .key "encoded_elements"]
      = (.ok x, M2)) :
    ∃ item1 item2, mapFind "item" ms = some item1 ∧
      item1.atMut .vector [.key "encoded_elements"] = (.ok x, item2) ∧
      M2 = .mk (.map (mapReplace "item" item2 ms)) t := by
  simp only [Item.atMut, valueAtMut_two_keys] at h
  cases hf : mapFind "item" ms with
  | none => simp [hf, catchAdd, deref] at h
  | some item1 =>
    simp only [hf, Prod.mk.injEq] at h
    exact ⟨item1, _, rfl, by
      simp only [Item.atMut, Prod.mk.injEq, and_true]
      exact (deref_catchAdd_ok _ _ _).1 h.1, h.2.symm⟩

theorem atMut_item_registry_of (ms : List (String × Item)) (t : ItemType) (x : Ref)
    (item1 item2 : Item) (hf : mapFind "item" ms = some item1)
    (h : item1.atMut .vector [.key "encoded_elements"] = (.ok x, item2)) :
    (Item.mk (.map ms) t).atMut .vector [.key "item", .key "encoded_elements"]
      = (.ok x, .mk (.map (mapReplace "item" item2 ms)) t) := by
  simp only [Item.atMut, Prod.mk.injEq] at h
  simp only [Item.atMut, valueAtMut_two_keys, hf, Prod.mk.injEq]
  exact ⟨(deref_catchAdd_ok _ _ _).2 h.1, by rw [h.2]⟩

theorem child_of_mapFind (ms : List (String × Item)) (t : ItemType) (k : String) (v : Item)
    (h : mapFind k ms = some v) :
    (Item.mk (.map ms) t).child k = .ok (v, Item.mk (.map ms) t) := by
  simp [Item.child, Item.index, Item.atMut, Item.valueAtMut, value_of_map, h, leafOf, catchAdd,
    deref]

theorem forall2_mapReplace (ρ : String × Item → String × Item → Prop) (hrefl : ∀ a, ρ a a)
    (k : String) (v v2 : Item) (hρ : ρ (k, v) (k, v2)) :
    ∀ m : List (String × Item), mapFind k m = some v → List.Forall₂ ρ m (mapReplace k v2 m) := by
  intro m
  induction m with
  | nil => intro h; simp [mapFind] at h
  | cons p rest ih =>
    intro h
    obtain ⟨k0, v0⟩ := p
    by_cases h0 : k0 = k
    · subst h0
      simp only [mapFind, if_true, Option.some.injEq] at h
      subst h
      simp only [mapReplace, if_true]
      exact List.Forall₂.cons hρ (List.forall₂_same.2 fun a _ => hrefl a)
    · simp only [mapFind, h0, if_false] at h
      simp only [mapReplace, h0, if_false]
      exact List.Forall₂.cons (hrefl _) (ih h)

/-- What the access to the registry of the member "item" leaves behind. -/
theorem atMut_registry_facts (item1 item2 : Item) (x : Ref)
    (h : item1.atMut .vector [.key "encoded_elements"] = (.ok x, item2)) :
    ∃ reg2, regOf item2 = some reg2 ∧ stripRegistry item2 = stripRegistry item1 ∧
      Ext item1 item2 ∧ (regImageFree item1 → imageFreeElements reg2 = true) ∧
      item2.atMut .vector [.key "encoded_elements"] = (.ok x, item2) := by
  rcases atMut_registry_cases item1 item2 x h with ⟨reg, hreg, rfl, rfl⟩ | ⟨m, t, rfl, hf, rfl, rfl⟩
  · exact ⟨reg, hreg, rfl, Ext.refl _, fun hfree => hfree reg hreg, h⟩
  · have hreg : regOf (Item.mk (.map (mapStore "encoded_elements"
        (.mk (.vector []) .ARRAY) m)) t) = some [] := by
      simp [regOf, mapFind_mapStore]
    refine ⟨[], hreg, ?_, ?_, fun _ => rfl, atMut_registry_of_regOf _ _ hreg⟩
    · simp [stripRegistry, filter_mapStore]
    · intro q e hfd
      obtain ⟨reg', hr', _⟩ := hfd
      simp [regOf, hf] at hr'

theorem item_to_json_registry_unchanged (ext : External) (preferred : String) (place : Place)
    (reg : List Item) (vt : ItemType) (path : List String) (r r1 : Item) (j : Json)
    (hfree : imageFreeElements reg = true)
    (h : item_to_json ext preferred place (.mk (.vector reg) vt) path r = .ok (j, r1)) :
    r1 = r := by
  by_cases ht : vt = .ARRAY
  · subst ht
    obtain ⟨j', hj'⟩ := item_to_json_imageFree ext preferred (.mk (.vector reg) .ARRAY) place
      path r (by simpa [Item.imageFree] using hfree)
    rw [hj'] at h
    simp only [Result.ok.injEq, Prod.mk.injEq] at h
    exact h.2.symm
  · cases vt <;> first
      | (exact absurd rfl ht)
      | (simp [item_to_json, item_to_json_leaf, wrongPayload, Result.bind] at h; done)
      | (simp [item_to_json, item_to_json_leaf, wrongPayload, Result.bind] at h
         exact h.2.symm)

/-- The loop of the message-level text encoder, run again on the members it left behind
or on members that differ from them at most in registries, returns the same value and
leaves them as they are. -/
theorem item_to_json_message_loop_again (ext : External) (preferred : String) :
    ∀ (members : List (String × Item)) (json_root js : List (String × Json))
      (members1 : List (String × Item)),
      item_to_json_message_loop ext preferred members json_root = .ok (js, members1) →
      (∀ members2, List.Forall₂ SameButRegistry members1 members2 →
        item_to_json_message_loop ext preferred members2 json_root = .ok (js, members2)) ∧
      (∀ k v1, mapFind k members1 = some v1 → ∃ v jv, mapFind k members = some v ∧
        item_to_json ext preferred .root v [] v = .ok (jv, v1))
  | [], json_root, js, members1, h => by
    simp only [item_to_json_message_loop, Result.ok.injEq, Prod.mk.injEq] at h
    obtain ⟨rfl, rfl⟩ := h
    refine ⟨fun members2 h2 => ?_, fun k v1 hk => by simp [mapFind] at hk⟩
    cases h2
    rfl
  | (key, value) :: rest, json_root, js, members1, h => by
    simp only [item_to_json_message_loop] at h
    obtain ⟨a, ha, h⟩ := Result.bind_eq_ok _ _ _ h
    obtain ⟨b, hb, h⟩ := Result.bind_eq_ok _ _ _ h
    simp only [Result.ok.injEq, Prod.mk.injEq] at h
    obtain ⟨rfl, rfl⟩ := h
    obtain ⟨ih1, ih2⟩ := item_to_json_message_loop_again ext preferred rest
      (jsonStore (cStr key) a.1 json_root) b.1 b.2 hb
    constructor
    · intro members2 h2
      cases h2 with
      | cons hab hrest =>
        rename_i p2 rest2
        obtain ⟨k2, v2⟩ := p2
        obtain ⟨hk, hs, he⟩ := hab
        simp only at hk hs he
        subst hk
        have hv2 := item_to_json_again ext preferred value a.2 v2 [] a.1 ha hs he
        simp only [item_to_json_message_loop, hv2, Result.bind, ih1 rest2 hrest]
    · intro k v1 hk
      by_cases h0 : key = k
      · subst h0
        simp only [mapFind, if_true, Option.some.injEq] at hk ⊢
        subst hk
        exact ⟨value, a.1, rfl, ha⟩
      · simp only [mapFind, h0, if_false] at hk ⊢
        exact ih2 k v1 hk

theorem contains_map (ms : List (String × Item)) (t : ItemType) (k : String) :
    (Item.mk (.map ms) t).contains k = .ok (mapContains k ms) := by
  simp [Item.contains, Item.items, Item.atConst, Item.valueAt, Item.value, try_any_cast,
    Item.content, Content.cppType, Outcome.map, deref]

theorem Place.child_ne_root (place : Place) : place.child ≠ .root := by
  cases place <;> simp [Place.child]

mutual
theorem item_to_msgpack_plain (ext : External) (preferred : String) :
    ∀ (item : Item) (place : Place) (path : List String) (r : Item),
      item.plain = true →
      (place = .root → ∀ m t, item = .mk (.map m) t → noRegistryKey m = true) →
      item_to_msgpack ext preferred place item path r = .ok (tokensOf item, r)
  | .mk content contentType, place, path, r, h, hroot => by
    cases contentType <;> cases content <;>
      first
      | (simp [Item.plain] at h; done)
      | skip
    case OBJECT.map members =>
      simp only [Item.plain, Bool.and_eq_true, decide_eq_true_eq] at h
      have hm := item_to_msgpack_members_plain ext preferred members place path r h.2
        (fun hp => hroot hp members .OBJECT rfl)
      simp only [item_to_msgpack, h.1, if_true, hm, Result.bind, tokensOf]
    case ARRAY.vector elements =>
      simp only [Item.plain, Bool.and_eq_true, decide_eq_true_eq] at h
      have hm := item_to_msgpack_elements_plain ext preferred elements place path r h.2
      simp only [item_to_msgpack, h.1, if_true, hm, Result.bind, tokensOf]
    case STRING.string s =>
      simp only [Item.plain, decide_eq_true_eq] at h
      simp [item_to_msgpack, item_to_msgpack_leaf, tokensOf, Result.bind, h]
    all_goals simp [item_to_msgpack, item_to_msgpack_leaf, tokensOf, Result.bind]
theorem item_to_msgpack_members_plain (ext : External) (preferred : String) :
    ∀ (members : List (String × Item)) (place : Place) (path : List String) (r : Item),
      plainMembers members = true →
      (place = .root → noRegistryKey members = true) →
      item_to_msgpack_members ext preferred place members path r
        = .ok (membersTokens members, r)
  | [], place, path, r, _, _ => by simp [item_to_msgpack_members, membersTokens]
  | (key, value) :: rest, place, path, r, h, hroot => by
    simp only [plainMembers, Bool.and_eq_true] at h
    have hk : place ≠ .root ∨ key ≠ "encoded_elements" := by
      by_cases hp : place = .root
      · right
        have := hroot hp
        simp only [noRegistryKey, List.all_cons, Bool.and_eq_true, Bool.not_eq_true',
          decide_eq_false_iff_not] at this
        exact this.1
      · exact Or.inl hp
    have hv := item_to_msgpack_plain ext preferred value place.child (path ++ [key]) r h.1
      (fun hp => absurd hp (Place.child_ne_root place))
    have hrest := item_to_msgpack_members_plain ext preferred rest place path r h.2
      (fun hp => by
        have := hroot hp
        simp only [noRegistryKey, List.all_cons, Bool.and_eq_true] at this
        exact this.2)
    simp only [item_to_msgpack_members, hk, if_true, hv, Result.bind, hrest, membersTokens,
      List.cons_append]
theorem item_to_msgpack_elements_plain (ext : External) (preferred : String) :
    ∀ (elements : List Item) (place : Place) (path : List String) (r : Item),
      plainElements elements = true →
      item_to_msgpack_elements ext preferred place elements path r
        = .ok (elementsTokens elements, r)
  | [], place, path, r, _ => by simp [item_to_msgpack_elements, elementsTokens]
  | value :: rest, place, path, r, h => by
    simp only [plainElements, Bool.and_eq_true] at h
    have hv := item_to_msgpack_plain ext preferred value place.child path r h.1
      (fun hp => absurd hp (Place.child_ne_root place))
    have hrest := item_to_msgpack_elements_plain ext preferred rest place path r h.2
    simp only [item_to_msgpack_elements, hv, Result.bind, hrest, elementsTokens]
end

theorem tokensOf_length_pos (item : Item) : 0 < (tokensOf item).length := by
  cases item with
  | mk content contentType => cases content <;> simp [tokensOf]

mutual
theorem unpackObject_tokensOf :
    ∀ (item : Item) (fuel : Nat) (rest : List MsgElement),
      item.plain = true → 2 * (tokensOf item).length ≤ fuel →
      unpackObject fuel (tokensOf item ++ rest) = some (objectOf item, rest)
  | .mk content contentType, fuel, rest, h, hfuel => by
    cases fuel with
    | zero =>
      have := tokensOf_length_pos (.mk content contentType)
      omega
    | succ f =>
      cases contentType <;> cases content <;>
        first
        | (simp [Item.plain] at h; done)
        | skip
      case OBJECT.map members =>
        simp only [Item.plain, Bool.and_eq_true, decide_eq_true_eq] at h
        simp only [tokensOf, List.length_cons] at hfuel
        have hm := unpackPairs_membersTokens members f 0 rest h.2 (by omega)
        simp only [Nat.add_zero] at hm
        simp only [tokensOf, List.cons_append, unpackObject, hm, objectOf]
        simp [unpackPairs]
      case ARRAY.vector elements =>
        simp only [Item.plain, Bool.and_eq_true, decide_eq_true_eq] at h
        simp only [tokensOf, List.length_cons] at hfuel
        have hm := unpackElements_elementsTokens elements f 0 rest h.2 (by omega)
        simp only [Nat.add_zero] at hm
        simp only [tokensOf, List.cons_append, unpackObject, hm, objectOf]
        simp [unpackElements]
      case BOOL.bool b =>
        cases b <;> simp [tokensOf, unpackObject, objectOf]
      all_goals simp [tokensOf, unpackObject, objectOf]
theorem unpackPairs_membersTokens :
    ∀ (members : List (String × Item)) (fuel count : Nat) (tail : List MsgElement),
      plainMembers members = true → 2 * (membersTokens members).length + 1 ≤ fuel →
      unpackPairs fuel (members.length + count) (membersTokens members ++ tail)
        = (unpackPairs (fuel - members.length) count tail).map
            fun r => (pairsOf members ++ r.1, r.2)
  | [], fuel, count, tail, _, _ => by
    simp [membersTokens, pairsOf]
  | (key, value) :: rest, fuel, count, tail, h, hfuel => by
    simp only [plainMembers, Bool.and_eq_true] at h
    have hpos := tokensOf_length_pos value
    simp only [membersTokens, List.length_cons, List.length_append] at hfuel
    obtain ⟨g, rfl⟩ : ∃ g, fuel = g + 2 := ⟨fuel - 2, by omega⟩
    have hv := unpackObject_tokensOf value (g + 1) (membersTokens rest ++ tail) h.1 (by omega)
    have hr := unpackPairs_membersTokens rest (g + 1) count tail h.2 (by omega)
    have hcount : ((key, value) :: rest).length + count = (rest.length + count) + 1 := by
      simp only [List.length_cons]
      omega
    have hsub : g + 2 - ((key, value) :: rest).length = g + 1 - rest.length := by
      simp only [List.length_cons]
      omega
    have hkey : ∀ X, unpackObject (g + 1) (MsgElement.str key :: X)
        = some (MsgObject.str key, X) := fun _ => rfl
    rw [hcount, hsub]
    simp only [membersTokens, List.cons_append, List.append_assoc, unpackPairs, hkey, hv,
      hr, Option.map_map, pairsOf]
    rfl
theorem unpackElements_elementsTokens :
    ∀ (elements : List Item) (fuel count : Nat) (tail : List MsgElement),
      plainElements elements = true → 2 * (elementsTokens elements).length + 1 ≤ fuel →
      unpackElements fuel (elements.length + count) (elementsTokens elements ++ tail)
        = (unpackElements (fuel - elements.length) count tail).map
            fun r => (objectsOf elements ++ r.1, r.2)
  | [], fuel, count, tail, _, _ => by
    simp [elementsTokens, objectsOf]
  | value :: rest, fuel, count, tail, h, hfuel => by
    simp only [plainElements, Bool.and_eq_true] at h
    have hpos := tokensOf_length_pos value
    simp only [elementsTokens, List.length_append] at hfuel
    obtain ⟨g, rfl⟩ : ∃ g, fuel = g + 1 := ⟨fuel - 1, by omega⟩
    have hv := unpackObject_tokensOf value g (elementsTokens rest ++ tail) h.1 (by omega)
    have hr := unpackElements_elementsTokens rest g count tail h.2 (by omega)
    have hcount : (value :: rest).length + count = (rest.length + count) + 1 := by
      simp only [List.length_cons]
      omega
    have hsub : g + 1 - (value :: rest).length = g - rest.length := by
      simp only [List.length_cons]
      omega
    rw [hcount, hsub]
    simp only [elementsTokens, List.append_assoc, unpackElements, hv, hr, Option.map_map,
      objectsOf]
    rfl
end

theorem unpack_canonical (fuel : Nat) :
    (∀ els, unpackObject fuel (els.map MsgElement.canonical)
      = (unpackObject fuel els).map fun r => (r.1, r.2.map MsgElement.canonical)) ∧
    (∀ n els, unpackElements fuel n (els.map MsgElement.canonical)
      = (unpackElements fuel n els).map fun r => (r.1, r.2.map MsgElement.canonical)) ∧
    (∀ n els, unpackPairs fuel n (els.map MsgElement.canonical)
      = (unpackPairs fuel n els).map fun r => (r.1, r.2.map MsgElement.canonical)) := by
  induction fuel with
  | zero =>
    refine ⟨fun els => by simp [unpackObject], fun n els => ?_, fun n els => ?_⟩
    · cases n <;> simp [unpackElements]
    · cases n <;> simp [unpackPairs]
  | succ f ih =>
    obtain ⟨ihO, ihE, ihP⟩ := ih
    refine ⟨fun els => ?_, fun n els => ?_, fun n els => ?_⟩
    · cases els with
      | nil => simp [unpackObject]
      | cons e rest =>
        cases e with
        | int i =>
          by_cases hi : 0 ≤ i
          · simp [unpackObject, MsgElement.canonical, hi]
          · simp [unpackObject, MsgElement.canonical, hi]
        | mapHeader n =>
          simp only [List.map_cons, MsgElement.canonical, unpackObject, ihP, Option.map_map]
          rfl
        | arrayHeader n =>
          simp only [List.map_cons, MsgElement.canonical, unpackObject, ihE, Option.map_map]
          rfl
        | _ => simp [unpackObject, MsgElement.canonical]
    · cases n with
      | zero => simp [unpackElements]
      | succ n =>
        simp only [unpackElements, ihO]
        cases unpackObject f els with
        | none => rfl
        | some r =>
          simp only [Option.map_some', ihE, Option.map_map]
          rfl
    · cases n with
      | zero => simp [unpackPairs]
      | succ n =>
        simp only [unpackPairs, ihO]
        cases unpackObject f els with
        | none => rfl
        | some r =>
          simp only [Option.map_some', ihO]
          cases unpackObject f r.2 with
          | none => rfl
          | some r2 =>
            simp only [Option.map_some', ihP, Option.map_map]
            rfl

theorem lexLt_asymm : ∀ a b : List Nat, lexLt a b = true → lexLt b a = false
  | _, [], h => by simp [lexLt] at h
  | [], _ :: _, _ => by simp [lexLt]
  | x :: xs, y :: ys, h => by
    simp only [lexLt, Bool.or_eq_true, decide_eq_true_eq, Bool.and_eq_true] at h
    simp only [lexLt, Bool.or_eq_false_iff, decide_eq_false_iff_not, Bool.and_eq_false_imp,
      decide_eq_true_eq]
    rcases h with h | ⟨h1, h2⟩
    · exact ⟨by omega, fun hyx => by omega⟩
    · exact ⟨by omega, fun _ => lexLt_asymm xs ys h2⟩

theorem keyLt_asymm (a b : String) (h : keyLt a b = true) : keyLt b a = false :=
  lexLt_asymm _ _ h

theorem keyLt_ne (a b : String) (h : keyLt a b = true) : a ≠ b := by
  intro hab
  subst hab
  have := keyLt_asymm a a h
  rw [h] at this
  cases this

/-- Storing a key greater than every key of a map puts it last. -/
theorem mapStore_last (k : String) (v : Item) :
    ∀ acc : List (String × Item), (∀ a ∈ acc, keyLt a.1 k = true) →
      mapStore k v acc = acc ++ [(k, v)] ∧ mapFind k acc = none := by
  intro acc
  induction acc with
  | nil => intro _; simp [mapStore, mapFind]
  | cons p rest ih =>
    intro h
    obtain ⟨k0, v0⟩ := p
    have h0 := h (k0, v0) (List.mem_cons_self _ _)
    have hne : k0 ≠ k := keyLt_ne _ _ h0
    have hnlt : keyLt k k0 = false := keyLt_asymm _ _ h0
    obtain ⟨i1, i2⟩ := ih fun a ha => h a (List.mem_cons_of_mem _ ha)
    simp [mapStore, mapFind, hne, hnlt, i1, i2]

theorem fillChild_new (acc : List (String × Item)) (t : ItemType) (key : String)
    (fill : Item → Result Item) (h : mapFind key acc = none) :
    fillChild (.mk (.map acc) t) key fill
      = (fill Item.default).bind fun child => .ok (.mk (.map (mapStore key child acc)) t) := by
  have hidx : (Item.mk (.map acc) t).index key
      = (.ok (.item Item.default), .mk (.map (mapStore key Item.default acc)) t) := by
    simp [Item.index, Item.atMut, Item.valueAtMut, value_of_map, h, leafOf, catchAdd, deref,
      assignDefault, Item.assign, Item.default, Item.content, Item.contentType,
      Item.withContent]
  simp only [fillChild, hidx, Item.setChild, mapReplace_mapStore]

theorem keysSorted_cons (k : String) (v : Item) (rest : List (String × Item))
    (h : keysSorted ((k, v) :: rest) = true) :
    (∀ b ∈ rest, keyLt k b.1 = true) ∧ keysSorted rest = true := by
  simp only [keysSorted, Bool.and_eq_true, List.all_eq_true] at h
  exact h

mutual
theorem msgpack_to_item_objectOf (ext : External) :
    ∀ (item : Item), item.plain = true → item.keyOrdered = true →
      msgpack_to_item ext Item.default (objectOf item) = .ok (retag item)
  | .mk content contentType, h, ho => by
    cases contentType <;> cases content <;>
      first
      | (simp [Item.plain] at h; done)
      | skip
    case OBJECT.map members =>
      simp only [Item.plain, Bool.and_eq_true, decide_eq_true_eq] at h
      simp only [Item.keyOrdered, Bool.and_eq_true] at ho
      have hm := msgpack_to_item_pairs_pairsOf ext members [] h.2 ho.2 ho.1
        (fun a ha => by simp at ha)
      simp only [objectOf, msgpack_to_item, retag]
      simpa [Item.default] using hm
    case ARRAY.vector elements =>
      simp only [Item.plain, Bool.and_eq_true, decide_eq_true_eq] at h
      simp only [Item.keyOrdered] at ho
      have hm := msgpack_to_item_elements_objectsOf ext elements [] h.2 ho
      simp only [objectOf, msgpack_to_item, hm, Result.bind, retag]
      rfl
    case INT64.int64 i =>
      by_cases hi : 0 ≤ i
      · simp [objectOf, msgpack_to_item, retag, hi, Item.assignNative, Content.cppType,
          deriveItemType]
      · simp [objectOf, msgpack_to_item, retag, hi, Item.assignNative, Content.cppType,
          deriveItemType]
    all_goals simp [objectOf, msgpack_to_item, retag, Item.assignNative, Content.cppType,
      deriveItemType]
theorem msgpack_to_item_pairs_pairsOf (ext : External) :
    ∀ (members acc : List (String × Item)),
      plainMembers members = true → keyOrderedMembers members = true →
      keysSorted members = true →
      (∀ a ∈ acc, ∀ b ∈ members, keyLt a.1 b.1 = true) →
      msgpack_to_item_pairs ext (.mk (.map acc) .OBJECT) (pairsOf members)
        = .ok (.mk (.map (acc ++ retagMembers members)) .OBJECT)
  | [], acc, _, _, _, _ => by simp [pairsOf, msgpack_to_item_pairs, retagMembers]
  | (key, value) :: rest, acc, h, ho, hs, hacc => by
    simp only [plainMembers, Bool.and_eq_true] at h
    simp only [keyOrderedMembers, Bool.and_eq_true] at ho
    obtain ⟨hk, hsrest⟩ := keysSorted_cons key value rest hs
    obtain ⟨hstore, hfind⟩ := mapStore_last key (retag value) acc
      (fun a ha => hacc a ha (key, value) (List.mem_cons_self _ _))
    have hv := msgpack_to_item_objectOf ext value h.1 ho.1
    have hrest := msgpack_to_item_pairs_pairsOf ext rest (acc ++ [(key, retag value)]) h.2 ho.2
      hsrest
      (fun a ha b hb => by
        rcases List.mem_append.1 ha with ha | ha
        · exact hacc a ha b (List.mem_cons_of_mem _ hb)
        · simp only [List.mem_singleton] at ha
          subst ha
          exact hk b hb)
    simp only [pairsOf, msgpack_to_item_pairs, fillChild_new acc .OBJECT key _ hfind, hv,
      Result.bind, hstore, hrest, retagMembers, List.append_assoc, List.singleton_append]
theorem msgpack_to_item_elements_objectsOf (ext : External) :
    ∀ (elements acc : List Item), plainElements elements = true →
      keyOrderedElements elements = true →
      msgpack_to_item_elements ext acc (objectsOf elements)
        = .ok (acc ++ retagElements elements)
  | [], acc, _, _ => by simp [objectsOf, msgpack_to_item_elements, retagElements]
  | value :: rest, acc, h, ho => by
    simp only [plainElements, Bool.and_eq_true] at h
    simp only [keyOrderedElements, Bool.and_eq_true] at ho
    have hv := msgpack_to_item_objectOf ext value h.1 ho.1
    have hrest := msgpack_to_item_elements_objectsOf ext rest (acc ++ [retag value]) h.2 ho.2
    simp only [objectsOf, msgpack_to_item_elements, hv, Result.bind, hrest, retagElements,
      List.append_assoc, List.singleton_append]
end

theorem membersTokens_append (a b : List (String × Item)) :
    membersTokens (a ++ b) = membersTokens a ++ membersTokens b := by
  induction a with
  | nil => rfl
  | cons p rest ih =>
    obtain ⟨k, v⟩ := p
    simp [membersTokens, ih]

theorem pairsOf_append (a b : List (String × Item)) :
    pairsOf (a ++ b) = pairsOf a ++ pairsOf b := by
  induction a with
  | nil => rfl
  | cons p rest ih =>
    obtain ⟨k, v⟩ := p
    simp [pairsOf, ih]

theorem plainMembers_append (a b : List (String × Item)) :
    plainMembers (a ++ b) = (plainMembers a && plainMembers b) := by
  induction a with
  | nil => simp [plainMembers]
  | cons p rest ih =>
    obtain ⟨k, v⟩ := p
    simp [plainMembers, ih, Bool.and_assoc]

theorem msgpack_to_item_pairs_append (ext : External) (b : List (MsgObject × MsgObject)) :
    ∀ (a : List (MsgObject × MsgObject)) (r : Item),
      msgpack_to_item_pairs ext r (a ++ b)
        = (msgpack_to_item_pairs ext r a).bind fun r1 => msgpack_to_item_pairs ext r1 b := by
  intro a
  induction a with
  | nil => intro r; rfl
  | cons p rest ih =>
    intro r
    obtain ⟨k, v⟩ := p
    cases k <;> simp only [List.cons_append, msgpack_to_item_pairs, Result.bind]
    rename_i s
    cases fillChild r s fun child => msgpack_to_item ext child v with
    | ok r1 => exact ih r1
    | throw t => rfl
    | undefinedBehaviour => rfl
    | terminate => rfl

theorem mapFind_mem (k : String) (v : Item) :
    ∀ m : List (String × Item), mapFind k m = some v → (k, v) ∈ m := by
  intro m
  induction m with
  | nil => intro h; simp [mapFind] at h
  | cons p rest ih =>
    intro h
    obtain ⟨k0, v0⟩ := p
    by_cases h0 : k0 = k
    · simp only [mapFind, h0, if_true, Option.some.injEq] at h
      simp [h0, h]
    · simp only [mapFind, h0, if_false] at h
      exact List.mem_cons_of_mem _ (ih h)

theorem mapFind_none_of_all_ne (k : String) :
    ∀ m : List (String × Item), (∀ a ∈ m, a.1 ≠ k) → mapFind k m = none := by
  intro m
  induction m with
  | nil => intro _; rfl
  | cons p rest ih =>
    intro h
    obtain ⟨k0, v0⟩ := p
    have h0 : k0 ≠ k := h (k0, v0) (List.mem_cons_self _ _)
    simp [mapFind, h0, ih fun a ha => h a (List.mem_cons_of_mem _ ha)]

theorem filter_ne_eq_self (k : String) :
    ∀ m : List (String × Item), (∀ a ∈ m, a.1 ≠ k) →
      m.filter (fun kv => !decide (kv.1 = k)) = m := by
  intro m h
  apply List.filter_eq_self.2
  intro a ha
  simp [h a ha]

/-- In a map in key order, storing a value under a present key after taking that key out
is replacing its value. -/
theorem mapStore_filter_sorted (k : String) (x : Item) :
    ∀ m : List (String × Item), keysSorted m = true → (mapFind k m).isSome = true →
      mapStore k x (m.filter fun kv => !decide (kv.1 = k)) = mapReplace k x m ∧
      (m.filter fun kv => !decide (kv.1 = k)).length + 1 = m.length := by
  intro m
  induction m with
  | nil => intro _ h; simp [mapFind] at h
  | cons p rest ih =>
    intro hs h
    obtain ⟨k0, v0⟩ := p
    obtain ⟨hk, hsrest⟩ := keysSorted_cons k0 v0 rest hs
    by_cases h0 : k0 = k
    · subst h0
      have hne : ∀ a ∈ rest, a.1 ≠ k0 := fun a ha => (keyLt_ne _ _ (hk a ha)).symm
      have hf := filter_ne_eq_self k0 rest hne
      simp only [List.filter, decide_True, Bool.not_true, mapReplace, if_true, hf,
        List.length_cons, and_true]
      cases rest with
      | nil => simp [mapStore]
      | cons q rest2 =>
        obtain ⟨k1, v1⟩ := q
        have h1 := hk (k1, v1) (List.mem_cons_self _ _)
        have hne1 : k1 ≠ k0 := (keyLt_ne _ _ h1).symm
        simp only at h1
        simp [mapStore, hne1, h1]
    · simp only [mapFind, h0, if_false] at h
      obtain ⟨v, hv⟩ := Option.isSome_iff_exists.1 h
      have hlt : keyLt k0 k = true := hk (k, v) (mapFind_mem k v rest hv)
      have hnlt : keyLt k k0 = false := keyLt_asymm _ _ hlt
      obtain ⟨i1, i2⟩ := ih hsrest h
      simp only [List.filter, h0, decide_False, Bool.not_false, mapStore, if_false, hnlt,
        Bool.false_eq_true, mapReplace, i1, List.length_cons, i2, and_self]

theorem keysSorted_filter (f : String × Item → Bool) :
    ∀ m : List (String × Item), keysSorted m = true → keysSorted (m.filter f) = true := by
  intro m
  induction m with
  | nil => intro _; rfl
  | cons p rest ih =>
    intro hs
    obtain ⟨k0, v0⟩ := p
    obtain ⟨hk, hsrest⟩ := keysSorted_cons k0 v0 rest hs
    by_cases hf : f (k0, v0) = true
    · simp only [List.filter, hf, keysSorted, Bool.and_eq_true, List.all_eq_true]
      exact ⟨fun b hb => hk b (List.mem_filter.1 hb).1, ih hsrest⟩
    · simp only [List.filter, hf]
      exact ih hsrest

theorem mapFind_retagMembers (k : String) (m : List (String × Item)) :
    mapFind k (retagMembers m) = (mapFind k m).map retag := by
  induction m with
  | nil => rfl
  | cons p rest ih =>
    obtain ⟨k0, v0⟩ := p
    by_cases h0 : k0 = k
    · simp [retagMembers, mapFind, h0]
    · simp [retagMembers, mapFind, h0, ih]

theorem retagMembers_mapStore (k : String) (v : Item) (m : List (String × Item)) :
    retagMembers (mapStore k v m) = mapStore k (retag v) (retagMembers m) := by
  induction m with
  | nil => rfl
  | cons p rest ih =>
    obtain ⟨k0, v0⟩ := p
    by_cases h0 : k0 = k
    · simp [retagMembers, mapStore, h0]
    · by_cases hlt : keyLt k k0 = true
      · simp [retagMembers, mapStore, h0, hlt]
      · simp [retagMembers, mapStore, h0, hlt, ih]

theorem retagMembers_mapReplace (k : String) (v : Item) (m : List (String × Item)) :
    retagMembers (mapReplace k v m) = mapReplace k (retag v) (retagMembers m) := by
  induction m with
  | nil => rfl
  | cons p rest ih =>
    obtain ⟨k0, v0⟩ := p
    by_cases h0 : k0 = k
    · simp [retagMembers, mapReplace, h0]
    · simp [retagMembers, mapReplace, h0, ih]

theorem retagMembers_filter (k : String) (m : List (String × Item)) :
    retagMembers (m.filter fun kv => !decide (kv.1 = k))
      = (retagMembers m).filter fun kv => !decide (kv.1 = k) := by
  induction m with
  | nil => rfl
  | cons p rest ih =>
    obtain ⟨k0, v0⟩ := p
    by_cases h0 : k0 = k
    · simp [retagMembers, List.filter, h0, ih]
    · simp [retagMembers, List.filter, h0, ih]

theorem keysSorted_retagMembers (m : List (String × Item)) :
    keysSorted (retagMembers m) = keysSorted m := by
  induction m with
  | nil => rfl
  | cons p rest ih =>
    obtain ⟨k0, v0⟩ := p
    have hall : ∀ l : List (String × Item),
        (retagMembers l).all (fun kv => keyLt k0 kv.1) = l.all (fun kv => keyLt k0 kv.1) := by
      intro l
      induction l with
      | nil => rfl
      | cons q l2 ih2 =>
        obtain ⟨k1, v1⟩ := q
        simp [retagMembers, ih2]
    simp only [retagMembers, keysSorted, hall, ih]

theorem plainMembers_of_all (m : List (String × Item))
    (h : ∀ a ∈ m, a.2.plain = true) : plainMembers m = true := by
  induction m with
  | nil => rfl
  | cons p rest ih =>
    obtain ⟨k0, v0⟩ := p
    simp only [plainMembers, Bool.and_eq_true]
    exact ⟨h (k0, v0) (List.mem_cons_self _ _), ih fun a ha => h a (List.mem_cons_of_mem _ ha)⟩

theorem keyOrderedMembers_of_all (m : List (String × Item))
    (h : ∀ a ∈ m, a.2.keyOrdered = true) : keyOrderedMembers m = true := by
  induction m with
  | nil => rfl
  | cons p rest ih =>
    obtain ⟨k0, v0⟩ := p
    simp only [keyOrderedMembers, Bool.and_eq_true]
    exact ⟨h (k0, v0) (List.mem_cons_self _ _), ih fun a ha => h a (List.mem_cons_of_mem _ ha)⟩

theorem plainMembers_mem (m : List (String × Item)) (h : plainMembers m = true) :
    ∀ a ∈ m, a.2.plain = true := by
  induction m with
  | nil => intro a ha; cases ha
  | cons p rest ih =>
    obtain ⟨k0, v0⟩ := p
    simp only [plainMembers, Bool.and_eq_true] at h
    intro a ha
    rcases List.mem_cons.1 ha with rfl | ha
    · exact h.1
    · exact ih h.2 a ha

theorem keyOrderedMembers_mem (m : List (String × Item)) (h : keyOrderedMembers m = true) :
    ∀ a ∈ m, a.2.keyOrdered = true := by
  induction m with
  | nil => intro a ha; cases ha
  | cons p rest ih =>
    obtain ⟨k0, v0⟩ := p
    simp only [keyOrderedMembers, Bool.and_eq_true] at h
    intro a ha
    rcases List.mem_cons.1 ha with rfl | ha
    · exact h.1
    · exact ih h.2 a ha

/-- The loop of the message-level binary encoder on top-level values that are `plain`
and, where they are Objects, hold no member "encoded_elements": it writes every member
but "item" and leaves the members as they are. -/
theorem item_to_msgpack_message_loop_plain (ext : External) (preferred : String) :
    ∀ members : List (String × Item),
      (∀ a ∈ members, a.2.plain = true ∧ ∀ m t, a.2 = .mk (.map m) t → noRegistryKey m = true) →
      item_to_msgpack_message_loop ext preferred members
        = .ok (membersTokens (members.filter fun kv => !decide (kv.1 = "item")), members) := by
  intro members
  induction members with
  | nil => intro _; rfl
  | cons p rest ih =>
    intro h
    obtain ⟨k, v⟩ := p
    have hrest := ih fun a ha => h a (List.mem_cons_of_mem _ ha)
    obtain ⟨hp, hr⟩ := h (k, v) (List.mem_cons_self _ _)
    by_cases hk : k = "item"
    · simp only [item_to_msgpack_message_loop, hk, ne_eq, not_true_eq_false, if_false, hrest,
        Result.bind, List.filter, decide_True, Bool.not_true]
    · have hv := item_to_msgpack_plain ext preferred v .root [] v hp (fun _ => hr)
      simp only [item_to_msgpack_message_loop, hk, ne_eq, not_false_eq_true, if_true, hv, hrest,
        Result.bind, List.filter, decide_False, Bool.not_false, membersTokens, List.cons_append]

theorem length_mapStore_new (k : String) (v : Item) (m : List (String × Item))
    (h : mapFind k m = none) : (mapStore k v m).length = m.length + 1 := by
  induction m with
  | nil => rfl
  | cons p rest ih =>
    obtain ⟨k0, v0⟩ := p
    by_cases h0 : k0 = k
    · simp [mapFind, h0] at h
    · simp only [mapFind, h0, if_false] at h
      by_cases hlt : keyLt k k0 = true
      · simp [mapStore, h0, hlt]
      · simp [mapStore, h0, hlt, ih h]

theorem noRegistryKey_iff (m : List (String × Item)) :
    noRegistryKey m = true ↔ ∀ a ∈ m, a.1 ≠ "encoded_elements" := by
  simp [noRegistryKey, List.all_eq_true]

theorem plain_map_tag (m : List (String × Item)) (t : ItemType)
    (h : (Item.mk (.map m) t).plain = true) :
    t = .OBJECT ∧ m.length < uint32Max ∧ plainMembers m = true := by
  cases t <;> simp [Item.plain] at h
  exact ⟨rfl, h⟩

/-- The message-level binary encoder on a message without the member "item" whose values
are `plain`. -/
theorem item_to_msgpack_message_plain_without_item (ext : External) (preferred : String)
    (members : List (String × Item)) (hlen : members.length < uint32Max)
    (htop : ∀ a ∈ members,
      a.2.plain = true ∧ ∀ m t, a.2 = .mk (.map m) t → noRegistryKey m = true)
    (hitem : mapFind "item" members = none) :
    item_to_msgpack_message ext (.mk (.map members) .OBJECT) preferred
      = .ok (tokensOf (.mk (.map members) .OBJECT), .mk (.map members) .OBJECT) := by
  have hloop := item_to_msgpack_message_loop_plain ext preferred members htop
  have hne : ∀ a ∈ members, a.1 ≠ "item" := by
    intro a ha hk
    have : (mapFind "item" members).isSome = true := by
      clear hloop htop hlen
      induction members with
      | nil => cases ha
      | cons p rest ih =>
        obtain ⟨k0, v0⟩ := p
        by_cases h0 : k0 = "item"
        · simp [mapFind, h0]
        · simp only [mapFind, h0, if_false] at hitem ⊢
          rcases List.mem_cons.1 ha with rfl | ha
          · exact absurd hk h0
          · exact ih hitem ha
    simp [hitem] at this
  rw [filter_ne_eq_self "item" members hne] at hloop
  have hmod : members.length % 2 ^ 32 = members.length := by
    apply Nat.mod_eq_of_lt
    simp only [uint32Max] at hlen
    omega
  simp only [item_to_msgpack_message, hloop, Result.bind, contains_map, mapContains, hitem,
    Option.isSome_none, hmod, tokensOf]

/-- The message-level binary encoder on a message whose member "item" is an Object
without registry and whose values are `plain`: what it writes is `tokensOf` of the
`wireTree`, and the message gains the empty registry. -/
theorem item_to_msgpack_message_plain_with_item (ext : External) (preferred : String)
    (members im : List (String × Item)) (hlen : members.length < uint32Max)
    (hs : keysSorted members = true)
    (htop : ∀ a ∈ members,
      a.2.plain = true ∧ ∀ m t, a.2 = .mk (.map m) t → noRegistryKey m = true)
    (hitem : mapFind "item" members = some (.mk (.map im) .OBJECT))
    (hroom : im.length + 1 < uint32Max) :
    item_to_msgpack_message ext (.mk (.map members) .OBJECT) preferred
      = .ok (tokensOf (wireTree (.mk (.map members) .OBJECT)),
          withRegistry (.mk (.map members) .OBJECT)) := by
  have hloop := item_to_msgpack_message_loop_plain ext preferred members htop
  obtain ⟨hiplain, hireg⟩ := htop _ (mapFind_mem _ _ _ hitem)
  have hnoreg := hireg im .OBJECT rfl
  obtain ⟨_, _, hplainIm⟩ := plain_map_tag im .OBJECT hiplain
  have hregNone : mapFind "encoded_elements" im = none :=
    mapFind_none_of_all_ne _ _ ((noRegistryKey_iff im).1 hnoreg)
  have hviv := atMut_item_registry_of members .OBJECT _ _ _ hitem
    (atMut_registry_absent im .OBJECT hregNone)
  have hfind2 : mapFind "item" (mapReplace "item"
      (Item.mk (.map (mapStore "encoded_elements" (.mk (.vector []) .ARRAY) im)) .OBJECT)
      members) = some (Item.mk (.map (mapStore "encoded_elements"
        (.mk (.vector []) .ARRAY) im)) .OBJECT) :=
    mapFind_mapReplace_same _ _ _ (by simp [hitem])
  have hlen2 : (mapStore "encoded_elements" (Item.mk (.vector []) .ARRAY) im).length
      < uint32Max := by
    rw [length_mapStore_new _ _ _ hregNone]
    exact hroom
  have hwalk : ∀ r, item_to_msgpack_members ext preferred .root
      (mapStore "encoded_elements" (Item.mk (.vector []) .ARRAY) im) [] r
      = .ok (membersTokens im, r) := by
    intro r
    rw [← item_to_msgpack_members_filter, filter_mapStore,
      filter_ne_eq_self _ im ((noRegistryKey_iff im).1 hnoreg)]
    exact item_to_msgpack_members_plain ext preferred im .root [] r hplainIm (fun _ => hnoreg)
  have hregFind : mapFind "encoded_elements"
      (mapStore "encoded_elements" (Item.mk (.vector []) .ARRAY) im)
      = some (Item.mk (.vector []) .ARRAY) := by
    simp [mapFind_mapStore]
  have hcount := (mapStore_filter_sorted "item" (Item.mk (.map im) .OBJECT) members hs
    (by simp [hitem])).2
  have hmod : members.length % 2 ^ 32 = members.length := by
    apply Nat.mod_eq_of_lt
    simp only [uint32Max] at hlen
    omega
  have hregWalk : ∀ r, item_to_msgpack ext preferred .registry (Item.mk (.vector []) .ARRAY) [] r
      = .ok ([.arrayHeader 0], r) := by
    intro r
    simp [item_to_msgpack, item_to_msgpack_elements, uint32Max, Result.bind]
  have hitemWalk : item_to_msgpack ext preferred .root
      (Item.mk (.map (mapStore "encoded_elements" (.mk (.vector []) .ARRAY) im)) .OBJECT) []
      (Item.mk (.map (mapStore "encoded_elements" (.mk (.vector []) .ARRAY) im)) .OBJECT)
      = .ok (.mapHeader (im.length + 1) :: membersTokens im,
          Item.mk (.map (mapStore "encoded_elements" (.mk (.vector []) .ARRAY) im)) .OBJECT) := by
    simp only [item_to_msgpack, hlen2, hroom, if_true, hwalk, Result.bind,
      length_mapStore_new _ _ _ hregNone]
  have hwire : tokensOf (wireTree (Item.mk (.map members) .OBJECT))
      = .mapHeader members.length ::
          (membersTokens (members.filter fun kv => !decide (kv.1 = "item")) ++
            [.str "item"] ++ (.mapHeader (im.length + 1) :: membersTokens im) ++
            [.str "encoded_elements"] ++ [.arrayHeader 0]) := by
    simp only [wireTree, hitem, tokensOf, membersTokens_append, membersTokens, elementsTokens,
      List.length_append, List.length_cons, List.length_nil, hcount, List.append_nil,
      List.cons_append, List.append_assoc, List.nil_append, Nat.zero_add]
  rw [hwire]
  simp only [item_to_msgpack_message, hloop, Result.bind, contains_map, mapContains, hitem,
    Option.isSome_some, hviv, child_of_mapFind _ .OBJECT "item" _ hfind2, hitemWalk,
    child_of_mapFind _ .OBJECT "encoded_elements" _ hregFind, hregWalk,
    Item.setChild, mapReplace_mapReplace, hmod, withRegistry]
  simp only [List.cons_append, List.append_assoc]

theorem roundTripMessage_cases (msg : Item) (h : roundTripMessage msg = true) :
    ∃ members, msg = .mk (.map members) .OBJECT ∧ members.length < uint32Max ∧
      keysSorted members = true ∧ ∀ a ∈ members, topValueOk a = true := by
  cases msg with
  | mk c t =>
    cases c <;> cases t <;> simp only [roundTripMessage, Bool.false_eq_true] at h
    rename_i members
    simp only [Bool.and_eq_true, decide_eq_true_eq, List.all_eq_true] at h
    exact ⟨members, rfl, h.1, h.2.1, h.2.2⟩

theorem topValueOk_cases (a : String × Item) (h : topValueOk a = true) :
    a.2.plain = true ∧ a.2.keyOrdered = true ∧
      (∀ m t, a.2 = .mk (.map m) t →
        noRegistryKey m = true ∧ (a.1 = "item" → m.length + 1 < uint32Max)) ∧
      (a.1 = "item" → ∃ m t, a.2 = .mk (.map m) t) := by
  obtain ⟨k, v⟩ := a
  cases v with
  | mk c t =>
    cases c <;>
      simp only [topValueOk, Bool.and_eq_true, Bool.or_eq_true, decide_eq_true_eq, ne_eq] at h
    case map m =>
      refine ⟨h.1.1, h.1.2, fun m' t' he => ?_, fun _ => ⟨m, t, rfl⟩⟩
      simp only [Item.mk.injEq, Content.map.injEq] at he
      obtain ⟨rfl, rfl⟩ := he
      refine ⟨h.2.1, fun hk => ?_⟩
      rcases h.2.2 with h1 | h1
      · exact absurd hk h1
      · exact h1
    all_goals
      exact ⟨h.1.1, h.1.2, fun m' t' he => by simp at he, fun hk => absurd hk h.2⟩

/-- The decoder on the object of a `wireTree` with the member "item": the message with
the empty registry, retagged. -/
theorem msgpack_to_item_wireTree (ext : External) (members im : List (String × Item))
    (hs : keysSorted members = true) (hp : plainMembers members = true)
    (ho : keyOrderedMembers members = true)
    (hitem : mapFind "item" members = some (.mk (.map im) .OBJECT))
    (hnoreg : noRegistryKey im = true) :
    msgpack_to_item ext Item.default (objectOf (wireTree (.mk (.map members) .OBJECT)))
      = .ok (retag (withRegistry (.mk (.map members) .OBJECT))) := by
  have hmem := mapFind_mem _ _ _ hitem
  have hpi := plainMembers_mem members hp _ hmem
  have hoi := keyOrderedMembers_mem members ho _ hmem
  obtain ⟨_, _, hpim⟩ := plain_map_tag im .OBJECT hpi
  simp only [Item.keyOrdered, Bool.and_eq_true] at hoi
  -- the members other than "item"
  have hothers := msgpack_to_item_pairs_pairsOf ext
    (members.filter fun kv => !decide (kv.1 = "item")) []
    (plainMembers_of_all _ fun a ha => plainMembers_mem members hp a (List.mem_filter.1 ha).1)
    (keyOrderedMembers_of_all _ fun a ha =>
      keyOrderedMembers_mem members ho a (List.mem_filter.1 ha).1)
    (keysSorted_filter _ members hs) (fun a ha => by simp at ha)
  have hnone : mapFind "item"
      (retagMembers (members.filter fun kv => !decide (kv.1 = "item"))) = none := by
    apply mapFind_none_of_all_ne
    intro a ha
    rw [retagMembers_filter] at ha
    simpa using (List.mem_filter.1 ha).2
  -- the member "item"
  have him := msgpack_to_item_pairs_pairsOf ext im [] hpim hoi.2 hoi.1
    (fun a ha => by simp at ha)
  have hregNone : mapFind "encoded_elements" (retagMembers im) = none := by
    rw [mapFind_retagMembers, mapFind_none_of_all_ne _ _ ((noRegistryKey_iff im).1 hnoreg)]
    rfl
  have hreg : msgpack_to_item ext Item.default (.array [])
      = .ok (Item.mk (.vector []) .ARRAY) := by
    simp only [msgpack_to_item, msgpack_to_item_elements, Result.bind]
    rfl
  have hitemDec : msgpack_to_item ext Item.default
      (objectOf (Item.mk (.map (im ++ [("encoded_elements", .mk (.vector []) .ARRAY)])) .OBJECT))
      = .ok (retag (Item.mk (.map (mapStore "encoded_elements" (.mk (.vector []) .ARRAY) im))
          .OBJECT)) := by
    simp only [objectOf, pairsOf_append, pairsOf, objectsOf, msgpack_to_item,
      msgpack_to_item_pairs_append]
    have him' : msgpack_to_item_pairs ext Item.default (pairsOf im)
        = .ok (Item.mk (.map (retagMembers im)) .OBJECT) := by
      simpa [Item.default] using him
    simp only [him', Result.bind, msgpack_to_item_pairs,
      fillChild_new _ .OBJECT "encoded_elements" _ hregNone, hreg, retag, retagMembers_mapStore,
      retagElements]
  have hstore := (mapStore_filter_sorted "item"
    (retag (Item.mk (.map (mapStore "encoded_elements" (.mk (.vector []) .ARRAY) im)) .OBJECT))
    (retagMembers members) (by rw [keysSorted_retagMembers]; exact hs)
    (by simp [mapFind_retagMembers, hitem])).1
  rw [← retagMembers_filter] at hstore
  have hothers' : msgpack_to_item_pairs ext Item.default
      (pairsOf (members.filter fun kv => !decide (kv.1 = "item")))
      = .ok (Item.mk (.map (retagMembers (members.filter fun kv => !decide (kv.1 = "item"))))
          .OBJECT) := by
    simpa [Item.default] using hothers
  simp only [wireTree, hitem, withRegistry, objectOf, pairsOf_append, msgpack_to_item,
    msgpack_to_item_pairs_append, hothers', Result.bind]
  simp only [pairsOf, msgpack_to_item_pairs, fillChild_new _ .OBJECT "item" _ hnone]
  rw [hitemDec]
  simp only [retag] at hstore
  simp only [Result.bind, hstore, retag, retagMembers_mapReplace]

/-- The binary branch of `decodeItem` on the bytes written for a `plain` tree `wire`, for
a library that reads back what it wrote, when the decoded message `decoded` has no member
"item" or one whose registry is empty. -/
theorem decodeItem_of_tokens (ext : External) (wire decoded : Item)
    (hplain : wire.plain = true)
    (hlib : ext.msgpackRead (ext.msgpackWrite (tokensOf wire))
      = (tokensOf wire).map MsgElement.canonical)
    (hdec : msgpack_to_item ext Item.default (objectOf wire) = .ok decoded)
    (hpost : ∃ M t, decoded = .mk (.map M) t ∧
      (mapFind "item" M = none ∨
        ∃ IM it vt, mapFind "item" M = some (.mk (.map IM) it) ∧
          mapFind "encoded_elements" IM = some (.mk (.vector []) vt))) :
    decodeItem ext (ext.msgpackWrite (tokensOf wire)) EncodingMode.MSGPACK = .ok decoded := by
  have hparse := unpackObject_tokensOf wire (2 * (tokensOf wire).length) [] hplain (le_refl _)
  rw [List.append_nil] at hparse
  have hcanon := (unpack_canonical (2 * (tokensOf wire).length)).1 (tokensOf wire)
  rw [hparse] at hcanon
  obtain ⟨M, t, rfl, hcase⟩ := hpost
  simp only [decodeItem, decodeWire, if_true, hlib, List.length_map, hcanon, Option.map_some',
    hdec, Result.bind, contains_map, mapContains]
  rcases hcase with hnone | ⟨IM, it, vt, hitem, hreg⟩
  · simp [hnone]
  · have hat := atMut_item_registry_of M t _ _ _ hitem
      (atMut_registry_present IM it vt [] hreg)
    rw [mapReplace_self _ _ _ hitem] at hat
    simp only [hitem, Option.isSome_some, hat, decodeEncodedElements]

/-- C11, amended: for every message that is an Object in key order whose values are built
only from Object, Array, Bool, String, signed or unsigned 64-bit integer and float64
leaves (every map in key order and below the size limit, no value stored under the key
"encoded_elements" of a top-level Object, the member "item", if present, an Object), and
for a msgpack library that reads back the elements the encoder wrote:
`encodeItem` in the binary mode returns and leaves the message with an empty
`item.encoded_elements`, and `decodeItem` of the bytes returns that message with every
signed 64-bit leaf that is not negative read back as the unsigned 64-bit leaf of the same
value. -/
theorem Conversion.decodeItem_encodeItem_msgpack (ext : External) (t : Item)
    (preferred : String) (ht : roundTripMessage t = true)
    (hlib : ∀ elements t1, item_to_msgpack_message ext t preferred = .ok (elements, t1) →
      ext.msgpackRead (ext.msgpackWrite elements) = elements.map MsgElement.canonical) :
    ∃ bytes, encodeItem ext t EncodingMode.MSGPACK preferred = .ok (bytes, withRegistry t) ∧
      decodeItem ext bytes EncodingMode.MSGPACK = .ok (retag (withRegistry t)) := by
  obtain ⟨members, rfl, hlen, hs, htop⟩ := roundTripMessage_cases t ht
  have hfacts := fun a ha => topValueOk_cases a (htop a ha)
  have hp : plainMembers members = true := plainMembers_of_all _ fun a ha => (hfacts a ha).1
  have ho : keyOrderedMembers members = true :=
    keyOrderedMembers_of_all _ fun a ha => (hfacts a ha).2.1
  have htop' : ∀ a ∈ members,
      a.2.plain = true ∧ ∀ m t, a.2 = .mk (.map m) t → noRegistryKey m = true :=
    fun a ha => ⟨(hfacts a ha).1, fun m t he => ((hfacts a ha).2.2.1 m t he).1⟩
  cases hitem : mapFind "item" members with
  | none =>
    have henc := item_to_msgpack_message_plain_without_item ext preferred members hlen htop'
      hitem
    have hw : withRegistry (Item.mk (.map members) .OBJECT) = Item.mk (.map members) .OBJECT := by
      simp [withRegistry, hitem]
    rw [hw]
    refine ⟨ext.msgpackWrite (tokensOf (Item.mk (.map members) .OBJECT)), ?_, ?_⟩
    · simp only [encodeItem, if_true, henc, Result.bind]
    · apply decodeItem_of_tokens ext _ _ _ (hlib _ _ henc)
      · exact msgpack_to_item_objectOf ext _ (by simp [Item.plain, hlen, hp])
          (by simp [Item.keyOrdered, hs, ho])
      · exact ⟨retagMembers members, .OBJECT, by simp [retag],
          Or.inl (by simp [mapFind_retagMembers, hitem])⟩
      · simp [Item.plain, hlen, hp]
  | some item =>
    have hmem := mapFind_mem _ _ _ hitem
    obtain ⟨im, it, rfl⟩ := (hfacts _ hmem).2.2.2 rfl
    obtain ⟨rfl, hlenIm, hpim⟩ := plain_map_tag im it (hfacts _ hmem).1
    obtain ⟨hnoreg, hroom⟩ := (hfacts _ hmem).2.2.1 im .OBJECT rfl
    have hroom' := hroom rfl
    have henc := item_to_msgpack_message_plain_with_item ext preferred members im hlen hs htop'
      hitem hroom'
    have hcount := (mapStore_filter_sorted "item" (Item.mk (.map im) .OBJECT) members hs
      (by simp [hitem])).2
    have hwire : (wireTree (Item.mk (.map members) .OBJECT)).plain = true := by
      have hothers : plainMembers (members.filter fun kv => !decide (kv.1 = "item")) = true :=
        plainMembers_of_all _ fun a ha => plainMembers_mem members hp a (List.mem_filter.1 ha).1
      simp only [wireTree, hitem, Item.plain, plainMembers_append, plainMembers,
        List.length_append, List.length_cons, List.length_nil, hcount, Nat.zero_add, hlen,
        hroom', hothers, hpim, plainElements, decide_True, Bool.and_self, Bool.and_true]
      simp [uint32Max]
    refine ⟨ext.msgpackWrite (tokensOf (wireTree (Item.mk (.map members) .OBJECT))), ?_, ?_⟩
    · simp only [encodeItem, if_true, henc, Result.bind]
    · apply decodeItem_of_tokens ext _ _ hwire (hlib _ _ henc)
      · exact msgpack_to_item_wireTree ext members im hs hp ho hitem hnoreg
      · refine ⟨retagMembers (mapReplace "item" (Item.mk (.map (mapStore "encoded_elements"
            (.mk (.vector []) .ARRAY) im)) .OBJECT) members), .OBJECT,
          by simp only [withRegistry, hitem, retag],
          Or.inr ⟨retagMembers (mapStore "encoded_elements" (.mk (.vector []) .ARRAY) im),
            .OBJECT, .ARRAY, ?_, ?_⟩⟩
        · rw [retagMembers_mapReplace]
          simp only [retag]
          exact mapFind_mapReplace_same _ _ _ (by simp [mapFind_retagMembers, hitem])
        · simp [retagMembers_mapStore, mapFind_mapStore, retag, retagElements]

/-- C11 (counterexample): the message whose member "a" is the signed 64-bit integer 5 is
encoded in the binary mode as the four bytes 81 a1 61 05 and decoded as the message whose
member "a" is the unsigned 64-bit integer 5; `Item::operator==` finds that leaf different
from the signed leaf the message held. -/
theorem Conversion.decodeItem_encodeItem_counterexample :
    encodeItem exampleExternal exampleSignedMessage EncodingMode.MSGPACK ""
      = .ok ([129, 161, 97, 5], exampleSignedMessage) ∧
    decodeItem exampleExternal [129, 161, 97, 5] EncodingMode.MSGPACK
      = .ok (Item.ofNative (.itemMap [("a", Item.ofNative (.value (.uint64 5)))])) ∧
    (Item.ofNative (.value (.uint64 5))).eq (Item.ofNative (.value (.int64 5))) = .ok false :=
  ⟨rfl, rfl, rfl⟩

/-- C11, amended, at a concrete input: a message with a consumer name and an item holding
the signed 64-bit integer 5, through the example msgpack writer and reader. -/
theorem Conversion.decodeItem_encodeItem_msgpack_witness :
    ∃ bytes, encodeItem exampleExternal exampleItemMessage EncodingMode.MSGPACK ""
        = .ok (bytes, withRegistry exampleItemMessage) ∧
      decodeItem exampleExternal bytes EncodingMode.MSGPACK
        = .ok (retag (withRegistry exampleItemMessage)) :=
  Conversion.decodeItem_encodeItem_msgpack exampleExternal exampleItemMessage "" rfl
    (fun elements t1 h => by
      have h0 : item_to_msgpack_message exampleExternal exampleItemMessage ""
          = .ok ([.mapHeader 2, .str "consumer_name", .str "c", .str "item", .mapHeader 2,
              .str "n", .int 5, .str "encoded_elements", .arrayHeader 0],
            withRegistry exampleItemMessage) := rfl
      rw [h0] at h
      simp only [Result.ok.injEq, Prod.mk.injEq] at h
      rw [← h.1]
      decide)
/-! ## Theorems: binary leaves in both encodings -/

/-- C29 (the code at the failing input): the `BYTE_ARRAY` case of `item_to_msgpack` calls
`pack_bin_body` alone, so a ByteArray below the size limit is written as its bytes with
no bin header before them. The message whose member "a" is the ByteArray 01 02 03 is
encoded as 81 a1 61 01 02 03, where a bin element would be c4 03 01 02 03; a reader finds
the map with "a" as the unsigned integer 1 in these bytes. -/
theorem Conversion.item_to_msgpack_byte_array_no_header (ext : External)
    (preferred : String) (place : Place) (bytes : List Nat) (path : List String)
    (rootItem : Item) :
    item_to_msgpack ext preferred place (Item.ofNative (.byteVector bytes)) path rootItem
      = .ok ([if bytes.length < uint32Max then MsgElement.rawBytes bytes
              else MsgElement.str "[n/a] (Too large byte array)"], rootItem) ∧
    encodeItem exampleExternal exampleBytesMessage EncodingMode.MSGPACK ""
      = .ok ([129, 161, 97, 1, 2, 3], exampleBytesMessage) ∧
    exampleExternal.msgpackWrite [.bin [1, 2, 3]] = [196, 3, 1, 2, 3] ∧
    decodeItem exampleExternal [129, 161, 97, 1, 2, 3] EncodingMode.MSGPACK
      = .ok (Item.ofNative (.itemMap [("a", Item.ofNative (.value (.uint64 1)))])) := by
  refine ⟨?_, rfl, rfl, rfl⟩
  by_cases h : bytes.length < uint32Max
  · simp [item_to_msgpack, Item.ofNative, item_to_msgpack_leaf, h, Result.bind]
  · simp [item_to_msgpack, Item.ofNative, item_to_msgpack_leaf, h, Result.bind]
/-- The `MAT` case of both encoders for a compressed encoding: `encodeImage` is called
with `EncodingMode::JSON` and returns the String Item holding the base64 text of the
compressed bytes. -/
theorem encodeImage_compressed (ext : External) (mat dest : Mat) (encoding : String)
    (henc : encoding = "IMAGE_PNG" ∨ encoding = "IMAGE_JSON") (hcvt : cvtColor mat = .ok dest) :
    encodeImage ext mat encoding EncodingMode.JSON
      = .ok (Item.mk (.string (bytesToString (base64_encode
          (ext.imencode (if encoding = "IMAGE_PNG" then ".png" else ".jpg") mat)))) .STRING) := by
  simp only [encodeImage, henc, if_true, hcvt, bind, Result.bind]
  rfl

/-- C28 (the code at the failing input): the `MAT` case of `item_to_msgpack` calls
`encodeImage` with `EncodingMode::JSON`, so for a compressed encoding the image is written
as a str element holding the base64 text of the compressed bytes, not as a bin element
holding the bytes. -/
theorem Conversion.item_to_msgpack_image_base64 (ext : External) (preferred : String)
    (place : Place) (mat dest : Mat) (path : List String) (rootItem : Item)
    (sel : String × Item)
    (hsel : selectEncoding place rootItem path preferred = .ok sel)
    (henc : sel.1 = "IMAGE_PNG" ∨ sel.1 = "IMAGE_JSON") (hcvt : cvtColor mat = .ok dest)
    (hsize : (base64_encode
      (ext.imencode (if sel.1 = "IMAGE_PNG" then ".png" else ".jpg") mat)).length < uint32Max) :
    item_to_msgpack ext preferred place (Item.mk (.mat mat) .MAT) path rootItem
      = .ok ([.str (bytesToString (base64_encode
          (ext.imencode (if sel.1 = "IMAGE_PNG" then ".png" else ".jpg") mat)))], sel.2) := by
  have hlen : (bytesToString (base64_encode
      (ext.imencode (if sel.1 = "IMAGE_PNG" then ".png" else ".jpg") mat))).length
        < uint32Max := by
    simpa [bytesToString, String.length] using hsize
  simp only [item_to_msgpack, hsel, Result.bind, encodeImage_compressed ext mat dest sel.1 henc hcvt,
    encoded_item_to_msgpack, item_to_msgpack_leaf, hlen, if_true]

/-- C28 at a concrete input: the 1 x 1 image with the bytes 01 02 03 under the path
"image" of an item without registry, with the preference "IMAGE_PNG" and the example
compression, is written as the str element "AQID". -/
theorem Conversion.item_to_msgpack_image_base64_witness :
    item_to_msgpack exampleExternal "IMAGE_PNG" .below (Item.mk (.mat examplePixel) .MAT)
        ["image"] Item.default
      = .ok ([.str "AQID"],
          Item.ofNative (.itemMap [("encoded_elements",
            Item.mk (.vector (registryOf [(["image"], "IMAGE_PNG")])) .ARRAY)])) :=
  Conversion.item_to_msgpack_image_base64 exampleExternal "IMAGE_PNG" .below examplePixel
    { examplePixel with data := [3, 2, 1] } ["image"] Item.default
    ("IMAGE_PNG", Item.ofNative (.itemMap [("encoded_elements",
      Item.mk (.vector (registryOf [(["image"], "IMAGE_PNG")])) .ARRAY)]))
    rfl (Or.inl rfl) rfl (by decide)
/-- C27 (counterexample): in the text encoding the ByteArray 01 02 03 is written as the
JSON array of the numbers 1, 2 and 3, not as the string "AQID" that holds its base64
encoding. -/
theorem Conversion.item_to_json_byte_array_counterexample :
    item_to_json exampleExternal "" .below (Item.ofNative (.byteVector [1, 2, 3])) []
        Item.default
      = .ok (.array [.numberUnsigned 1, .numberUnsigned 2, .numberUnsigned 3], Item.default) ∧
    bytesToString (base64_encode [1, 2, 3]) = "AQID" ∧
    item_to_json exampleExternal "" .below (Item.ofNative (.byteVector [1, 2, 3])) []
        Item.default
      ≠ .ok (.string (bytesToString (base64_encode [1, 2, 3])), Item.default) := by
  refine ⟨rfl, by decide, ?_⟩
  intro h
  have h1 : item_to_json exampleExternal "" .below (Item.ofNative (.byteVector [1, 2, 3])) []
        Item.default
      = .ok (.array [.numberUnsigned 1, .numberUnsigned 2, .numberUnsigned 3], Item.default) :=
    rfl
  rw [h1] at h
  injection h with h
  injection h with h2 _
  exact Json.noConfusion h2

/-- C27, amended: in the text encoding a ByteArray leaf is written as the JSON array of
its byte values, and an image leaf whose encoding is "IMAGE_PNG" or "IMAGE_JSON", for an
image the colour conversion accepts, is written as a single string holding the base64
encoding of the compressed bytes. -/
theorem Conversion.item_to_json_binary_leaves (ext : External) (preferred : String)
    (place : Place) (path : List String) (rootItem : Item) :
    (∀ bytes : List Nat,
      item_to_json ext preferred place (Item.ofNative (.byteVector bytes)) path rootItem
        = .ok (.array (bytes.map Json.numberUnsigned), rootItem)) ∧
    (∀ (mat dest : Mat) (sel : String × Item),
      selectEncoding place rootItem path preferred = .ok sel →
      (sel.1 = "IMAGE_PNG" ∨ sel.1 = "IMAGE_JSON") → cvtColor mat = .ok dest →
      item_to_json ext preferred place (Item.mk (.mat mat) .MAT) path rootItem
        = .ok (.string (bytesToString (base64_encode
            (ext.imencode (if sel.1 = "IMAGE_PNG" then ".png" else ".jpg") mat))), sel.2)) := by
  constructor
  · intro bytes
    simp [item_to_json, Item.ofNative, item_to_json_leaf, Result.bind]
  · intro mat dest sel hsel henc hcvt
    simp only [item_to_json, hsel, Result.bind,
      encodeImage_compressed ext mat dest sel.1 henc hcvt, encoded_item_to_json,
      item_to_json_leaf]

/-- C27, amended, at a concrete input: the ByteArray 01 02 03 under the path "bytes", and
the 1 x 1 image with the bytes 01 02 03 under the path "image" with the preference
"IMAGE_PNG" and the example compression, which is written as the string "AQID". -/
theorem Conversion.item_to_json_binary_leaves_witness :
    item_to_json exampleExternal "IMAGE_PNG" .below (Item.ofNative (.byteVector [1, 2, 3]))
        ["image"] Item.default
      = .ok (.array [.numberUnsigned 1, .numberUnsigned 2, .numberUnsigned 3], Item.default) ∧
    item_to_json exampleExternal "IMAGE_PNG" .below (Item.mk (.mat examplePixel) .MAT)
        ["image"] Item.default
      = .ok (.string "AQID",
          Item.ofNative (.itemMap [("encoded_elements",
            Item.mk (.vector (registryOf [(["image"], "IMAGE_PNG")])) .ARRAY)])) :=
  ⟨(Conversion.item_to_json_binary_leaves exampleExternal "IMAGE_PNG" .below ["image"]
      Item.default).1 [1, 2, 3],
   (Conversion.item_to_json_binary_leaves exampleExternal "IMAGE_PNG" .below ["image"]
      Item.default).2 examplePixel { examplePixel with data := [3, 2, 1] }
      ("IMAGE_PNG", Item.ofNative (.itemMap [("encoded_elements",
        Item.mk (.vector (registryOf [(["image"], "IMAGE_PNG")])) .ARRAY)]))
      rfl (Or.inl rfl) rfl⟩

/-! ## Theorems: numbers read from the text encoding -/

/-- C30 (the code at the failing input): `json_to_item` tests `is_number_integer()`,
which holds for unsigned numbers too, before `is_number_unsigned()`, so an integer that
is not negative is read with `get<int64_t>()` and becomes a signed 64-bit leaf; from 2^63
on the value is no longer the same. For a text that parses to the object with the member
"a" holding the unsigned number `n`, `decodeItem` returns the message whose member "a" is
that signed leaf. -/
theorem Conversion.json_to_item_unsigned_as_signed (ext : External) (rootItem : Item)
    (buffer : List Nat) (n : Nat)
    (hparse : ext.jsonParse buffer = some (.object [("a", .numberUnsigned n)])) :
    json_to_item ext rootItem (.numberUnsigned n)
      = .ok (Item.mk (.int64 (if n < 2 ^ 63 then (n : Int) else (n : Int) - 2 ^ 64)) .INT64) ∧
    json_to_item ext rootItem (.numberUnsigned (2 ^ 64 - 1)) = .ok (Item.mk (.int64 (-1)) .INT64) ∧
    decodeItem ext buffer EncodingMode.JSON
      = .ok (Item.ofNative (.itemMap [("a",
          Item.mk (.int64 (if n < 2 ^ 63 then (n : Int) else (n : Int) - 2 ^ 64)) .INT64)])) := by
  refine ⟨rfl, rfl, ?_⟩
  simp only [decodeItem, decodeWire, hparse]
  rfl

/-- C30 at a concrete input: the text `{"a":5}` is decoded as the message whose member
"a" is the signed 64-bit leaf 5. -/
theorem Conversion.json_to_item_unsigned_as_signed_witness :
    decodeItem exampleTextExternal [123, 34, 97, 34, 58, 53, 125] EncodingMode.JSON
      = .ok (Item.ofNative (.itemMap [("a", Item.ofNative (.value (.int64 5)))])) :=
  (Conversion.json_to_item_unsigned_as_signed exampleTextExternal Item.default
    [123, 34, 97, 34, 58, 53, 125] 5 rfl).2.2
/-! ## Theorems: the raw image layout -/

/-- C22 (the code at the failing input): `encodeImage` with "MAT_RAW" never returns the
34-byte header followed by the pixels. Each of the four header fields is filled by a
`std::memcpy` of 8 bytes from the array that `toLittleEndian` returns for an `int`, which
has 4 bytes, so the copy reads past the array; for an image the colour conversion refuses
`cv::cvtColor` throws before. The 1 x 1 image of three 8-bit channels ends in that
undefined behaviour. -/
theorem Conversion.encodeImage_mat_raw_no_layout (ext : External) (image : Mat)
    (mode : EncodingMode) :
    (∀ item : Item, encodeImage ext image "MAT_RAW" mode ≠ .ok item) ∧
    (∀ value : Nat, (toLittleEndian ext.host 4 value).length = 4 ∧
      memcpyFrom (toLittleEndian ext.host 4 value) 8 = .undefinedBehaviour) ∧
    encodeImage exampleExternal examplePixel "MAT_RAW" EncodingMode.MSGPACK
      = .undefinedBehaviour := by
  have hl : ∀ v, (toLittleEndian ext.host 4 v).length = 4 := by
    intro v
    cases h : ext.host <;> simp [toLittleEndian, isBigEndian, objectBytes]
  have hmem : ∀ v, memcpyFrom (toLittleEndian ext.host 4 v) 8 = .undefinedBehaviour := by
    intro v
    simp [memcpyFrom, hl]
  refine ⟨?_, fun v => ⟨hl v, hmem v⟩, rfl⟩
  intro item
  have hcvt : (∃ m, cvtColor image = .ok m ∧
        (image.depth = 0 ∨ image.depth = 2 ∨ image.depth = 5)) ∨
      cvtColor image = .throw .cvException := by
    unfold cvtColor
    split
    · rename_i h
      exact Or.inl ⟨_, rfl, h.2.1⟩
    · exact Or.inr rfl
  rcases hcvt with ⟨m, hm, hd⟩ | hthrow
  · have hn : opencvToNumpy image.depth ≠ 0 := by
      rcases hd with h | h | h <;> simp [h, opencvToNumpy]
    simp only [encodeImage]
    simp [hm, hn, hmem, bind, Result.bind]
  · simp only [encodeImage]
    simp [hthrow, bind, Result.bind]

/-- C23 (the code at the failing input): for the seven depths `opencvToNumpy` knows and
one to four channels, `numpyToOpencv` gives back the matrix type of that depth and channel
count and the element size; the test `cvType > 0` of the decoder then refuses exactly the
8-bit unsigned image with one channel, whose matrix type `CV_8UC1` is 0. -/
theorem Conversion.numpyToOpencv_opencvToNumpy (image : Mat) (hdepth : image.depth ≤ 6)
    (hlow : 1 ≤ image.channels) (hhigh : image.channels ≤ 4) :
    numpyToOpencv (opencvToNumpy image.depth) image.elemSize1 image.channels
      = (CV_MAKETYPE image.depth image.channels, image.elemSize1) ∧
    CV_MAKETYPE image.depth image.channels = image.depth + (image.channels - 1) * 8 ∧
    (rawMatAccepted image.elemSize1
        (numpyToOpencv (opencvToNumpy image.depth) image.elemSize1 image.channels) = true
      ↔ ¬ (image.depth = 0 ∧ image.channels = 1)) := by
  obtain ⟨rows, cols, depth, channels, data⟩ := image
  simp only at hdepth hlow hhigh ⊢
  interval_cases depth <;> interval_cases channels <;>
    exact ⟨rfl, rfl, by
      simp [rawMatAccepted, numpyToOpencv, opencvToNumpy, Mat.elemSize1, CV_MAKETYPE]⟩

/-- C23 at the failing input: the header kind 'u' with width 1 and one channel, which
stands for an 8-bit unsigned image with one channel, is refused. -/
theorem Conversion.numpyToOpencv_opencvToNumpy_witness :
    numpyToOpencv 117 1 1 = (0, 1) ∧ rawMatAccepted 1 (numpyToOpencv 117 1 1) = false := by
  have h := Conversion.numpyToOpencv_opencvToNumpy
    { rows := 1, cols := 1, depth := 0, channels := 1, data := [7] } (by decide) (by decide)
    (by decide)
  refine ⟨h.1, ?_⟩
  cases hacc : rawMatAccepted 1 (numpyToOpencv 117 1 1) with
  | false => rfl
  | true => exact absurd ⟨rfl, rfl⟩ (h.2.2.1 hacc)
/-! ## Theorems: failures while the connection is established -/

/-- A first write that answers -1 ends `sendData` with `false` in the second loop, which
tests the result the first loop left behind; nothing reaches the wire. -/
theorem sendData_first_write_fails (fuel : Nat) (c : TcpConnection) (data : List Nat)
    (size : Nat) (net : Network) (hsend : net.sendResult net.sendCalls 4 = -1) :
    c.sendData (fuel + 2) data size net
      = some (false, c,
          (socket_send net (toBigEndian net.host 4 (size % 2 ^ 32)) 4).2) := by
  have h1 : (socket_send net (toBigEndian net.host 4 (size % 2 ^ 32)) 4).1 = -1 := by
    simp [socket_send, hsend]
  have ht : ¬ toSizeT (0 + -1) < 4 := by decide
  have ht0 : toSizeT 0 < 4 := by decide
  have ht1 : toSizeT 0 < 1 := by decide
  simp only [TcpConnection.sendData, sendLoop, ht0, ht1, h1, ht, if_true, if_false,
    lt_self_iff_false, show ((-1 : Int) < 0) from by decide]

/-- C21 (the code at the failing input): `_connect` on a connection that is not
connected. When `socket` fails, and when `connect` fails, `_connect` returns with the
connection disconnected (after `connect` failed the socket is closed). When both succeed
and the first write of the configuration handshake answers -1, `sendData` returns `false`,
`_connect` does not look at that result and returns with the connection connected, the
socket open and nothing on the wire. -/
theorem TcpConnection.connect_failure_stages (ext : External) (fuel : Nat)
    (c : TcpConnection) (net : Network) (hc : c.connected = false) :
    (net.socketResult < 0 →
      (TcpConnection.connect ext fuel c net).map
          (fun e => (e.result, e.connection.connected, e.net.closed))
        = some (.ok (), false, net.closed)) ∧
    (0 ≤ net.socketResult → 0 < net.inetPtonResult → net.connectResult < 0 →
      (TcpConnection.connect ext fuel c net).map
          (fun e => (e.result, e.connection.connected, e.net.closed))
        = some (.ok (), false, net.closed ++ [net.socketResult])) ∧
    (0 ≤ net.socketResult → 0 < net.inetPtonResult → 0 ≤ net.connectResult →
      c.receiveProperties.producerName ≠ "" →
      c.receiveProperties.encodingMode = EncodingMode.MSGPACK →
      net.sendResult net.sendCalls 4 = -1 →
      (TcpConnection.connect ext (fuel + 2) c net).map
          (fun e => (e.result, e.connection.connected, e.net.closed, e.net.wire))
        = some (.ok (), true, net.closed, net.wire)) := by
  refine ⟨?_, ?_, ?_⟩
  · intro hs
    have hsock : ({ c with fdSocket := net.socketResult } : TcpConnection).socketConnected
        = false := by
      simp [TcpConnection.socketConnected, hs]
    simp only [TcpConnection.connect, hc, hsock, Bool.not_false, if_true, Option.map_some']
    simp [TcpConnection.connected, hsock]
  · intro hs hp hcr
    have hsock : ({ c with fdSocket := net.socketResult } : TcpConnection).socketConnected
        = true := by
      simp [TcpConnection.socketConnected, hs]
    have hconn : ({ c with fdSocket := net.socketResult, fdClient := net.connectResult }
        : TcpConnection).connected = false := by
      simp [TcpConnection.connected, hcr]
    have hs2 : ({ c with fdSocket := net.socketResult, fdClient := net.connectResult }
        : TcpConnection).socketConnected = true := by
      simp [TcpConnection.socketConnected, hs]
    have hpn : ¬ net.inetPtonResult ≤ 0 := by omega
    simp only [TcpConnection.connect, hc, hsock, hconn, hpn, Bool.not_false, Bool.not_true,
      if_true, if_false, Option.map_some', TcpConnection.disconnect, hs2]
    simp [TcpConnection.connected]
  · intro hs hp hcr hname hmode hsend
    have hsock : ({ c with fdSocket := net.socketResult } : TcpConnection).socketConnected
        = true := by
      simp [TcpConnection.socketConnected, hs]
    have hconn : ({ c with fdSocket := net.socketResult, fdClient := net.connectResult }
        : TcpConnection).connected = true := by
      simp [TcpConnection.connected, TcpConnection.socketConnected, hs, hcr]
    have hpn : ¬ net.inetPtonResult ≤ 0 := by omega
    have hcfg : c.receiveProperties.isReceiveConfigured = true := by
      simp only [ReceiveProperties.isReceiveConfigured, Bool.not_eq_true']
      cases hE : c.receiveProperties.producerName.isEmpty with
      | false => rfl
      | true => exact absurd ((String.isEmpty_iff _).1 hE) hname
    obtain ⟨bytes, henc⟩ := encodeItem_handshake_msgpack ext c.receiveProperties ""
    simp only [TcpConnection.connect, hc, hsock, hconn, hpn, Bool.not_false, Bool.not_true,
      if_true, if_false, TcpConnection.sendUpdateReceiveProperties, hcfg,
      TcpConnection.sendMessageItem, ReceiveProperties.getEncodingMode, hmode, henc,
      sendData_first_write_fails fuel _ bytes bytes.length net hsend, Option.map_some']
    simp [TcpConnection.connected, TcpConnection.socketConnected, hs, hcr, Network.now,
      socket_send, hsend]

/-- C21 at a concrete input: the producer "cam" in the binary mode on a network whose
peer accepts the connection and answers -1 to every write: `_connect` returns, the
connection is connected, nothing was closed and nothing is on the wire. -/
theorem TcpConnection.connect_failure_stages_witness :
    (TcpConnection.connect exampleExternal 2 exampleBinaryUnconnected
        exampleRefusingNetwork).map
        (fun e => (e.result, e.connection.connected, e.net.closed, e.net.wire))
      = some (.ok (), true, [], []) :=
  (TcpConnection.connect_failure_stages exampleExternal 0 exampleBinaryUnconnected
    exampleRefusingNetwork rfl).2.2 (by decide) (by decide) (by decide) (by decide) rfl rfl
/-! ## Theorems: the registry pass of `decodeItem` -/

/-- The call `content->find_at(key)` gives the child stored under the key, or null when
`content` is no Object or lacks the key. -/
theorem find_atMut_key (cur : Item) (key : String) :
    (cur.find_atMut .item [.key key]).1 = .ok ((resolveKeys cur [key]).map Ref.item) := by
  obtain ⟨content, t⟩ := cur
  by_cases hmap : ∃ m, content = .map m
  · obtain ⟨m, rfl⟩ := hmap
    cases h : mapFind key m with
    | none =>
      simp [Item.find_atMut, Item.valueAtMut, value_of_map, mapContains, h, resolveKeys_map]
    | some child =>
      simp [Item.find_atMut, Item.valueAtMut, value_of_map, mapContains, h, resolveKeys_map,
        leafOf, catchAdd, resolveKeys_nil]
  · have hne : ∀ m, (Item.mk content t).content ≠ .map m := by
      intro m hm
      exact hmap ⟨m, hm⟩
    simp [Item.find_atMut, Item.valueAtMut, value_not_map_true _ hne,
      resolveKeys_not_map _ hne]

/-- The access `p.at<std::string>()` on a String Item. -/
theorem atConst_string (s : String) (t : ItemType) :
    (Item.mk (.string s) t).atConst .string [] = .ok (.payload (.string s)) := by
  simp [Item.atConst, Item.valueAt, Item.value, try_any_cast, Item.content, Content.cppType,
    Outcome.map, deref]

/-- Once `content` is null the path loop leaves it null. -/
theorem followPath_none (path : List Item) : followPath none path = .ok none := by
  cases path <;> rfl

/-- The path loop of `decodeItem` over a path of String Items descends key by key: it
ends at the Item the keys resolve to, or at null when they do not resolve. -/
theorem followPath_keys : ∀ (pathKeys keys : List String) (cur : Item),
    followPath (some (keys, cur)) (pathKeys.map fun key => Item.mk (.string key) .STRING)
      = .ok ((resolveKeys cur pathKeys).map fun leaf => (keys ++ pathKeys, leaf))
  | [], keys, cur => by simp [followPath, resolveKeys_nil]
  | k :: ks, keys, cur => by
    simp only [List.map, followPath, atConst_string, find_atMut_key]
    by_cases hmap : ∃ m, cur.content = .map m
    · obtain ⟨content, t⟩ := cur
      obtain ⟨m, hm⟩ := hmap
      simp only [Item.content] at hm
      subst hm
      cases h : mapFind k m with
      | none => simp [resolveKeys_map, h, followPath_none]
      | some child =>
        simp only [resolveKeys_map, h, resolveKeys_nil, Option.map_some']
        rw [followPath_keys ks (keys ++ [k]) child]
        simp
    · have hne : ∀ m, cur.content ≠ .map m := fun m hm => hmap ⟨m, hm⟩
      simp [resolveKeys_not_map _ hne, followPath_none]

/-- The loop that collects the path for the warning returns on a path of String Items. -/
theorem pathForWarning_keys : ∀ pathKeys : List String,
    pathForWarning (pathKeys.map fun key => Item.mk (.string key) .STRING) = .ok pathKeys
  | [] => rfl
  | k :: ks => by
    simp [pathForWarning, atConst_string, pathForWarning_keys ks, Result.bind]

/-- One turn of the registry loop of `decodeItem` for an entry that holds a path of
strings and an encoding name, on a message whose member "item" exists: when the path does
not resolve inside "item" the message is left as it is; otherwise the Item found is
decoded and, when an image comes out, replaced by it. -/
theorem decodeEncodedElement_entry (ext : External) (mode : EncodingMode)
    (members : List (String × Item)) (t : ItemType) (itemNode : Item)
    (pathKeys : List String) (encoding : String)
    (hitem : mapFind "item" members = some itemNode) :
    decodeEncodedElement ext mode (.mk (.map members) t) (registryEntry pathKeys encoding)
      = match resolveKeys itemNode pathKeys with
        | some image =>
          (decodeImage ext mode image encoding).bind fun decoded =>
            match decoded with
            | some mat =>
              .ok ((Item.mk (.map members) t).updateAt
                (fun target => target.assignNative (.mat mat)) ("item" :: pathKeys))
            | none => .ok (.mk (.map members) t)
        | none => .ok (.mk (.map members) t) := by
  have h0 : ((registryEntry pathKeys encoding).atMut .item [.idx 0]).1
      = .ok (.item (Item.mk (.vector (pathKeys.map fun key => Item.mk (.string key) .STRING))
          .ARRAY)) := by
    simp [registryEntry, Item.ofNative, ofNativeVector_strings, Item.atMut, Item.valueAtMut,
      value_of_vector, vecGet, leafOf, catchAdd, deref]
  have h1 : ((registryEntry pathKeys encoding).atMut .string [.idx 1]).1
      = .ok (.payload (.string encoding)) := by
    simp [registryEntry, Item.ofNative, Item.atMut, Item.valueAtMut, value_of_vector, vecGet,
      leafOf, catchAdd, deref, Item.value, try_any_cast, Item.content, Content.cppType,
      Outcome.map]
  simp only [decodeEncodedElement, h0, h1, child_of_mapFind members t "item" itemNode hitem,
    Result.bind, value_of_vector, followPath_keys, List.nil_append]
  cases hres : resolveKeys itemNode pathKeys with
  | none => simp [pathForWarning_keys, Result.bind]
  | some image =>
    simp only [Option.map_some', Result.bind]

/-- The lookup in a map after a write through the reference to an existing key. -/
theorem mapFind_mapReplace (k k' : String) (v : Item) (m : List (String × Item)) :
    mapFind k' (mapReplace k v m)
      = if k' = k then (mapFind k m).map (fun _ => v) else mapFind k' m := by
  induction m with
  | nil => simp [mapReplace, mapFind]
  | cons p rest ih =>
    obtain ⟨k0, v0⟩ := p
    by_cases h0 : k0 = k
    · subst h0
      by_cases h1 : k' = k0
      · simp [mapReplace, mapFind, h1]
      · have h2 : ¬ k0 = k' := fun h => h1 h.symm
        simp [mapReplace, mapFind, h1, h2]
    · by_cases h1 : k' = k
      · subst h1
        simp [mapReplace, mapFind, h0, ih]
      · simp only [mapReplace, h0, if_false, mapFind, ih, h1]

/-- A key list splits at its first key. -/
theorem resolveKeys_cons (it : Item) (k : String) (ks : List String) :
    resolveKeys it (k :: ks) = (resolveKeys it [k]).bind fun child => resolveKeys child ks := by
  obtain ⟨content, t⟩ := it
  by_cases hmap : ∃ m, content = .map m
  · obtain ⟨m, rfl⟩ := hmap
    simp only [resolveKeys_map]
    cases mapFind k m with
    | none => rfl
    | some child => simp [resolveKeys_nil]
  · have hne : ∀ m, (Item.mk content t).content ≠ .map m := fun m hm => hmap ⟨m, hm⟩
    simp [resolveKeys_not_map _ hne]

/-- The Item the path loop of `decodeItem` ends at, whatever the path Items are, is the
one that the keys it has collected resolve to. -/
theorem followPath_some : ∀ (path : List Item) (ks : List String) (cur : Item)
    (keys : List String) (image : Item),
    followPath (some (ks, cur)) path = .ok (some (keys, image)) →
    ∃ q, keys = ks ++ q ∧ resolveKeys cur q = some image
  | [], ks, cur, keys, image, h => by
    simp only [followPath, Result.ok.injEq, Option.some.injEq, Prod.mk.injEq] at h
    exact ⟨[], by simp [h.1], by rw [resolveKeys_nil, h.2]⟩
  | p :: rest, ks, cur, keys, image, h => by
    simp only [followPath, find_atMut_key] at h
    cases hp : p.atConst .string [] with
    | ok r =>
      rw [hp] at h
      cases r with
      | payload c =>
        cases c <;> first | (simp at h; done) | skip
        case string key =>
          simp only at h
          cases hres : resolveKeys cur [key] with
          | none =>
            rw [hres] at h
            simp [followPath_none] at h
          | some child =>
            rw [hres] at h
            simp only [Option.map_some'] at h
            obtain ⟨q, hq, hr⟩ := followPath_some rest (ks ++ [key]) child keys image h
            refine ⟨key :: q, by simp [hq], ?_⟩
            rw [resolveKeys_cons, hres]
            exact hr
      | item i => simp at h
    | throw e => rw [hp] at h; simp at h
    | undefinedBehaviour => rw [hp] at h; simp at h
    | terminate => rw [hp] at h; simp at h

/-- Replacing an Item that has no members by another one that has none leaves every key
list that did not resolve unresolved. -/
theorem resolveKeys_updateAt_none (f : Item → Item) : ∀ (q : List String) (root leaf : Item),
    resolveKeys root q = some leaf → (∀ m, leaf.content ≠ .map m) →
    (∀ m, (f leaf).content ≠ .map m) →
    ∀ p, resolveKeys root p = none → resolveKeys (Item.updateAt f q root) p = none
  | [], root, leaf, hq, hleaf, hf, p, hp => by
    rw [resolveKeys_nil] at hq
    cases hq
    cases p with
    | nil => rw [resolveKeys_nil] at hp; cases hp
    | cons k ks => exact resolveKeys_not_map _ hf k ks
  | k :: rest, root, leaf, hq, hleaf, hf, p, hp => by
    obtain ⟨content, t⟩ := root
    by_cases hmap : ∃ m, content = .map m
    · obtain ⟨m, rfl⟩ := hmap
      rw [resolveKeys_map] at hq
      cases hfind : mapFind k m with
      | none => rw [hfind] at hq; cases hq
      | some child =>
        rw [hfind] at hq
        simp only at hq
        cases p with
        | nil => rw [resolveKeys_nil] at hp; cases hp
        | cons k' p' =>
          rw [resolveKeys_map] at hp
          simp only [Item.updateAt, hfind, resolveKeys_map, mapFind_mapReplace]
          by_cases hk : k' = k
          · subst hk
            rw [hfind] at hp
            simp only [if_true, hfind, Option.map_some']
            exact resolveKeys_updateAt_none f rest child leaf hq hleaf hf p' hp
          · simp only [hk, if_false]
            exact hp
    · have hne : ∀ m, (Item.mk content t).content ≠ .map m := fun m hm => hmap ⟨m, hm⟩
      rw [resolveKeys_not_map _ hne] at hq
      cases hq

/-- After the Item at a key list has been replaced, the key list resolves to the
replacement. -/
theorem resolveKeys_updateAt_same (f : Item → Item) : ∀ (q : List String) (root leaf : Item),
    resolveKeys root q = some leaf → resolveKeys (Item.updateAt f q root) q = some (f leaf)
  | [], root, leaf, hq => by
    rw [resolveKeys_nil] at hq
    cases hq
    simp [Item.updateAt, resolveKeys_nil]
  | k :: rest, root, leaf, hq => by
    obtain ⟨content, t⟩ := root
    by_cases hmap : ∃ m, content = .map m
    · obtain ⟨m, rfl⟩ := hmap
      rw [resolveKeys_map] at hq
      cases hfind : mapFind k m with
      | none => rw [hfind] at hq; cases hq
      | some child =>
        rw [hfind] at hq
        simp only at hq
        simp only [Item.updateAt, hfind, resolveKeys_map, mapFind_mapReplace, if_true,
          Option.map_some']
        exact resolveKeys_updateAt_same f rest child leaf hq
    · have hne : ∀ m, (Item.mk content t).content ≠ .map m := fun m hm => hmap ⟨m, hm⟩
      rw [resolveKeys_not_map _ hne] at hq
      cases hq

/-- Only a String Item passes `image.as<std::string>()`, so `decodeImage` hands out an
image only for a String Item. -/
theorem decodeImage_some (ext : External) (mode : EncodingMode) (image : Item)
    (encoding : String) (mat : Mat) (h : decodeImage ext mode image encoding = .ok (some mat)) :
    ∃ payload tg, image = .mk (.string payload) tg := by
  obtain ⟨content, tg⟩ := image
  cases content <;>
    first
    | exact ⟨_, _, rfl⟩
    | (simp [decodeImage, Item.as, Item.valueAt, Item.value, try_any_cast, Item.content,
        Content.cppType, Outcome.map, deref] at h)

/-- One turn of the registry loop of `decodeItem` that returns, whatever the entry is,
leaves the message as it is or replaces one String Item inside "item" by an image. -/
theorem decodeEncodedElement_ok (ext : External) (mode : EncodingMode)
    (members : List (String × Item)) (t : ItemType) (itemNode e m1 : Item)
    (hitem : mapFind "item" members = some itemNode)
    (h : decodeEncodedElement ext mode (.mk (.map members) t) e = .ok m1) :
    m1 = .mk (.map members) t ∨
    ∃ q payload tg mat, resolveKeys itemNode q = some (.mk (.string payload) tg) ∧
      m1 = (Item.mk (.map members) t).updateAt
        (fun target => target.assignNative (.mat mat)) ("item" :: q) := by
  simp only [decodeEncodedElement, child_of_mapFind members t "item" itemNode hitem,
    Result.bind] at h
  split at h
  · split at h
    · split at h
      · rename_i pathItems _
        cases hfp : followPath (some ([], itemNode)) pathItems with
        | ok content =>
          rw [hfp] at h
          cases content with
          | none =>
            simp only at h
            cases hw : pathForWarning pathItems with
            | ok w => rw [hw] at h; simp only [Result.ok.injEq] at h; exact Or.inl h.symm
            | throw e => rw [hw] at h; simp at h
            | undefinedBehaviour => rw [hw] at h; simp at h
            | terminate => rw [hw] at h; simp at h
          | some found =>
            obtain ⟨keys, image⟩ := found
            simp only at h
            obtain ⟨q, hq, hres⟩ := followPath_some pathItems [] itemNode keys image hfp
            rw [List.nil_append] at hq
            subst hq
            cases hd : decodeImage ext mode image _ with
            | ok decoded =>
              rw [hd] at h
              cases decoded with
              | none => simp only [Result.ok.injEq] at h; exact Or.inl h.symm
              | some mat =>
                simp only [Result.ok.injEq] at h
                obtain ⟨payload, tg, rfl⟩ := decodeImage_some ext mode image _ mat hd
                exact Or.inr ⟨keys, payload, tg, mat, hres, h.symm⟩
            | throw e => rw [hd] at h; simp at h
            | undefinedBehaviour => rw [hd] at h; simp at h
            | terminate => rw [hd] at h; simp at h
        | throw e => rw [hfp] at h; simp at h
        | undefinedBehaviour => rw [hfp] at h; simp at h
        | terminate => rw [hfp] at h; simp at h
      all_goals simp at h
    all_goals simp at h
  all_goals simp at h

/-- A key list of two keys that resolves goes through two maps. -/
theorem resolveKeys_two (msg x : Item) (a b : String)
    (h : resolveKeys msg [a, b] = some x) :
    ∃ M t IM it, msg = .mk (.map M) t ∧ mapFind a M = some (.mk (.map IM) it) ∧
      mapFind b IM = some x := by
  obtain ⟨content, t⟩ := msg
  by_cases hmap : ∃ m, content = .map m
  · obtain ⟨M, rfl⟩ := hmap
    rw [resolveKeys_map] at h
    cases hfind : mapFind a M with
    | none => rw [hfind] at h; cases h
    | some child =>
      rw [hfind] at h
      simp only at h
      obtain ⟨content1, it⟩ := child
      by_cases hmap1 : ∃ m, content1 = .map m
      · obtain ⟨IM, rfl⟩ := hmap1
        rw [resolveKeys_map] at h
        cases hfind1 : mapFind b IM with
        | none => rw [hfind1] at h; cases h
        | some y =>
          rw [hfind1] at h
          simp only [resolveKeys_nil, Option.some.injEq] at h
          exact ⟨M, t, IM, it, rfl, hfind, by rw [hfind1, h]⟩
      · have hne : ∀ m, (Item.mk content1 it).content ≠ .map m := fun m hm => hmap1 ⟨m, hm⟩
        rw [resolveKeys_not_map _ hne] at h
        cases h
  · have hne : ∀ m, (Item.mk content t).content ≠ .map m := fun m hm => hmap ⟨m, hm⟩
    rw [resolveKeys_not_map _ hne] at h
    cases h

/-- The second block of `decodeItem` on a decoded message whose member "item" holds the
registry `reg`: the loop over `reg` is run on the message. -/
theorem decodeItem_registry (ext : External) (buffer : List Nat) (mode : EncodingMode)
    (msg : Item) (reg : List Item) (vt : ItemType)
    (hwire : decodeWire ext buffer mode = .ok msg)
    (hreg : resolveKeys msg ["item", "encoded_elements"] = some (.mk (.vector reg) vt)) :
    decodeItem ext buffer mode = decodeEncodedElements ext mode msg reg := by
  obtain ⟨M, t, IM, it, rfl, hitem, hr⟩ := resolveKeys_two msg _ _ _ hreg
  have hat := atMut_item_registry_of M t _ _ _ hitem (atMut_registry_present IM it vt reg hr)
  rw [mapReplace_self _ _ _ hitem] at hat
  simp only [decodeItem, hwire, Result.bind, contains_map, mapContains, hitem,
    Option.isSome_some, hat]

/-- The member "item" of a message and what a key list resolves to inside it. -/
theorem resolveKeys_item (msg : Item) (pathKeys : List String)
    (hitem : (resolveKeys msg ["item"]).isSome = true) :
    ∃ M t itemNode, msg = .mk (.map M) t ∧ mapFind "item" M = some itemNode ∧
      resolveKeys msg ("item" :: pathKeys) = resolveKeys itemNode pathKeys := by
  obtain ⟨content, t⟩ := msg
  by_cases hmap : ∃ m, content = .map m
  · obtain ⟨M, rfl⟩ := hmap
    rw [resolveKeys_map] at hitem
    cases hfind : mapFind "item" M with
    | none => rw [hfind] at hitem; cases hitem
    | some itemNode => exact ⟨M, t, itemNode, rfl, hfind, by rw [resolveKeys_map, hfind]⟩
  · have hne : ∀ m, (Item.mk content t).content ≠ .map m := fun m hm => hmap ⟨m, hm⟩
    rw [resolveKeys_not_map _ hne] at hitem
    cases hitem

/-- The registry loop of `decodeItem` with an entry whose path does not resolve inside
"item" runs as it does without that entry, wherever the entry stands. -/
theorem decodeEncodedElements_skip (ext : External) (mode : EncodingMode)
    (pathKeys : List String) (encoding : String) (post : List Item) :
    ∀ (pre : List Item) (members : List (String × Item)) (t : ItemType) (itemNode : Item),
      mapFind "item" members = some itemNode → resolveKeys itemNode pathKeys = none →
      decodeEncodedElements ext mode (.mk (.map members) t)
          (pre ++ registryEntry pathKeys encoding :: post)
        = decodeEncodedElements ext mode (.mk (.map members) t) (pre ++ post)
  | [], members, t, itemNode, hitem, hpath => by
    simp only [List.nil_append, decodeEncodedElements,
      decodeEncodedElement_entry ext mode members t itemNode pathKeys encoding hitem, hpath,
      Result.bind]
  | e :: pre, members, t, itemNode, hitem, hpath => by
    simp only [List.cons_append, decodeEncodedElements]
    cases he : decodeEncodedElement ext mode (.mk (.map members) t) e with
    | ok m1 =>
      simp only [Result.bind]
      rcases decodeEncodedElement_ok ext mode members t itemNode e m1 hitem he with
        rfl | ⟨q, payload, tg, mat, hq, rfl⟩
      · exact decodeEncodedElements_skip ext mode pathKeys encoding post pre members t itemNode
          hitem hpath
      · simp only [Item.updateAt, hitem]
        refine decodeEncodedElements_skip ext mode pathKeys encoding post pre _ t _
          (mapFind_mapReplace_same _ _ _ (by simp [hitem])) ?_
        refine resolveKeys_updateAt_none _ q itemNode _ hq ?_ ?_ pathKeys hpath
        · intro m hm
          cases hm
        · intro m hm
          cases hm
    | throw x => rfl
    | undefinedBehaviour => rfl
    | terminate => rfl

/-- C26: for every message that the first block of `decodeItem` yields, whose member
"item" holds a registry with an entry made of a path of strings and an encoding name, the
path not resolving inside "item": the turn of the registry loop for that entry returns and
leaves the whole message as it is, and `decodeItem` gives what the loop gives without
that entry, wherever it stands in the registry. When it is the only entry, `decodeItem`
returns the message as decoded. -/
theorem Conversion.decodeItem_unresolved_path (ext : External) (buffer : List Nat)
    (mode : EncodingMode) (msg : Item) (pre post : List Item) (pathKeys : List String)
    (encoding : String) (vt : ItemType)
    (hwire : decodeWire ext buffer mode = .ok msg)
    (hreg : resolveKeys msg ["item", "encoded_elements"]
      = some (.mk (.vector (pre ++ registryEntry pathKeys encoding :: post)) vt))
    (hpath : resolveKeys msg ("item" :: pathKeys) = none) :
    decodeEncodedElement ext mode msg (registryEntry pathKeys encoding) = .ok msg ∧
    decodeItem ext buffer mode = decodeEncodedElements ext mode msg (pre ++ post) ∧
    (pre = [] → post = [] → decodeItem ext buffer mode = .ok msg) := by
  have hsome : (resolveKeys msg ["item"]).isSome = true := by
    obtain ⟨M, t, IM, it, rfl, hitem, _⟩ := resolveKeys_two msg _ _ _ hreg
    simp [resolveKeys_map, hitem, resolveKeys_nil]
  obtain ⟨M, t, itemNode, rfl, hitem, hres⟩ := resolveKeys_item msg pathKeys hsome
  rw [hres] at hpath
  have hskip := decodeEncodedElements_skip ext mode pathKeys encoding post pre M t itemNode
    hitem hpath
  have hdec := decodeItem_registry ext buffer mode _ _ vt hwire hreg
  refine ⟨?_, by rw [hdec, hskip], ?_⟩
  · simp only [decodeEncodedElement_entry ext mode M t itemNode pathKeys encoding hitem, hpath]
  · intro hpre hpost
    rw [hdec, hskip, hpre, hpost]
    rfl

/-- C26 at a concrete input: the message whose registry names the path "missing", which
the item does not hold, is decoded from its bytes as it stands. -/
theorem Conversion.decodeItem_unresolved_path_witness :
    decodeItem exampleExternal (exampleRegistryBuffer "missing" "IMAGE_PNG" "n" (.uint 5))
        EncodingMode.MSGPACK
      = .ok (exampleRegistryMessage "missing" "IMAGE_PNG" "n"
          (Item.ofNative (.value (.uint64 5)))) :=
  (Conversion.decodeItem_unresolved_path exampleExternal
    (exampleRegistryBuffer "missing" "IMAGE_PNG" "n" (.uint 5)) EncodingMode.MSGPACK
    (exampleRegistryMessage "missing" "IMAGE_PNG" "n" (Item.ofNative (.value (.uint64 5))))
    [] [] ["missing"] "IMAGE_PNG" .ARRAY rfl rfl rfl).2.2 rfl rfl

/-- C24 (the code at the failing input): for every message that the first block of
`decodeItem` yields, whose registry starts with an entry made of a path of strings and an
encoding name other than "MAT_RAW", the path resolving inside "item" to a String Item:
when `cv::imdecode` returns a matrix for the payload (base64-decoded in the text mode),
the leaf is replaced by that matrix, whatever the encoding name is, and the loop goes on
with the remaining entries. No name is looked at but "MAT_RAW", and the branch has no
warning. -/
theorem Conversion.decodeItem_other_encoding (ext : External) (buffer : List Nat)
    (mode : EncodingMode) (msg : Item) (rest : List Item) (pathKeys : List String)
    (encoding payload : String) (vt tg : ItemType) (data : List Nat) (matImg : Mat)
    (hwire : decodeWire ext buffer mode = .ok msg)
    (hreg : resolveKeys msg ["item", "encoded_elements"]
      = some (.mk (.vector (registryEntry pathKeys encoding :: rest)) vt))
    (hleaf : resolveKeys msg ("item" :: pathKeys) = some (.mk (.string payload) tg))
    (henc : encoding ≠ "MAT_RAW")
    (hdata : (if mode = EncodingMode.JSON then base64_decode payload
      else .ok (stringToBytes payload)) = .ok data)
    (himg : ext.imdecode data = some matImg) :
    decodeItem ext buffer mode
      = decodeEncodedElements ext mode
          (msg.updateAt (fun target => target.assignNative (.mat matImg)) ("item" :: pathKeys))
          rest ∧
    resolveKeys
        (msg.updateAt (fun target => target.assignNative (.mat matImg)) ("item" :: pathKeys))
        ("item" :: pathKeys)
      = some (.mk (.mat matImg) .MAT) := by
  have hsome : (resolveKeys msg ["item"]).isSome = true := by
    obtain ⟨M, t, IM, it, rfl, hitem, _⟩ := resolveKeys_two msg _ _ _ hreg
    simp [resolveKeys_map, hitem, resolveKeys_nil]
  have hsame := resolveKeys_updateAt_same
    (fun target => target.assignNative (.mat matImg)) ("item" :: pathKeys) msg _ hleaf
  obtain ⟨M, t, itemNode, rfl, hitem, hres⟩ := resolveKeys_item msg pathKeys hsome
  rw [hres] at hleaf
  have hdec := decodeItem_registry ext buffer mode _ _ vt hwire hreg
  have himage : decodeImage ext mode (.mk (.string payload) tg) encoding = .ok (some matImg) := by
    simp only [decodeImage, Item.as, Item.valueAt, Item.value, try_any_cast, Item.content,
      Content.cppType, if_true, Outcome.map, Option.map, deref, hdata, Result.bind, henc,
      if_false, himg]
  refine ⟨?_, hsame⟩
  rw [hdec]
  simp only [decodeEncodedElements,
    decodeEncodedElement_entry ext mode M t itemNode pathKeys encoding hitem, hleaf, himage,
    Result.bind]

/-- C24 at the failing input: the registry entry names the encoding "FOO" for the path
"image", whose leaf arrives as the string "abc", in the binary mode. The first block of
`decodeItem` yields the message with that string; `decodeItem` returns the message with
the leaf replaced by the matrix that the example `imdecode` makes of the three bytes. -/
theorem Conversion.decodeItem_other_encoding_witness :
    decodeWire exampleExternal (exampleRegistryBuffer "image" "FOO" "image" (.str "abc"))
        EncodingMode.MSGPACK
      = .ok (exampleRegistryMessage "image" "FOO" "image"
          (Item.ofNative (.value (.string "abc")))) ∧
    decodeItem exampleExternal (exampleRegistryBuffer "image" "FOO" "image" (.str "abc"))
        EncodingMode.MSGPACK
      = .ok (exampleRegistryMessage "image" "FOO" "image"
          (Item.ofNative (.value (.mat
            { rows := 1, cols := 3, depth := 0, channels := 1, data := [97, 98, 99] })))) :=
  ⟨rfl, by
    rw [(Conversion.decodeItem_other_encoding exampleExternal
      (exampleRegistryBuffer "image" "FOO" "image" (.str "abc")) EncodingMode.MSGPACK
      (exampleRegistryMessage "image" "FOO" "image" (Item.ofNative (.value (.string "abc"))))
      [] ["image"] "FOO" "abc" .ARRAY .STRING [97, 98, 99]
      { rows := 1, cols := 3, depth := 0, channels := 1, data := [97, 98, 99] }
      rfl rfl rfl (by decide) rfl rfl).1]
    rfl⟩

/-- The function `base64_decode` returns its vector or has written past its end. -/
theorem base64_decode_cases (src : String) :
    base64_decode src = .undefinedBehaviour ∨ ∃ data, base64_decode src = .ok data := by
  unfold base64_decode
  split
  · exact Or.inr ⟨_, rfl⟩
  · exact Or.inl rfl

/-- The "MAT_RAW" branch of `decodeItem` reads the kind, the width and the dimension count
from the first ten bytes without a test of the size: on fewer readable bytes it reads
outside them. -/
theorem decodeRawMat_short (ext : External) (data : List Nat) (h : data.length < 10) :
    decodeRawMat ext data = .undefinedBehaviour := by
  have h2 : ¬ 2 + 8 ≤ data.length := by omega
  by_cases h0 : 0 + 1 ≤ data.length
  · by_cases h1 : 1 + 1 ≤ data.length
    · simp only [decodeRawMat, readPod, h0, h1, h2, if_true, if_false, Result.bind]
    · simp only [decodeRawMat, readPod, h0, h1, if_true, if_false, Result.bind]
  · simp only [decodeRawMat, readPod, h0, if_false, Result.bind]

/-- C25 (the code at the failing input): for every message that the first block of
`decodeItem` yields, whose registry starts with an entry that names "MAT_RAW" for a path
resolving inside "item" to a String Item with fewer than ten readable bytes (the decoded
bytes in the text mode, where `base64_decode` may itself have written outside its vector;
the string and its terminating 0 otherwise), `decodeItem` reads outside the payload: the
header fields are read with `as<T>(data.get(), offset)` without a test of the size. A
complete header that announces more pixel bytes than follow it ends in the same way, in
the `memcpy` of the pixels. -/
theorem Conversion.decodeItem_short_mat_raw (ext : External) (buffer : List Nat)
    (mode : EncodingMode) (msg : Item) (rest : List Item) (pathKeys : List String)
    (payload : String) (vt tg : ItemType)
    (hwire : decodeWire ext buffer mode = .ok msg)
    (hreg : resolveKeys msg ["item", "encoded_elements"]
      = some (.mk (.vector (registryEntry pathKeys "MAT_RAW" :: rest)) vt))
    (hleaf : resolveKeys msg ("item" :: pathKeys) = some (.mk (.string payload) tg))
    (hshort : ∀ data, (if mode = EncodingMode.JSON then base64_decode payload
      else .ok (stringToBytes payload ++ [0])) = .ok data → data.length < 10) :
    decodeItem ext buffer mode = .undefinedBehaviour ∧
    decodeRawMat exampleExternal exampleHeaderOnly = .undefinedBehaviour := by
  refine ⟨?_, rfl⟩
  have hsome : (resolveKeys msg ["item"]).isSome = true := by
    obtain ⟨M, t, IM, it, rfl, hitem, _⟩ := resolveKeys_two msg _ _ _ hreg
    simp [resolveKeys_map, hitem, resolveKeys_nil]
  obtain ⟨M, t, itemNode, rfl, hitem, hres⟩ := resolveKeys_item msg pathKeys hsome
  rw [hres] at hleaf
  have hdec := decodeItem_registry ext buffer mode _ _ vt hwire hreg
  have himage : decodeImage ext mode (.mk (.string payload) tg) "MAT_RAW"
      = .undefinedBehaviour := by
    simp only [decodeImage, Item.as, Item.valueAt, Item.value, try_any_cast, Item.content,
      Content.cppType, if_true, Outcome.map, Option.map, deref]
    by_cases hm : mode = EncodingMode.JSON
    · simp only [hm, if_true] at hshort ⊢
      rcases base64_decode_cases payload with hb | ⟨data, hb⟩
      · rw [hb]
        rfl
      · rw [hb]
        exact decodeRawMat_short ext _ (hshort data hb)
    · simp only [hm, if_false, Result.bind] at hshort ⊢
      exact decodeRawMat_short ext _ (hshort _ rfl)
  rw [hdec]
  simp only [decodeEncodedElements,
    decodeEncodedElement_entry ext mode M t itemNode pathKeys "MAT_RAW" hitem, hleaf, himage,
    Result.bind]

/-- C25 at a concrete input: the entry names "MAT_RAW" for the path "image", whose leaf
is the one-byte string "u". -/
theorem Conversion.decodeItem_short_mat_raw_witness :
    decodeItem exampleExternal (exampleRegistryBuffer "image" "MAT_RAW" "image" (.str "u"))
        EncodingMode.MSGPACK
      = .undefinedBehaviour :=
  (Conversion.decodeItem_short_mat_raw exampleExternal
    (exampleRegistryBuffer "image" "MAT_RAW" "image" (.str "u")) EncodingMode.MSGPACK
    (exampleRegistryMessage "image" "MAT_RAW" "image" (Item.ofNative (.value (.string "u"))))
    [] ["image"] "u" .ARRAY .STRING rfl rfl rfl
    (fun data h => by
      have h1 : (Result.ok (stringToBytes "u" ++ [0]) : Result (List Nat)) = .ok data := h
      cases h1
      decide)).1

/-! ## Theorems: `_disconnect` -/

/-- C35: `_disconnect` in any state leaves the client handle -1, the socket handle
`invalidSocket` and `connected()` false; it closes the socket exactly when the socket
handle was valid; a call that follows it, and any number of further calls, change neither
the connection nor the network, so no socket is closed again. -/
theorem TcpConnection.disconnect_idempotent (c : TcpConnection) (net : Network) :
    (c.disconnect net).1.fdClient = -1 ∧ (c.disconnect net).1.fdSocket = -1 ∧
    (c.disconnect net).1.connected = false ∧
    (c.disconnect net).1.socketConnected = false ∧
    (c.disconnect net).2.closed
      = (if c.socketConnected then net.closed ++ [c.fdSocket] else net.closed) ∧
    (c.disconnect net).1.disconnect (c.disconnect net).2 = c.disconnect net ∧
    ∀ n : Nat, (fun s : TcpConnection × Network => s.1.disconnect s.2)^[n + 1] (c, net)
      = c.disconnect net := by
  have hfix : (c.disconnect net).1.disconnect (c.disconnect net).2 = c.disconnect net := by
    by_cases hs : c.socketConnected = true
    · have h1 : c.disconnect net
          = ({ c with fdClient := -1, fdSocket := -1 },
              { net with closed := net.closed ++ [c.fdSocket] }) := by
        simp only [TcpConnection.disconnect, hs, if_true]
      rw [h1]
      simp [TcpConnection.disconnect, TcpConnection.socketConnected]
    · have h1 : c.disconnect net = ({ c with fdClient := -1, fdSocket := -1 }, net) := by
        simp only [TcpConnection.disconnect, hs, if_false]
        rfl
      rw [h1]
      simp [TcpConnection.disconnect, TcpConnection.socketConnected]
  refine ⟨?_, ?_, ?_, ?_, ?_, hfix, ?_⟩
  · unfold TcpConnection.disconnect; split <;> rfl
  · unfold TcpConnection.disconnect; split <;> rfl
  · unfold TcpConnection.disconnect
    split <;> simp [TcpConnection.connected]
  · unfold TcpConnection.disconnect
    split <;> simp [TcpConnection.socketConnected]
  · unfold TcpConnection.disconnect; split <;> rfl
  · intro n
    induction n with
    | zero => rfl
    | succ k ih =>
      rw [Function.iterate_succ_apply', ih]
      exact hfix

/-! ## Theorems: `find_at` leaves the Item as it is -/

/-- The write through `v[i]` of the element that stands there changes nothing. -/
theorem vecStore_self (v : List Item) (i : Nat) (x : Item) (h : vecGet v i = some x) :
    vecStore v i x = v := by
  induction v generalizing i with
  | nil => rfl
  | cons a rest ih =>
    cases i with
    | zero =>
      simp only [vecGet, List.get?_cons_zero, Option.some.injEq] at h
      simp [vecStore, h]
    | succ k =>
      simp only [vecGet, List.get?_cons_succ] at h
      have := ih k (by simpa [vecGet] using h)
      simp only [vecStore] at this
      simp [vecStore, this]

/-- The mutable overloads of `_value<T, true>(args...)` return the Item as it was. -/
theorem valueAtMut_true_unchanged (T : CppType) : ∀ (path : List Seg) (it : Item),
    (Item.valueAtMut T true it path).2 = it
  | [], it => by simp [Item.valueAtMut]
  | [.key name], it => by
    obtain ⟨content, t⟩ := it
    simp only [Item.valueAtMut]
    split
    · split
      · rfl
      · split
        · rfl
        · rename_i hc _ hf
          simp [mapContains] at hc
          simp [hf] at hc
    all_goals rfl
  | [.idx i], it => by
    obtain ⟨content, t⟩ := it
    simp only [Item.valueAtMut]
    split
    · split
      · rfl
      · split <;> rfl
    all_goals rfl
  | .key first :: s :: rest, it => by
    obtain ⟨content, t⟩ := it
    rw [Item.valueAtMut]
    · split
      · rename_i parent hv
        have hcont : content = .map parent := by
          cases content <;>
            simp [Item.value, try_any_cast, Item.content, Content.cppType] at hv
          rw [hv]
        split
        · rfl
        · split
          · rename_i child hf
            simp only [valueAtMut_true_unchanged T (s :: rest) child, Item.withContent,
              Item.contentType, mapReplace_self _ _ _ hf, hcont]
          · rfl
      all_goals rfl
    · intro h
      cases h
  | .idx first :: s :: rest, it => by
    obtain ⟨content, t⟩ := it
    rw [Item.valueAtMut]
    · split
      · rename_i parent hv
        have hcont : content = .vector parent := by
          cases content <;>
            simp [Item.value, try_any_cast, Item.content, Content.cppType] at hv
          rw [hv]
        split
        · rfl
        · split
          · rename_i child hf
            simp only [valueAtMut_true_unchanged T (s :: rest) child, Item.withContent,
              Item.contentType, vecStore_self _ _ _ hf, hcont]
          · rfl
      all_goals rfl
    · intro h
      cases h

/-- C39: the mutable `find_at<T>(args...)` leaves the Item as it was, for every Item,
every queried type and every path of keys and indices, whether the path resolves or not;
the mutable `at("b")` on the Object that holds only "a" creates the key "b". -/
theorem Item.find_at_unchanged (T : CppType) (it : Item) (path : List Seg) :
    (it.find_atMut T path).2 = it ∧
    ((Item.ofNative (.itemMap [("a", Item.default)])).find_atMut .item [.key "b"]).1
      = .ok none ∧
    ((Item.ofNative (.itemMap [("a", Item.default)])).atMut .item [.key "b"]).2
      = Item.ofNative (.itemMap [("a", Item.default), ("b", Item.default)]) :=
  ⟨valueAtMut_true_unchanged T path it, rfl, rfl⟩

/-! ## Theorems: a stream that ends inside a frame, a frame that cannot be decoded -/

/-- With the timeout 0 and nothing more on its way in, the loop of `receiveNumberOfBytes`
does not end while bytes are missing: every read gives 0, the test of the elapsed time is
skipped, and the count of bytes received stays as it is. -/
theorem receiveLoop_zero_timeout_spins (start N : Nat) :
    ∀ (fuel : Nat) (buffer : List Nat) (received : Nat) (net : Network),
      received < N → net.incoming = [] →
      receiveLoop 0 start N fuel buffer received net = none
  | 0, _, _, _, _, _ => rfl
  | fuel + 1, buffer, received, net, hlt, hin => by
    have hr : socket_read net (N - received)
        = ⟨0, [], { net with readLog := net.readLog ++ [N - received] }⟩ := by
      simp [socket_read, hin]
    simp only [receiveLoop, hlt, if_true, hr, lt_self_iff_false, if_false, gt_iff_lt,
      and_false, Int.toNat_zero, Nat.add_zero]
    exact receiveLoop_zero_timeout_spins start N fuel _ received _ hlt hin

/-- C32 (counterexample): a connection with the timeout 0 receives the header
00 00 00 05 and the mode byte 01 and then nothing more. For no number of turns of the
loop does `receiveMessage` return. -/
theorem TcpConnection.receiveMessage_zero_timeout_counterexample :
    ¬ ∃ fuel result,
      exampleZeroTimeout.receiveMessage fuel (exampleNetwork [.data [0, 0, 0, 5, 1]])
        = some result := by
  rintro ⟨fuel, result, h⟩
  cases fuel with
  | zero => simp [TcpConnection.receiveMessage, TcpConnection.receiveNumberOfBytes,
      exampleZeroTimeout, exampleConnection, TcpConnection.connected,
      TcpConnection.socketConnected, receiveLoop] at h
  | succ f1 =>
    cases f1 with
    | zero => simp [TcpConnection.receiveMessage, TcpConnection.receiveNumberOfBytes,
        exampleZeroTimeout, exampleConnection, TcpConnection.connected,
        TcpConnection.socketConnected, receiveLoop, socket_read, exampleNetwork,
        Network.now] at h
    | succ f2 =>
      have hc : exampleZeroTimeout.connected = true := rfl
      have h4 : exampleZeroTimeout.receiveNumberOfBytes (f2 + 2) 4
          (exampleNetwork [.data [0, 0, 0, 5, 1]])
          = some (some [0, 0, 0, 5],
              { exampleNetwork [.data [1]] with readLog := [4], clockReads := 1 }) := rfl
      have h1 : exampleZeroTimeout.receiveNumberOfBytes (f2 + 2) 1
          { exampleNetwork [.data [1]] with readLog := [4], clockReads := 1 }
          = some (some [1],
              { exampleNetwork [] with readLog := [4, 1], clockReads := 2 }) := rfl
      have h5 : exampleZeroTimeout.receiveNumberOfBytes (f2 + 2) 5
          { exampleNetwork [] with readLog := [4, 1], clockReads := 2 } = none := by
        simp only [TcpConnection.receiveNumberOfBytes, hc, Bool.not_true, Bool.false_eq_true,
          if_false]
        exact receiveLoop_zero_timeout_spins _ 5 _ _ 0 _ (by decide) rfl
      have hsize : readBigEndian (exampleNetwork [.data [0, 0, 0, 5, 1]]).host 4 [0, 0, 0, 5]
          = 5 := by decide
      simp only [TcpConnection.receiveMessage, h4, h1, hsize, h5] at h
      cases h

/-- With the timeout 0, when the chunks on their way in hold fewer bytes than are still
missing and nothing is queued after them, the loop of `receiveNumberOfBytes` does not
end: it takes the chunks and then reads 0 bytes again and again. -/
theorem receiveLoop_zero_timeout_short (start N : Nat) :
    ∀ (fuel : Nat) (chunks : List (List Nat)) (buffer : List Nat) (received : Nat)
      (net : Network),
      net.incoming = chunks.map ReadEvent.data → received + chunks.flatten.length < N →
      receiveLoop 0 start N fuel buffer received net = none
  | 0, _, _, _, _, _, _ => rfl
  | fuel + 1, [], buffer, received, net, hin, hlt => by
    have hlt' : received < N := by simpa using hlt
    exact receiveLoop_zero_timeout_spins start N (fuel + 1) buffer received net hlt'
      (by simpa using hin)
  | fuel + 1, chunk :: rest, buffer, received, net, hin, hlt => by
    simp only [List.flatten_cons, List.length_append] at hlt
    have hlt' : received < N := by omega
    have hle : chunk.length ≤ N - received := by omega
    have hr : socket_read net (N - received)
        = ⟨chunk.length, chunk,
            { net with incoming := rest.map ReadEvent.data,
                       readLog := net.readLog ++ [N - received] }⟩ := by
      simp only [List.map] at hin
      simp [socket_read, hin, hle]
    have hn : ¬ ((chunk.length : Int) < 0) := by omega
    simp only [receiveLoop, hlt', if_true, hr, hn, if_false, gt_iff_lt, lt_self_iff_false,
      and_false, Int.toNat_ofNat]
    exact receiveLoop_zero_timeout_short start N fuel rest _ (received + chunk.length) _ rfl
      (by omega)

/-- C32, amended: with a configured timeout of 0 ms, when the stream holds fewer bytes
than a call of `receiveNumberOfBytes` asks for and every further read returns zero bytes,
the call does not return, whatever the number of turns of its loop; so `receiveMessage`
does not return either when the header it has read declares more payload bytes than the
stream delivers. -/
theorem TcpConnection.receiveMessage_zero_timeout (c : TcpConnection) (net : Network)
    (N : Nat) (chunks : List (List Nat))
    (hc : c.connected = true) (hT : c.timeoutMs = 0)
    (hin : net.incoming = chunks.map ReadEvent.data) (hshort : chunks.flatten.length < N) :
    (∀ fuel, c.receiveNumberOfBytes fuel N net = none) ∧
    (∀ fuel net0 net1 sizeBuffer modeBuffer,
      c.receiveNumberOfBytes fuel 4 net0 = some (some sizeBuffer, net1) →
      c.receiveNumberOfBytes fuel 1 net1 = some (some modeBuffer, net) →
      readBigEndian net0.host 4 sizeBuffer = N →
      c.receiveMessage fuel net0 = none) := by
  have hfirst : ∀ fuel, c.receiveNumberOfBytes fuel N net = none := by
    intro fuel
    simp only [TcpConnection.receiveNumberOfBytes, hc, Bool.not_true, Bool.false_eq_true,
      if_false, hT]
    exact receiveLoop_zero_timeout_short _ N fuel chunks _ 0 _ (by simpa [Network.now] using hin)
      (by omega)
  refine ⟨hfirst, ?_⟩
  intro fuel net0 net1 sizeBuffer modeBuffer h4 h1 hN
  simp only [TcpConnection.receiveMessage, h4, h1, hN, hfirst fuel]

/-- C32, amended, at a concrete input: the header 00 00 00 05, the mode byte 01 and the
two payload bytes 68 65 arrive for a connection with the timeout 0, then nothing more. -/
theorem TcpConnection.receiveMessage_zero_timeout_witness :
    (∀ fuel, exampleZeroTimeout.receiveNumberOfBytes fuel 5
        { exampleNetwork [.data [104, 101]] with readLog := [4, 1], clockReads := 2 }
      = none) ∧
    exampleZeroTimeout.receiveMessage 3 (exampleNetwork [.data [0, 0, 0, 5, 1, 104, 101]])
      = none :=
  ⟨(TcpConnection.receiveMessage_zero_timeout exampleZeroTimeout
      { exampleNetwork [.data [104, 101]] with readLog := [4, 1], clockReads := 2 }
      5 [[104, 101]] rfl rfl rfl (by decide)).1,
   (TcpConnection.receiveMessage_zero_timeout exampleZeroTimeout
      { exampleNetwork [.data [104, 101]] with readLog := [4, 1], clockReads := 2 }
      5 [[104, 101]] rfl rfl rfl (by decide)).2 3
      (exampleNetwork [.data [0, 0, 0, 5, 1, 104, 101]])
      { exampleNetwork [.data [1, 104, 101]] with readLog := [4], clockReads := 1 }
      [0, 0, 0, 5] [1] rfl rfl (by decide)⟩

/-- C31 (the code at the failing input): a frame has been received whose mode byte is
neither 0 nor 1, or whose payload makes `decodeItem` throw. `decodeItem` throws
`std::runtime_error` for the unknown mode; `receiveItem` is `noexcept` and has no handler,
so the exception ends in `std::terminate`. -/
theorem TcpConnection.receiveItem_terminates (ext : External) (fuel : Nat)
    (c c1 : TcpConnection) (net net1 : Network) (mode : EncodingMode) (buffer : List Nat)
    (hrecv : c.receiveMessage fuel net = some ⟨some mode, some buffer, c1, net1⟩) :
    (mode ≠ EncodingMode.MSGPACK → mode ≠ EncodingMode.JSON →
      decodeItem ext buffer mode
        = .throw (.runtimeError "Encoding mode \x7b\x7d not implemented.") ∧
      c.receiveItem ext fuel net = some ⟨.terminate, c1, net1⟩) ∧
    (∀ t, decodeItem ext buffer mode = .throw t →
      c.receiveItem ext fuel net = some ⟨.terminate, c1, net1⟩) := by
  have hthrow : ∀ t, decodeItem ext buffer mode = .throw t →
      c.receiveItem ext fuel net = some ⟨.terminate, c1, net1⟩ := by
    intro t ht
    simp only [TcpConnection.receiveItem, hrecv, ht]
  have hmode : mode ≠ EncodingMode.MSGPACK → mode ≠ EncodingMode.JSON →
      decodeItem ext buffer mode
        = .throw (.runtimeError "Encoding mode \x7b\x7d not implemented.") := by
    intro h1 h2
    simp only [decodeItem, decodeWire, h1, h2, if_false, Result.bind]
  exact ⟨fun h1 h2 => ⟨hmode h1 h2, hthrow _ (hmode h1 h2)⟩, hthrow⟩

/-- C31 at a concrete input: the frame 00 00 00 00 02, an empty payload with the mode
byte 2, and the frame 00 00 00 01 01 c1, whose payload is no msgpack object. -/
theorem TcpConnection.receiveItem_terminates_witness :
    (exampleConnection.receiveItem exampleExternal 3 (exampleNetwork [.data [0, 0, 0, 0, 2]])
      ).map (fun e => e.result) = some .terminate ∧
    (exampleConnection.receiveItem exampleExternal 3
      (exampleNetwork [.data [0, 0, 0, 1, 1, 193]])).map (fun e => e.result)
      = some .terminate :=
  ⟨by
    rw [((TcpConnection.receiveItem_terminates exampleExternal 3 exampleConnection _
      (exampleNetwork [.data [0, 0, 0, 0, 2]]) _ ⟨2⟩ [] rfl).1 (by decide) (by decide)).2]
    rfl,
   by
    rw [(TcpConnection.receiveItem_terminates exampleExternal 3 exampleConnection _
      (exampleNetwork [.data [0, 0, 0, 1, 1, 193]]) _ ⟨1⟩ [193] rfl).2 .msgpackError rfl]
    rfl⟩

/-! ## Theorems: the configuration handshake Item -/

/-- The constructor `Item(std::vector<T>)` turns every element into an Item, in order. -/
theorem ofNativeVector_map {α : Type} (f : α → Native) (xs : List α) :
    ∀ acc : List Item,
      Item.ofNativeVector acc (xs.map f) = acc ++ xs.map fun x => Item.ofNative (f x) := by
  induction xs with
  | nil => intro acc; simp [Item.ofNativeVector]
  | cons x rest ih =>
    intro acc
    simp only [List.map, Item.ofNativeVector, ih]
    simp

/-- Every value of a map after a store has a property that the stored value and the
values before have. -/
theorem forall_mapStore (P : Item → Prop) (k : String) (v : Item) (m : List (String × Item))
    (hv : P v) (hm : ∀ kv ∈ m, P kv.2) : ∀ kv ∈ mapStore k v m, P kv.2 := by
  induction m with
  | nil =>
    intro kv hkv
    simp only [mapStore, List.mem_singleton] at hkv
    subst hkv
    exact hv
  | cons p rest ih =>
    obtain ⟨k0, v0⟩ := p
    intro kv hkv
    have hp := hm (k0, v0) (List.mem_cons_self _ _)
    have hrest : ∀ kv ∈ rest, P kv.2 := fun kv h => hm kv (List.mem_cons_of_mem _ h)
    by_cases h0 : k0 = k
    · have hms : mapStore k v ((k0, v0) :: rest) = (k, v) :: rest := by
        simp [mapStore, h0]
      rw [hms] at hkv
      rcases List.mem_cons.1 hkv with h | h
      · rw [h]
        exact hv
      · exact hrest kv h
    · by_cases hlt : keyLt k k0 = true
      · have hms : mapStore k v ((k0, v0) :: rest) = (k, v) :: (k0, v0) :: rest := by
          simp [mapStore, h0, hlt]
        rw [hms] at hkv
        rcases List.mem_cons.1 hkv with h | h
        · rw [h]
          exact hv
        · exact hm kv h
      · have hms : mapStore k v ((k0, v0) :: rest) = (k0, v0) :: mapStore k v rest := by
          simp [mapStore, h0, hlt]
        rw [hms] at hkv
        rcases List.mem_cons.1 hkv with h | h
        · rw [h]
          exact hp
        · exact ih hrest kv h

/-- The constructor `Item(std::map<std::string, std::string>)`: every value of the Object
is a String Item, and under a key stands the string last stored under it. -/
theorem ofNativeMap_strings : ∀ (pairs : List (String × String)) (acc : List (String × Item)),
    (∀ kv ∈ acc, ∃ s, kv.2 = Item.mk (.string s) .STRING) →
    (∀ kv ∈ Item.ofNativeMap acc (pairs.map fun kv => (kv.1, Native.value (.string kv.2))),
      ∃ s, kv.2 = Item.mk (.string s) .STRING) ∧
    ∀ k, mapFind k
        (Item.ofNativeMap acc (pairs.map fun kv => (kv.1, Native.value (.string kv.2))))
      = match pairs.reverse.lookup k with
        | some s => some (Item.mk (.string s) .STRING)
        | none => mapFind k acc
  | [], acc, hacc => by
    refine ⟨by simpa [Item.ofNativeMap] using hacc, fun k => ?_⟩
    simp [Item.ofNativeMap]
  | (key, value) :: rest, acc, hacc => by
    have hstore : ∀ kv ∈ mapStore key (Item.mk (.string value) .STRING) acc,
        ∃ s, kv.2 = Item.mk (.string s) .STRING :=
      forall_mapStore (fun it => ∃ s, it = Item.mk (.string s) .STRING) key _ acc ⟨value, rfl⟩
        hacc
    obtain ⟨ih1, ih2⟩ := ofNativeMap_strings rest
      (mapStore key (Item.mk (.string value) .STRING) acc) hstore
    refine ⟨?_, fun k => ?_⟩
    · simpa [Item.ofNativeMap, Item.ofNative, Content.cppType, deriveItemType] using ih1
    · have h := ih2 k
      simp only [List.map, Item.ofNativeMap, Item.ofNative, Content.cppType, deriveItemType]
      rw [h, List.reverse_cons, List.lookup_append]
      cases hl : List.lookup k rest.reverse with
      | some s => simp
      | none =>
        by_cases hk : k = key
        · simp [mapFind_mapStore, hk, List.lookup]
        · have hk' : (k == key) = false := by simpa using hk
          simp [mapFind_mapStore, hk, List.lookup, hk']

/-- C36: for every `ReceiveProperties`, `toItem()` is the Object with exactly the members
"producer_name", the String holding the producer name, and "stream_options", the Object
with exactly the members "encoding_mode" (the unsigned byte of the encoding mode, 0 for
the text mode and 1 for the binary mode), "encoding_tree" (an Object whose values are
Strings, each key holding the encoding stored for it), "excluded_paths" and
"included_paths" (Arrays of Arrays of Strings holding the configured paths in order) and
"max_send_interval_ms" (the unsigned 32-bit interval). -/
theorem ReceiveProperties.toItem_shape (r : ReceiveProperties) :
    r.toItem = Item.mk (.map
      [("producer_name", Item.mk (.string r.producerName) .STRING),
       ("stream_options", Item.mk (.map
          [("encoding_mode", Item.mk (.uint8 (getUnderlyingValue r.encodingMode)) .UINT8),
           ("encoding_tree", Item.mk (.map (Item.ofNativeMap []
              (r.encodingMap.map fun kv => (kv.1, Native.value (.string kv.2))))) .OBJECT),
           ("excluded_paths", Item.mk (.vector (r.excludedPaths.map fun p =>
              Item.mk (.vector (p.map fun s => Item.mk (.string s) .STRING)) .ARRAY)) .ARRAY),
           ("included_paths", Item.mk (.vector (r.includedPaths.map fun p =>
              Item.mk (.vector (p.map fun s => Item.mk (.string s) .STRING)) .ARRAY)) .ARRAY),
           ("max_send_interval_ms", Item.mk (.uint32 r.maxSendIntervalMs) .UINT32)])
          .OBJECT)]) .OBJECT ∧
    (∀ kv ∈ Item.ofNativeMap []
        (r.encodingMap.map fun kv => (kv.1, Native.value (.string kv.2))),
      ∃ s, kv.2 = Item.mk (.string s) .STRING) ∧
    (∀ k, mapFind k (Item.ofNativeMap []
        (r.encodingMap.map fun kv => (kv.1, Native.value (.string kv.2))))
      = (r.encodingMap.reverse.lookup k).map fun s => Item.mk (.string s) .STRING) ∧
    getUnderlyingValue EncodingMode.JSON = 0 ∧ getUnderlyingValue EncodingMode.MSGPACK = 1 ∧
    Item.ofNativeMap [] ((ReceiveProperties.new "cam" EncodingMode.MSGPACK 40 true true
        true).encodingMap.map fun kv => (kv.1, Native.value (.string kv.2)))
      = [("image", Item.mk (.string "MAT_RAW") .STRING),
         ("point_cloud", Item.mk (.string "EncodingType.PointCloud") .STRING)] := by
  have hvec : ∀ paths : List (List String),
      Item.ofNative (.vectorOf (paths.map fun p =>
        Native.vectorOf (p.map fun s => Native.value (.string s))))
      = Item.mk (.vector (paths.map fun p =>
          Item.mk (.vector (p.map fun s => Item.mk (.string s) .STRING)) .ARRAY)) .ARRAY := by
    intro paths
    simp only [Item.ofNative, ofNativeVector_map, ofNativeVector_strings, List.nil_append,
      Content.cppType, deriveItemType]
  obtain ⟨h1, h2⟩ := ofNativeMap_strings r.encodingMap [] (by simp)
  refine ⟨?_, h1, ?_, rfl, rfl, rfl⟩
  · rw [← hvec r.excludedPaths, ← hvec r.includedPaths]
    rfl
  · intro k
    rw [h2 k]
    cases List.lookup k r.encodingMap.reverse <;> simp [mapFind]

/-! ## Theorems: what `encodeItem` changes in the message -/

mutual
/-- A relation between roots that is reflexive, transitive and holds across every
registry step of the `MAT` case holds across a run of `item_to_json`. -/
theorem item_to_json_rel (ρ : Item → Item → Prop) (hrefl : ∀ r, ρ r r)
    (htrans : ∀ a b c, ρ a b → ρ b c → ρ a c)
    (hsel : ∀ place r q pref sel, selectEncoding place r q pref = .ok sel → ρ r sel.2)
    (ext : External) (preferred : String) :
    ∀ (item : Item) (place : Place) (path : List String) (r : Item) (j : Json) (r1 : Item),
      item_to_json ext preferred place item path r = .ok (j, r1) → ρ r r1
  | .mk content contentType, place, path, r, j, r1, h => by
    by_cases h1 : contentType = .OBJECT
    · subst h1
      cases content with
      | map members =>
        simp only [item_to_json] at h
        obtain ⟨a, ha, hja⟩ := Result.bind_eq_ok _ _ _ h
        simp only [Result.ok.injEq, Prod.mk.injEq] at hja
        obtain ⟨rfl, rfl⟩ := hja
        exact item_to_json_members_rel ρ hrefl htrans hsel ext preferred members place [] path r
          a.1 a.2 ha
      | _ => simp [item_to_json, wrongPayload] at h
    · by_cases h2 : contentType = .ARRAY
      · subst h2
        cases content with
        | vector elements =>
          simp only [item_to_json] at h
          obtain ⟨a, ha, hja⟩ := Result.bind_eq_ok _ _ _ h
          simp only [Result.ok.injEq, Prod.mk.injEq] at hja
          obtain ⟨rfl, rfl⟩ := hja
          exact item_to_json_elements_rel ρ hrefl htrans hsel ext preferred elements place []
            path r a.1 a.2 ha
        | _ => simp [item_to_json, wrongPayload] at h
      · by_cases h3 : contentType = .MAT
        · subst h3
          cases content with
          | mat image =>
            simp only [item_to_json] at h
            obtain ⟨sel, hs, h⟩ := Result.bind_eq_ok _ _ _ h
            obtain ⟨enc, henc, h⟩ := Result.bind_eq_ok _ _ _ h
            obtain ⟨js, hjs, h⟩ := Result.bind_eq_ok _ _ _ h
            simp only [Result.ok.injEq, Prod.mk.injEq] at h
            obtain ⟨rfl, rfl⟩ := h
            exact hsel place r path preferred sel hs
          | _ => simp [item_to_json, wrongPayload] at h
        · rw [item_to_json_leaf_case ext preferred place content contentType path r h1 h2 h3] at h
          obtain ⟨a, ha, hja⟩ := Result.bind_eq_ok _ _ _ h
          simp only [Result.ok.injEq, Prod.mk.injEq] at hja
          obtain ⟨rfl, rfl⟩ := hja
          exact hrefl r
theorem item_to_json_members_rel (ρ : Item → Item → Prop) (hrefl : ∀ r, ρ r r)
    (htrans : ∀ a b c, ρ a b → ρ b c → ρ a c)
    (hsel : ∀ place r q pref sel, selectEncoding place r q pref = .ok sel → ρ r sel.2)
    (ext : External) (preferred : String) :
    ∀ (members : List (String × Item)) (place : Place) (json_object : List (String × Json))
      (path : List String) (r : Item) (js : List (String × Json)) (r1 : Item),
      item_to_json_members ext preferred place members json_object path r = .ok (js, r1) →
      ρ r r1
  | [], place, json_object, path, r, js, r1, h => by
    simp only [item_to_json_members, Result.ok.injEq, Prod.mk.injEq] at h
    obtain ⟨rfl, rfl⟩ := h
    exact hrefl r
  | (key, value) :: rest, place, json_object, path, r, js, r1, h => by
    by_cases hk : place ≠ .root ∨ key ≠ "encoded_elements"
    · simp only [item_to_json_members, hk, if_true] at h
      obtain ⟨a, ha, h⟩ := Result.bind_eq_ok _ _ _ h
      exact htrans _ _ _
        (item_to_json_rel ρ hrefl htrans hsel ext preferred value place.child (path ++ [key]) r
          a.1 a.2 ha)
        (item_to_json_members_rel ρ hrefl htrans hsel ext preferred rest place
          (jsonStore (cStr key) a.1 json_object) path a.2 js r1 h)
    · simp only [item_to_json_members, hk, if_false] at h
      exact item_to_json_members_rel ρ hrefl htrans hsel ext preferred rest place json_object
        path r js r1 h
theorem item_to_json_elements_rel (ρ : Item → Item → Prop) (hrefl : ∀ r, ρ r r)
    (htrans : ∀ a b c, ρ a b → ρ b c → ρ a c)
    (hsel : ∀ place r q pref sel, selectEncoding place r q pref = .ok sel → ρ r sel.2)
    (ext : External) (preferred : String) :
    ∀ (elements : List Item) (place : Place) (json_object : List Json)
      (path : List String) (r : Item) (js : List Json) (r1 : Item),
      item_to_json_elements ext preferred place elements json_object path r = .ok (js, r1) →
      ρ r r1
  | [], place, json_object, path, r, js, r1, h => by
    simp only [item_to_json_elements, Result.ok.injEq, Prod.mk.injEq] at h
    obtain ⟨rfl, rfl⟩ := h
    exact hrefl r
  | value :: rest, place, json_object, path, r, js, r1, h => by
    simp only [item_to_json_elements] at h
    obtain ⟨a, ha, h⟩ := Result.bind_eq_ok _ _ _ h
    exact htrans _ _ _
      (item_to_json_rel ρ hrefl htrans hsel ext preferred value place.child path r a.1 a.2 ha)
      (item_to_json_elements_rel ρ hrefl htrans hsel ext preferred rest place
        (json_object ++ [a.1]) path a.2 js r1 h)
end

mutual
/-- A relation between roots that is reflexive, transitive and holds across every
registry step of the `MAT` case holds across a run of `item_to_msgpack`. -/
theorem item_to_msgpack_rel (ρ : Item → Item → Prop) (hrefl : ∀ r, ρ r r)
    (htrans : ∀ a b c, ρ a b → ρ b c → ρ a c)
    (hsel : ∀ place r q pref sel, selectEncoding place r q pref = .ok sel → ρ r sel.2)
    (ext : External) (preferred : String) :
    ∀ (item : Item) (place : Place) (path : List String) (r : Item) (j : List MsgElement)
      (r1 : Item),
      item_to_msgpack ext preferred place item path r = .ok (j, r1) → ρ r r1
  | .mk content contentType, place, path, r, j, r1, h => by
    by_cases h1 : contentType = .OBJECT
    · subst h1
      cases content with
      | map members =>
        by_cases hs : members.length < uint32Max
        · simp only [item_to_msgpack, hs, if_true] at h
          obtain ⟨a, ha, hja⟩ := Result.bind_eq_ok _ _ _ h
          simp only [Result.ok.injEq, Prod.mk.injEq] at hja
          obtain ⟨rfl, rfl⟩ := hja
          exact item_to_msgpack_members_rel ρ hrefl htrans hsel ext preferred members place path
            r a.1 a.2 ha
        · simp only [item_to_msgpack, hs, if_false, Result.ok.injEq, Prod.mk.injEq] at h
          obtain ⟨rfl, rfl⟩ := h
          exact hrefl r
      | _ => simp [item_to_msgpack, wrongPayload] at h
    · by_cases h2 : contentType = .ARRAY
      · subst h2
        cases content with
        | vector elements =>
          by_cases hs : elements.length < uint32Max
          · simp only [item_to_msgpack, hs, if_true] at h
            obtain ⟨a, ha, hja⟩ := Result.bind_eq_ok _ _ _ h
            simp only [Result.ok.injEq, Prod.mk.injEq] at hja
            obtain ⟨rfl, rfl⟩ := hja
            exact item_to_msgpack_elements_rel ρ hrefl htrans hsel ext preferred elements place
              path r a.1 a.2 ha
          · simp only [item_to_msgpack, hs, if_false, Result.ok.injEq, Prod.mk.injEq] at h
            obtain ⟨rfl, rfl⟩ := h
            exact hrefl r
        | _ => simp [item_to_msgpack, wrongPayload] at h
      · by_cases h3 : contentType = .MAT
        · subst h3
          cases content with
          | mat image =>
            simp only [item_to_msgpack] at h
            obtain ⟨sel, hs, h⟩ := Result.bind_eq_ok _ _ _ h
            obtain ⟨enc, henc, h⟩ := Result.bind_eq_ok _ _ _ h
            obtain ⟨js, hjs, h⟩ := Result.bind_eq_ok _ _ _ h
            simp only [Result.ok.injEq, Prod.mk.injEq] at h
            obtain ⟨rfl, rfl⟩ := h
            exact hsel place r path preferred sel hs
          | _ => simp [item_to_msgpack, wrongPayload] at h
        · rw [item_to_msgpack_leaf_case ext preferred place content contentType path r h1 h2 h3]
            at h
          obtain ⟨a, ha, hja⟩ := Result.bind_eq_ok _ _ _ h
          simp only [Result.ok.injEq, Prod.mk.injEq] at hja
          obtain ⟨rfl, rfl⟩ := hja
          exact hrefl r
theorem item_to_msgpack_members_rel (ρ : Item → Item → Prop) (hrefl : ∀ r, ρ r r)
    (htrans : ∀ a b c, ρ a b → ρ b c → ρ a c)
    (hsel : ∀ place r q pref sel, selectEncoding place r q pref = .ok sel → ρ r sel.2)
    (ext : External) (preferred : String) :
    ∀ (members : List (String × Item)) (place : Place)
      (path : List String) (r : Item) (js : List MsgElement) (r1 : Item),
      item_to_msgpack_members ext preferred place members path r = .ok (js, r1) → ρ r r1
  | [], place, path, r, js, r1, h => by
    simp only [item_to_msgpack_members, Result.ok.injEq, Prod.mk.injEq] at h
    obtain ⟨rfl, rfl⟩ := h
    exact hrefl r
  | (key, value) :: rest, place, path, r, js, r1, h => by
    by_cases hk : place ≠ .root ∨ key ≠ "encoded_elements"
    · simp only [item_to_msgpack_members, hk, if_true] at h
      obtain ⟨a, ha, h⟩ := Result.bind_eq_ok _ _ _ h
      obtain ⟨b, hb, h⟩ := Result.bind_eq_ok _ _ _ h
      simp only [Result.ok.injEq, Prod.mk.injEq] at h
      obtain ⟨rfl, rfl⟩ := h
      exact htrans _ _ _
        (item_to_msgpack_rel ρ hrefl htrans hsel ext preferred value place.child (path ++ [key])
          r a.1 a.2 ha)
        (item_to_msgpack_members_rel ρ hrefl htrans hsel ext preferred rest place path a.2 b.1
          b.2 hb)
    · simp only [item_to_msgpack_members, hk, if_false] at h
      exact item_to_msgpack_members_rel ρ hrefl htrans hsel ext preferred rest place path r js
        r1 h
theorem item_to_msgpack_elements_rel (ρ : Item → Item → Prop) (hrefl : ∀ r, ρ r r)
    (htrans : ∀ a b c, ρ a b → ρ b c → ρ a c)
    (hsel : ∀ place r q pref sel, selectEncoding place r q pref = .ok sel → ρ r sel.2)
    (ext : External) (preferred : String) :
    ∀ (elements : List Item) (place : Place)
      (path : List String) (r : Item) (js : List MsgElement) (r1 : Item),
      item_to_msgpack_elements ext preferred place elements path r = .ok (js, r1) → ρ r r1
  | [], place, path, r, js, r1, h => by
    simp only [item_to_msgpack_elements, Result.ok.injEq, Prod.mk.injEq] at h
    obtain ⟨rfl, rfl⟩ := h
    exact hrefl r
  | value :: rest, place, path, r, js, r1, h => by
    simp only [item_to_msgpack_elements] at h
    obtain ⟨a, ha, h⟩ := Result.bind_eq_ok _ _ _ h
    obtain ⟨b, hb, h⟩ := Result.bind_eq_ok _ _ _ h
    simp only [Result.ok.injEq, Prod.mk.injEq] at h
    obtain ⟨rfl, rfl⟩ := h
    exact htrans _ _ _
      (item_to_msgpack_rel ρ hrefl htrans hsel ext preferred value place.child path r a.1 a.2
        ha)
      (item_to_msgpack_elements_rel ρ hrefl htrans hsel ext preferred rest place path a.2 b.1
        b.2 hb)
end
theorem grows_refl (r : Item) : Grows r r :=
  ⟨rfl, Ext.refl r, ⟨[], by simp⟩, fun h => h, fun h => h⟩

theorem grows_trans (a b c : Item) (h1 : Grows a b) (h2 : Grows b c) : Grows a c := by
  obtain ⟨s1, e1, ⟨x1, a1⟩, p1, q1⟩ := h1
  obtain ⟨s2, e2, ⟨x2, a2⟩, p2, q2⟩ := h2
  exact ⟨s2.trans s1, Ext.trans e1 e2, ⟨x1 ++ x2, by rw [a2, a1, List.append_assoc]⟩,
    fun h => p2 (p1 h), fun h => q2 (q1 h)⟩

theorem registrySearch_none_filter (q : List String) :
    ∀ reg : List Item, registrySearch q reg = .ok none → reg.filter (entryHasPath q) = [] := by
  intro reg
  induction reg with
  | nil => intro _; rfl
  | cons x rest ih =>
    intro h
    simp only [registrySearch] at h
    simp only [List.filter, entryHasPath]
    generalize (Item.atMut CppType.item x [Seg.idx 0]).1 = o0 at h ⊢
    generalize (Item.atMut CppType.string x [Seg.idx 1]).1 = o1 at h ⊢
    cases o0 with
    | ok ref =>
      cases ref with
      | item encodedPath =>
        simp only at h ⊢
        generalize encodedPath.eqStringVector q = o2 at h ⊢
        cases o2 with
        | ok bb =>
          cases bb with
          | true =>
            simp only at h
            split at h <;> simp at h
          | false => exact ih h
        | _ => simp at h
      | payload c => simp at h
    | _ => simp at h

theorem entryHasPath_registryEntry (q p : List String) (e : String) :
    entryHasPath p (registryEntry q e) = decide (q = p) := by
  have h0 : ((registryEntry q e).atMut .item [.idx 0]).1
      = .ok (.item (Item.ofNative (.vectorOf (q.map fun key => Native.value (.string key))))) := by
    simp [registryEntry, Item.ofNative, Item.atMut, Item.valueAtMut, value_of_vector, vecGet,
      leafOf, catchAdd, deref]
  simp only [entryHasPath, h0, eqStringVector_path]
  by_cases hq : q = p <;> simp [hq]

/-- An entry appended for a path the search did not find keeps the registry at one entry
per path. -/
theorem onePerPath_append (q : List String) (e : String) (reg : List Item)
    (hnone : registrySearch q reg = .ok none) (h : OnePerPath reg) :
    OnePerPath (reg ++ [registryEntry q e]) := by
  intro p
  rw [List.filter_append]
  by_cases hq : q = p
  · subst hq
    rw [registrySearch_none_filter q reg hnone]
    simp only [List.nil_append]
    exact (List.length_filter_le _ _).trans (by simp)
  · have : [registryEntry q e].filter (entryHasPath p) = [] := by
      simp [List.filter, entryHasPath_registryEntry, hq]
    rw [this, List.append_nil]
    exact h p

/-- What `selectEncoding` does to the root when it returns. -/
theorem selectEncoding_grows (place : Place) (r : Item) (q : List String) (pref : String)
    (sel : String × Item) (h : selectEncoding place r q pref = .ok sel) : Grows r sel.2 := by
  obtain ⟨e, r1⟩ := sel
  obtain ⟨_, hext, hstrip, _⟩ := selectEncoding_result place r r1 q e pref h
  refine ⟨hstrip, hext, ?_⟩
  simp only [selectEncoding] at h
  cases hat : r.atMut .vector [.key "encoded_elements"] with
  | mk o r' =>
    rw [hat] at h
    cases o with
    | ok x =>
      rcases atMut_registry_cases r r' x hat with ⟨reg, hreg, rfl, rfl⟩ | ⟨m, t, rfl, hf, rfl, rfl⟩
      · simp only at h
        cases hs : registrySearch q reg with
        | ok found =>
          rw [hs] at h
          cases found with
          | some e' =>
            simp only [Result.ok.injEq, Prod.mk.injEq] at h
            obtain ⟨rfl, rfl⟩ := h
            exact ⟨⟨[], by simp⟩, fun hp => hp, fun hp => hp⟩
          | none =>
            simp only at h
            split at h
            · simp at h
            · simp only [Result.ok.injEq, Prod.mk.injEq] at h
              obtain ⟨rfl, rfl⟩ := h
              have hp := regOf_pushRegistry _ reg
                (registryEntry q (if pref.isEmpty = true then "MAT_RAW" else pref)) hreg
              simp only [regList, hp, hreg, Option.getD_some]
              exact ⟨⟨_, rfl⟩, onePerPath_append q _ reg hs, fun _ => rfl⟩
        | throw t => rw [hs] at h; simp at h
        | undefinedBehaviour => rw [hs] at h; simp at h
        | terminate => rw [hs] at h; simp at h
      · simp only at h
        have hs : registrySearch q [] = .ok none := rfl
        rw [hs] at h
        simp only at h
        split at h
        · simp at h
        · simp only [Result.ok.injEq, Prod.mk.injEq] at h
          obtain ⟨rfl, rfl⟩ := h
          have hreg' : regOf (Item.mk (.map (mapStore "encoded_elements"
              (.mk (.vector []) .ARRAY) m)) t) = some [] := by
            simp [regOf, mapFind_mapStore]
          have hnone : regOf (Item.mk (.map m) t) = none := by simp [regOf, hf]
          have hp := regOf_pushRegistry _ []
            (registryEntry q (if pref.isEmpty = true then "MAT_RAW" else pref)) hreg'
          simp only [regList, hp, hnone, Option.getD_some, Option.getD_none, List.nil_append]
          exact ⟨⟨_, rfl⟩, fun _ => onePerPath_append q _ [] hs (fun _ => by simp),
            fun _ => rfl⟩
    | throw t => simp at h
    | undefinedBehaviour => simp at h
    | terminate => simp at h

/-- The text encoder leaves a root that has grown out of the root it was given. -/
theorem item_to_json_grows (ext : External) (preferred : String) (item : Item) (place : Place)
    (path : List String) (r : Item) (j : Json) (r1 : Item)
    (h : item_to_json ext preferred place item path r = .ok (j, r1)) : Grows r r1 :=
  item_to_json_rel Grows grows_refl grows_trans selectEncoding_grows ext preferred item place
    path r j r1 h

/-- The binary encoder leaves a root that has grown out of the root it was given. -/
theorem item_to_msgpack_grows (ext : External) (preferred : String) (item : Item)
    (place : Place) (path : List String) (r : Item) (j : List MsgElement) (r1 : Item)
    (h : item_to_msgpack ext preferred place item path r = .ok (j, r1)) : Grows r r1 :=
  item_to_msgpack_rel Grows grows_refl grows_trans selectEncoding_grows ext preferred item place
    path r j r1 h

/-- What the access to the registry of an Item leaves behind has grown out of it. -/
theorem atMut_registry_grows (item1 item2 : Item) (x : Ref)
    (h : item1.atMut .vector [.key "encoded_elements"] = (.ok x, item2)) :
    Grows item1 item2 ∧ ∃ reg2 vt, x = .payload (.vector reg2) ∧ regOf item2 = some reg2 ∧
      item2.child "encoded_elements" = .ok (.mk (.vector reg2) vt, item2) := by
  rcases atMut_registry_cases item1 item2 x h with ⟨reg, hreg, rfl, rfl⟩ | ⟨m, t, rfl, hf, rfl, rfl⟩
  · obtain ⟨m, t, vt, rfl, hfind⟩ := regOf_cases _ reg hreg
    exact ⟨grows_refl _, reg, vt, rfl, hreg, child_of_mapFind m t _ _ hfind⟩
  · have hreg : regOf (Item.mk (.map (mapStore "encoded_elements"
        (.mk (.vector []) .ARRAY) m)) t) = some [] := by
      simp [regOf, mapFind_mapStore]
    have hnone : regOf (Item.mk (.map m) t) = none := by simp [regOf, hf]
    refine ⟨⟨by simp [stripRegistry, filter_mapStore], ?_, ⟨[], by simp [regList, hreg, hnone]⟩,
      fun _ => by simp [regList, hreg, OnePerPath], fun _ => by simp [hreg]⟩, [], .ARRAY, rfl,
      hreg,
      child_of_mapFind _ t _ _ (by simp [mapFind_mapStore])⟩
    intro q e hfd
    obtain ⟨reg', hr', _⟩ := hfd
    simp [regOf, hf] at hr'
theorem forall2_trans_memberGrows : ∀ (a b c : List (String × Item)),
    List.Forall₂ MemberGrows a b → List.Forall₂ MemberGrows b c → List.Forall₂ MemberGrows a c
  | [], _, _, h1, h2 => by
    cases h1
    cases h2
    exact List.Forall₂.nil
  | x :: a, _, _, h1, h2 => by
    cases h1 with
    | cons hxy hab =>
      cases h2 with
      | cons hyz hbc =>
        exact List.Forall₂.cons ⟨hxy.1.trans hyz.1, grows_trans _ _ _ hxy.2 hyz.2⟩
          (forall2_trans_memberGrows a _ _ hab hbc)

theorem forall2_memberGrows_find (k : String) : ∀ (a b : List (String × Item)),
    List.Forall₂ MemberGrows a b →
      (mapFind k a = none ∧ mapFind k b = none) ∨
      ∃ v v1, mapFind k a = some v ∧ mapFind k b = some v1 ∧ Grows v v1
  | [], _, h => by
    cases h
    exact Or.inl ⟨rfl, rfl⟩
  | (k0, v0) :: a, _, h => by
    cases h with
    | cons hxy hab =>
      rename_i y b
      obtain ⟨k1, v1⟩ := y
      obtain ⟨hk, hg⟩ := hxy
      simp only at hk hg
      subst hk
      by_cases h0 : k0 = k
      · exact Or.inr ⟨v0, v1, by simp [mapFind, h0], by simp [mapFind, h0], hg⟩
      · simp only [mapFind, h0, if_false]
        exact forall2_memberGrows_find k a b hab

/-- The loop of the message-level text encoder leaves every member grown out of what it
was. -/
theorem item_to_json_message_loop_grows (ext : External) (preferred : String) :
    ∀ (members : List (String × Item)) (json_root js : List (String × Json))
      (members1 : List (String × Item)),
      item_to_json_message_loop ext preferred members json_root = .ok (js, members1) →
      List.Forall₂ MemberGrows members members1
  | [], json_root, js, members1, h => by
    simp only [item_to_json_message_loop, Result.ok.injEq, Prod.mk.injEq] at h
    obtain ⟨rfl, rfl⟩ := h
    exact List.Forall₂.nil
  | (key, value) :: rest, json_root, js, members1, h => by
    simp only [item_to_json_message_loop] at h
    obtain ⟨a, ha, h⟩ := Result.bind_eq_ok _ _ _ h
    obtain ⟨b, hb, h⟩ := Result.bind_eq_ok _ _ _ h
    simp only [Result.ok.injEq, Prod.mk.injEq] at h
    obtain ⟨rfl, rfl⟩ := h
    exact List.Forall₂.cons ⟨rfl, item_to_json_grows ext preferred value .root [] value a.1 a.2 ha⟩
      (item_to_json_message_loop_grows ext preferred rest _ b.1 b.2 hb)

/-- The loop of the message-level binary encoder leaves every member grown out of what it
was. -/
theorem item_to_msgpack_message_loop_grows (ext : External) (preferred : String) :
    ∀ (members : List (String × Item)) (els : List MsgElement)
      (members1 : List (String × Item)),
      item_to_msgpack_message_loop ext preferred members = .ok (els, members1) →
      List.Forall₂ MemberGrows members members1
  | [], els, members1, h => by
    simp only [item_to_msgpack_message_loop, Result.ok.injEq, Prod.mk.injEq] at h
    obtain ⟨rfl, rfl⟩ := h
    exact List.Forall₂.nil
  | (key, value) :: rest, els, members1, h => by
    by_cases hk : key = "item"
    · subst hk
      simp only [item_to_msgpack_message_loop, ne_eq, not_true_eq_false, if_false] at h
      obtain ⟨b, hb, h⟩ := Result.bind_eq_ok _ _ _ h
      simp only [Result.ok.injEq, Prod.mk.injEq] at h
      obtain ⟨rfl, rfl⟩ := h
      exact List.Forall₂.cons ⟨rfl, grows_refl _⟩
        (item_to_msgpack_message_loop_grows ext preferred rest b.1 b.2 hb)
    · simp only [item_to_msgpack_message_loop, ne_eq, hk, not_false_eq_true, if_true] at h
      obtain ⟨a, ha, h⟩ := Result.bind_eq_ok _ _ _ h
      obtain ⟨b, hb, h⟩ := Result.bind_eq_ok _ _ _ h
      simp only [Result.ok.injEq, Prod.mk.injEq] at h
      obtain ⟨rfl, rfl⟩ := h
      exact List.Forall₂.cons
        ⟨rfl, item_to_msgpack_grows ext preferred value .root [] value a.1 a.2 ha⟩
        (item_to_msgpack_message_loop_grows ext preferred rest b.1 b.2 hb)

theorem mapFind_filter_ne (k k' : String) (hk : k ≠ k') : ∀ m : List (String × Item),
    mapFind k (m.filter fun kv => !decide (kv.1 = k')) = mapFind k m
  | [] => rfl
  | (k0, v0) :: rest => by
    have ih := mapFind_filter_ne k k' hk rest
    by_cases h0 : k0 = k'
    · subst h0
      have hne : ¬ k0 = k := fun e => hk e.symm
      simp only [List.filter, decide_True, Bool.not_true, mapFind, hne, if_false]
      exact ih
    · have hd : (!decide (k0 = k')) = true := by simp [h0]
      by_cases h1 : k0 = k
      · subst h1
        simp only [List.filter, hd, mapFind, if_true]
      · simp only [List.filter, hd, mapFind, h1, if_false]
        exact ih

/-- A root that differs from an Object at most in the registry is an Object with the
same tag and the same member "item". -/
theorem stripRegistry_item (m : List (String × Item)) (t : ItemType) (r1 : Item)
    (h : stripRegistry r1 = stripRegistry (.mk (.map m) t)) :
    ∃ m1, r1 = .mk (.map m1) t ∧ mapFind "item" m1 = mapFind "item" m := by
  rcases stripRegistry_eq_cases _ r1 h with rfl | ⟨m0, m2, t0, h0, rfl, hf⟩
  · exact ⟨m, rfl, rfl⟩
  · simp only [Item.mk.injEq, Content.map.injEq] at h0
    obtain ⟨rfl, rfl⟩ := h0
    refine ⟨m2, rfl, ?_⟩
    rw [← mapFind_filter_ne "item" "encoded_elements" (by decide) m2, hf,
      mapFind_filter_ne "item" "encoded_elements" (by decide) m]

/-- What the message-level text encoder leaves behind: the members after the loop and
the access to the registry have grown out of the members of the message, the member
"item" exists and has a registry, and the message left behind differs from them at most
in a member "encoded_elements" of the message itself; it is exactly them when the
registry of "item" held no image. -/
theorem item_to_json_message_grows (ext : External) (preferred : String) (msg msg1 : Item)
    (j : Json) (h : item_to_json_message ext msg preferred = .ok (j, msg1)) :
    ∃ members mid t item2, msg = .mk (.map members) t ∧
      List.Forall₂ MemberGrows members mid ∧ mapFind "item" mid = some item2 ∧
      (regOf item2).isSome ∧ Grows (.mk (.map mid) t) msg1 ∧
      (itemRegistryImageFree msg → msg1 = .mk (.map mid) t) := by
  cases msg with
  | mk c t =>
    cases c with
    | map members =>
      simp only [item_to_json_message] at h
      obtain ⟨r, hr, h⟩ := Result.bind_eq_ok _ _ _ h
      have hloop := item_to_json_message_loop_grows ext preferred members [] r.1 r.2 hr
      obtain ⟨_, loop2⟩ := item_to_json_message_loop_again ext preferred members [] r.1 r.2 hr
      cases hat : (Item.mk (.map r.2) t).atMut .vector [.key "item", .key "encoded_elements"]
        with
      | mk o M2 =>
        rw [hat] at h
        cases o with
        | ok x =>
          simp only at h
          obtain ⟨item1, item2, hf1, hviv, rfl⟩ := atMut_item_registry_cases r.2 t x M2 hat
          obtain ⟨hg, reg2, vt, rfl, hreg2, hchild⟩ := atMut_registry_grows item1 item2 _ hviv
          have hfind2 : mapFind "item" (mapReplace "item" item2 r.2) = some item2 :=
            mapFind_mapReplace_same _ _ _ (by simp [hf1])
          rw [child_of_mapFind _ t "item" _ hfind2] at h
          simp only [Result.bind] at h
          rw [hchild] at h
          simp only [Result.bind, Item.setChild, mapReplace_mapReplace] at h
          obtain ⟨er, her, h⟩ := Result.bind_eq_ok _ _ _ h
          obtain ⟨jr, hjr, h⟩ := Result.bind_eq_ok _ _ _ h
          simp only [Result.ok.injEq, Prod.mk.injEq] at h
          obtain ⟨_, rfl⟩ := h
          refine ⟨members, mapReplace "item" item2 r.2, t, item2, rfl,
            forall2_trans_memberGrows _ _ _ hloop
              (forall2_mapReplace MemberGrows (fun a => ⟨rfl, grows_refl _⟩) "item" item1 item2
                ⟨rfl, hg⟩ r.2 hf1),
            hfind2, by simp [hreg2],
            item_to_json_grows ext preferred _ .below [] _ er.1 er.2 her, ?_⟩
          intro hfree
          obtain ⟨v, jv, hfv, hwv⟩ := loop2 "item" item1 hf1
          have hfree1 : regImageFree item1 := by
            obtain ⟨_, _, e3, _, _⟩ := item_to_json_stable ext preferred v .root [] v jv item1 hwv
            apply e3
            simpa [itemRegistryImageFree, hfv] using hfree
          obtain ⟨reg2', hreg2', _, _, hfree2', _⟩ := atMut_registry_facts item1 item2 _ hviv
          rw [hreg2] at hreg2'
          cases hreg2'
          exact item_to_json_registry_unchanged ext preferred .below reg2 vt [] _ er.2 er.1
            (hfree2' hfree1) her
        | throw e => simp at h
        | undefinedBehaviour => simp at h
        | terminate => simp at h
    | _ => simp [item_to_json_message, wrongPayload] at h

/-- What the message-level binary encoder leaves behind: every member has grown out of
what it was, and the member "item", if there is one, has a registry. -/
theorem item_to_msgpack_message_grows (ext : External) (preferred : String) (msg msg1 : Item)
    (els : List MsgElement) (h : item_to_msgpack_message ext msg preferred = .ok (els, msg1)) :
    ∃ members members1 t, msg = .mk (.map members) t ∧ msg1 = .mk (.map members1) t ∧
      List.Forall₂ MemberGrows members members1 ∧
      ∀ item1, mapFind "item" members1 = some item1 → (regOf item1).isSome := by
  cases msg with
  | mk c t =>
    cases c with
    | map members =>
      simp only [item_to_msgpack_message] at h
      obtain ⟨r, hr, h⟩ := Result.bind_eq_ok _ _ _ h
      have hloop := item_to_msgpack_message_loop_grows ext preferred members r.1 r.2 hr
      rw [contains_map] at h
      cases hc : mapContains "item" r.2 with
      | false =>
        rw [hc] at h
        simp only [Result.ok.injEq, Prod.mk.injEq] at h
        obtain ⟨_, rfl⟩ := h
        refine ⟨members, r.2, t, rfl, rfl, hloop, fun item1 hf => ?_⟩
        simp [mapContains, hf] at hc
      | true =>
        rw [hc] at h
        simp only at h
        cases hat : (Item.mk (.map r.2) t).atMut .vector [.key "item", .key "encoded_elements"]
          with
        | mk o M2 =>
          rw [hat] at h
          cases o with
          | ok x =>
            simp only at h
            obtain ⟨item1, item2, hf1, hviv, rfl⟩ := atMut_item_registry_cases r.2 t x M2 hat
            obtain ⟨hg, reg2, vt, rfl, hreg2, hchild⟩ := atMut_registry_grows item1 item2 _ hviv
            have hfind2 : mapFind "item" (mapReplace "item" item2 r.2) = some item2 :=
              mapFind_mapReplace_same _ _ _ (by simp [hf1])
            rw [child_of_mapFind _ t "item" _ hfind2] at h
            simp only [Result.bind] at h
            obtain ⟨pI, hpI, h⟩ := Result.bind_eq_ok _ _ _ h
            have hgI := item_to_msgpack_grows ext preferred item2 .root [] item2 pI.1 pI.2 hpI
            have hsome : (regOf pI.2).isSome = true := hgI.2.2.2.2 (by simp [hreg2])
            obtain ⟨regX, hregX⟩ := Option.isSome_iff_exists.1 hsome
            obtain ⟨mX, tX, vtX, hX, hfX⟩ := regOf_cases pI.2 regX hregX
            rw [hX] at h hregX hgI
            rw [child_of_mapFind mX tX "encoded_elements" _ hfX] at h
            simp only [Result.bind] at h
            obtain ⟨pR, hpR, h⟩ := Result.bind_eq_ok _ _ _ h
            have hgR := item_to_msgpack_grows ext preferred _ .registry [] _ pR.1 pR.2 hpR
            simp only [Result.ok.injEq, Prod.mk.injEq, Item.setChild, mapReplace_mapReplace]
              at h
            obtain ⟨_, rfl⟩ := h
            have hall : Grows item1 pR.2 :=
              grows_trans _ _ _ hg (grows_trans _ _ _ hgI hgR)
            refine ⟨members, mapReplace "item" pR.2 r.2, t, rfl, rfl,
              forall2_trans_memberGrows _ _ _ hloop
                (forall2_mapReplace MemberGrows (fun a => ⟨rfl, grows_refl _⟩) "item" item1 pR.2
                  ⟨rfl, hall⟩ r.2 hf1), fun itemZ hfZ => ?_⟩
            rw [mapFind_mapReplace_same _ _ _ (by simp [hf1])] at hfZ
            cases hfZ
            exact hgR.2.2.2.2 (by simp [hregX])
          | throw e => simp at h
          | undefinedBehaviour => simp at h
          | terminate => simp at h
    | _ => simp [item_to_msgpack_message, wrongPayload] at h

/-- What `encodeItem` does to the member "item" when it returns: the message and the
message left behind are Objects, and either both have no member "item", or the member
"item" left behind has grown out of the one given. -/
theorem encodeItem_item_grows (ext : External) (msg msg1 : Item) (mode : EncodingMode)
    (preferred : String) (bytes : List Nat)
    (h : encodeItem ext msg mode preferred = .ok (bytes, msg1)) :
    ∃ members members1 t, msg = .mk (.map members) t ∧ msg1 = .mk (.map members1) t ∧
      ((mapFind "item" members = none ∧ mapFind "item" members1 = none) ∨
        ∃ v v1, mapFind "item" members = some v ∧ mapFind "item" members1 = some v1 ∧
          Grows v v1) := by
  by_cases hm : mode = EncodingMode.MSGPACK
  · subst hm
    simp only [encodeItem, if_true] at h
    obtain ⟨a, ha, h⟩ := Result.bind_eq_ok _ _ _ h
    simp only [Result.ok.injEq, Prod.mk.injEq] at h
    obtain ⟨_, rfl⟩ := h
    obtain ⟨members, members1, t, hmsg, hmsg1, hall, _⟩ :=
      item_to_msgpack_message_grows ext preferred msg a.2 a.1 ha
    exact ⟨members, members1, t, hmsg, hmsg1, forall2_memberGrows_find "item" _ _ hall⟩
  · by_cases hj : mode = EncodingMode.JSON
    · subst hj
      simp only [encodeItem, hm, if_false, if_true] at h
      obtain ⟨a, ha, h⟩ := Result.bind_eq_ok _ _ _ h
      cases hd : ext.jsonDump a.1 with
      | none => simp [hd] at h
      | some dumped =>
        simp only [hd, Result.ok.injEq, Prod.mk.injEq] at h
        obtain ⟨_, rfl⟩ := h
        obtain ⟨members, mid, t, item2, hmsg, hall, hfind, _, hg, _⟩ :=
          item_to_json_message_grows ext preferred msg a.2 a.1 ha
        obtain ⟨m1, hm1, hf1⟩ := stripRegistry_item mid t a.2 hg.1
        refine ⟨members, m1, t, hmsg, hm1, ?_⟩
        rcases forall2_memberGrows_find "item" _ _ hall with ⟨_, hn⟩ | ⟨v, v1, hv, hv1, hgv⟩
        · rw [hfind] at hn
          cases hn
        · exact Or.inr ⟨v, v1, hv, by rw [hf1, hv1], hgv⟩
    · simp [encodeItem, hm, hj] at h

/-- C34: a message is encoded with `encodeItem`, in either encoding mode and with any
preferred image encoding, and the call returns. If the registry `item.encoded_elements`
of the message held at most one entry per path before the call (for every path at most
one entry whose first element compares equal to it, as the search of the encoder
compares), the registry of the message left behind holds at most one entry per path,
whatever number of image leaves the message has. -/
theorem Conversion.encodeItem_one_entry_per_path (ext : External) (msg msg1 : Item)
    (mode : EncodingMode) (preferred : String) (bytes : List Nat)
    (h : encodeItem ext msg mode preferred = .ok (bytes, msg1))
    (hone : OnePerPath (itemRegistry msg)) : OnePerPath (itemRegistry msg1) := by
  obtain ⟨members, members1, t, rfl, rfl, hcase⟩ :=
    encodeItem_item_grows ext msg msg1 mode preferred bytes h
  rcases hcase with ⟨_, hn⟩ | ⟨v, v1, hv, hv1, hg⟩
  · simp only [itemRegistry, hn]
    exact fun _ => Nat.zero_le _
  · simp only [itemRegistry, hv, hv1] at hone ⊢
    exact hg.2.2.2.1 hone

/-- C34 at a concrete input: the message whose item holds two images in the Array "imgs",
so two image leaves with the same path, encoded in the binary mode; the registry, empty
before, holds one entry afterwards. -/
theorem Conversion.encodeItem_one_entry_per_path_witness :
    OnePerPath (itemRegistry exampleImagePairMessage) ∧
      encodeItem exampleExternal exampleImagePairMessage EncodingMode.MSGPACK "IMAGE_PNG"
        = .ok (exampleImagePairBytes, exampleImagePairEncoded) ∧
      itemRegistry exampleImagePairEncoded = registryOf [(["imgs"], "IMAGE_PNG")] ∧
      OnePerPath (itemRegistry exampleImagePairEncoded) :=
  ⟨fun _ => Nat.zero_le _, rfl, rfl,
    Conversion.encodeItem_one_entry_per_path exampleExternal exampleImagePairMessage
      exampleImagePairEncoded EncodingMode.MSGPACK "IMAGE_PNG"
      exampleImagePairBytes rfl (fun _ => Nat.zero_le _)⟩

/-- C37 fails as stated: the message with an empty "item" and an image under
"other"."img" is encoded in the binary mode; the call returns, and the member "other" of
the message left behind has a member "encoded_elements", with an entry for the path "img",
that it did not have before. -/
theorem Conversion.encodeItem_frame_counterexample :
    (∃ bytes, encodeItem exampleExternal exampleSideImageMessage EncodingMode.MSGPACK
        "IMAGE_PNG" = .ok (bytes, exampleSideImageEncoded)) ∧
      resolveKeys exampleSideImageMessage ["other", "encoded_elements"] = none ∧
      resolveKeys exampleSideImageEncoded ["other", "encoded_elements"]
        = some (Item.mk (.vector (registryOf [(["img"], "IMAGE_PNG")])) .ARRAY) :=
  ⟨⟨_, rfl⟩, rfl, rfl⟩

/-- C37, amended: a message is encoded with `encodeItem` and the call returns; in the
text mode the registry of "item", if there was one, held no image. Then the message and
the message left behind are Objects with the same tag and the same keys in the same
order, and every top-level value left behind has grown out of the value given: without
its own member "encoded_elements" it is the same Item, and its registry holds the entries
it held followed by appended entries. The member "item" left behind, if there is one, has
a registry. -/
theorem Conversion.encodeItem_frame (ext : External) (msg msg1 : Item) (mode : EncodingMode)
    (preferred : String) (bytes : List Nat)
    (h : encodeItem ext msg mode preferred = .ok (bytes, msg1))
    (hfree : mode = EncodingMode.JSON → itemRegistryImageFree msg) :
    ∃ members members1 t, msg = .mk (.map members) t ∧ msg1 = .mk (.map members1) t ∧
      List.Forall₂ (fun a b => a.1 = b.1 ∧ stripRegistry b.2 = stripRegistry a.2 ∧
        ∃ added, regList b.2 = regList a.2 ++ added) members members1 ∧
      ∀ item1, mapFind "item" members1 = some item1 → ∃ reg, regOf item1 = some reg := by
  have weaken : ∀ a b : List (String × Item), List.Forall₂ MemberGrows a b →
      List.Forall₂ (fun a b => a.1 = b.1 ∧ stripRegistry b.2 = stripRegistry a.2 ∧
        ∃ added, regList b.2 = regList a.2 ++ added) a b := by
    intro a b hab
    exact List.Forall₂.imp (fun x y hxy => ⟨hxy.1, hxy.2.1, hxy.2.2.2.1⟩) hab
  by_cases hm : mode = EncodingMode.MSGPACK
  · subst hm
    simp only [encodeItem, if_true] at h
    obtain ⟨a, ha, h⟩ := Result.bind_eq_ok _ _ _ h
    simp only [Result.ok.injEq, Prod.mk.injEq] at h
    obtain ⟨_, rfl⟩ := h
    obtain ⟨members, members1, t, hmsg, hmsg1, hall, hreg⟩ :=
      item_to_msgpack_message_grows ext preferred msg a.2 a.1 ha
    exact ⟨members, members1, t, hmsg, hmsg1, weaken _ _ hall,
      fun item1 hf => Option.isSome_iff_exists.1 (hreg item1 hf)⟩
  · by_cases hj : mode = EncodingMode.JSON
    · subst hj
      simp only [encodeItem, hm, if_false, if_true] at h
      obtain ⟨a, ha, h⟩ := Result.bind_eq_ok _ _ _ h
      cases hd : ext.jsonDump a.1 with
      | none => simp [hd] at h
      | some dumped =>
        simp only [hd, Result.ok.injEq, Prod.mk.injEq] at h
        obtain ⟨_, rfl⟩ := h
        obtain ⟨members, mid, t, item2, hmsg, hall, hfind, hsome, _, hsame⟩ :=
          item_to_json_message_grows ext preferred msg a.2 a.1 ha
        refine ⟨members, mid, t, hmsg, hsame (hfree rfl), weaken _ _ hall, fun item1 hf => ?_⟩
        rw [hfind] at hf
        cases hf
        exact Option.isSome_iff_exists.1 hsome
    · simp [encodeItem, hm, hj] at h

/-- C37, amended, at a concrete input: the message with an empty "item" and an image under
"other"."img", encoded in the text mode. -/
theorem Conversion.encodeItem_frame_witness :
    (EncodingMode.JSON = EncodingMode.JSON → itemRegistryImageFree exampleSideImageMessage) ∧
      encodeItem exampleExternal exampleSideImageMessage EncodingMode.JSON "IMAGE_PNG"
        = .ok ([], exampleSideImageEncoded) ∧
      ∃ members members1 t, exampleSideImageMessage = .mk (.map members) t ∧
        exampleSideImageEncoded = .mk (.map members1) t ∧
        List.Forall₂ (fun a b => a.1 = b.1 ∧ stripRegistry b.2 = stripRegistry a.2 ∧
          ∃ added, regList b.2 = regList a.2 ++ added) members members1 ∧
        ∀ item1, mapFind "item" members1 = some item1 → ∃ reg, regOf item1 = some reg :=
  ⟨(fun _ _ hreg => nomatch hreg), rfl,
    Conversion.encodeItem_frame exampleExternal exampleSideImageMessage exampleSideImageEncoded
      EncodingMode.JSON "IMAGE_PNG" [] rfl (fun _ _ hreg => nomatch hreg)⟩

/-! ## Theorems: what the binary encoder writes for a message with an item -/

/-- C38 (the code at the failing input): the message with an empty "item" whose member
"other" holds an image and the registry that a first encode left there. The `OBJECT` case
writes for "other" a map header with its two members and then leaves out
"encoded_elements", so one pair follows a header that declares two. A reader takes the
pair of "item" into the map of "other" and finds the top-level map one pair short:
`decodeItem` throws. The first encode, where "other" has no registry yet, is read back. -/
theorem Conversion.item_to_msgpack_header_counts_registry :
    item_to_msgpack_message exampleExternal exampleSideImageEncoded "IMAGE_PNG"
      = .ok ([.mapHeader 2, .str "other", .mapHeader 2, .str "img", .str "AQID", .str "item",
              .mapHeader 1, .str "encoded_elements", .arrayHeader 0],
            exampleSideImageEncoded) ∧
    (∃ bytes, encodeItem exampleExternal exampleSideImageEncoded EncodingMode.MSGPACK
        "IMAGE_PNG" = .ok (bytes, exampleSideImageEncoded) ∧
      decodeItem exampleExternal bytes EncodingMode.MSGPACK = .throw .msgpackError) ∧
    item_to_msgpack_message exampleExternal exampleSideImageMessage "IMAGE_PNG"
      = .ok ([.mapHeader 2, .str "other", .mapHeader 1, .str "img", .str "AQID", .str "item",
              .mapHeader 1, .str "encoded_elements", .arrayHeader 0],
            exampleSideImageEncoded) :=
  ⟨rfl, ⟨_, rfl, rfl⟩, rfl⟩

/-! ## Theorems: the round trip through the text encoding -/

theorem lexLt_trans : ∀ a b c : List Nat, lexLt a b = true → lexLt b c = true →
    lexLt a c = true
  | _, [], _, h, _ => by simp [lexLt] at h
  | _, _ :: _, [], _, h => by simp [lexLt] at h
  | [], _ :: _, _ :: _, _, _ => by simp [lexLt]
  | x :: xs, y :: ys, z :: zs, h1, h2 => by
    simp only [lexLt, Bool.or_eq_true, decide_eq_true_eq, Bool.and_eq_true] at h1 h2 ⊢
    rcases h1 with h1 | ⟨e1, h1⟩
    · rcases h2 with h2 | ⟨e2, _⟩
      · exact Or.inl (by omega)
      · exact Or.inl (by omega)
    · rcases h2 with h2 | ⟨e2, h2⟩
      · exact Or.inl (by omega)
      · exact Or.inr ⟨by omega, lexLt_trans xs ys zs h1 h2⟩

theorem lexLt_total : ∀ a b : List Nat, a ≠ b → lexLt a b = false → lexLt b a = true
  | [], [], h, _ => absurd rfl h
  | [], _ :: _, _, h => by simp [lexLt] at h
  | _ :: _, [], _, _ => by simp [lexLt]
  | x :: xs, y :: ys, hne, h => by
    simp only [lexLt, Bool.or_eq_false_iff, decide_eq_false_iff_not, Bool.and_eq_false_imp,
      decide_eq_true_eq] at h
    simp only [lexLt, Bool.or_eq_true, decide_eq_true_eq, Bool.and_eq_true]
    by_cases hxy : x = y
    · subst hxy
      have hne' : xs ≠ ys := fun e => hne (by rw [e])
      exact Or.inr ⟨rfl, lexLt_total xs ys hne' (h.2 rfl)⟩
    · exact Or.inl (by omega)

theorem keyLt_trans (a b c : String) (h1 : keyLt a b = true) (h2 : keyLt b c = true) :
    keyLt a c = true :=
  lexLt_trans _ _ _ h1 h2

theorem keyLt_total (a b : String) (hne : a ≠ b) (h : keyLt a b = false) : keyLt b a = true := by
  apply lexLt_total _ _ _ h
  intro e
  apply hne
  have hinj : Function.Injective Char.toNat := fun x y hxy => by
    apply Char.ext
    apply UInt32.ext
    simpa [Char.toNat, UInt32.toNat] using hxy
  exact String.ext (List.map_injective_iff.2 hinj e)

theorem mem_mapStore (k : String) (v : Item) : ∀ (m : List (String × Item)) (a : String × Item),
    a ∈ mapStore k v m → a = (k, v) ∨ a ∈ m := by
  intro m
  induction m with
  | nil => intro a ha; simpa [mapStore] using ha
  | cons p rest ih =>
    intro a ha
    obtain ⟨k0, v0⟩ := p
    by_cases h0 : k0 = k
    · simp only [mapStore, h0, if_true, List.mem_cons] at ha
      rcases ha with ha | ha
      · exact Or.inl ha
      · exact Or.inr (List.mem_cons_of_mem _ ha)
    · by_cases hlt : keyLt k k0 = true
      · simp only [mapStore, h0, if_false, hlt, if_true, List.mem_cons] at ha
        rcases ha with ha | ha | ha
        · exact Or.inl ha
        · exact Or.inr (by rw [ha]; exact List.mem_cons_self _ _)
        · exact Or.inr (List.mem_cons_of_mem _ ha)
      · have hlt' : keyLt k k0 = false := by simpa using hlt
        simp only [mapStore, h0, if_false, hlt', Bool.false_eq_true, List.mem_cons] at ha
        rcases ha with ha | ha
        · exact Or.inr (by rw [ha]; exact List.mem_cons_self _ _)
        · rcases ih a ha with h | h
          · exact Or.inl h
          · exact Or.inr (List.mem_cons_of_mem _ h)

/-- Storing a new key in a map in key order leaves the map in key order. -/
theorem keysSorted_mapStore (k : String) (v : Item) : ∀ m : List (String × Item),
    keysSorted m = true → mapFind k m = none → keysSorted (mapStore k v m) = true := by
  intro m
  induction m with
  | nil => intro _ _; rfl
  | cons p rest ih =>
    intro hs hnone
    obtain ⟨k0, v0⟩ := p
    obtain ⟨hk, hsrest⟩ := keysSorted_cons k0 v0 rest hs
    by_cases h0 : k0 = k
    · simp [mapFind, h0] at hnone
    · simp only [mapFind, h0, if_false] at hnone
      by_cases hlt : keyLt k k0 = true
      · simp only [mapStore, h0, if_false, hlt, if_true, keysSorted, Bool.and_eq_true,
          List.all_eq_true, List.mem_cons]
        refine ⟨?_, ?_, hsrest⟩
        · intro b hb
          rcases hb with hb | hb
          · rw [hb]; exact hlt
          · exact keyLt_trans _ _ _ hlt (hk b hb)
        · exact hk
      · simp only [mapStore, h0, if_false, hlt, keysSorted, Bool.and_eq_true, List.all_eq_true]
        refine ⟨?_, ih hsrest hnone⟩
        intro b hb
        rcases mem_mapStore k v rest b hb with hb | hb
        · rw [hb]
          exact keyLt_total _ _ (fun e => h0 e.symm) (by simpa using hlt)
        · exact hk b hb

theorem keysSorted_mapReplace (k : String) (v : Item) : ∀ m : List (String × Item),
    keysSorted (mapReplace k v m) = keysSorted m := by
  intro m
  induction m with
  | nil => rfl
  | cons p rest ih =>
    obtain ⟨k0, v0⟩ := p
    have hall : ∀ (f : String → Bool) (l : List (String × Item)),
        (mapReplace k v l).all (fun kv => f kv.1) = l.all (fun kv => f kv.1) := by
      intro f l
      induction l with
      | nil => rfl
      | cons q l ihl =>
        obtain ⟨k1, v1⟩ := q
        by_cases h1 : k1 = k
        · simp [mapReplace, h1]
        · simp [mapReplace, h1, ihl]
    by_cases h0 : k0 = k
    · simp [mapReplace, h0, keysSorted]
    · simp only [mapReplace, h0, if_false, keysSorted, ih]
      rw [hall (fun x => keyLt k0 x) rest]

/-- Storing a key greater than every key of a json object puts it last. -/
theorem jsonStore_last (k : String) (v : Json) :
    ∀ acc : List (String × Json), (∀ a ∈ acc, keyLt a.1 k = true) →
      jsonStore k v acc = acc ++ [(k, v)] := by
  intro acc
  induction acc with
  | nil => intro _; simp [jsonStore]
  | cons p rest ih =>
    intro h
    obtain ⟨k0, v0⟩ := p
    have h0 := h (k0, v0) (List.mem_cons_self _ _)
    have hne : k0 ≠ k := keyLt_ne _ _ h0
    have hnlt : keyLt k k0 = false := keyLt_asymm _ _ h0
    simp [jsonStore, hne, hnlt, ih fun a ha => h a (List.mem_cons_of_mem _ ha)]
/-- For a key without a NUL character `key.c_str()` names the whole key. -/
theorem cStr_of_nulFree (key : String) (h : nulFree key = true) : cStr key = key := by
  have hall : key.data.takeWhile (fun c => !decide (c.toNat = 0)) = key.data := by
    apply List.takeWhile_eq_self_iff.2
    intro c hc
    exact List.all_eq_true.1 h c hc
  simp only [cStr, hall]

theorem textPlain_cases (content : Content) (contentType : ItemType)
    (h : (Item.mk content contentType).textPlain = true) :
    contentType = deriveItemType content.cppType := by
  cases content <;> simp [Item.textPlain] at h <;> first | exact h.1 | exact h

mutual
/-- The text encoder on a `textPlain` tree in key order assigns `jsonOf` of it and leaves
the root as it is. -/
theorem item_to_json_textPlain (ext : External) (preferred : String) :
    ∀ (item : Item) (place : Place) (path : List String) (r : Item),
      item.textPlain = true → item.keyOrdered = true →
      (place = .root → ∀ m t, item = .mk (.map m) t → noRegistryKey m = true) →
      item_to_json ext preferred place item path r = .ok (jsonOf item, r)
  | .mk content contentType, place, path, r, h, ho, hroot => by
    have ht := textPlain_cases content contentType h
    subst ht
    cases content <;>
      first
      | (simp [Item.textPlain] at h; done)
      | skip
    case map members =>
      simp only [Item.textPlain, Bool.and_eq_true, decide_eq_true_eq] at h
      simp only [Item.keyOrdered, Bool.and_eq_true] at ho
      have hm := item_to_json_members_textPlain ext preferred members place [] path r h.2 ho.2
        ho.1 (fun a ha => by simp at ha) (fun hp => hroot hp members _ rfl)
      simp only [item_to_json, Content.cppType, deriveItemType, hm, Result.bind, jsonOf,
        List.nil_append]
    case vector elements =>
      simp only [Item.textPlain, Bool.and_eq_true, decide_eq_true_eq] at h
      simp only [Item.keyOrdered] at ho
      have hm := item_to_json_elements_textPlain ext preferred elements place [] path r h.2 ho
      simp only [item_to_json, Content.cppType, deriveItemType, hm, Result.bind, jsonOf,
        List.nil_append]
    all_goals simp [item_to_json, item_to_json_leaf, jsonOf, Result.bind, Content.cppType,
      deriveItemType]
theorem item_to_json_members_textPlain (ext : External) (preferred : String) :
    ∀ (members : List (String × Item)) (place : Place) (acc : List (String × Json))
      (path : List String) (r : Item),
      textPlainMembers members = true → keyOrderedMembers members = true →
      keysSorted members = true →
      (∀ a ∈ acc, ∀ b ∈ members, keyLt a.1 b.1 = true) →
      (place = .root → noRegistryKey members = true) →
      item_to_json_members ext preferred place members acc path r
        = .ok (acc ++ jsonMembersOf members, r)
  | [], place, acc, path, r, _, _, _, _, _ => by
    simp [item_to_json_members, jsonMembersOf]
  | (key, value) :: rest, place, acc, path, r, h, ho, hs, hacc, hroot => by
    simp only [textPlainMembers, Bool.and_eq_true] at h
    simp only [keyOrderedMembers, Bool.and_eq_true] at ho
    obtain ⟨hk, hsrest⟩ := keysSorted_cons key value rest hs
    have hkey : place ≠ .root ∨ key ≠ "encoded_elements" := by
      by_cases hp : place = .root
      · right
        have := hroot hp
        simp only [noRegistryKey, List.all_cons, Bool.and_eq_true, Bool.not_eq_true',
          decide_eq_false_iff_not] at this
        exact this.1
      · exact Or.inl hp
    have hv := item_to_json_textPlain ext preferred value place.child (path ++ [key]) r h.1.2
      ho.1 (fun hp => absurd hp (Place.child_ne_root place))
    have hstore := jsonStore_last key (jsonOf value) acc
      (fun a ha => hacc a ha (key, value) (List.mem_cons_self _ _))
    have hrest := item_to_json_members_textPlain ext preferred rest place
      (acc ++ [(key, jsonOf value)]) path r h.2 ho.2 hsrest
      (fun a ha b hb => by
        rcases List.mem_append.1 ha with ha | ha
        · exact hacc a ha b (List.mem_cons_of_mem _ hb)
        · simp only [List.mem_singleton] at ha
          subst ha
          exact hk b hb)
      (fun hp => by
        have := hroot hp
        simp only [noRegistryKey, List.all_cons, Bool.and_eq_true] at this
        exact this.2)
    simp only [item_to_json_members, hkey, if_true, hv, Result.bind, cStr_of_nulFree key h.1.1,
      hstore, hrest, jsonMembersOf, List.append_assoc, List.singleton_append]
theorem item_to_json_elements_textPlain (ext : External) (preferred : String) :
    ∀ (elements : List Item) (place : Place) (acc : List Json) (path : List String) (r : Item),
      textPlainElements elements = true → keyOrderedElements elements = true →
      item_to_json_elements ext preferred place elements acc path r
        = .ok (acc ++ jsonElementsOf elements, r)
  | [], place, acc, path, r, _, _ => by simp [item_to_json_elements, jsonElementsOf]
  | value :: rest, place, acc, path, r, h, ho => by
    simp only [textPlainElements, Bool.and_eq_true] at h
    simp only [keyOrderedElements, Bool.and_eq_true] at ho
    have hv := item_to_json_textPlain ext preferred value place.child path r h.1 ho.1
      (fun hp => absurd hp (Place.child_ne_root place))
    have hrest := item_to_json_elements_textPlain ext preferred rest place
      (acc ++ [jsonOf value]) path r h.2 ho.2
    simp only [item_to_json_elements, hv, Result.bind, hrest, jsonElementsOf,
      List.append_assoc, List.singleton_append]
end

/-- The loop of the message-level text encoder on top-level values that are `textPlain`
and in key order and, where they are Objects, hold no member "encoded_elements". -/
theorem item_to_json_message_loop_textPlain (ext : External) (preferred : String) :
    ∀ (members : List (String × Item)) (acc : List (String × Json)),
      (∀ a ∈ members, nulFree a.1 = true ∧ a.2.textPlain = true ∧ a.2.keyOrdered = true ∧
        ∀ m t, a.2 = .mk (.map m) t → noRegistryKey m = true) →
      keysSorted members = true →
      (∀ a ∈ acc, ∀ b ∈ members, keyLt a.1 b.1 = true) →
      item_to_json_message_loop ext preferred members acc
        = .ok (acc ++ jsonMembersOf members, members)
  | [], acc, _, _, _ => by simp [item_to_json_message_loop, jsonMembersOf]
  | (key, value) :: rest, acc, h, hs, hacc => by
    obtain ⟨hk, hsrest⟩ := keysSorted_cons key value rest hs
    obtain ⟨hnul, hp, ho, hr⟩ := h (key, value) (List.mem_cons_self _ _)
    have hv := item_to_json_textPlain ext preferred value .root [] value hp ho (fun _ => hr)
    have hstore := jsonStore_last key (jsonOf value) acc
      (fun a ha => hacc a ha (key, value) (List.mem_cons_self _ _))
    have hrest := item_to_json_message_loop_textPlain ext preferred rest
      (acc ++ [(key, jsonOf value)]) (fun a ha => h a (List.mem_cons_of_mem _ ha)) hsrest
      (fun a ha b hb => by
        rcases List.mem_append.1 ha with ha | ha
        · exact hacc a ha b (List.mem_cons_of_mem _ hb)
        · simp only [List.mem_singleton] at ha
          subst ha
          exact hk b hb)
    simp only [item_to_json_message_loop, hv, Result.bind, cStr_of_nulFree key hnul, hstore,
      hrest, jsonMembersOf, List.append_assoc, List.singleton_append]

theorem lookup_jsonMembersOf (k : String) : ∀ m : List (String × Item),
    (jsonMembersOf m).lookup k = (mapFind k m).map jsonOf
  | [] => rfl
  | (k0, v0) :: rest => by
    by_cases h0 : k0 = k
    · subst h0
      simp [jsonMembersOf, List.lookup, mapFind]
    · have h1 : (k == k0) = false := by simpa using fun e => h0 e.symm
      simp only [jsonMembersOf, List.lookup, h1, mapFind, h0, if_false]
      exact lookup_jsonMembersOf k rest

theorem jsonStore_jsonMembersOf (k : String) (v : Item) : ∀ m : List (String × Item),
    jsonStore k (jsonOf v) (jsonMembersOf m) = jsonMembersOf (mapStore k v m)
  | [] => rfl
  | (k0, v0) :: rest => by
    by_cases h0 : k0 = k
    · simp [jsonMembersOf, jsonStore, mapStore, h0]
    · by_cases hlt : keyLt k k0 = true
      · simp [jsonMembersOf, jsonStore, mapStore, h0, hlt]
      · simp [jsonMembersOf, jsonStore, mapStore, h0, hlt, jsonStore_jsonMembersOf k v rest]

/-- In a map in key order, storing a value under a present key is replacing its value. -/
theorem mapStore_eq_mapReplace (k : String) (x : Item) :
    ∀ m : List (String × Item), keysSorted m = true → (mapFind k m).isSome = true →
      mapStore k x m = mapReplace k x m := by
  intro m
  induction m with
  | nil => intro _ h; simp [mapFind] at h
  | cons p rest ih =>
    intro hs h
    obtain ⟨k0, v0⟩ := p
    obtain ⟨hk, hsrest⟩ := keysSorted_cons k0 v0 rest hs
    by_cases h0 : k0 = k
    · simp [mapStore, mapReplace, h0]
    · simp only [mapFind, h0, if_false] at h
      obtain ⟨v, hv⟩ := Option.isSome_iff_exists.1 h
      have hlt : keyLt k0 k = true := hk (k, v) (mapFind_mem k v rest hv)
      have hnlt : keyLt k k0 = false := keyLt_asymm _ _ hlt
      simp only [mapStore, h0, if_false, hnlt, Bool.false_eq_true, mapReplace, ih hsrest h]

/-- The message-level text encoder on a message the round trip is stated for: it assigns
`jsonOf` of the message with the empty registry, which the message gains. -/
theorem item_to_json_message_textPlain (ext : External) (preferred : String)
    (members im : List (String × Item)) (it : ItemType) (hs : keysSorted members = true)
    (htop : ∀ a ∈ members, nulFree a.1 = true ∧ a.2.textPlain = true ∧
      a.2.keyOrdered = true ∧ ∀ m t, a.2 = .mk (.map m) t → noRegistryKey m = true)
    (hitem : mapFind "item" members = some (.mk (.map im) it)) :
    item_to_json_message ext (.mk (.map members) .OBJECT) preferred
      = .ok (jsonOf (withRegistry (.mk (.map members) .OBJECT)),
          withRegistry (.mk (.map members) .OBJECT)) := by
  have hloop := item_to_json_message_loop_textPlain ext preferred members [] htop hs
    (fun a ha => by simp at ha)
  obtain ⟨_, _, _, hireg⟩ := htop _ (mapFind_mem _ _ _ hitem)
  have hnoreg := hireg im it rfl
  have hregNone : mapFind "encoded_elements" im = none :=
    mapFind_none_of_all_ne _ _ ((noRegistryKey_iff im).1 hnoreg)
  have hviv := atMut_item_registry_of members .OBJECT _ _ _ hitem
    (atMut_registry_absent im it hregNone)
  have hfind2 : mapFind "item" (mapReplace "item"
      (Item.mk (.map (mapStore "encoded_elements" (.mk (.vector []) .ARRAY) im)) it)
      members) = some (Item.mk (.map (mapStore "encoded_elements"
        (.mk (.vector []) .ARRAY) im)) it) :=
    mapFind_mapReplace_same _ _ _ (by simp [hitem])
  have hregFind : mapFind "encoded_elements"
      (mapStore "encoded_elements" (Item.mk (.vector []) .ARRAY) im)
      = some (Item.mk (.vector []) .ARRAY) := by
    simp [mapFind_mapStore]
  have hregWalk : ∀ r, item_to_json ext preferred .below (Item.mk (.vector []) .ARRAY) [] r
      = .ok (.array [], r) := by
    intro r
    simp [item_to_json, item_to_json_elements, Result.bind]
  have hlook : (jsonMembersOf members).lookup "item" = some (.object (jsonMembersOf im)) := by
    rw [lookup_jsonMembersOf, hitem]
    simp [jsonOf]
  have hreg : jsonStore "encoded_elements" (.array []) (jsonMembersOf im)
      = jsonMembersOf (mapStore "encoded_elements" (Item.mk (.vector []) .ARRAY) im) := by
    rw [← jsonStore_jsonMembersOf]
    simp [jsonOf, jsonElementsOf]
  have hstore : jsonStore "item"
      (.object (jsonMembersOf (mapStore "encoded_elements" (Item.mk (.vector []) .ARRAY) im)))
      (jsonMembersOf members)
      = jsonMembersOf (mapReplace "item"
          (Item.mk (.map (mapStore "encoded_elements" (.mk (.vector []) .ARRAY) im)) it)
          members) := by
    have h := jsonStore_jsonMembersOf "item"
      (Item.mk (.map (mapStore "encoded_elements" (.mk (.vector []) .ARRAY) im)) it) members
    simp only [jsonOf] at h
    rw [h, mapStore_eq_mapReplace _ _ members hs (by simp [hitem])]
  simp only [item_to_json_message, hloop, Result.bind, List.nil_append, hviv,
    child_of_mapFind _ .OBJECT "item" _ hfind2, child_of_mapFind _ it "encoded_elements" _ hregFind,
    hregWalk, Item.setChild, mapReplace_mapReplace, jsonStoreRegistry, hlook, hreg, hstore,
    withRegistry, hitem, jsonOf]
theorem json_to_item_integer (ext : External) (i : Int) (h : i < 2 ^ 63) :
    json_to_item ext Item.default (Json.numberInteger i).canonical
      = .ok (.mk (.int64 i) .INT64) := by
  by_cases hi : 0 ≤ i
  · have hn : i.toNat < 2 ^ 63 := by omega
    have hc : ((i.toNat : Nat) : Int) = i := Int.toNat_of_nonneg hi
    simp [Json.canonical, hi, json_to_item, hc, Item.assignNative, Content.cppType,
      deriveItemType]
    omega
  · simp [Json.canonical, hi, json_to_item, Item.assignNative, Content.cppType, deriveItemType]

theorem json_to_item_unsigned (ext : External) (n : Nat) (h : n < 2 ^ 63) :
    json_to_item ext Item.default (Json.numberUnsigned n).canonical
      = .ok (.mk (.int64 n) .INT64) := by
  simp [Json.canonical, json_to_item, Item.assignNative, Content.cppType, deriveItemType]
  omega

mutual
/-- The text decoder on the parsed value of a `textPlain` tree in key order gives the
normalised tree. -/
theorem json_to_item_jsonOf (ext : External) :
    ∀ (item : Item), item.textPlain = true → item.keyOrdered = true →
      json_to_item ext Item.default (jsonOf item).canonical = .ok (item.textNormal ext)
  | .mk content contentType, h, ho => by
    have ht := textPlain_cases content contentType h
    subst ht
    cases content <;>
      first
      | (simp [Item.textPlain] at h; done)
      | skip
    case map members =>
      simp only [Item.textPlain, Bool.and_eq_true, decide_eq_true_eq] at h
      simp only [Item.keyOrdered, Bool.and_eq_true] at ho
      have hm := json_to_item_members_jsonOf ext members [] h.2 ho.2 ho.1
        (fun a ha => by simp at ha)
      simp only [jsonOf, Json.canonical, json_to_item, Item.textNormal, Content.cppType,
        deriveItemType]
      simpa [Item.default] using hm
    case vector elements =>
      simp only [Item.textPlain, Bool.and_eq_true, decide_eq_true_eq] at h
      simp only [Item.keyOrdered] at ho
      have hm := json_to_item_elements_jsonOf ext elements [] h.2 ho
      simp only [jsonOf, Json.canonical, json_to_item, hm, Result.bind, Item.textNormal,
        Content.cppType, deriveItemType]
      rfl
    case uint8 n =>
      simp only [Item.textPlain, Bool.and_eq_true, decide_eq_true_eq] at h
      simp only [jsonOf, Item.textNormal, json_to_item_unsigned ext n h.2]
    case uint16 n =>
      simp only [Item.textPlain, Bool.and_eq_true, decide_eq_true_eq] at h
      simp only [jsonOf, Item.textNormal, json_to_item_unsigned ext n h.2]
    case uint32 n =>
      simp only [Item.textPlain, Bool.and_eq_true, decide_eq_true_eq] at h
      simp only [jsonOf, Item.textNormal, json_to_item_unsigned ext n h.2]
    case uint64 n =>
      simp only [Item.textPlain, Bool.and_eq_true, decide_eq_true_eq] at h
      simp only [jsonOf, Item.textNormal, json_to_item_unsigned ext n h.2]
    case int8 i =>
      simp only [Item.textPlain, Bool.and_eq_true, decide_eq_true_eq] at h
      simp only [jsonOf, Item.textNormal, json_to_item_integer ext i h.2]
    case int16 i =>
      simp only [Item.textPlain, Bool.and_eq_true, decide_eq_true_eq] at h
      simp only [jsonOf, Item.textNormal, json_to_item_integer ext i h.2]
    case int32 i =>
      simp only [Item.textPlain, Bool.and_eq_true, decide_eq_true_eq] at h
      simp only [jsonOf, Item.textNormal, json_to_item_integer ext i h.2]
    case int64 i =>
      simp only [Item.textPlain, Bool.and_eq_true, decide_eq_true_eq] at h
      simp only [jsonOf, Item.textNormal, json_to_item_integer ext i h.2]
    all_goals simp [jsonOf, Json.canonical, json_to_item, Item.textNormal, Item.assignNative,
      Content.cppType, deriveItemType]
theorem json_to_item_members_jsonOf (ext : External) :
    ∀ (members acc : List (String × Item)),
      textPlainMembers members = true → keyOrderedMembers members = true →
      keysSorted members = true →
      (∀ a ∈ acc, ∀ b ∈ members, keyLt a.1 b.1 = true) →
      json_to_item_members ext (.mk (.map acc) .OBJECT) (canonicalMembers (jsonMembersOf members))
        = .ok (.mk (.map (acc ++ textNormalMembers ext members)) .OBJECT)
  | [], acc, _, _, _, _ => by
    simp [jsonMembersOf, canonicalMembers, json_to_item_members, textNormalMembers]
  | (key, value) :: rest, acc, h, ho, hs, hacc => by
    simp only [textPlainMembers, Bool.and_eq_true] at h
    simp only [keyOrderedMembers, Bool.and_eq_true] at ho
    obtain ⟨hk, hsrest⟩ := keysSorted_cons key value rest hs
    obtain ⟨hstore, hfind⟩ := mapStore_last key (value.textNormal ext) acc
      (fun a ha => hacc a ha (key, value) (List.mem_cons_self _ _))
    have hv := json_to_item_jsonOf ext value h.1.2 ho.1
    have hrest := json_to_item_members_jsonOf ext rest (acc ++ [(key, value.textNormal ext)])
      h.2 ho.2 hsrest
      (fun a ha b hb => by
        rcases List.mem_append.1 ha with ha | ha
        · exact hacc a ha b (List.mem_cons_of_mem _ hb)
        · simp only [List.mem_singleton] at ha
          subst ha
          exact hk b hb)
    simp only [jsonMembersOf, canonicalMembers, json_to_item_members,
      fillChild_new acc .OBJECT key _ hfind, hv, Result.bind, hstore, hrest, textNormalMembers,
      List.append_assoc, List.singleton_append]
theorem json_to_item_elements_jsonOf (ext : External) :
    ∀ (elements acc : List Item), textPlainElements elements = true →
      keyOrderedElements elements = true →
      json_to_item_elements ext acc (canonicalElements (jsonElementsOf elements))
        = .ok (acc ++ textNormalElements ext elements)
  | [], acc, _, _ => by
    simp [jsonElementsOf, canonicalElements, json_to_item_elements, textNormalElements]
  | value :: rest, acc, h, ho => by
    simp only [textPlainElements, Bool.and_eq_true] at h
    simp only [keyOrderedElements, Bool.and_eq_true] at ho
    have hv := json_to_item_jsonOf ext value h.1 ho.1
    have hrest := json_to_item_elements_jsonOf ext rest (acc ++ [value.textNormal ext]) h.2 ho.2
    simp only [jsonElementsOf, canonicalElements, json_to_item_elements, hv, Result.bind, hrest,
      textNormalElements, List.append_assoc, List.singleton_append]
end
theorem textPlainMembers_iff (m : List (String × Item)) :
    textPlainMembers m = true ↔ ∀ a ∈ m, nulFree a.1 = true ∧ a.2.textPlain = true := by
  induction m with
  | nil => simp [textPlainMembers]
  | cons p rest ih =>
    obtain ⟨k, v⟩ := p
    simp [textPlainMembers, ih, and_assoc]

theorem keyOrderedMembers_iff (m : List (String × Item)) :
    keyOrderedMembers m = true ↔ ∀ a ∈ m, a.2.keyOrdered = true := by
  induction m with
  | nil => simp [keyOrderedMembers]
  | cons p rest ih =>
    obtain ⟨k, v⟩ := p
    simp [keyOrderedMembers, ih]

theorem mem_mapReplace (k : String) (v : Item) : ∀ (m : List (String × Item))
    (a : String × Item), a ∈ mapReplace k v m →
      (a.2 = v ∧ ∃ v0, (a.1, v0) ∈ m) ∨ a ∈ m := by
  intro m
  induction m with
  | nil => intro a ha; simp [mapReplace] at ha
  | cons p rest ih =>
    intro a ha
    obtain ⟨k0, v0⟩ := p
    by_cases h0 : k0 = k
    · subst h0
      simp only [mapReplace, if_true, List.mem_cons] at ha
      rcases ha with ha | ha
      · exact Or.inl ⟨by rw [ha], v0, by rw [ha]; exact List.mem_cons_self _ _⟩
      · exact Or.inr (List.mem_cons_of_mem _ ha)
    · simp only [mapReplace, h0, if_false, List.mem_cons] at ha
      rcases ha with ha | ha
      · exact Or.inr (by rw [ha]; exact List.mem_cons_self _ _)
      · rcases ih a ha with ⟨h, w, hw⟩ | h
        · exact Or.inl ⟨h, w, List.mem_cons_of_mem _ hw⟩
        · exact Or.inr (List.mem_cons_of_mem _ h)

theorem mapFind_textNormalMembers (ext : External) (k : String) (m : List (String × Item)) :
    mapFind k (textNormalMembers ext m) = (mapFind k m).map (Item.textNormal ext) := by
  induction m with
  | nil => rfl
  | cons p rest ih =>
    obtain ⟨k0, v0⟩ := p
    by_cases h0 : k0 = k
    · simp [textNormalMembers, mapFind, h0]
    · simp [textNormalMembers, mapFind, h0, ih]

/-- The message with the empty registry is `textPlain` and in key order when the message
is. -/
theorem withRegistry_textPlain (members im : List (String × Item)) (it : ItemType)
    (hs : keysSorted members = true)
    (htop : ∀ a ∈ members, nulFree a.1 = true ∧ a.2.textPlain = true ∧
      a.2.keyOrdered = true ∧ ∀ m t, a.2 = .mk (.map m) t → noRegistryKey m = true)
    (hitem : mapFind "item" members = some (.mk (.map im) it)) :
    (withRegistry (.mk (.map members) .OBJECT)).textPlain = true ∧
      (withRegistry (.mk (.map members) .OBJECT)).keyOrdered = true := by
  obtain ⟨_, hip, hio, hireg⟩ := htop _ (mapFind_mem _ _ _ hitem)
  have hregNone : mapFind "encoded_elements" im = none :=
    mapFind_none_of_all_ne _ _ ((noRegistryKey_iff im).1 (hireg im it rfl))
  have hit := textPlain_cases _ _ hip
  simp only [Content.cppType, deriveItemType] at hit
  subst hit
  simp only [Item.textPlain, Content.cppType, deriveItemType, decide_True, Bool.true_and] at hip
  simp only [Item.keyOrdered, Bool.and_eq_true] at hio
  have hreg : (Item.mk (.vector []) .ARRAY).textPlain = true ∧
      (Item.mk (.vector []) .ARRAY).keyOrdered = true := by
    simp [Item.textPlain, textPlainElements, Item.keyOrdered, keyOrderedElements,
      Content.cppType, deriveItemType]
  have hnew : (Item.mk (.map (mapStore "encoded_elements" (.mk (.vector []) .ARRAY) im))
      .OBJECT).textPlain = true ∧
      (Item.mk (.map (mapStore "encoded_elements" (.mk (.vector []) .ARRAY) im))
        .OBJECT).keyOrdered = true := by
    simp only [Item.textPlain, Content.cppType, deriveItemType, decide_True, Bool.true_and,
      Item.keyOrdered, Bool.and_eq_true, keysSorted_mapStore _ _ im hio.1 hregNone, true_and]
    constructor
    · apply (textPlainMembers_iff _).2
      intro a ha
      rcases mem_mapStore _ _ _ a ha with rfl | ha
      · exact ⟨by decide, hreg.1⟩
      · exact (textPlainMembers_iff im).1 hip a ha
    · apply (keyOrderedMembers_iff _).2
      intro a ha
      rcases mem_mapStore _ _ _ a ha with rfl | ha
      · exact hreg.2
      · exact (keyOrderedMembers_iff im).1 hio.2 a ha
  simp only [withRegistry, hitem, Item.textPlain, Content.cppType, deriveItemType, decide_True,
    Bool.true_and, Item.keyOrdered, Bool.and_eq_true, keysSorted_mapReplace, hs, true_and]
  constructor
  · apply (textPlainMembers_iff _).2
    intro a ha
    rcases mem_mapReplace _ _ _ a ha with ⟨h, w, hw⟩ | ha
    · rw [h]; exact ⟨(htop _ hw).1, hnew.1⟩
    · exact ⟨(htop a ha).1, (htop a ha).2.1⟩
  · apply (keyOrderedMembers_iff _).2
    intro a ha
    rcases mem_mapReplace _ _ _ a ha with ⟨h, _, _⟩ | ha
    · rw [h]; exact hnew.2
    · exact (htop a ha).2.2.1

theorem textMessage_cases (msg : Item) (h : textMessage msg = true) :
    ∃ members im it, msg = .mk (.map members) .OBJECT ∧ keysSorted members = true ∧
      (∀ a ∈ members, nulFree a.1 = true ∧ a.2.textPlain = true ∧ a.2.keyOrdered = true ∧
        ∀ m t, a.2 = .mk (.map m) t → noRegistryKey m = true) ∧
      mapFind "item" members = some (.mk (.map im) it) := by
  cases msg with
  | mk c t =>
    cases c <;> cases t <;> simp only [textMessage, Bool.false_eq_true] at h
    rename_i members
    simp only [Bool.and_eq_true, List.all_eq_true] at h
    obtain ⟨⟨hs, hall⟩, hitem⟩ := h
    cases hf : mapFind "item" members with
    | none => simp [hf] at hitem
    | some item =>
      cases item with
      | mk ic it =>
        cases ic <;> simp only [hf, Bool.false_eq_true] at hitem
        rename_i im
        refine ⟨members, im, it, rfl, hs, fun a ha => ?_, hf⟩
        have := hall a ha
        simp only [textTopOk, Bool.and_eq_true] at this
        refine ⟨this.1.1.1, this.1.1.2, this.1.2, fun m t he => ?_⟩
        have h3 := this.2
        rw [he] at h3
        exact h3

/-- C33, amended: for every message that is an Object in key order with a member "item"
that is an Object, whose values are built only from Object, Array, Bool, String, integer
and float leaves (every tag standing on its payload, every map in key order, no key
holding a NUL character, every integer below 2^63, no value stored under the key
"encoded_elements" of a top-level Object), and for a json library whose `parse` reads back
what its `dump` wrote for the value the encoder built (integers that are not negative
come back as unsigned numbers):
`encodeItem` in the text mode returns and leaves the message with an empty
`item.encoded_elements`, and `decodeItem` of the bytes returns that message with every
integer leaf retagged as the signed 64-bit leaf of the same value and every float leaf as
the 64-bit float leaf of the value it converts to. -/
theorem Conversion.decodeItem_encodeItem_json (ext : External) (t : Item)
    (preferred : String) (ht : textMessage t = true)
    (hlib : ∀ j t1, item_to_json_message ext t preferred = .ok (j, t1) →
      ∃ bytes, ext.jsonDump j = some bytes ∧ ext.jsonParse bytes = some j.canonical) :
    ∃ bytes, encodeItem ext t EncodingMode.JSON preferred = .ok (bytes, withRegistry t) ∧
      decodeItem ext bytes EncodingMode.JSON = .ok ((withRegistry t).textNormal ext) := by
  obtain ⟨members, im, it, rfl, hs, htop, hitem⟩ := textMessage_cases t ht
  have henc := item_to_json_message_textPlain ext preferred members im it hs htop hitem
  obtain ⟨bytes, hdump, hparse⟩ := hlib _ _ henc
  obtain ⟨hplain, hord⟩ := withRegistry_textPlain members im it hs htop hitem
  have hdec := json_to_item_jsonOf ext _ hplain hord
  refine ⟨bytes, ?_, ?_⟩
  · have hm : ¬ EncodingMode.JSON = EncodingMode.MSGPACK := by decide
    simp only [encodeItem, hm, if_false, if_true, henc, Result.bind, hdump]
  · have hm : ¬ EncodingMode.JSON = EncodingMode.MSGPACK := by decide
    have hw : withRegistry (Item.mk (.map members) .OBJECT)
        = Item.mk (.map (mapReplace "item"
            (.mk (.map (mapStore "encoded_elements" (.mk (.vector []) .ARRAY) im)) it)
            members)) .OBJECT := by
      simp only [withRegistry, hitem]
    rw [hw] at hdec hparse ⊢
    have hfindItem : mapFind "item" (textNormalMembers ext (mapReplace "item"
        (.mk (.map (mapStore "encoded_elements" (.mk (.vector []) .ARRAY) im)) it) members))
        = some (.mk (.map (textNormalMembers ext
            (mapStore "encoded_elements" (.mk (.vector []) .ARRAY) im))) it) := by
      rw [mapFind_textNormalMembers, mapFind_mapReplace_same _ _ _ (by simp [hitem])]
      simp [Item.textNormal]
    have hfindReg : mapFind "encoded_elements" (textNormalMembers ext
        (mapStore "encoded_elements" (.mk (.vector []) .ARRAY) im))
        = some (.mk (.vector []) .ARRAY) := by
      rw [mapFind_textNormalMembers, mapFind_mapStore]
      simp [Item.textNormal, textNormalElements]
    have hat := atMut_item_registry_of _ .OBJECT _ _ _ hfindItem
      (atMut_registry_present _ it .ARRAY [] hfindReg)
    rw [mapReplace_self _ _ _ hfindItem] at hat
    simp only [Item.textNormal] at hdec hat ⊢
    simp only [decodeItem, decodeWire, hm, if_false, if_true, hparse, hdec, Result.bind,
      contains_map, mapContains, hfindItem, Option.isSome_some, hat, decodeEncodedElements]

/-- C33 fails as stated: the message whose item holds the ByteArray 01 02 03 under "b" is
encoded in the text mode as `{"item":{"b":[1,2,3],"encoded_elements":[]}}`; the decoder
gives, under "b", the Array of the signed 64-bit leaves 1, 2, 3, where the normalised tree
has the ByteArray; `Item::operator==` finds the two different. -/
theorem Conversion.decodeItem_encodeItem_json_counterexample :
    item_to_json_message (tableTextExternal exampleItemBytesText exampleItemBytesJson)
        exampleItemBytesMessage ""
      = .ok (exampleItemBytesJson, withRegistry exampleItemBytesMessage) ∧
    encodeItem (tableTextExternal exampleItemBytesText exampleItemBytesJson)
        exampleItemBytesMessage EncodingMode.JSON ""
      = .ok (exampleItemBytesText, withRegistry exampleItemBytesMessage) ∧
    decodeItem (tableTextExternal exampleItemBytesText exampleItemBytesJson)
        exampleItemBytesText EncodingMode.JSON
      = .ok (Item.ofNative (.itemMap
          [("item", Item.ofNative (.itemMap
            [("b", Item.mk (.vector [.mk (.int64 1) .INT64, .mk (.int64 2) .INT64,
                .mk (.int64 3) .INT64]) .ARRAY),
             ("encoded_elements", Item.mk (.vector []) .ARRAY)]))])) ∧
    (withRegistry exampleItemBytesMessage).textNormal
        (tableTextExternal exampleItemBytesText exampleItemBytesJson)
      = Item.ofNative (.itemMap
          [("item", Item.ofNative (.itemMap
            [("b", Item.ofNative (.byteVector [1, 2, 3])),
             ("encoded_elements", Item.mk (.vector []) .ARRAY)]))]) ∧
    (Item.mk (.vector [.mk (.int64 1) .INT64, .mk (.int64 2) .INT64,
        .mk (.int64 3) .INT64]) .ARRAY).eq (Item.ofNative (.byteVector [1, 2, 3]))
      = .ok false :=
  ⟨rfl, rfl, rfl, rfl, rfl⟩

/-- C33, amended, at a concrete input: the message whose item holds the 8-bit unsigned
integer 5 and the 32-bit signed integer -2, through a text library that knows the text
`{"item":{"encoded_elements":[],"n":5,"z":-2}}`; both leaves come back as signed 64-bit
leaves. -/
theorem Conversion.decodeItem_encodeItem_json_witness :
    textMessage exampleNumbersMessage = true ∧
    (withRegistry exampleNumbersMessage).textNormal
        (tableTextExternal exampleNumbersText exampleNumbersJson)
      = Item.ofNative (.itemMap
          [("item", Item.ofNative (.itemMap
            [("encoded_elements", Item.mk (.vector []) .ARRAY),
             ("n", Item.ofNative (.value (.int64 5))),
             ("z", Item.ofNative (.value (.int64 (-2))))]))]) ∧
    ∃ bytes, encodeItem (tableTextExternal exampleNumbersText exampleNumbersJson)
        exampleNumbersMessage EncodingMode.JSON ""
        = .ok (bytes, withRegistry exampleNumbersMessage) ∧
      decodeItem (tableTextExternal exampleNumbersText exampleNumbersJson) bytes
        EncodingMode.JSON
        = .ok ((withRegistry exampleNumbersMessage).textNormal
            (tableTextExternal exampleNumbersText exampleNumbersJson)) :=
  ⟨rfl, rfl,
    Conversion.decodeItem_encodeItem_json
      (tableTextExternal exampleNumbersText exampleNumbersJson) exampleNumbersMessage "" rfl
      (fun j t1 h => by
        have h0 : item_to_json_message (tableTextExternal exampleNumbersText exampleNumbersJson)
            exampleNumbersMessage ""
            = .ok (.object [("item", .object [("encoded_elements", .array []),
                ("n", .numberUnsigned 5), ("z", .numberInteger (-2))])],
              withRegistry exampleNumbersMessage) := rfl
        rw [h0] at h
        simp only [Result.ok.injEq, Prod.mk.injEq] at h
        rw [← h.1]
        exact ⟨exampleNumbersText, rfl, rfl⟩)⟩

/-! ## Theorems: one registry entry per image path -/

theorem records_nil (preferred : String) (r : Item) : Records preferred [] r r :=
  ⟨Ext.refl r, fun _ h => by simp at h, [], by simp, fun _ h => by simp at h⟩

theorem records_append (preferred : String) (p1 p2 : List (List String)) (a b c : Item)
    (h1 : Records preferred p1 a b) (h2 : Records preferred p2 b c) :
    Records preferred (p1 ++ p2) a c := by
  obtain ⟨e1, f1, x1, a1, m1⟩ := h1
  obtain ⟨e2, f2, x2, a2, m2⟩ := h2
  refine ⟨Ext.trans e1 e2, fun q hq => ?_, x1 ++ x2, by rw [a2, a1, List.append_assoc],
    fun x hx => ?_⟩
  · rcases List.mem_append.1 hq with hq | hq
    · obtain ⟨e, he⟩ := f1 q hq
      exact ⟨e, e2 q e he⟩
    · exact f2 q hq
  · rcases List.mem_append.1 hx with hx | hx
    · obtain ⟨q, hq, hx⟩ := m1 x hx
      exact ⟨q, List.mem_append_left _ hq, hx⟩
    · obtain ⟨q, hq, hx⟩ := m2 x hx
      exact ⟨q, List.mem_append_right _ hq, hx⟩

/-- What `selectEncoding` records when it returns: the path it was called for. -/
theorem selectEncoding_records (place : Place) (r : Item) (q : List String) (pref : String)
    (sel : String × Item) (h : selectEncoding place r q pref = .ok sel) :
    Records pref [q] r sel.2 := by
  obtain ⟨e, r1⟩ := sel
  obtain ⟨hfound, hext, _, _⟩ := selectEncoding_result place r r1 q e pref h
  refine ⟨hext, fun q' hq' => ⟨e, by simp only [List.mem_singleton] at hq'; rw [hq']; exact hfound⟩,
    ?_⟩
  simp only [selectEncoding] at h
  cases hat : r.atMut .vector [.key "encoded_elements"] with
  | mk o r' =>
    rw [hat] at h
    cases o with
    | ok x =>
      rcases atMut_registry_cases r r' x hat with ⟨reg, hreg, rfl, rfl⟩ | ⟨m, t, rfl, hf, rfl, rfl⟩
      · simp only at h
        cases hs : registrySearch q reg with
        | ok found =>
          rw [hs] at h
          cases found with
          | some e' =>
            simp only [Result.ok.injEq, Prod.mk.injEq] at h
            obtain ⟨rfl, rfl⟩ := h
            exact ⟨[], by simp, fun _ hx => by simp at hx⟩
          | none =>
            simp only at h
            split at h
            · simp at h
            · simp only [Result.ok.injEq, Prod.mk.injEq] at h
              obtain ⟨rfl, rfl⟩ := h
              have hp := regOf_pushRegistry _ reg
                (registryEntry q (if pref.isEmpty = true then "MAT_RAW" else pref)) hreg
              simp only [regList, hp, hreg, Option.getD_some]
              exact ⟨_, rfl, fun x hx => ⟨q, by simp, by simpa using hx⟩⟩
        | throw t => rw [hs] at h; simp at h
        | undefinedBehaviour => rw [hs] at h; simp at h
        | terminate => rw [hs] at h; simp at h
      · simp only at h
        have hs : registrySearch q [] = .ok none := rfl
        rw [hs] at h
        simp only at h
        split at h
        · simp at h
        · simp only [Result.ok.injEq, Prod.mk.injEq] at h
          obtain ⟨rfl, rfl⟩ := h
          have hreg' : regOf (Item.mk (.map (mapStore "encoded_elements"
              (.mk (.vector []) .ARRAY) m)) t) = some [] := by
            simp [regOf, mapFind_mapStore]
          have hnone : regOf (Item.mk (.map m) t) = none := by simp [regOf, hf]
          have hp := regOf_pushRegistry _ []
            (registryEntry q (if pref.isEmpty = true then "MAT_RAW" else pref)) hreg'
          simp only [regList, hp, hnone, Option.getD_some, Option.getD_none, List.nil_append]
          exact ⟨_, rfl, fun x hx => ⟨q, by simp, by simpa using hx⟩⟩
    | throw t => simp at h
    | undefinedBehaviour => simp at h
    | terminate => simp at h

theorem imagePaths_leaf (place : Place) (path : List String)
    (content : Content) (contentType : ItemType) (h1 : contentType ≠ .OBJECT)
    (h2 : contentType ≠ .ARRAY) (h3 : contentType ≠ .MAT) :
    imagePaths place path (.mk content contentType) = [] := by
  cases contentType <;>
    first
    | rfl
    | (exact absurd rfl h1)
    | (exact absurd rfl h2)
    | (exact absurd rfl h3)

mutual
/-- A run of `item_to_json` that returns has recorded the image paths of the Item it
walked. -/
theorem item_to_json_records (ext : External) (preferred : String) :
    ∀ (item : Item) (place : Place) (path : List String) (r : Item) (j : Json) (r1 : Item),
      item_to_json ext preferred place item path r = .ok (j, r1) →
      Records preferred (imagePaths place path item) r r1
  | .mk content contentType, place, path, r, j, r1, h => by
    by_cases h1 : contentType = .OBJECT
    · subst h1
      cases content with
      | map members =>
        simp only [item_to_json] at h
        obtain ⟨a, ha, hja⟩ := Result.bind_eq_ok _ _ _ h
        simp only [Result.ok.injEq, Prod.mk.injEq] at hja
        obtain ⟨rfl, rfl⟩ := hja
        simp only [imagePaths]
        exact item_to_json_members_records ext preferred members place [] path r a.1 a.2 ha
      | _ => simp [item_to_json, wrongPayload] at h
    · by_cases h2 : contentType = .ARRAY
      · subst h2
        cases content with
        | vector elements =>
          simp only [item_to_json] at h
          obtain ⟨a, ha, hja⟩ := Result.bind_eq_ok _ _ _ h
          simp only [Result.ok.injEq, Prod.mk.injEq] at hja
          obtain ⟨rfl, rfl⟩ := hja
          simp only [imagePaths]
          exact item_to_json_elements_records ext preferred elements place [] path r a.1 a.2 ha
        | _ => simp [item_to_json, wrongPayload] at h
      · by_cases h3 : contentType = .MAT
        · subst h3
          cases content with
          | mat image =>
            simp only [item_to_json] at h
            obtain ⟨sel, hs, h⟩ := Result.bind_eq_ok _ _ _ h
            obtain ⟨enc, henc, h⟩ := Result.bind_eq_ok _ _ _ h
            obtain ⟨js, hjs, h⟩ := Result.bind_eq_ok _ _ _ h
            simp only [Result.ok.injEq, Prod.mk.injEq] at h
            obtain ⟨rfl, rfl⟩ := h
            simp only [imagePaths]
            exact selectEncoding_records place r path preferred sel hs
          | _ => simp [item_to_json, wrongPayload] at h
        · rw [item_to_json_leaf_case ext preferred place content contentType path r h1 h2 h3] at h
          obtain ⟨a, ha, hja⟩ := Result.bind_eq_ok _ _ _ h
          simp only [Result.ok.injEq, Prod.mk.injEq] at hja
          obtain ⟨rfl, rfl⟩ := hja
          rw [imagePaths_leaf place path content contentType h1 h2 h3]
          exact records_nil preferred r
theorem item_to_json_members_records (ext : External) (preferred : String) :
    ∀ (members : List (String × Item)) (place : Place) (json_object : List (String × Json))
      (path : List String) (r : Item) (js : List (String × Json)) (r1 : Item),
      item_to_json_members ext preferred place members json_object path r = .ok (js, r1) →
      Records preferred (imagePathsMembers place path members) r r1
  | [], place, json_object, path, r, js, r1, h => by
    simp only [item_to_json_members, Result.ok.injEq, Prod.mk.injEq] at h
    obtain ⟨rfl, rfl⟩ := h
    exact records_nil preferred r
  | (key, value) :: rest, place, json_object, path, r, js, r1, h => by
    by_cases hk : place ≠ .root ∨ key ≠ "encoded_elements"
    · simp only [item_to_json_members, hk, if_true] at h
      obtain ⟨a, ha, h⟩ := Result.bind_eq_ok _ _ _ h
      simp only [imagePathsMembers, hk, if_true]
      exact records_append preferred _ _ _ _ _
        (item_to_json_records ext preferred value place.child (path ++ [key]) r a.1 a.2 ha)
        (item_to_json_members_records ext preferred rest place
          (jsonStore (cStr key) a.1 json_object) path a.2 js r1 h)
    · simp only [item_to_json_members, hk, if_false] at h
      simp only [imagePathsMembers, hk, if_false]
      exact item_to_json_members_records ext preferred rest place json_object path r js r1 h
theorem item_to_json_elements_records (ext : External) (preferred : String) :
    ∀ (elements : List Item) (place : Place) (json_object : List Json)
      (path : List String) (r : Item) (js : List Json) (r1 : Item),
      item_to_json_elements ext preferred place elements json_object path r = .ok (js, r1) →
      Records preferred (imagePathsElements place path elements) r r1
  | [], place, json_object, path, r, js, r1, h => by
    simp only [item_to_json_elements, Result.ok.injEq, Prod.mk.injEq] at h
    obtain ⟨rfl, rfl⟩ := h
    exact records_nil preferred r
  | value :: rest, place, json_object, path, r, js, r1, h => by
    simp only [item_to_json_elements] at h
    obtain ⟨a, ha, h⟩ := Result.bind_eq_ok _ _ _ h
    simp only [imagePathsElements]
    exact records_append preferred _ _ _ _ _
      (item_to_json_records ext preferred value place.child path r a.1 a.2 ha)
      (item_to_json_elements_records ext preferred rest place (json_object ++ [a.1]) path a.2
        js r1 h)
end

mutual
/-- A run of `item_to_msgpack` on a `packable` Item that returns has recorded the image
paths of the Item. -/
theorem item_to_msgpack_records (ext : External) (preferred : String) :
    ∀ (item : Item) (place : Place) (path : List String) (r : Item) (j : List MsgElement)
      (r1 : Item), item.packable = true →
      item_to_msgpack ext preferred place item path r = .ok (j, r1) →
      Records preferred (imagePaths place path item) r r1
  | .mk content contentType, place, path, r, j, r1, hp, h => by
    by_cases h1 : contentType = .OBJECT
    · subst h1
      cases content with
      | map members =>
        simp only [Item.packable, Bool.and_eq_true, decide_eq_true_eq] at hp
        simp only [item_to_msgpack, hp.1, if_true] at h
        obtain ⟨a, ha, hja⟩ := Result.bind_eq_ok _ _ _ h
        simp only [Result.ok.injEq, Prod.mk.injEq] at hja
        obtain ⟨rfl, rfl⟩ := hja
        simp only [imagePaths]
        exact item_to_msgpack_members_records ext preferred members place path r a.1 a.2 hp.2
          ha
      | _ => simp [item_to_msgpack, wrongPayload] at h
    · by_cases h2 : contentType = .ARRAY
      · subst h2
        cases content with
        | vector elements =>
          simp only [Item.packable, Bool.and_eq_true, decide_eq_true_eq] at hp
          simp only [item_to_msgpack, hp.1, if_true] at h
          obtain ⟨a, ha, hja⟩ := Result.bind_eq_ok _ _ _ h
          simp only [Result.ok.injEq, Prod.mk.injEq] at hja
          obtain ⟨rfl, rfl⟩ := hja
          simp only [imagePaths]
          exact item_to_msgpack_elements_records ext preferred elements place path r a.1 a.2
            hp.2 ha
        | _ => simp [item_to_msgpack, wrongPayload] at h
      · by_cases h3 : contentType = .MAT
        · subst h3
          cases content with
          | mat image =>
            simp only [item_to_msgpack] at h
            obtain ⟨sel, hs, h⟩ := Result.bind_eq_ok _ _ _ h
            obtain ⟨enc, henc, h⟩ := Result.bind_eq_ok _ _ _ h
            obtain ⟨js, hjs, h⟩ := Result.bind_eq_ok _ _ _ h
            simp only [Result.ok.injEq, Prod.mk.injEq] at h
            obtain ⟨rfl, rfl⟩ := h
            simp only [imagePaths]
            exact selectEncoding_records place r path preferred sel hs
          | _ => simp [item_to_msgpack, wrongPayload] at h
        · rw [item_to_msgpack_leaf_case ext preferred place content contentType path r h1 h2 h3]
            at h
          obtain ⟨a, ha, hja⟩ := Result.bind_eq_ok _ _ _ h
          simp only [Result.ok.injEq, Prod.mk.injEq] at hja
          obtain ⟨rfl, rfl⟩ := hja
          rw [imagePaths_leaf place path content contentType h1 h2 h3]
          exact records_nil preferred r
theorem item_to_msgpack_members_records (ext : External) (preferred : String) :
    ∀ (members : List (String × Item)) (place : Place)
      (path : List String) (r : Item) (js : List MsgElement) (r1 : Item),
      packableMembers members = true →
      item_to_msgpack_members ext preferred place members path r = .ok (js, r1) →
      Records preferred (imagePathsMembers place path members) r r1
  | [], place, path, r, js, r1, _, h => by
    simp only [item_to_msgpack_members, Result.ok.injEq, Prod.mk.injEq] at h
    obtain ⟨rfl, rfl⟩ := h
    exact records_nil preferred r
  | (key, value) :: rest, place, path, r, js, r1, hp, h => by
    simp only [packableMembers, Bool.and_eq_true] at hp
    by_cases hk : place ≠ .root ∨ key ≠ "encoded_elements"
    · simp only [item_to_msgpack_members, hk, if_true] at h
      obtain ⟨a, ha, h⟩ := Result.bind_eq_ok _ _ _ h
      obtain ⟨b, hb, h⟩ := Result.bind_eq_ok _ _ _ h
      simp only [Result.ok.injEq, Prod.mk.injEq] at h
      obtain ⟨rfl, rfl⟩ := h
      simp only [imagePathsMembers, hk, if_true]
      exact records_append preferred _ _ _ _ _
        (item_to_msgpack_records ext preferred value place.child (path ++ [key]) r a.1 a.2 hp.1
          ha)
        (item_to_msgpack_members_records ext preferred rest place path a.2 b.1 b.2 hp.2 hb)
    · simp only [item_to_msgpack_members, hk, if_false] at h
      simp only [imagePathsMembers, hk, if_false]
      exact item_to_msgpack_members_records ext preferred rest place path r js r1 hp.2 h
theorem item_to_msgpack_elements_records (ext : External) (preferred : String) :
    ∀ (elements : List Item) (place : Place)
      (path : List String) (r : Item) (js : List MsgElement) (r1 : Item),
      packableElements elements = true →
      item_to_msgpack_elements ext preferred place elements path r = .ok (js, r1) →
      Records preferred (imagePathsElements place path elements) r r1
  | [], place, path, r, js, r1, _, h => by
    simp only [item_to_msgpack_elements, Result.ok.injEq, Prod.mk.injEq] at h
    obtain ⟨rfl, rfl⟩ := h
    exact records_nil preferred r
  | value :: rest, place, path, r, js, r1, hp, h => by
    simp only [packableElements, Bool.and_eq_true] at hp
    simp only [item_to_msgpack_elements] at h
    obtain ⟨a, ha, h⟩ := Result.bind_eq_ok _ _ _ h
    obtain ⟨b, hb, h⟩ := Result.bind_eq_ok _ _ _ h
    simp only [Result.ok.injEq, Prod.mk.injEq] at h
    obtain ⟨rfl, rfl⟩ := h
    simp only [imagePathsElements]
    exact records_append preferred _ _ _ _ _
      (item_to_msgpack_records ext preferred value place.child path r a.1 a.2 hp.1 ha)
      (item_to_msgpack_elements_records ext preferred rest place path a.2 b.1 b.2 hp.2 hb)
end

end Dataspree
